import Mathlib

/-!
Red-black tree of `RBTree.c`.

A shallow embedding of the red-black tree of `RBTree.c` / `RBTree.h`.

Data model.
`struct RBNode` has the fields `value`, `color`, `left`, `right`, `parent`.
In a structure whose parent links agree with its child links (every child's
`parent` field points at the node that holds it, the root has no parent) the
nodes below a pointer form a binary tree, and the `parent` chain above a
pointer is the list of ancestors, each with its other child.  The embedding
uses exactly this reading:

* `RBNode` is the value of a `struct RBNode *` together with everything
  reachable through `left` / `right` (`RBNode.NULL` is the null pointer);
* `Parent` is what one step through the `parent` field shows: the parent's
  `value` and `color`, whether the node is `parent->left`, and the parent's
  other child;
* `Loc` is a node pointer inside a structure: the node and its chain of
  parents, nearest first.  A `Loc` whose node is `NULL` stands for a null
  pointer.

A null-pointer dereference has no result (`none`).  The recursive functions
whose nested calls are not made on a part of their argument (`insertFixup`,
`recursiveDelete`, `deleteFixup`) are written with a bound on the number of
nested calls; the bound each is run with is shown never to be reached, so
`none` always stands for a null-pointer dereference.  Keys are C `int`s; the
code only copies and compares them, so they are embedded as `Int`.
`malloc` is taken to succeed (`makeNode`, `RBCreate`); `RBInsertNode` takes
the result of `makeNode` as an argument.
-/

namespace RBT

/-- `typedef enum {BLACK, RED} Color;` -/
inductive Color where
  | BLACK
  | RED
  deriving DecidableEq, Repr

/-- A `struct RBNode *` with the subtrees reachable from it. -/
inductive RBNode where
  | NULL
  | mk (value : Int) (color : Color) (left right : RBNode)
  deriving DecidableEq, Repr

/-- One step through the `parent` field: the parent's key and colour, whether
the node is `parent->left`, and the parent's other child. -/
structure Parent where
  value : Int
  color : Color
  isLeft : Bool
  sibling : RBNode
  deriving DecidableEq, Repr

/-- A pointer to a node of a structure: the node and its ancestors, nearest first. -/
structure Loc where
  node : RBNode
  parents : List Parent
  deriving DecidableEq, Repr

/-- `struct RBTree { struct RBNode *root; }` -/
structure RBTree where
  root : RBNode
  deriving DecidableEq, Repr

/-- The parent struct with `child` in the place of the node. -/
def Parent.fill (p : Parent) (child : RBNode) : RBNode :=
  if p.isLeft then .mk p.value p.color child p.sibling
  else .mk p.value p.color p.sibling child

/-- The topmost ancestor reached from `node` through the parent chain. -/
def rebuild : RBNode → List Parent → RBNode
  | node, [] => node
  | node, p :: ps => rebuild (p.fill node) ps

/-- The topmost ancestor of a pointer: `tree->root` when the node is linked into the tree. -/
def Loc.root (loc : Loc) : RBNode := rebuild loc.node loc.parents

/-- The pointer `node->left`, reached from `node`. -/
def Loc.goLeft : Loc → Option Loc
  | ⟨.NULL, _⟩ => none
  | ⟨.mk v c l r, ps⟩ => some ⟨l, ⟨v, c, true, r⟩ :: ps⟩

/-- The pointer `node->right`, reached from `node`. -/
def Loc.goRight : Loc → Option Loc
  | ⟨.NULL, _⟩ => none
  | ⟨.mk v c l r, ps⟩ => some ⟨r, ⟨v, c, false, l⟩ :: ps⟩

/-- The condition `p && p->color == RED`. -/
def isRed : RBNode → Bool
  | .mk _ .RED _ _ => true
  | _ => false

/-- Function `makeNode` when `malloc` succeeds: a RED node without children or parent. -/
def makeNode (value : Int) : RBNode := .mk value .RED .NULL .NULL

/-- Function `RBCreate` when `malloc` succeeds. -/
def RBCreate : RBTree := ⟨.NULL⟩

/-- Function `nodeInsert`: the root of the (sub)tree after the unbalanced insertion and the
`duplicateFlag` (`flag` is its value before the call).  `newNode->value` on a null
`newNode` has no result. -/
def nodeInsert : RBNode → RBNode → Bool → Option (RBNode × Bool)
  | .NULL, newNode, flag => some (newNode, flag)
  | .mk _ _ _ _, .NULL, _ => none
  | .mk v c l r, .mk nv nc nl nr, flag =>
    if nv < v then
      match nodeInsert l (.mk nv nc nl nr) flag with
      | some (l1, flag1) => some (.mk v c l1 r, flag1)
      | none => none
    else if nv > v then
      match nodeInsert r (.mk nv nc nl nr) flag with
      | some (r1, flag1) => some (.mk v c l r1, flag1)
      | none => none
    else some (.mk v c l r, true)

/-- The pointer `newNode` after `nodeInsert(root, newNode, ..)`: `nodeInsert` links the node
below the null child its descent ends in, which makes the nodes passed on the way its
ancestors; when the descent ends in an equal key the node stays as `makeNode` left it,
without a parent. -/
def newNodeLoc : RBNode → List Parent → Int → RBNode → Loc
  | .NULL, ps, _, newNode => ⟨newNode, ps⟩
  | .mk v c l r, ps, nv, newNode =>
    if nv < v then newNodeLoc l (⟨v, c, true, r⟩ :: ps) nv newNode
    else if nv > v then newNodeLoc r (⟨v, c, false, l⟩ :: ps) nv newNode
    else ⟨newNode, []⟩

/-- Function `leftRotate` at the pointer `node`.  The result is the pointer `right`
(the former `node->right`), which has taken the place of `node` under the same parent
(or as `tree->root`); `node` is its left child. -/
def leftRotate : Loc → Option Loc
  | ⟨.NULL, ps⟩ => some ⟨.NULL, ps⟩
  | ⟨.mk _ _ _ .NULL, _⟩ => none
  | ⟨.mk v c l (.mk rv rc rl rr), ps⟩ => some ⟨.mk rv rc (.mk v c l rl) rr, ps⟩

/-- Function `rightRotate` at the pointer `node`.  The result is the pointer `left`
(the former `node->left`), which has taken the place of `node`; `node` is its right child. -/
def rightRotate : Loc → Option Loc
  | ⟨.NULL, ps⟩ => some ⟨.NULL, ps⟩
  | ⟨.mk _ _ .NULL _, _⟩ => none
  | ⟨.mk v c (.mk lv lc ll lr) r, ps⟩ => some ⟨.mk lv lc ll (.mk v c lr r), ps⟩

/-- Function `catchSimpleCases`: whether the result is non-zero, and the pointer `node`
after the call (a RED node without parent has been coloured BLACK). -/
def catchSimpleCases : Loc → Bool × Loc
  | ⟨.NULL, ps⟩ => (true, ⟨.NULL, ps⟩)
  | ⟨.mk v .BLACK l r, ps⟩ => (true, ⟨.mk v .BLACK l r, ps⟩)
  | ⟨.mk v .RED l r, []⟩ => (true, ⟨.mk v .BLACK l r, []⟩)
  | ⟨.mk v .RED l r, p :: ps⟩ =>
    if p.color = .BLACK then (true, ⟨.mk v .RED l r, p :: ps⟩)
    else (false, ⟨.mk v .RED l r, p :: ps⟩)

/-- Function `insertFixup` with a bound on the number of nested calls.  The result is the
topmost ancestor of `node` after the fixup, which is `tree->root` when `node` is linked
into the tree. -/
def insertFixupFuel : Nat → Loc → Option RBNode
  | 0, _ => none
  | fuel + 1, node0 =>
    match catchSimpleCases node0 with
    | (true, node) => some node.root
    | (false, ⟨n, parent :: grandparent :: rest⟩) =>
      match grandparent.sibling with
      | .mk uv .RED ul ur =>
        -- uncleRedCaseColorSwap(parent, uncle, grandparent); insertFixup(tree, grandparent)
        insertFixupFuel fuel
          ⟨Parent.fill ⟨grandparent.value, .RED, grandparent.isLeft, .mk uv .BLACK ul ur⟩
            (Parent.fill ⟨parent.value, .BLACK, parent.isLeft, parent.sibling⟩ n), rest⟩
      | _ =>
        -- triangle case: the pointer `node` after it
        let node2 : Option Loc :=
          if parent.isLeft && !grandparent.isLeft then
            (rightRotate ⟨parent.fill n, grandparent :: rest⟩).bind Loc.goRight
          else if !parent.isLeft && grandparent.isLeft then
            (leftRotate ⟨parent.fill n, grandparent :: rest⟩).bind Loc.goLeft
          else some ⟨n, parent :: grandparent :: rest⟩
        -- line case
        match node2 with
        | some ⟨n2, p2 :: g2 :: rest2⟩ =>
          if p2.isLeft && g2.isLeft then
            match rightRotate ⟨g2.fill (p2.fill n2), rest2⟩ with
            | some ⟨.mk pv pc pl (.mk gv gc gl gr), rest3⟩ =>
              -- lineCaseColorSwap(parent, grandparent); insertFixup(tree, parent)
              insertFixupFuel fuel ⟨.mk pv gc pl (.mk gv pc gl gr), rest3⟩
            | _ => none
          else if !p2.isLeft && !g2.isLeft then
            match leftRotate ⟨g2.fill (p2.fill n2), rest2⟩ with
            | some ⟨.mk pv pc (.mk gv gc gl gr) pr, rest3⟩ =>
              insertFixupFuel fuel ⟨.mk pv gc (.mk gv pc gl gr) pr, rest3⟩
            | _ => none
          else some (Loc.root ⟨n2, p2 :: g2 :: rest2⟩)
        | _ => none
    | (false, _) => none

/-- Function `insertFixup`: every nested call is made on a pointer with fewer ancestors,
so one more call than `node` has ancestors is never exceeded (`insertFixupFuel_enough`). -/
def insertFixup (node : Loc) : Option RBNode :=
  insertFixupFuel (node.parents.length + 1) node

/-- Function `RBInsert` for a non-null `tree`, given the result `newNode` of `makeNode`. -/
def RBInsertNode (tree : RBTree) (value : Int) (newNode : RBNode) : Option (RBTree × Int) :=
  match nodeInsert tree.root newNode false with
  | none => none
  | some (root1, duplicateFlag) =>
    match insertFixup (newNodeLoc tree.root [] value newNode) with
    | none => none
    | some top =>
      -- on a duplicate `newNode` has no parent: the fixup stays off the tree, the node is freed
      if duplicateFlag then some (⟨root1⟩, 1) else some (⟨top⟩, 0)

/-- Function `RBInsert` for a non-null `tree` when `makeNode` succeeds: the tree after the
call and the returned status. -/
def RBInsert (tree : RBTree) (value : Int) : Option (RBTree × Int) :=
  RBInsertNode tree value (makeNode value)

/-- Function `nodeSearch` from the pointer `node` with ancestors `ps`: the pointer to the
node holding `value`, or a null pointer. -/
def nodeSearch : RBNode → List Parent → Int → Loc
  | .NULL, _, _ => ⟨.NULL, []⟩
  | .mk v c l r, ps, value =>
    if v = value then ⟨.mk v c l r, ps⟩
    else if value < v then nodeSearch l (⟨v, c, true, r⟩ :: ps) value
    else nodeSearch r (⟨v, c, false, l⟩ :: ps) value

/-- Function `RBSearch` for a non-null `tree`. -/
def RBSearch (tree : RBTree) (value : Int) : Int :=
  match (nodeSearch tree.root [] value).node with
  | .NULL => 0
  | .mk _ _ _ _ => 1

/-- The loop `while (p->right) p = p->right` started at the non-null pointer `p`. -/
def rightmost : RBNode → List Parent → Loc
  | .mk v c l (.mk rv rc rl rr), ps => rightmost (.mk rv rc rl rr) (⟨v, c, false, l⟩ :: ps)
  | n, ps => ⟨n, ps⟩

/-- The loop `while (p->left) p = p->left` started at the non-null pointer `p`. -/
def leftmost : RBNode → List Parent → Loc
  | .mk v c (.mk lv lc ll lr) r, ps => leftmost (.mk lv lc ll lr) (⟨v, c, true, r⟩ :: ps)
  | n, ps => ⟨n, ps⟩

/-- Function `findPredecessor`: the rightmost node below `node->left`.  With `node->left`
null the loop condition reads through a null pointer. -/
def findPredecessor : Loc → Option Loc
  | ⟨.NULL, _⟩ => some ⟨.NULL, []⟩
  | ⟨.mk _ _ .NULL _, _⟩ => none
  | ⟨.mk v c (.mk lv lc ll lr) r, ps⟩ => some (rightmost (.mk lv lc ll lr) (⟨v, c, true, r⟩ :: ps))

/-- Function `findSuccessor`: the leftmost node below `node->right`. -/
def findSuccessor : Loc → Option Loc
  | ⟨.NULL, _⟩ => some ⟨.NULL, []⟩
  | ⟨.mk _ _ _ .NULL, _⟩ => none
  | ⟨.mk v c l (.mk rv rc rl rr), ps⟩ => some (leftmost (.mk rv rc rl rr) (⟨v, c, false, l⟩ :: ps))

/-- Function `recursiveDelete` with a bound on the number of nested calls: the pointer to
the leaf that is to be unlinked, in the structure with the keys moved up.  The assignment
`node->value = predecessor->value` changes an ancestor of `predecessor`; the pointer
`predecessor` in the changed structure is read again by the same search, which does not
look at keys. -/
def recursiveDeleteFuel : Nat → Loc → Option Loc
  | 0, _ => none
  | _ + 1, ⟨.NULL, _⟩ => some ⟨.NULL, []⟩
  | _ + 1, ⟨.mk v c .NULL .NULL, ps⟩ => some ⟨.mk v c .NULL .NULL, ps⟩
  | fuel + 1, ⟨.mk v c l .NULL, ps⟩ =>
    match findPredecessor ⟨.mk v c l .NULL, ps⟩ with
    | some ⟨.mk pv _ _ _, _⟩ =>
      (findPredecessor ⟨.mk pv c l .NULL, ps⟩).bind (recursiveDeleteFuel fuel)
    | _ => none
  | fuel + 1, ⟨.mk v c l r, ps⟩ =>
    match findSuccessor ⟨.mk v c l r, ps⟩ with
    | some ⟨.mk sv _ _ _, _⟩ =>
      (findSuccessor ⟨.mk sv c l r, ps⟩).bind (recursiveDeleteFuel fuel)
    | _ => none

/-- Number of nodes on the longest path from the pointer down to a null child. -/
def height : RBNode → Nat
  | .NULL => 0
  | .mk _ _ l r => max (height l) (height r) + 1

/-- Function `recursiveDelete`: every nested call is made on a node strictly below the
current one, so the height of `node` bounds their number (`recursiveDeleteFuel_enough`). -/
def recursiveDelete (node : Loc) : Option Loc :=
  recursiveDeleteFuel (height node.node + 1) node

/-- Function `findSibling`: the other child of `node->parent`, or a null pointer. -/
def findSibling : Loc → Loc
  | ⟨.NULL, _⟩ => ⟨.NULL, []⟩
  | ⟨.mk _ _ _ _, []⟩ => ⟨.NULL, []⟩
  | ⟨.mk v c l r, p :: ps⟩ => ⟨p.sibling, ⟨p.value, p.color, !p.isLeft, .mk v c l r⟩ :: ps⟩

/-- `typedef enum {R, BB, RB, BR} CaseCode;` -/
inductive CaseCode where
  | R
  | BB
  | RB
  | BR
  deriving DecidableEq, Repr

/-- Function `findCaseCode` on the pointer `sibling`. -/
def findCaseCode : Loc → Option CaseCode
  | ⟨.mk _ c l r, p :: _⟩ =>
    let isSiblingLeftChild := p.isLeft
    if c = .RED then some .R
    else
      let nearChild := if isSiblingLeftChild then r else l
      let farChild := if isSiblingLeftChild then l else r
      if isRed nearChild then some .RB
      else if isRed farChild then some .BR
      else some .BB
  | _ => none

/-- Function `siblingRedCase(tree, node, sibling)` with `sibling` the other child of
`node->parent`: the pointer `node` afterwards. -/
def siblingRedCase : Loc → Option Loc
  | ⟨.mk v c l r, p :: ps⟩ =>
    match p.sibling with
    | .NULL => none
    | .mk sv _ sl sr =>
      let parent : Loc :=
        ⟨Parent.fill ⟨p.value, .RED, p.isLeft, .mk sv .BLACK sl sr⟩ (.mk v c l r), ps⟩
      if p.isLeft then
        (leftRotate parent).bind (fun top => top.goLeft.bind Loc.goLeft)
      else
        (rightRotate parent).bind (fun top => top.goRight.bind Loc.goRight)
  | _ => none

/-- Function `siblingBlackBlackChildrenCase(node, sibling)`: the returned original colour
of the parent and the pointer `node` afterwards. -/
def siblingBlackBlackChildrenCase : Loc → Option (Color × Loc)
  | ⟨.mk v c l r, p :: ps⟩ =>
    match p.sibling with
    | .NULL => none
    | .mk sv _ sl sr =>
      some (p.color, ⟨.mk v c l r, ⟨p.value, .BLACK, p.isLeft, .mk sv .RED sl sr⟩ :: ps⟩)
  | _ => none

/-- Function `siblingBlackNearChildRedCase(tree, node, sibling)`: the pointer `node`
afterwards. -/
def siblingBlackNearChildRedCase : Loc → Option Loc
  | ⟨.mk v c l r, p :: ps⟩ =>
    if p.isLeft then
      match p.sibling with
      | .mk sv _ (.mk lv _ ll lr) sr =>
        (rightRotate ⟨.mk sv .RED (.mk lv .BLACK ll lr) sr,
            ⟨p.value, p.color, false, .mk v c l r⟩ :: ps⟩).map findSibling
      | _ => none
    else
      match p.sibling with
      | .mk sv _ sl (.mk rv _ rl rr) =>
        (leftRotate ⟨.mk sv .RED sl (.mk rv .BLACK rl rr),
            ⟨p.value, p.color, true, .mk v c l r⟩ :: ps⟩).map findSibling
      | _ => none
  | _ => none

/-- Function `siblingBlackFarChildRedCase(tree, node, sibling)`: the pointer `node`
afterwards. -/
def siblingBlackFarChildRedCase : Loc → Option Loc
  | ⟨.mk v c l r, p :: ps⟩ =>
    if p.isLeft then
      match p.sibling with
      | .mk sv _ sl (.mk rv _ rl rr) =>
        (leftRotate ⟨.mk p.value .BLACK (.mk v c l r) (.mk sv p.color sl (.mk rv .BLACK rl rr)),
            ps⟩).bind (fun top => top.goLeft.bind Loc.goLeft)
      | _ => none
    else
      match p.sibling with
      | .mk sv _ (.mk lv _ ll lr) sr =>
        (rightRotate ⟨.mk p.value .BLACK (.mk sv p.color (.mk lv .BLACK ll lr) sr) (.mk v c l r),
            ps⟩).bind (fun top => top.goRight.bind Loc.goRight)
      | _ => none
  | _ => none

/-- Function `deleteFixup` with a bound on the number of nested calls: the pointer `node`
in the structure after the fixup. -/
def deleteFixupFuel : Nat → Loc → Option Loc
  | 0, _ => none
  | fuel + 1, node =>
    match node.node with
    | .NULL => some node
    | .mk _ .RED _ _ => some node
    | .mk _ .BLACK _ _ =>
      match (findSibling node).node with
      | .NULL => some node
      | .mk _ _ _ _ =>
        match findCaseCode (findSibling node) with
        | none => none
        | some .R => (siblingRedCase node).bind (deleteFixupFuel fuel)
        | some .BB =>
          match siblingBlackBlackChildrenCase node with
          | some (.BLACK, ⟨n, p :: ps⟩) =>
            -- deleteFixup(tree, node->parent); `node` stays the same child of its parent
            (deleteFixupFuel fuel ⟨p.fill n, ps⟩).bind
              (fun parent => if p.isLeft then parent.goLeft else parent.goRight)
          | some (.RED, node1) => some node1
          | _ => none
        | some .RB => (siblingBlackNearChildRedCase node).bind (deleteFixupFuel fuel)
        | some .BR => siblingBlackFarChildRedCase node

/-- Number of nodes below (and including) the pointer. -/
def size : RBNode → Nat
  | .NULL => 0
  | .mk _ _ l r => size l + size r + 1

/-- Function `deleteFixup`.  A call on the parent is made on a pointer with one ancestor
less; after a call of case R or RB no call on a parent follows and each further call of
these cases shortens the chain of near children below the sibling; so the number of
ancestors plus the number of nodes of the structure bounds the nested calls
(`deleteFixupFuel_enough`). -/
def deleteFixup (node : Loc) : Option Loc :=
  deleteFixupFuel (node.parents.length + size node.root + 2) node

/-- Function `leafDelete(tree, node)`: the tree afterwards (`tree` is the tree before). -/
def leafDelete (tree : RBTree) : Loc → RBTree
  | ⟨.NULL, _⟩ => tree
  | ⟨.mk _ _ _ _, []⟩ => ⟨.NULL⟩
  | ⟨.mk _ _ _ _, p :: ps⟩ => ⟨rebuild (p.fill .NULL) ps⟩

/-- Function `RBDelete` for a non-null `tree`: the tree after the call and the returned
status. -/
def RBDelete (tree : RBTree) (value : Int) : Option (RBTree × Int) :=
  match nodeSearch tree.root [] value with
  | ⟨.NULL, _⟩ => some (tree, 1)
  | toRemoveNode =>
    match recursiveDelete toRemoveNode with
    | none => none
    | some leaf =>
      match deleteFixup leaf with
      | none => none
      | some leaf1 => some (leafDelete ⟨leaf1.root⟩ leaf1, 0)

/-- Function `nodePrint`: the keys in the order they are printed. -/
def nodePrint : RBNode → List Int
  | .NULL => []
  | .mk v _ l r => nodePrint l ++ v :: nodePrint r

/-- Function `RBPrint` for a non-null `tree`: the printed keys. -/
def RBPrint (tree : RBTree) : List Int := nodePrint tree.root

/-- Function `isBST(root, minNode, maxNode)`; of the bound nodes only the keys are read. -/
def isBST : RBNode → Option Int → Option Int → Int
  | .NULL, _, _ => 1
  | .mk v _ l r, minNode, maxNode =>
    if (match minNode with | some m => decide (v < m) | none => false) then 0
    else if (match maxNode with | some m => decide (v > m) | none => false) then 0
    else if isBST l minNode (some v) ≠ 0 ∧ isBST r (some v) maxNode ≠ 0 then 1 else 0

/-- Function `doubleRedCheck(node)`; `parentColor` is `node->parent->color`, `none` without
a parent.  The operator `&&` gives 1 when both operands are non-zero and 0 otherwise. -/
def doubleRedCheck : RBNode → Option Color → Int
  | .NULL, _ => 0
  | .mk _ c l r, parentColor =>
    if c = .RED ∧ parentColor = some .RED then -1
    else if doubleRedCheck l (some c) ≠ 0 ∧ doubleRedCheck r (some c) ≠ 0 then 1 else 0

/-- Function `blackDepthCheck`. -/
def blackDepthCheck : RBNode → Int
  | .NULL => 1
  | .mk _ c l r =>
    let left := blackDepthCheck l
    let right := blackDepthCheck r
    if left = -1 ∨ right = -1 then -1
    else if left ≠ right then -1
    else if c = .BLACK then left + 1 else left

/-- Function `RBCheck` for a non-null `tree`. -/
def RBCheck (tree : RBTree) : Int :=
  match tree.root with
  | .NULL => 0
  | .mk v c l r =>
    if isBST (.mk v c l r) none none = 0 then -1
    else if c ≠ .BLACK then -1
    else if doubleRedCheck (.mk v c l r) none = -1 then -1
    else if blackDepthCheck (.mk v c l r) = -1 then -1
    else 0

/-! ## The red-black invariants -/

/-- Invariant 1, strict BST ordering: for every node, all keys in its left subtree are
strictly less and all keys in its right subtree strictly greater than its own key. -/
def Ordered : RBNode → Prop
  | .NULL => True
  | .mk v _ l r =>
    (∀ x ∈ nodePrint l, x < v) ∧ (∀ x ∈ nodePrint r, v < x) ∧ Ordered l ∧ Ordered r

/-- Invariant 2: the root, if present, is BLACK. -/
def RootBlack : RBNode → Prop
  | .NULL => True
  | .mk _ c _ _ => c = .BLACK

/-- Invariant 3: no RED node has a RED parent, that is, no RED node has a RED child. -/
def NoDoubleRed : RBNode → Prop
  | .NULL => True
  | .mk _ c l r =>
    (c = .RED → isRed l = false ∧ isRed r = false) ∧ NoDoubleRed l ∧ NoDoubleRed r

/-- What a node adds to the number of BLACK nodes of a path through it. -/
def blackInc (c : Color) : Nat := if c = .BLACK then 1 else 0

/-- For every path from the node down to an absent child, the number of BLACK nodes on it. -/
def blackCounts : RBNode → List Nat
  | .NULL => [0]
  | .mk _ c l r => (blackCounts l ++ blackCounts r).map (fun n => n + blackInc c)

/-- Invariant 4, uniform black-height: every path from the root to an absent child passes
through the same number of BLACK nodes. -/
def UniformBlack (t : RBNode) : Prop :=
  ∀ a ∈ blackCounts t, ∀ b ∈ blackCounts t, a = b

/-- The four red-black invariants of a tree with root `t`. -/
def Valid (t : RBNode) : Prop :=
  Ordered t ∧ RootBlack t ∧ NoDoubleRed t ∧ UniformBlack t

instance decOrdered : (t : RBNode) → Decidable (Ordered t)
  | .NULL => isTrue trivial
  | .mk v _ l r =>
    have : Decidable (Ordered l) := decOrdered l
    have : Decidable (Ordered r) := decOrdered r
    inferInstanceAs (Decidable
      ((∀ x ∈ nodePrint l, x < v) ∧ (∀ x ∈ nodePrint r, v < x) ∧ Ordered l ∧ Ordered r))

instance decRootBlack : (t : RBNode) → Decidable (RootBlack t)
  | .NULL => isTrue trivial
  | .mk _ c _ _ => inferInstanceAs (Decidable (c = .BLACK))

instance decNoDoubleRed : (t : RBNode) → Decidable (NoDoubleRed t)
  | .NULL => isTrue trivial
  | .mk _ c l r =>
    have : Decidable (NoDoubleRed l) := decNoDoubleRed l
    have : Decidable (NoDoubleRed r) := decNoDoubleRed r
    inferInstanceAs (Decidable
      ((c = .RED → isRed l = false ∧ isRed r = false) ∧ NoDoubleRed l ∧ NoDoubleRed r))

instance decUniformBlack (t : RBNode) : Decidable (UniformBlack t) :=
  inferInstanceAs (Decidable (∀ a ∈ blackCounts t, ∀ b ∈ blackCounts t, a = b))

instance decValid (t : RBNode) : Decidable (Valid t) :=
  inferInstanceAs (Decidable (Ordered t ∧ RootBlack t ∧ NoDoubleRed t ∧ UniformBlack t))

/-! ## Sequences of calls -/

/-- A call of `RBInsert` or of `RBDelete` with its key. -/
inductive Op where
  | insert (key : Int)
  | delete (key : Int)
  deriving DecidableEq, Repr

/-- One call on the tree: the tree afterwards and the returned status. -/
def applyOp (tree : RBTree) : Op → Option (RBTree × Int)
  | .insert key => RBInsert tree key
  | .delete key => RBDelete tree key

/-- The tree after a sequence of calls, each made on the tree the previous one left. -/
def runOps : RBTree → List Op → Option RBTree
  | tree, [] => some tree
  | tree, op :: ops =>
    match applyOp tree op with
    | some (tree1, _) => runOps tree1 ops
    | none => none

/-! ## Definitions used to state and prove the properties -/

/-- The keys printed before those of the node, read off its chain of parents. -/
def keysBefore : List Parent → List Int
  | [] => []
  | p :: ps => keysBefore ps ++ (if p.isLeft then [] else nodePrint p.sibling ++ [p.value])

/-- The keys printed after those of the node, read off its chain of parents. -/
def keysAfter : List Parent → List Int
  | [] => []
  | p :: ps => (if p.isLeft then p.value :: nodePrint p.sibling else []) ++ keysAfter ps

/-- Number of BLACK nodes on the leftmost path from the node to an absent child. -/
def bh : RBNode → Nat
  | .NULL => 0
  | .mk _ c l _ => bh l + blackInc c

/-- Uniform black-height, node by node: both subtrees of every node have the same
black-height. -/
def Bal : RBNode → Prop
  | .NULL => True
  | .mk _ _ l r => bh l = bh r ∧ Bal l ∧ Bal r

/-- The chain of parents keeps black-heights uniform around a node of black-height `h`. -/
def PathBal : List Parent → Nat → Prop
  | [], _ => True
  | p :: ps, h => Bal p.sibling ∧ bh p.sibling = h ∧ PathBal ps (h + blackInc p.color)

/-- Whether the nearest parent is RED. -/
def parentRed : List Parent → Bool
  | [] => false
  | p :: _ => decide (p.color = .RED)

/-- No RED node of the chain of parents, or below one of the other children along it, has a
RED child, the child the chain starts from left aside. -/
def PathNoRR : List Parent → Prop
  | [] => True
  | p :: ps =>
    NoDoubleRed p.sibling ∧ (p.color = .RED → isRed p.sibling = false ∧ parentRed ps = false)
      ∧ PathNoRR ps

/-- The topmost ancestor of the chain, if there is one, is BLACK. -/
def PathRootBlack : List Parent → Prop
  | [] => True
  | [p] => p.color = .BLACK
  | _ :: q :: ps => PathRootBlack (q :: ps)

/-- The structure around the pointer to `t` with parents `ps` satisfies the colour
invariants (root BLACK, no double red, uniform black-height), stated piecewise: below the
node, along its chain of parents, and between the node and its parent. -/
def LocOK (t : RBNode) (ps : List Parent) : Prop :=
  Bal t ∧ NoDoubleRed t ∧ PathBal ps (bh t) ∧ PathNoRR ps ∧
    (parentRed ps = true → isRed t = false) ∧ PathRootBlack ps ∧ (ps = [] → RootBlack t)

/-- Some node of the structure holds the key `k`. -/
def HasKey : RBNode → Int → Prop
  | .NULL, _ => False
  | .mk v _ l r, k => v = k ∨ HasKey l k ∨ HasKey r k

instance decHasKey : (t : RBNode) → (k : Int) → Decidable (HasKey t k)
  | .NULL, _ => isFalse (fun h => h)
  | .mk v _ l r, k =>
    have : Decidable (HasKey l k) := decHasKey l k
    have : Decidable (HasKey r k) := decHasKey r k
    inferInstanceAs (Decidable (v = k ∨ HasKey l k ∨ HasKey r k))

/-- Number of nodes on the chain `t`, `t->left`, `t->left->left`, ... -/
def spineLeft : RBNode → Nat
  | .NULL => 0
  | .mk _ _ l _ => spineLeft l + 1

/-- Number of nodes on the chain `t`, `t->right`, `t->right->right`, ... -/
def spineRight : RBNode → Nat
  | .NULL => 0
  | .mk _ _ _ r => spineRight r + 1

/-- Number of nodes of the structure that are not below the pointer: its ancestors and
the nodes below their other children. -/
def pathSize : List Parent → Nat
  | [] => 0
  | p :: ps => size p.sibling + 1 + pathSize ps

/-- The tree that inserting the keys 0, 1, ..., 9 in this order into the empty tree builds
(the tree of the tests `insertTest`, `searchTest` and `deleteTest`). -/
def tenKeys : RBTree :=
  ⟨.mk 3 .BLACK
    (.mk 1 .BLACK (.mk 0 .BLACK .NULL .NULL) (.mk 2 .BLACK .NULL .NULL))
    (.mk 5 .BLACK (.mk 4 .BLACK .NULL .NULL)
      (.mk 7 .RED (.mk 6 .BLACK .NULL .NULL)
        (.mk 8 .BLACK .NULL (.mk 9 .RED .NULL .NULL))))⟩

/-- A structure in which the RED node 0 has the RED parent 1, below the BLACK root 2. -/
def doubleRedTree : RBTree :=
  ⟨.mk 2 .BLACK (.mk 1 .RED (.mk 0 .RED .NULL .NULL) .NULL) .NULL⟩

/-- A structure that holds the key 1 twice: in the root and in the left child of the root. -/
def duplicateKeyTree : RBTree :=
  ⟨.mk 1 .BLACK (.mk 1 .RED .NULL .NULL) .NULL⟩

/-- A valid tree in which the BLACK node 1 has the BLACK sibling 5, whose child on the side
of node 1 (the near child, 4) is RED and whose other child is absent. -/
def nearRedTree : RBTree :=
  ⟨.mk 2 .BLACK (.mk 1 .BLACK .NULL .NULL) (.mk 5 .BLACK (.mk 4 .RED .NULL .NULL) .NULL)⟩

/-- The tree after a sequence of calls and the status each call returned. -/
def runStatuses : RBTree → List Op → Option (RBTree × List Int)
  | tree, [] => some (tree, [])
  | tree, op :: ops =>
    match applyOp tree op with
    | some (tree1, status) =>
      match runStatuses tree1 ops with
      | some (tree2, statuses) => some (tree2, status :: statuses)
      | none => none
    | none => none

/-- Ordering with equal keys let through: for every node, no key in its left subtree is
greater and no key in its right subtree is less than its own key. -/
def WeaklyOrdered : RBNode → Prop
  | .NULL => True
  | .mk v _ l r =>
    (∀ x ∈ nodePrint l, x ≤ v) ∧ (∀ x ∈ nodePrint r, v ≤ x) ∧ WeaklyOrdered l ∧ WeaklyOrdered r

/-- Some node of the structure has a path through its left subtree and a path through its
right subtree, down to absent children, with different numbers of BLACK nodes: its two
subtrees have different black-heights. -/
def UnevenNode : RBNode → Prop
  | .NULL => False
  | .mk _ _ l r =>
    (∃ a ∈ blackCounts l, ∃ b ∈ blackCounts r, a ≠ b) ∨ UnevenNode l ∨ UnevenNode r

instance decUnevenNode : (t : RBNode) → Decidable (UnevenNode t)
  | .NULL => isFalse (fun h => h)
  | .mk _ _ l r =>
    have : Decidable (UnevenNode l) := decUnevenNode l
    have : Decidable (UnevenNode r) := decUnevenNode r
    inferInstanceAs (Decidable
      ((∃ a ∈ blackCounts l, ∃ b ∈ blackCounts r, a ≠ b) ∨ UnevenNode l ∨ UnevenNode r))

/-- A node with two children: the root 2 with the left child 1 and the right child 3. -/
def twoChildrenTree : RBTree :=
  ⟨.mk 2 .BLACK (.mk 1 .RED .NULL .NULL) (.mk 3 .RED .NULL .NULL)⟩

/-! ## The structure in memory

The rotations are the functions that rewrite the links; they are embedded a second time,
assignment by assignment, on a memory of `struct RBNode` cells with `left`, `right` and
`parent` pointers, to compare what they do there with `leftRotate` and `rightRotate` above. -/

/-- A `struct RBNode` in memory; a pointer is an address, `none` the null pointer. -/
structure Cell where
  value : Int
  color : Color
  left : Option Nat
  right : Option Nat
  parent : Option Nat
  deriving DecidableEq, Repr

/-- The memory of a tree: the `struct RBNode` at each address (`none`: there is no node at
that address) and the field `tree->root`. -/
structure Memory where
  cell : Nat → Option Cell
  root : Option Nat

/-- The memory with the node at address `a` replaced. -/
def Memory.store (m : Memory) (a : Nat) (c : Cell) : Memory :=
  ⟨fun b => if b = a then some c else m.cell b, m.root⟩

/-- The assignment `a->left = p`; no result when there is no node at `a`. -/
def Memory.setLeft (m : Memory) (a : Nat) (p : Option Nat) : Option Memory :=
  (m.cell a).map fun c => m.store a ⟨c.value, c.color, p, c.right, c.parent⟩

/-- The assignment `a->right = p`. -/
def Memory.setRight (m : Memory) (a : Nat) (p : Option Nat) : Option Memory :=
  (m.cell a).map fun c => m.store a ⟨c.value, c.color, c.left, p, c.parent⟩

/-- The assignment `a->parent = p`. -/
def Memory.setParent (m : Memory) (a : Nat) (p : Option Nat) : Option Memory :=
  (m.cell a).map fun c => m.store a ⟨c.value, c.color, c.left, c.right, p⟩

/-- The assignment `tree->root = p`. -/
def Memory.setRoot (m : Memory) (p : Option Nat) : Memory := ⟨m.cell, p⟩

/-- Function `leftRotate(tree, node)` on the memory, one assignment after the other. -/
def Memory.leftRotate (m : Memory) : Option Nat → Option Memory
  | none => some m
  | some node => do
    -- struct RBNode *right = node->right;
    let right ← (← m.cell node).right
    -- node->right = right->left;
    let m1 ← m.setRight node (← m.cell right).left
    -- if (right->left) right->left->parent = node;
    let m2 ← match (← m1.cell right).left with
      | some rightLeft => m1.setParent rightLeft (some node)
      | none => some m1
    -- right->parent = node->parent;
    let m3 ← m2.setParent right (← m2.cell node).parent
    -- if (!node->parent) tree->root = right;
    -- else if (node == node->parent->left) node->parent->left = right;
    -- else node->parent->right = right;
    let m4 ← match (← m3.cell node).parent with
      | none => some (m3.setRoot (some right))
      | some parent =>
        match m3.cell parent with
        | none => none
        | some cp =>
          if cp.left = some node then m3.setLeft parent (some right)
          else m3.setRight parent (some right)
    -- right->left = node;
    let m5 ← m4.setLeft right (some node)
    -- node->parent = right;
    m5.setParent node (some right)

/-- Function `rightRotate(tree, node)` on the memory, one assignment after the other. -/
def Memory.rightRotate (m : Memory) : Option Nat → Option Memory
  | none => some m
  | some node => do
    -- struct RBNode *left = node->left;
    let left ← (← m.cell node).left
    -- node->left = left->right;
    let m1 ← m.setLeft node (← m.cell left).right
    -- if (left->right) left->right->parent = node;
    let m2 ← match (← m1.cell left).right with
      | some leftRight => m1.setParent leftRight (some node)
      | none => some m1
    -- left->parent = node->parent;
    let m3 ← m2.setParent left (← m2.cell node).parent
    -- if (!node->parent) tree->root = left;
    -- else if (node == node->parent->left) node->parent->left = left;
    -- else node->parent->right = left;
    let m4 ← match (← m3.cell node).parent with
      | none => some (m3.setRoot (some left))
      | some parent =>
        match m3.cell parent with
        | none => none
        | some cp =>
          if cp.left = some node then m3.setLeft parent (some left)
          else m3.setRight parent (some left)
    -- left->right = node;
    let m5 ← m4.setRight left (some node)
    -- node->parent = left;
    m5.setParent node (some left)

/-- A node pointer with the subtrees reachable from it, each node with its address. -/
inductive ANode where
  | NULL
  | mk (addr : Nat) (value : Int) (color : Color) (left right : ANode)
  deriving DecidableEq, Repr

/-- One step through the `parent` field, with the address of the parent. -/
structure AParent where
  addr : Nat
  value : Int
  color : Color
  isLeft : Bool
  sibling : ANode
  deriving DecidableEq, Repr

/-- A pointer to a node of a structure in memory: the node and its ancestors. -/
structure ALoc where
  node : ANode
  parents : List AParent
  deriving DecidableEq, Repr

/-- The pointer itself: the address of the node, `none` for the null pointer. -/
def ANode.ptr : ANode → Option Nat
  | .NULL => none
  | .mk a _ _ _ _ => some a

/-- The structure without the addresses. -/
def ANode.strip : ANode → RBNode
  | .NULL => .NULL
  | .mk _ v c l r => .mk v c l.strip r.strip

/-- The parent step without the addresses. -/
def AParent.strip (p : AParent) : Parent := ⟨p.value, p.color, p.isLeft, p.sibling.strip⟩

/-- The pointer without the addresses. -/
def ALoc.strip (loc : ALoc) : Loc := ⟨loc.node.strip, loc.parents.map AParent.strip⟩

/-- The addresses of the nodes of a structure, in in-order. -/
def ANode.addrs : ANode → List Nat
  | .NULL => []
  | .mk a _ _ l r => l.addrs ++ a :: r.addrs

/-- The nodes of a structure in in-order, each with its address, key and colour. -/
def ANode.nodes : ANode → List (Nat × Int × Color)
  | .NULL => []
  | .mk a v c l r => l.nodes ++ (a, v, c) :: r.nodes

/-- The parent struct with `child` in the place of the node. -/
def AParent.fill (p : AParent) (child : ANode) : ANode :=
  if p.isLeft then .mk p.addr p.value p.color child p.sibling
  else .mk p.addr p.value p.color p.sibling child

/-- The topmost ancestor reached from `node` through the chain of parents. -/
def arebuild : ANode → List AParent → ANode
  | node, [] => node
  | node, p :: ps => arebuild (p.fill node) ps

/-- The pointer to the nearest parent: what the `parent` field of the node holds. -/
def parentsPtr : List AParent → Option Nat
  | [] => none
  | p :: _ => some p.addr

/-- The addresses of the ancestors and of the nodes below their other children. -/
def parentsAddrs : List AParent → List Nat
  | [] => []
  | p :: ps => p.addr :: p.sibling.addrs ++ parentsAddrs ps

/-- The memory holds the structure `t` below a node whose `parent` field is `par`: every
node is at its address with its key and colour, its `left` and `right` fields point at its
children, and the `parent` field of each child points back at it. -/
def Memory.Holds (m : Memory) : ANode → Option Nat → Prop
  | .NULL, _ => True
  | .mk a v c l r, par =>
    m.cell a = some ⟨v, c, l.ptr, r.ptr, par⟩ ∧ m.Holds l (some a) ∧ m.Holds r (some a)

/-- The memory holds the chain of parents above the pointer `child`: each parent points at
the node below it from the side it is on and at its other child from the other side, child
and parent fields agree all the way up, and `tree->root` is the topmost node. -/
def Memory.HoldsParents (m : Memory) : List AParent → Option Nat → Prop
  | [], child => m.root = child
  | p :: ps, child =>
    m.cell p.addr = some ⟨p.value, p.color, if p.isLeft then child else p.sibling.ptr,
        if p.isLeft then p.sibling.ptr else child, parentsPtr ps⟩ ∧
      m.Holds p.sibling (some p.addr) ∧ m.HoldsParents ps (some p.addr)

/-- The tree in memory is well formed and `loc` is a pointer into it: parent links agree
with child links from the node down and from the node up to `tree->root`, and no two nodes
share an address. -/
def Memory.Represents (m : Memory) (loc : ALoc) : Prop :=
  m.Holds loc.node (parentsPtr loc.parents) ∧ m.HoldsParents loc.parents loc.node.ptr ∧
    (loc.node.addrs ++ parentsAddrs loc.parents).Nodup

instance decHolds (m : Memory) : (t : ANode) → (par : Option Nat) → Decidable (m.Holds t par)
  | .NULL, _ => isTrue trivial
  | .mk a v c l r, par =>
    have : Decidable (m.Holds l (some a)) := decHolds m l (some a)
    have : Decidable (m.Holds r (some a)) := decHolds m r (some a)
    inferInstanceAs (Decidable
      (m.cell a = some ⟨v, c, l.ptr, r.ptr, par⟩ ∧ m.Holds l (some a) ∧ m.Holds r (some a)))

instance decHoldsParents (m : Memory) :
    (ps : List AParent) → (child : Option Nat) → Decidable (m.HoldsParents ps child)
  | [], child => inferInstanceAs (Decidable (m.root = child))
  | p :: ps, child =>
    have : Decidable (m.HoldsParents ps (some p.addr)) := decHoldsParents m ps (some p.addr)
    inferInstanceAs (Decidable
      (m.cell p.addr = some ⟨p.value, p.color, if p.isLeft then child else p.sibling.ptr,
          if p.isLeft then p.sibling.ptr else child, parentsPtr ps⟩ ∧
        m.Holds p.sibling (some p.addr) ∧ m.HoldsParents ps (some p.addr)))

instance decRepresents (m : Memory) (loc : ALoc) : Decidable (m.Represents loc) :=
  inferInstanceAs (Decidable
    (m.Holds loc.node (parentsPtr loc.parents) ∧ m.HoldsParents loc.parents loc.node.ptr ∧
      (loc.node.addrs ++ parentsAddrs loc.parents).Nodup))

/-- A memory of seven nodes: the node at address 6 (key 50) is `tree->root`, its left child
is the node at address 1 (key 10) with children at addresses 2 (key 5) and 3 (key 20), the
latter with children at addresses 4 (key 15) and 5 (key 30); its right child is at
address 7 (key 60). -/
def sevenCells : Memory :=
  ⟨fun a =>
    if a = 1 then some ⟨10, .BLACK, some 2, some 3, some 6⟩
    else if a = 2 then some ⟨5, .RED, none, none, some 1⟩
    else if a = 3 then some ⟨20, .RED, some 4, some 5, some 1⟩
    else if a = 4 then some ⟨15, .BLACK, none, none, some 3⟩
    else if a = 5 then some ⟨30, .BLACK, none, none, some 3⟩
    else if a = 6 then some ⟨50, .BLACK, some 1, some 7, none⟩
    else if a = 7 then some ⟨60, .BLACK, none, none, some 6⟩
    else none, some 6⟩

/-- The parent chain of the node at address 1 in `sevenCells`. -/
def sevenCellsParents : List AParent := [⟨6, 50, .BLACK, true, .mk 7 60 .BLACK .NULL .NULL⟩]


/-! ## The operations on the memory

`RBInsert` and `RBDelete` with every function they call, embedded a second time on the
memory, statement by statement, next to the rotations above.  A read or write through a
null pointer, or at an address without a node, has no result.  Recursion and loops follow
pointers in a memory that need not hold a tree, so each recursive function and each loop
takes a bound on the number of nested calls or iterations (`fuel`), and has no result when
the bound is reached. -/

/-- The assignment `a->color = c`. -/
def Memory.setColor (m : Memory) (a : Nat) (c : Color) : Option Memory :=
  (m.cell a).map fun k => m.store a ⟨k.value, c, k.left, k.right, k.parent⟩

/-- The assignment `a->value = v`. -/
def Memory.setValue (m : Memory) (a : Nat) (v : Int) : Option Memory :=
  (m.cell a).map fun k => m.store a ⟨v, k.color, k.left, k.right, k.parent⟩

/-- The call `free(a)`: afterwards there is no node at `a`. -/
def Memory.free (m : Memory) (a : Nat) : Memory :=
  ⟨fun b => if b = a then none else m.cell b, m.root⟩

/-- Whether `p && p->color == RED`. -/
def Memory.isRed (m : Memory) : Option Nat → Option Bool
  | none => some false
  | some a => (m.cell a).map fun k => decide (k.color = .RED)

/-- Function `makeNode(value)` when `malloc` returns the address `a`. -/
def Memory.makeNode (m : Memory) (a : Nat) (value : Int) : Memory :=
  m.store a ⟨value, .RED, none, none, none⟩

/-- Function `nodeInsert(root, newNode, duplicateFlag)` on the memory: the memory
afterwards, the returned pointer and the flag (`flag` is its value before the call). -/
def Memory.nodeInsertFuel :
    Nat → Memory → Option Nat → Option Nat → Bool → Option (Memory × Option Nat × Bool)
  | 0, _, _, _, _ => none
  | _ + 1, m, none, newNode, flag => some (m, newNode, flag)
  | fuel + 1, m, some root, newNode, flag => do
    let newValue := (← m.cell (← newNode)).value
    let rootCell ← m.cell root
    if newValue < rootCell.value then
      -- root->left = nodeInsert(root->left, newNode, duplicateFlag);
      let (m1, left, flag1) ← Memory.nodeInsertFuel fuel m rootCell.left newNode flag
      let m2 ← m1.setLeft root left
      -- if (root->left) root->left->parent = root;
      let m3 ← match (← m2.cell root).left with
        | some rootLeft => m2.setParent rootLeft (some root)
        | none => some m2
      some (m3, some root, flag1)
    else if newValue > rootCell.value then
      -- root->right = nodeInsert(root->right, newNode, duplicateFlag);
      let (m1, right, flag1) ← Memory.nodeInsertFuel fuel m rootCell.right newNode flag
      let m2 ← m1.setRight root right
      -- if (root->right) root->right->parent = root;
      let m3 ← match (← m2.cell root).right with
        | some rootRight => m2.setParent rootRight (some root)
        | none => some m2
      some (m3, some root, flag1)
    else some (m, some root, true)

/-- Function `catchSimpleCases(tree, node)` on the memory: the memory afterwards and
whether the result is non-zero. -/
def Memory.catchSimpleCases (m : Memory) : Option Nat → Option (Memory × Bool)
  | none => some (m, true)
  | some node => do
    let nodeCell ← m.cell node
    if nodeCell.color = .BLACK then some (m, true)
    else
      match nodeCell.parent with
      | none => do
        -- node->color = BLACK;
        let m1 ← m.setColor node .BLACK
        some (m1, true)
      | some parent => do
        if (← m.cell parent).color = .BLACK then some (m, true)
        else some (m, false)

/-- Function `uncleRedCaseColorSwap(parent, uncle, grandparent)` on the memory. -/
def Memory.uncleRedCaseColorSwap (m : Memory) (parent uncle grandparent : Nat) :
    Option Memory := do
  let m1 ← m.setColor parent .BLACK
  let m2 ← m1.setColor uncle .BLACK
  m2.setColor grandparent .RED

/-- Function `lineCaseColorSwap(parent, grandparent)` on the memory. -/
def Memory.lineCaseColorSwap (m : Memory) (parent grandparent : Nat) : Option Memory := do
  -- Color temp = parent->color;
  let temp := (← m.cell parent).color
  -- parent->color = grandparent->color;
  let m1 ← m.setColor parent (← m.cell grandparent).color
  -- grandparent->color = temp;
  m1.setColor grandparent temp

/-- The triangle case of `insertFixup(tree, node)` on the memory, the first `if` statement
after the uncle case: the memory afterwards with the values of `node` and `parent`. -/
def Memory.triangleCase (m : Memory) (node parent grandparent : Nat) :
    Option (Memory × Nat × Option Nat) := do
  let parentCell ← m.cell parent
  let grandparentCell ← m.cell grandparent
  if parentCell.left = some node ∧ grandparentCell.right = some parent then do
    let m1 ← m.rightRotate (some parent)
    -- node = parent; parent = node->parent;
    some (m1, parent, (← m1.cell parent).parent)
  else if parentCell.right = some node ∧ grandparentCell.left = some parent then do
    let m1 ← m.leftRotate (some parent)
    -- node = parent; parent = node->parent;
    some (m1, parent, (← m1.cell parent).parent)
  else some (m, node, some parent)

/-- The line case of `insertFixup(tree, node)` on the memory, the last `if` statement, up to
its nested call: the memory afterwards and whether `insertFixup(tree, parent)` is called
next. -/
def Memory.lineCase (m : Memory) (node : Nat) (parent : Option Nat) (grandparent : Nat) :
    Option (Memory × Bool) := do
  let parent ← parent
  let parentCell ← m.cell parent
  let grandparentCell ← m.cell grandparent
  if parentCell.left = some node ∧ grandparentCell.left = some parent then
    -- rightRotate(tree, grandparent); lineCaseColorSwap(parent, grandparent);
    let m1 ← m.rightRotate (some grandparent)
    let m2 ← m1.lineCaseColorSwap parent grandparent
    some (m2, true)
  else if parentCell.right = some node ∧ grandparentCell.right = some parent then
    -- leftRotate(tree, grandparent); lineCaseColorSwap(parent, grandparent);
    let m1 ← m.leftRotate (some grandparent)
    let m2 ← m1.lineCaseColorSwap parent grandparent
    some (m2, true)
  else some (m, false)

/-- Function `insertFixup(tree, node)` on the memory. -/
def Memory.insertFixupFuel : Nat → Memory → Option Nat → Option Memory
  | 0, _, _ => none
  | fuel + 1, m0, node0 => do
    let (m, simple) ← m0.catchSimpleCases node0
    if simple then some m
    else
      let node ← node0
      -- struct RBNode *parent = node->parent;
      let parent ← (← m.cell node).parent
      -- struct RBNode *grandparent = parent->parent;  (read through in the next statement)
      let grandparent ← (← m.cell parent).parent
      -- if (grandparent->left == parent) uncle = grandparent->right; else uncle = grandparent->left;
      let grandparentCell ← m.cell grandparent
      let uncle :=
        if grandparentCell.left = some parent then grandparentCell.right
        else grandparentCell.left
      -- if (uncle && uncle->color == RED)
      if (← m.isRed uncle) then
        let m1 ← m.uncleRedCaseColorSwap parent (← uncle) grandparent
        Memory.insertFixupFuel fuel m1 (some grandparent)
      else
        -- triangle case
        let (m2, node2, parent2) ← m.triangleCase node parent grandparent
        -- line case (always follows triangle case)
        let (m3, nested) ← m2.lineCase node2 parent2 grandparent
        -- insertFixup(tree, parent);
        if nested then Memory.insertFixupFuel fuel m3 parent2
        else some m3

/-- Function `RBInsert(tree, value)` on the memory, for a non-null `tree`; `newNode` is the
address `malloc` returns in `makeNode`, `none` when it fails.  The result is the memory
afterwards and the returned status. -/
def Memory.RBInsert (fuel : Nat) (m : Memory) (value : Int) (newNode : Option Nat) :
    Option (Memory × Int) := do
  -- struct RBNode *newNode = makeNode(value);
  let m0 := match newNode with
    | some a => m.makeNode a value
    | none => m
  -- tree->root = nodeInsert(tree->root, newNode, &duplicateFlag);
  let (m1, root, duplicateFlag) ← Memory.nodeInsertFuel fuel m0 m0.root newNode false
  let m2 := m1.setRoot root
  -- insertFixup(tree, newNode);
  let m3 ← Memory.insertFixupFuel fuel m2 newNode
  if duplicateFlag then
    -- free(newNode); return 1;
    match newNode with
    | some a => some (m3.free a, 1)
    | none => some (m3, 1)
  else some (m3, 0)

/-- Function `nodeSearch(node, value)` on the memory: the returned pointer. -/
def Memory.nodeSearchFuel : Nat → Memory → Option Nat → Int → Option (Option Nat)
  | 0, _, _, _ => none
  | _ + 1, _, none, _ => some none
  | fuel + 1, m, some node, value => do
    let nodeCell ← m.cell node
    if nodeCell.value = value then some (some node)
    else if value < nodeCell.value then Memory.nodeSearchFuel fuel m nodeCell.left value
    else Memory.nodeSearchFuel fuel m nodeCell.right value

/-- Function `leafDelete(tree, node)` on the memory. -/
def Memory.leafDelete (m : Memory) : Option Nat → Option Memory
  | none => some m
  | some node => do
    match (← m.cell node).parent with
    | none =>
      -- tree->root = NULL; free(node);
      some ((m.setRoot none).free node)
    | some parent => do
      let m1 ←
        if (← m.cell parent).left = some node then m.setLeft parent none
        else m.setRight parent none
      some (m1.free node)

/-- The loop `while (p->right) p = p->right` on the memory, started at the pointer `p`. -/
def Memory.rightmostFuel : Nat → Memory → Nat → Option Nat
  | 0, _, _ => none
  | fuel + 1, m, p => do
    match (← m.cell p).right with
    | some right => Memory.rightmostFuel fuel m right
    | none => some p

/-- The loop `while (p->left) p = p->left` on the memory, started at the pointer `p`. -/
def Memory.leftmostFuel : Nat → Memory → Nat → Option Nat
  | 0, _, _ => none
  | fuel + 1, m, p => do
    match (← m.cell p).left with
    | some left => Memory.leftmostFuel fuel m left
    | none => some p

/-- Function `findPredecessor(node)` on the memory: the returned pointer. -/
def Memory.findPredecessor (fuel : Nat) (m : Memory) : Option Nat → Option (Option Nat)
  | none => some none
  | some node => do
    -- struct RBNode *predecessor = node->left;  (read through by the loop condition)
    let predecessor ← (← m.cell node).left
    some (← Memory.rightmostFuel fuel m predecessor)

/-- Function `findSuccessor(node)` on the memory: the returned pointer. -/
def Memory.findSuccessor (fuel : Nat) (m : Memory) : Option Nat → Option (Option Nat)
  | none => some none
  | some node => do
    let successor ← (← m.cell node).right
    some (← Memory.leftmostFuel fuel m successor)

/-- Function `recursiveDelete(node)` on the memory: the memory afterwards and the returned
pointer. -/
def Memory.recursiveDeleteFuel : Nat → Memory → Option Nat → Option (Memory × Option Nat)
  | 0, _, _ => none
  | _ + 1, m, none => some (m, none)
  | fuel + 1, m, some node => do
    let nodeCell ← m.cell node
    if nodeCell.left = none ∧ nodeCell.right = none then some (m, some node)
    else if nodeCell.right = none then
      let predecessor ← (← Memory.findPredecessor fuel m (some node))
      -- node->value = predecessor->value;
      let m1 ← m.setValue node (← m.cell predecessor).value
      Memory.recursiveDeleteFuel fuel m1 (some predecessor)
    else
      let successor ← (← Memory.findSuccessor fuel m (some node))
      -- node->value = successor->value;
      let m1 ← m.setValue node (← m.cell successor).value
      Memory.recursiveDeleteFuel fuel m1 (some successor)

/-- Function `findSibling(node)` on the memory: the returned pointer. -/
def Memory.findSibling (m : Memory) : Option Nat → Option (Option Nat)
  | none => some none
  | some node => do
    match (← m.cell node).parent with
    | none => some none
    | some parent => do
      let parentCell ← m.cell parent
      if parentCell.left = some node then some parentCell.right else some parentCell.left

/-- Function `findCaseCode(sibling)` on the memory. -/
def Memory.findCaseCode (m : Memory) (sibling : Nat) : Option CaseCode := do
  let siblingCell ← m.cell sibling
  -- if (sibling == sibling->parent->left)
  let isSiblingLeftChild := decide ((← m.cell (← siblingCell.parent)).left = some sibling)
  if siblingCell.color = .RED then some .R
  else
    let nearChild := if isSiblingLeftChild then siblingCell.right else siblingCell.left
    let farChild := if isSiblingLeftChild then siblingCell.left else siblingCell.right
    if (← m.isRed nearChild) then some .RB
    else if (← m.isRed farChild) then some .BR
    else some .BB

/-- Function `siblingRedCase(tree, node, sibling)` on the memory. -/
def Memory.siblingRedCase (m : Memory) (node sibling : Nat) : Option Memory := do
  -- sibling->color = BLACK;
  let m1 ← m.setColor sibling .BLACK
  -- node->parent->color = RED;
  let m2 ← m1.setColor (← (← m1.cell node).parent) .RED
  -- if (node == node->parent->left) leftRotate(tree, node->parent);
  -- else rightRotate(tree, node->parent);
  let parent ← (← m2.cell node).parent
  if (← m2.cell parent).left = some node then m2.leftRotate (some parent)
  else m2.rightRotate (some parent)

/-- Function `siblingBlackBlackChildrenCase(node, sibling)` on the memory: the memory
afterwards and the returned colour. -/
def Memory.siblingBlackBlackChildrenCase (m : Memory) (node sibling : Nat) :
    Option (Memory × Color) := do
  -- Color originalColor = node->parent->color;
  let originalColor := (← m.cell (← (← m.cell node).parent)).color
  -- node->parent->color = BLACK;
  let m1 ← m.setColor (← (← m.cell node).parent) .BLACK
  -- sibling->color = RED;
  let m2 ← m1.setColor sibling .RED
  some (m2, originalColor)

/-- Function `siblingBlackNearChildRedCase(tree, node, sibling)` on the memory. -/
def Memory.siblingBlackNearChildRedCase (m : Memory) (node sibling : Nat) :
    Option Memory := do
  let parent ← (← m.cell node).parent
  if (← m.cell parent).left = some node then
    -- sibling->left->color = BLACK; sibling->color = RED; rightRotate(tree, sibling);
    let m1 ← m.setColor (← (← m.cell sibling).left) .BLACK
    let m2 ← m1.setColor sibling .RED
    m2.rightRotate (some sibling)
  else
    -- sibling->right->color = BLACK; sibling->color = RED; leftRotate(tree, sibling);
    let m1 ← m.setColor (← (← m.cell sibling).right) .BLACK
    let m2 ← m1.setColor sibling .RED
    m2.leftRotate (some sibling)

/-- The `if` statement of `siblingBlackFarChildRedCase(tree, node, sibling)` on the
memory. -/
def Memory.farChildRotate (m : Memory) (node sibling : Nat) : Option Memory := do
  let parent ← (← m.cell node).parent
  if (← m.cell parent).left = some node then
    -- sibling->right->color = BLACK; leftRotate(tree, node->parent);
    let m1 ← m.setColor (← (← m.cell sibling).right) .BLACK
    m1.leftRotate (← m1.cell node).parent
  else
    -- sibling->left->color = BLACK; rightRotate(tree, node->parent);
    let m1 ← m.setColor (← (← m.cell sibling).left) .BLACK
    m1.rightRotate (← m1.cell node).parent

/-- Function `siblingBlackFarChildRedCase(tree, node, sibling)` on the memory. -/
def Memory.siblingBlackFarChildRedCase (m : Memory) (node sibling : Nat) :
    Option Memory := do
  -- sibling->color = node->parent->color;
  let m1 ← m.setColor sibling (← m.cell (← (← m.cell node).parent)).color
  -- node->parent->color = BLACK;
  let m2 ← m1.setColor (← (← m1.cell node).parent) .BLACK
  m2.farChildRotate node sibling

/-- Function `deleteFixup(tree, node)` on the memory. -/
def Memory.deleteFixupFuel : Nat → Memory → Option Nat → Option Memory
  | 0, _, _ => none
  | _ + 1, m, none => some m
  | fuel + 1, m, some node => do
    if (← m.cell node).color = .RED then some m
    else
      match (← m.findSibling (some node)) with
      | none => some m
      | some sibling =>
        match (← m.findCaseCode sibling) with
        | .R => do
          let m1 ← m.siblingRedCase node sibling
          Memory.deleteFixupFuel fuel m1 (some node)
        | .BB => do
          let (m1, originalColor) ← m.siblingBlackBlackChildrenCase node sibling
          if originalColor = .BLACK then Memory.deleteFixupFuel fuel m1 (← m1.cell node).parent
          else some m1
        | .RB => do
          let m1 ← m.siblingBlackNearChildRedCase node sibling
          Memory.deleteFixupFuel fuel m1 (some node)
        | .BR => m.siblingBlackFarChildRedCase node sibling

/-- Function `RBDelete(tree, value)` on the memory, for a non-null `tree`: the memory
afterwards and the returned status. -/
def Memory.RBDelete (fuel : Nat) (m : Memory) (value : Int) : Option (Memory × Int) := do
  -- struct RBNode *toRemoveNode = nodeSearch(tree->root, value);
  match (← Memory.nodeSearchFuel fuel m m.root value) with
  | none => some (m, 1)
  | some toRemoveNode => do
    -- toRemoveNode = recursiveDelete(toRemoveNode);
    let (m1, leaf) ← Memory.recursiveDeleteFuel fuel m (some toRemoveNode)
    -- deleteFixup(tree, toRemoveNode);
    let m2 ← Memory.deleteFixupFuel fuel m1 leaf
    -- leafDelete(tree, toRemoveNode);
    let m3 ← m2.leafDelete leaf
    some (m3, 0)

/-! ## Results on the memory and results on pointers -/

/-- The result of a function on the memory agrees with the result `z` of the same function
on pointers, where that result is the topmost ancestor: neither has a result, or the
memory afterwards holds a well-formed tree that is `z` without the addresses. -/
def Memory.AgreesTop (res : Option Memory) (z : Option RBNode) : Prop :=
  match z with
  | none => res = none
  | some top => ∃ m1 t1, res = some m1 ∧ m1.Represents ⟨t1, []⟩ ∧ t1.strip = top

/-- The result of a function on the memory agrees with the result `z` of the same function
on pointers, where that result is the pointer to the node `node` after the call: neither
has a result, or the memory afterwards holds a well-formed tree in which `node`, with
everything below it as before, has the ancestors that `z` shows. -/
def Memory.AgreesLoc (res : Option Memory) (node : ANode) (z : Option Loc) : Prop :=
  match z with
  | none => res = none
  | some loc => ∃ m1 ps1, res = some m1 ∧ m1.Represents ⟨node, ps1⟩ ∧
      ALoc.strip ⟨node, ps1⟩ = loc

/-- The loop `while (p->right) p = p->right` on a tree with addresses, as `rightmost`. -/
def arightmost : ANode → List AParent → ALoc
  | .mk a v c l (.mk ra rv rc rl rr), ps =>
    arightmost (.mk ra rv rc rl rr) (⟨a, v, c, false, l⟩ :: ps)
  | n, ps => ⟨n, ps⟩

/-- The loop `while (p->left) p = p->left` on a tree with addresses, as `leftmost`. -/
def aleftmost : ANode → List AParent → ALoc
  | .mk a v c (.mk la lv lc ll lr) r, ps =>
    aleftmost (.mk la lv lc ll lr) (⟨a, v, c, true, r⟩ :: ps)
  | n, ps => ⟨n, ps⟩

/-- A memory of three nodes holding a red-black tree: the node at address 2 (key 20, BLACK)
is `tree->root`, with RED children at the addresses 1 (key 10) and 3 (key 30). -/
def threeCells : Memory :=
  ⟨fun a =>
    if a = 1 then some ⟨10, .RED, none, none, some 2⟩
    else if a = 2 then some ⟨20, .BLACK, some 1, some 3, none⟩
    else if a = 3 then some ⟨30, .RED, none, none, some 2⟩
    else none, some 2⟩

/-- The tree that `threeCells` holds, with the addresses of its nodes. -/
def threeCellsTree : ANode :=
  .mk 2 20 .BLACK (.mk 1 10 .RED .NULL .NULL) (.mk 3 30 .RED .NULL .NULL)

/-! ## Keys of a structure -/

theorem nodePrint_fill (p : Parent) (t : RBNode) :
    nodePrint (p.fill t) =
      (if p.isLeft then [] else nodePrint p.sibling ++ [p.value]) ++ nodePrint t ++
        (if p.isLeft then p.value :: nodePrint p.sibling else []) := by
  cases p with
  | mk v c il s => cases il <;> simp [Parent.fill, nodePrint]

theorem nodePrint_rebuild (t : RBNode) (ps : List Parent) :
    nodePrint (rebuild t ps) = keysBefore ps ++ nodePrint t ++ keysAfter ps := by
  induction ps generalizing t with
  | nil => simp [rebuild, keysBefore, keysAfter]
  | cons p ps ih =>
    simp only [rebuild, ih, nodePrint_fill, keysBefore, keysAfter, List.append_assoc]

theorem ordered_iff_sorted (t : RBNode) : Ordered t ↔ (nodePrint t).Pairwise (· < ·) := by
  induction t with
  | NULL => simp [Ordered, nodePrint]
  | mk v c l r ihl ihr =>
    simp only [Ordered, nodePrint, List.pairwise_append, List.pairwise_cons, ihl, ihr,
      List.mem_cons]
    constructor
    · rintro ⟨h1, h2, h3, h4⟩
      refine ⟨h3, ⟨h2, h4⟩, ?_⟩
      intro a ha b hb
      rcases hb with rfl | hb
      · exact h1 a ha
      · exact lt_trans (h1 a ha) (h2 b hb)
    · rintro ⟨h3, ⟨h2, h4⟩, h5⟩
      exact ⟨fun x hx => h5 x hx v (Or.inl rfl), h2, h3, h4⟩

/-! ## The calls of `insertFixup`, case by case -/

theorem insertFixupFuel_notRed (fuel : Nat) (n : RBNode) (ps : List Parent)
    (h : isRed n = false) : insertFixupFuel (fuel + 1) ⟨n, ps⟩ = some (rebuild n ps) := by
  cases n with
  | NULL => rfl
  | mk v c l r =>
    cases c with
    | BLACK => rfl
    | RED => simp [isRed] at h

theorem insertFixupFuel_root (fuel : Nat) (v : Int) (l r : RBNode) :
    insertFixupFuel (fuel + 1) ⟨.mk v .RED l r, []⟩ = some (.mk v .BLACK l r) := rfl

theorem insertFixupFuel_parentBlack (fuel : Nat) (v : Int) (l r : RBNode) (pv : Int)
    (pl : Bool) (s : RBNode) (ps : List Parent) :
    insertFixupFuel (fuel + 1) ⟨.mk v .RED l r, ⟨pv, .BLACK, pl, s⟩ :: ps⟩ =
      some (rebuild (.mk v .RED l r) (⟨pv, .BLACK, pl, s⟩ :: ps)) := rfl

theorem insertFixupFuel_noGrandparent (fuel : Nat) (v : Int) (l r : RBNode) (pv : Int)
    (pl : Bool) (s : RBNode) :
    insertFixupFuel (fuel + 1) ⟨.mk v .RED l r, [⟨pv, .RED, pl, s⟩]⟩ = none := rfl

theorem insertFixupFuel_uncleRed (fuel : Nat) (v : Int) (l r : RBNode) (pv : Int)
    (pl : Bool) (s : RBNode) (gv : Int) (gc : Color) (gl : Bool) (uv : Int) (ul ur : RBNode)
    (rest : List Parent) :
    insertFixupFuel (fuel + 1)
        ⟨.mk v .RED l r, ⟨pv, .RED, pl, s⟩ :: ⟨gv, gc, gl, .mk uv .RED ul ur⟩ :: rest⟩ =
      insertFixupFuel fuel
        ⟨Parent.fill ⟨gv, .RED, gl, .mk uv .BLACK ul ur⟩
          (Parent.fill ⟨pv, .BLACK, pl, s⟩ (.mk v .RED l r)), rest⟩ := rfl

theorem insertFixupFuel_LL (fuel : Nat) (v : Int) (l r : RBNode) (pv : Int)
    (s : RBNode) (gv : Int) (gc : Color) (u : RBNode) (hu : isRed u = false)
    (rest : List Parent) :
    insertFixupFuel (fuel + 1)
        ⟨.mk v .RED l r, ⟨pv, .RED, true, s⟩ :: ⟨gv, gc, true, u⟩ :: rest⟩ =
      insertFixupFuel fuel ⟨.mk pv gc (.mk v .RED l r) (.mk gv .RED s u), rest⟩ := by
  cases u with
  | NULL => rfl
  | mk uv uc ul ur =>
    cases uc with
    | BLACK => rfl
    | RED => simp [isRed] at hu

theorem insertFixupFuel_RR (fuel : Nat) (v : Int) (l r : RBNode) (pv : Int)
    (s : RBNode) (gv : Int) (gc : Color) (u : RBNode) (hu : isRed u = false)
    (rest : List Parent) :
    insertFixupFuel (fuel + 1)
        ⟨.mk v .RED l r, ⟨pv, .RED, false, s⟩ :: ⟨gv, gc, false, u⟩ :: rest⟩ =
      insertFixupFuel fuel ⟨.mk pv gc (.mk gv .RED u s) (.mk v .RED l r), rest⟩ := by
  cases u with
  | NULL => rfl
  | mk uv uc ul ur =>
    cases uc with
    | BLACK => rfl
    | RED => simp [isRed] at hu

theorem insertFixupFuel_LR (fuel : Nat) (v : Int) (l r : RBNode) (pv : Int)
    (s : RBNode) (gv : Int) (gc : Color) (u : RBNode) (hu : isRed u = false)
    (rest : List Parent) :
    insertFixupFuel (fuel + 1)
        ⟨.mk v .RED l r, ⟨pv, .RED, false, s⟩ :: ⟨gv, gc, true, u⟩ :: rest⟩ =
      insertFixupFuel fuel ⟨.mk v gc (.mk pv .RED s l) (.mk gv .RED r u), rest⟩ := by
  cases u with
  | NULL => rfl
  | mk uv uc ul ur =>
    cases uc with
    | BLACK => rfl
    | RED => simp [isRed] at hu

theorem insertFixupFuel_RL (fuel : Nat) (v : Int) (l r : RBNode) (pv : Int)
    (s : RBNode) (gv : Int) (gc : Color) (u : RBNode) (hu : isRed u = false)
    (rest : List Parent) :
    insertFixupFuel (fuel + 1)
        ⟨.mk v .RED l r, ⟨pv, .RED, true, s⟩ :: ⟨gv, gc, false, u⟩ :: rest⟩ =
      insertFixupFuel fuel ⟨.mk v gc (.mk gv .RED u l) (.mk pv .RED r s), rest⟩ := by
  cases u with
  | NULL => rfl
  | mk uv uc ul ur =>
    cases uc with
    | BLACK => rfl
    | RED => simp [isRed] at hu

/-! ## Filling a chain of parents -/

theorem bh_fill (p : Parent) (t : RBNode) (h : bh p.sibling = bh t) :
    bh (p.fill t) = bh t + blackInc p.color := by
  cases p with
  | mk v c il s => cases il <;> simp_all [Parent.fill, bh]

theorem bal_fill (p : Parent) (t : RBNode) (ht : Bal t) (hs : Bal p.sibling)
    (h : bh p.sibling = bh t) : Bal (p.fill t) := by
  cases p with
  | mk v c il s => cases il <;> simp_all [Parent.fill, Bal]

theorem bal_rebuild (t : RBNode) (ps : List Parent) (ht : Bal t) (hp : PathBal ps (bh t)) :
    Bal (rebuild t ps) := by
  induction ps generalizing t with
  | nil => simpa [rebuild] using ht
  | cons p ps ih =>
    obtain ⟨h1, h2, h3⟩ := hp
    refine ih (p.fill t) (bal_fill p t ht h1 h2) ?_
    rw [bh_fill p t h2]
    exact h3

theorem isRed_fill (p : Parent) (t : RBNode) : isRed (p.fill t) = decide (p.color = .RED) := by
  cases p with
  | mk v c il s => cases il <;> cases c <;> simp [Parent.fill, isRed]

theorem noDoubleRed_fill (p : Parent) (t : RBNode) (ht : NoDoubleRed t)
    (hs : NoDoubleRed p.sibling) (h : p.color = .RED → isRed t = false ∧ isRed p.sibling = false) :
    NoDoubleRed (p.fill t) := by
  cases p with
  | mk v c il s =>
    cases il <;> simp_all [Parent.fill, NoDoubleRed]

theorem noDoubleRed_rebuild (t : RBNode) (ps : List Parent) (ht : NoDoubleRed t)
    (hp : PathNoRR ps) (h : parentRed ps = true → isRed t = false) :
    NoDoubleRed (rebuild t ps) := by
  induction ps generalizing t with
  | nil => simpa [rebuild] using ht
  | cons p ps ih =>
    obtain ⟨h1, h2, h3⟩ := hp
    refine ih (p.fill t) (noDoubleRed_fill p t ht h1 ?_) h3 ?_
    · intro hc
      exact ⟨h (by simp [parentRed, hc]), (h2 hc).1⟩
    · intro hr
      rw [isRed_fill]
      by_contra hc
      simp only [decide_eq_false_iff_not, not_not] at hc
      have := (h2 hc).2
      simp [this] at hr

theorem rootBlack_rebuild (t : RBNode) (ps : List Parent) (hp : PathRootBlack ps)
    (h : ps = [] → RootBlack t) : RootBlack (rebuild t ps) := by
  induction ps generalizing t with
  | nil => simpa [rebuild] using h rfl
  | cons p ps ih =>
    cases ps with
    | nil =>
      simp only [rebuild]
      cases p with
      | mk v c il s =>
        simp only [PathRootBlack] at hp
        cases il <;> simp_all [Parent.fill, RootBlack]
    | cons q qs =>
      exact ih (p.fill t) hp (by simp)

/-! ## `insertFixup` keeps the printed keys and restores the colour invariants -/

theorem insertFixupFuel_keys (fuel : Nat) : ∀ (loc : Loc) (t : RBNode),
    insertFixupFuel fuel loc = some t → nodePrint t = nodePrint loc.root := by
  induction fuel with
  | zero => intro loc t h; simp [insertFixupFuel] at h
  | succ fuel ih =>
    intro loc t h
    obtain ⟨n, ps⟩ := loc
    cases hn : isRed n with
    | false =>
      rw [insertFixupFuel_notRed fuel n ps hn] at h
      simp only [Option.some.injEq] at h
      simp [Loc.root, h]
    | true =>
      cases n with
      | NULL => simp [isRed] at hn
      | mk v c l r =>
        cases c with
        | BLACK => simp [isRed] at hn
        | RED =>
          cases ps with
          | nil =>
            rw [insertFixupFuel_root] at h
            simp only [Option.some.injEq] at h
            simp [Loc.root, rebuild, ← h, nodePrint]
          | cons p ps =>
            obtain ⟨pv, pc, pl, s⟩ := p
            cases pc with
            | BLACK =>
              rw [insertFixupFuel_parentBlack] at h
              simp only [Option.some.injEq] at h
              simp [Loc.root, h]
            | RED =>
              cases ps with
              | nil => rw [insertFixupFuel_noGrandparent] at h; simp at h
              | cons g rest =>
                obtain ⟨gv, gc, gl, u⟩ := g
                cases hu : isRed u with
                | true =>
                  cases u with
                  | NULL => simp [isRed] at hu
                  | mk uv uc ul ur =>
                    cases uc with
                    | BLACK => simp [isRed] at hu
                    | RED =>
                      rw [insertFixupFuel_uncleRed] at h
                      rw [ih _ _ h]
                      cases pl <;> cases gl <;>
                        simp [Loc.root, rebuild, nodePrint_rebuild, Parent.fill, nodePrint]
                | false =>
                  cases pl <;> cases gl
                  · rw [insertFixupFuel_RR _ _ _ _ _ _ _ _ _ hu] at h
                    rw [ih _ _ h]
                    simp [Loc.root, rebuild, nodePrint_rebuild, Parent.fill, nodePrint]
                  · rw [insertFixupFuel_LR _ _ _ _ _ _ _ _ _ hu] at h
                    rw [ih _ _ h]
                    simp [Loc.root, rebuild, nodePrint_rebuild, Parent.fill, nodePrint]
                  · rw [insertFixupFuel_RL _ _ _ _ _ _ _ _ _ hu] at h
                    rw [ih _ _ h]
                    simp [Loc.root, rebuild, nodePrint_rebuild, Parent.fill, nodePrint]
                  · rw [insertFixupFuel_LL _ _ _ _ _ _ _ _ _ hu] at h
                    rw [ih _ _ h]
                    simp [Loc.root, rebuild, nodePrint_rebuild, Parent.fill, nodePrint]

theorem bal_setBlack (v : Int) (c : Color) (l r : RBNode) (h : Bal (.mk v c l r)) (c1 : Color) :
    Bal (.mk v c1 l r) := by
  simpa [Bal] using h

theorem insertFixupFuel_colors (fuel : Nat) : ∀ (v : Int) (l r : RBNode) (ps : List Parent),
    ps.length < fuel → isRed l = false → isRed r = false → NoDoubleRed l → NoDoubleRed r →
    Bal (.mk v .RED l r) → PathBal ps (bh (.mk v .RED l r)) → PathNoRR ps → PathRootBlack ps →
    ∃ t, insertFixupFuel fuel ⟨.mk v .RED l r, ps⟩ = some t ∧ Bal t ∧ NoDoubleRed t ∧
      RootBlack t := by
  induction fuel with
  | zero => intro v l r ps h; simp at h
  | succ fuel ih =>
    intro v l r ps hlen hl hr hnl hnr hbal hpb hpn hpr
    have hN : NoDoubleRed (.mk v .RED l r) := by simp [NoDoubleRed, hl, hr, hnl, hnr]
    cases ps with
    | nil =>
      refine ⟨_, insertFixupFuel_root fuel v l r, bal_setBlack _ _ _ _ hbal _, ?_, ?_⟩
      · simp [NoDoubleRed, hnl, hnr]
      · simp [RootBlack]
    | cons p ps =>
      obtain ⟨pv, pc, pl, s⟩ := p
      cases pc with
      | BLACK =>
        refine ⟨_, insertFixupFuel_parentBlack fuel v l r pv pl s ps, ?_, ?_, ?_⟩
        · exact bal_rebuild _ _ hbal hpb
        · exact noDoubleRed_rebuild _ _ hN hpn (by simp [parentRed])
        · exact rootBlack_rebuild _ _ hpr (by simp)
      | RED =>
        cases ps with
        | nil => simp [PathRootBlack] at hpr
        | cons g rest =>
          obtain ⟨gv, gc, gl, u⟩ := g
          obtain ⟨hs1, hs2, hu1, hu2, hrest⟩ := hpb
          obtain ⟨hsn, hsr, hun, hur, hrn⟩ := hpn
          have hgc : gc = .BLACK := by
            have := (hsr rfl).2
            cases gc <;> simp_all [parentRed]
          subst hgc
          have hsred : isRed s = false := (hsr rfl).1
          simp only [Bal] at hbal
          simp only [bh, blackInc] at hs2 hu2 hrest
          simp only [List.length_cons] at hlen
          have hrb : PathRootBlack rest := by
            cases rest with
            | nil => simp [PathRootBlack]
            | cons q qs => simpa [PathRootBlack] using hpr
          cases hu : isRed u with
          | true =>
            cases u with
            | NULL => simp [isRed] at hu
            | mk uv uc ul ur =>
              cases uc with
              | BLACK => simp [isRed] at hu
              | RED =>
                rw [insertFixupFuel_uncleRed]
                simp only [NoDoubleRed] at hun
                simp only [Bal] at hu1
                simp only [bh, blackInc] at hu2
                cases pl <;> cases gl <;> simp only [Parent.fill, Bool.false_eq_true, if_false, if_true]
                all_goals
                  apply ih
                  · omega
                  · simp [isRed]
                  · simp [isRed]
                  · simp_all [NoDoubleRed]
                  · simp_all [NoDoubleRed]
                  · simp_all [Bal, bh, blackInc]
                  · simp_all [Bal, bh, blackInc]
                  · exact hrn
                  · exact hrb
          | false =>
            obtain ⟨k, rfl⟩ : ∃ k, fuel = k + 1 := ⟨fuel - 1, by omega⟩
            cases pl <;> cases gl
            · rw [insertFixupFuel_RR _ _ _ _ _ _ _ _ _ hu, insertFixupFuel_notRed _ _ _ (by simp [isRed])]
              refine ⟨_, rfl, ?_, ?_, ?_⟩
              · apply bal_rebuild
                · simp_all [Bal, bh, blackInc]
                · simp_all [Bal, bh, blackInc]
              · apply noDoubleRed_rebuild _ _ _ hrn
                · simp [isRed]
                · simp_all [NoDoubleRed]
              · apply rootBlack_rebuild _ _ hrb
                simp [RootBlack]
            · rw [insertFixupFuel_LR _ _ _ _ _ _ _ _ _ hu, insertFixupFuel_notRed _ _ _ (by simp [isRed])]
              refine ⟨_, rfl, ?_, ?_, ?_⟩
              · apply bal_rebuild
                · simp_all [Bal, bh, blackInc]
                · simp_all [Bal, bh, blackInc]
              · apply noDoubleRed_rebuild _ _ _ hrn
                · simp [isRed]
                · simp_all [NoDoubleRed]
              · apply rootBlack_rebuild _ _ hrb
                simp [RootBlack]
            · rw [insertFixupFuel_RL _ _ _ _ _ _ _ _ _ hu, insertFixupFuel_notRed _ _ _ (by simp [isRed])]
              refine ⟨_, rfl, ?_, ?_, ?_⟩
              · apply bal_rebuild
                · simp_all [Bal, bh, blackInc]
                · simp_all [Bal, bh, blackInc]
              · apply noDoubleRed_rebuild _ _ _ hrn
                · simp [isRed]
                · simp_all [NoDoubleRed]
              · apply rootBlack_rebuild _ _ hrb
                simp [RootBlack]
            · rw [insertFixupFuel_LL _ _ _ _ _ _ _ _ _ hu, insertFixupFuel_notRed _ _ _ (by simp [isRed])]
              refine ⟨_, rfl, ?_, ?_, ?_⟩
              · apply bal_rebuild
                · simp_all [Bal, bh, blackInc]
                · simp_all [Bal, bh, blackInc]
              · apply noDoubleRed_rebuild _ _ _ hrn
                · simp [isRed]
                · simp_all [NoDoubleRed]
              · apply rootBlack_rebuild _ _ hrb
                simp [RootBlack]

/-! ## Uniform black-height, path by path and node by node -/

theorem bh_mem_blackCounts (t : RBNode) : bh t ∈ blackCounts t := by
  induction t with
  | NULL => simp [bh, blackCounts]
  | mk v c l r ihl _ =>
    simp only [bh, blackCounts, List.map_append, List.mem_append, List.mem_map]
    exact Or.inl ⟨bh l, ihl, rfl⟩

theorem blackCounts_of_bal (t : RBNode) (h : Bal t) : ∀ a ∈ blackCounts t, a = bh t := by
  induction t with
  | NULL => simp [bh, blackCounts]
  | mk v c l r ihl ihr =>
    obtain ⟨h1, h2, h3⟩ := h
    intro a ha
    simp only [blackCounts, List.map_append, List.mem_append, List.mem_map] at ha
    rcases ha with ⟨b, hb, rfl⟩ | ⟨b, hb, rfl⟩
    · simp [bh, ihl h2 b hb]
    · simp [bh, ihr h3 b hb, h1]

theorem bal_of_uniformBlack (t : RBNode) (h : UniformBlack t) : Bal t := by
  induction t with
  | NULL => trivial
  | mk v c l r ihl ihr =>
    have key : ∀ a ∈ blackCounts l ++ blackCounts r, ∀ b ∈ blackCounts l ++ blackCounts r,
        a = b := by
      intro a ha b hb
      have := h (a + blackInc c) (by simp only [blackCounts, List.mem_map]; exact ⟨a, ha, rfl⟩)
        (b + blackInc c) (by simp only [blackCounts, List.mem_map]; exact ⟨b, hb, rfl⟩)
      omega
    refine ⟨?_, ihl ?_, ihr ?_⟩
    · exact key _ (List.mem_append_left _ (bh_mem_blackCounts l)) _
        (List.mem_append_right _ (bh_mem_blackCounts r))
    · intro a ha b hb
      exact key a (List.mem_append_left _ ha) b (List.mem_append_left _ hb)
    · intro a ha b hb
      exact key a (List.mem_append_right _ ha) b (List.mem_append_right _ hb)

theorem uniformBlack_iff_bal (t : RBNode) : UniformBlack t ↔ Bal t := by
  constructor
  · exact bal_of_uniformBlack t
  · intro h a ha b hb
    rw [blackCounts_of_bal t h a ha, blackCounts_of_bal t h b hb]

theorem valid_iff (t : RBNode) :
    Valid t ↔ Ordered t ∧ RootBlack t ∧ NoDoubleRed t ∧ Bal t := by
  simp only [Valid, uniformBlack_iff_bal]

/-! ## Pointers into a structure that satisfies the colour invariants -/

theorem locOK_root (t : RBNode) (h1 : RootBlack t) (h2 : NoDoubleRed t) (h3 : Bal t) :
    LocOK t [] :=
  ⟨h3, h2, trivial, trivial, by simp [parentRed], trivial, fun _ => h1⟩

theorem locOK_left (v : Int) (c : Color) (l r : RBNode) (ps : List Parent)
    (h : LocOK (.mk v c l r) ps) : LocOK l (⟨v, c, true, r⟩ :: ps) := by
  obtain ⟨h1, h2, h3, h4, h5, h6, h7⟩ := h
  obtain ⟨hb, hbl, hbr⟩ := h1
  obtain ⟨hc, hnl, hnr⟩ := h2
  refine ⟨hbl, hnl, ⟨hbr, hb.symm, by simpa [bh] using h3⟩, ⟨hnr, ?_, h4⟩, ?_, ?_, by simp⟩
  · intro hcr
    refine ⟨(hc hcr).2, ?_⟩
    cases hp : parentRed ps with
    | false => rfl
    | true =>
      have hcr1 : c = .RED := hcr
      subst hcr1
      have := h5 hp
      simp [isRed] at this
  · intro hp
    simp only [parentRed, decide_eq_true_eq] at hp
    exact (hc hp).1
  · cases ps with
    | nil => simpa [PathRootBlack, RootBlack] using h7 rfl
    | cons q qs => simpa [PathRootBlack] using h6

theorem locOK_right (v : Int) (c : Color) (l r : RBNode) (ps : List Parent)
    (h : LocOK (.mk v c l r) ps) : LocOK r (⟨v, c, false, l⟩ :: ps) := by
  obtain ⟨h1, h2, h3, h4, h5, h6, h7⟩ := h
  obtain ⟨hb, hbl, hbr⟩ := h1
  obtain ⟨hc, hnl, hnr⟩ := h2
  refine ⟨hbr, hnr, ⟨hbl, hb, by simpa [bh, hb] using h3⟩, ⟨hnl, ?_, h4⟩, ?_, ?_, by simp⟩
  · intro hcr
    refine ⟨(hc hcr).1, ?_⟩
    cases hp : parentRed ps with
    | false => rfl
    | true =>
      have hcr1 : c = .RED := hcr
      subst hcr1
      have := h5 hp
      simp [isRed] at this
  · intro hp
    simp only [parentRed, decide_eq_true_eq] at hp
    exact (hc hp).2
  · cases ps with
    | nil => simpa [PathRootBlack, RootBlack] using h7 rfl
    | cons q qs => simpa [PathRootBlack] using h6

theorem locOK_rebuild (t : RBNode) (ps : List Parent) (h : LocOK t ps) :
    RootBlack (rebuild t ps) ∧ NoDoubleRed (rebuild t ps) ∧ Bal (rebuild t ps) := by
  obtain ⟨h1, h2, h3, h4, h5, h6, h7⟩ := h
  exact ⟨rootBlack_rebuild t ps h6 h7, noDoubleRed_rebuild t ps h2 h4 h5, bal_rebuild t ps h1 h3⟩

/-! ## `nodeSearch` -/

theorem nodeSearch_cases (t : RBNode) (ps : List Parent) (k : Int) :
    nodeSearch t ps k = ⟨.NULL, []⟩ ∨
      ∃ c l r ps1, nodeSearch t ps k = ⟨.mk k c l r, ps1⟩ ∧
        rebuild (.mk k c l r) ps1 = rebuild t ps ∧ (LocOK t ps → LocOK (.mk k c l r) ps1) := by
  induction t generalizing ps with
  | NULL => left; rfl
  | mk v c l r ihl ihr =>
    simp only [nodeSearch]
    split_ifs with h1 h2
    · subst h1
      right
      exact ⟨c, l, r, ps, rfl, rfl, id⟩
    · rcases ihl (⟨v, c, true, r⟩ :: ps) with h | ⟨c1, l1, r1, ps1, h, hr, hok⟩
      · left; exact h
      · right
        exact ⟨c1, l1, r1, ps1, h, by simpa [rebuild, Parent.fill] using hr,
          fun hh => hok (locOK_left _ _ _ _ _ hh)⟩
    · rcases ihr (⟨v, c, false, l⟩ :: ps) with h | ⟨c1, l1, r1, ps1, h, hr, hok⟩
      · left; exact h
      · right
        exact ⟨c1, l1, r1, ps1, h, by simpa [rebuild, Parent.fill] using hr,
          fun hh => hok (locOK_right _ _ _ _ _ hh)⟩

theorem nodeSearch_mem (t : RBNode) (ps : List Parent) (k : Int) (h : Ordered t) :
    (nodeSearch t ps k).node ≠ .NULL ↔ k ∈ nodePrint t := by
  induction t generalizing ps with
  | NULL => simp [nodeSearch, nodePrint]
  | mk v c l r ihl ihr =>
    obtain ⟨h1, h2, h3, h4⟩ := h
    simp only [nodeSearch, nodePrint, List.mem_append, List.mem_cons]
    split_ifs with e1 e2
    · simp [e1]
    · rw [ihl _ h3]
      constructor
      · exact Or.inl
      · rintro (hk | hk | hk)
        · exact hk
        · exact absurd hk.symm e1
        · exact absurd (h2 k hk) (by omega)
    · rw [ihr _ h4]
      constructor
      · exact fun hk => Or.inr (Or.inr hk)
      · rintro (hk | hk | hk)
        · exact absurd (h1 k hk) e2
        · exact absurd hk.symm e1
        · exact hk

/-! ## `nodeInsert` and `RBInsert` -/

theorem orderedInsert_between (k : Int) (L1 L2 : List Int) (h1 : ∀ x ∈ L1, x < k)
    (h2 : ∀ x ∈ L2, k < x) : List.orderedInsert (· ≤ ·) k (L1 ++ L2) = L1 ++ k :: L2 := by
  induction L1 with
  | nil =>
    cases L2 with
    | nil => simp
    | cons b L2 =>
      have := h2 b (by simp)
      simp [List.orderedInsert, le_of_lt this]
  | cons a L1 ih =>
    have ha := h1 a (by simp)
    have : ¬ k ≤ a := by omega
    rw [List.cons_append, List.orderedInsert, if_neg this, ih (fun x hx => h1 x (by simp [hx]))]
    rfl

theorem nodeInsert_cases (nv : Int) (nc : Color) (nl nr : RBNode) (t : RBNode) (flag : Bool)
    (ps : List Parent) :
    ((nodeSearch t ps nv).node ≠ .NULL ∧ nodeInsert t (.mk nv nc nl nr) flag = some (t, true) ∧
        newNodeLoc t ps nv (.mk nv nc nl nr) = ⟨.mk nv nc nl nr, []⟩) ∨
    ((nodeSearch t ps nv).node = .NULL ∧ ∃ t1 ps1 L1 L2,
        nodeInsert t (.mk nv nc nl nr) flag = some (t1, flag) ∧
        newNodeLoc t ps nv (.mk nv nc nl nr) = ⟨.mk nv nc nl nr, ps1⟩ ∧
        rebuild (.mk nv nc nl nr) ps1 = rebuild t1 ps ∧
        nodePrint t = L1 ++ L2 ∧ nodePrint t1 = L1 ++ nodePrint (.mk nv nc nl nr) ++ L2 ∧
        (Ordered t → (∀ x ∈ L1, x < nv) ∧ (∀ x ∈ L2, nv < x)) ∧
        (LocOK t ps → LocOK .NULL ps1)) := by
  induction t generalizing ps with
  | NULL =>
    right
    refine ⟨rfl, _, ps, [], [], rfl, rfl, rfl, by simp [nodePrint], by simp, ?_, id⟩
    intro _
    simp
  | mk v c l r ihl ihr =>
    rcases lt_trichotomy nv v with hlt | heq | hgt
    · have hne : ¬ v = nv := by omega
      simp only [nodeSearch, nodeInsert, newNodeLoc, hlt, hne, if_true, if_false]
      rcases ihl (⟨v, c, true, r⟩ :: ps) with ⟨h1, h2, h3⟩ | ⟨h1, t1, ps1, L1, L2, h2, h3, h4, h5, h6, h7, h8⟩
      · left
        exact ⟨h1, by simp [h2], h3⟩
      · right
        refine ⟨h1, .mk v c t1 r, ps1, L1, L2 ++ v :: nodePrint r, by simp [h2], h3, ?_, ?_, ?_, ?_, ?_⟩
        · simpa [rebuild, Parent.fill] using h4
        · simp [nodePrint, h5]
        · simp [nodePrint, h6]
        · rintro ⟨o1, o2, o3, o4⟩
          refine ⟨(h7 o3).1, ?_⟩
          intro x hx
          simp only [List.mem_append, List.mem_cons] at hx
          rcases hx with hx | rfl | hx
          · exact (h7 o3).2 x hx
          · exact hlt
          · exact lt_trans hlt (o2 x hx)
        · exact fun hh => h8 (locOK_left _ _ _ _ _ hh)
    · subst heq
      left
      simp [nodeSearch, nodeInsert, newNodeLoc]
    · have hne : ¬ v = nv := by omega
      have hnlt : ¬ nv < v := by omega
      simp only [nodeSearch, nodeInsert, newNodeLoc, hnlt, hne, if_false, gt_iff_lt, hgt, if_true]
      rcases ihr (⟨v, c, false, l⟩ :: ps) with ⟨h1, h2, h3⟩ | ⟨h1, t1, ps1, L1, L2, h2, h3, h4, h5, h6, h7, h8⟩
      · left
        exact ⟨h1, by simp [h2], h3⟩
      · right
        refine ⟨h1, .mk v c l t1, ps1, nodePrint l ++ v :: L1, L2, by simp [h2], h3, ?_, ?_, ?_, ?_, ?_⟩
        · simpa [rebuild, Parent.fill] using h4
        · simp [nodePrint, h5]
        · simp [nodePrint, h6]
        · rintro ⟨o1, o2, o3, o4⟩
          refine ⟨?_, (h7 o4).2⟩
          intro x hx
          simp only [List.mem_append, List.mem_cons] at hx
          rcases hx with hx | rfl | hx
          · exact lt_trans (o1 x hx) hgt
          · exact hgt
          · exact (h7 o4).1 x hx
        · exact fun hh => h8 (locOK_right _ _ _ _ _ hh)

theorem insertFixup_detached (k : Int) :
    insertFixup ⟨makeNode k, []⟩ = some (.mk k .BLACK .NULL .NULL) := rfl

theorem RBInsert_present (t : RBTree) (k : Int) (ho : Ordered t.root)
    (hk : k ∈ nodePrint t.root) : RBInsert t k = some (t, 1) := by
  rcases nodeInsert_cases k .RED .NULL .NULL t.root false [] with
    ⟨_, h2, h3⟩ | ⟨h1, _⟩
  · simp only [RBInsert, RBInsertNode, makeNode, h2, h3]
    rfl
  · exact absurd h1 ((nodeSearch_mem t.root [] k ho).mpr hk)

theorem RBInsert_absent (t : RBTree) (k : Int) (hv : Valid t.root)
    (hk : k ∉ nodePrint t.root) :
    ∃ t1 L1 L2, RBInsert t k = some (t1, 0) ∧ Valid t1.root ∧
      nodePrint t.root = L1 ++ L2 ∧ nodePrint t1.root = L1 ++ k :: L2 ∧
      (∀ x ∈ L1, x < k) ∧ (∀ x ∈ L2, k < x) := by
  rw [valid_iff] at hv
  obtain ⟨ho, hrb, hnr, hbal⟩ := hv
  rcases nodeInsert_cases k .RED .NULL .NULL t.root false [] with
    ⟨h1, _⟩ | ⟨_, t1, ps1, L1, L2, h2, h3, h4, h5, h6, h7, h8⟩
  · exact absurd ((nodeSearch_mem t.root [] k ho).mp h1) hk
  · obtain ⟨_, _, b3, b4, _, b6, _⟩ := h8 (locOK_root _ hrb hnr hbal)
    obtain ⟨top, e, c1, c2, c3⟩ := insertFixupFuel_colors (ps1.length + 1) k .NULL .NULL ps1
      (by omega) rfl rfl trivial trivial ⟨rfl, trivial, trivial⟩ b3 b4 b6
    have hkeys := insertFixupFuel_keys _ _ _ e
    simp only [Loc.root, h4, rebuild] at hkeys
    have hlist : nodePrint top = L1 ++ k :: L2 := by
      rw [hkeys, h6]
      simp [nodePrint]
    refine ⟨⟨top⟩, L1, L2, ?_, ?_, h5, hlist, (h7 ho).1, (h7 ho).2⟩
    · simp only [RBInsert, RBInsertNode, makeNode, h2, h3, insertFixup, e]
      rfl
    · rw [valid_iff]
      refine ⟨?_, c3, c2, c1⟩
      have hs := (ordered_iff_sorted _).mp ho
      rw [h5, List.pairwise_append] at hs
      rw [ordered_iff_sorted, hlist]
      simp only [List.pairwise_append, List.pairwise_cons, List.mem_cons]
      refine ⟨hs.1, ⟨(h7 ho).2, hs.2.1⟩, ?_⟩
      intro a ha b hb
      rcases hb with rfl | hb
      · exact (h7 ho).1 a ha
      · exact hs.2.2 a ha b hb

/-! ## The calls of `deleteFixup`, case by case -/

theorem deleteFixupFuel_NULL (fuel : Nat) (ps : List Parent) :
    deleteFixupFuel (fuel + 1) ⟨.NULL, ps⟩ = some ⟨.NULL, ps⟩ := rfl

theorem deleteFixupFuel_red (fuel : Nat) (v : Int) (l r : RBNode) (ps : List Parent) :
    deleteFixupFuel (fuel + 1) ⟨.mk v .RED l r, ps⟩ = some ⟨.mk v .RED l r, ps⟩ := rfl

theorem deleteFixupFuel_root (fuel : Nat) (v : Int) (l r : RBNode) :
    deleteFixupFuel (fuel + 1) ⟨.mk v .BLACK l r, []⟩ = some ⟨.mk v .BLACK l r, []⟩ := rfl

theorem deleteFixupFuel_noSibling (fuel : Nat) (v : Int) (l r : RBNode) (pv : Int)
    (pc : Color) (side : Bool) (rest : List Parent) :
    deleteFixupFuel (fuel + 1) ⟨.mk v .BLACK l r, ⟨pv, pc, side, .NULL⟩ :: rest⟩ =
      some ⟨.mk v .BLACK l r, ⟨pv, pc, side, .NULL⟩ :: rest⟩ := rfl

/-- Case R, `node` the left child. -/
theorem deleteFixupFuel_R_left (fuel : Nat) (v : Int) (l r : RBNode) (pv : Int) (pc : Color)
    (sv : Int) (sl sr : RBNode) (rest : List Parent) :
    deleteFixupFuel (fuel + 1)
        ⟨.mk v .BLACK l r, ⟨pv, pc, true, .mk sv .RED sl sr⟩ :: rest⟩ =
      deleteFixupFuel fuel
        ⟨.mk v .BLACK l r, ⟨pv, .RED, true, sl⟩ :: ⟨sv, .BLACK, true, sr⟩ :: rest⟩ := rfl

/-- Case R, `node` the right child. -/
theorem deleteFixupFuel_R_right (fuel : Nat) (v : Int) (l r : RBNode) (pv : Int) (pc : Color)
    (sv : Int) (sl sr : RBNode) (rest : List Parent) :
    deleteFixupFuel (fuel + 1)
        ⟨.mk v .BLACK l r, ⟨pv, pc, false, .mk sv .RED sl sr⟩ :: rest⟩ =
      deleteFixupFuel fuel
        ⟨.mk v .BLACK l r, ⟨pv, .RED, false, sr⟩ :: ⟨sv, .BLACK, false, sl⟩ :: rest⟩ := rfl

/-- Case RB, `node` the left child: the near child is `sibling->left`. -/
theorem deleteFixupFuel_RB_left (fuel : Nat) (v : Int) (l r : RBNode) (pv : Int) (pc : Color)
    (sv : Int) (nv : Int) (nl nr sr : RBNode) (rest : List Parent) :
    deleteFixupFuel (fuel + 1)
        ⟨.mk v .BLACK l r, ⟨pv, pc, true, .mk sv .BLACK (.mk nv .RED nl nr) sr⟩ :: rest⟩ =
      deleteFixupFuel fuel
        ⟨.mk v .BLACK l r, ⟨pv, pc, true, .mk nv .BLACK nl (.mk sv .RED nr sr)⟩ :: rest⟩ := rfl

/-- Case RB, `node` the right child: the near child is `sibling->right`. -/
theorem deleteFixupFuel_RB_right (fuel : Nat) (v : Int) (l r : RBNode) (pv : Int) (pc : Color)
    (sv : Int) (nv : Int) (sl nl nr : RBNode) (rest : List Parent) :
    deleteFixupFuel (fuel + 1)
        ⟨.mk v .BLACK l r, ⟨pv, pc, false, .mk sv .BLACK sl (.mk nv .RED nl nr)⟩ :: rest⟩ =
      deleteFixupFuel fuel
        ⟨.mk v .BLACK l r, ⟨pv, pc, false, .mk nv .BLACK (.mk sv .RED sl nl) nr⟩ :: rest⟩ := rfl

/-- Case BR, `node` the left child: the far child is `sibling->right`. -/
theorem deleteFixupFuel_BR_left (fuel : Nat) (v : Int) (l r : RBNode) (pv : Int) (pc : Color)
    (sv : Int) (sl : RBNode) (fv : Int) (fl fr : RBNode) (rest : List Parent)
    (hn : isRed sl = false) :
    deleteFixupFuel (fuel + 1)
        ⟨.mk v .BLACK l r, ⟨pv, pc, true, .mk sv .BLACK sl (.mk fv .RED fl fr)⟩ :: rest⟩ =
      some ⟨.mk v .BLACK l r,
        ⟨pv, .BLACK, true, sl⟩ :: ⟨sv, pc, true, .mk fv .BLACK fl fr⟩ :: rest⟩ := by
  cases sl with
  | NULL => rfl
  | mk a c b d =>
    cases c with
    | BLACK => rfl
    | RED => simp [isRed] at hn

/-- Case BR, `node` the right child: the far child is `sibling->left`. -/
theorem deleteFixupFuel_BR_right (fuel : Nat) (v : Int) (l r : RBNode) (pv : Int) (pc : Color)
    (sv : Int) (fv : Int) (fl fr : RBNode) (sr : RBNode) (rest : List Parent)
    (hn : isRed sr = false) :
    deleteFixupFuel (fuel + 1)
        ⟨.mk v .BLACK l r, ⟨pv, pc, false, .mk sv .BLACK (.mk fv .RED fl fr) sr⟩ :: rest⟩ =
      some ⟨.mk v .BLACK l r,
        ⟨pv, .BLACK, false, sr⟩ :: ⟨sv, pc, false, .mk fv .BLACK fl fr⟩ :: rest⟩ := by
  cases sr with
  | NULL => rfl
  | mk a c b d =>
    cases c with
    | BLACK => rfl
    | RED => simp [isRed] at hn

/-- Case BB below a RED parent. -/
theorem deleteFixupFuel_BB_red (fuel : Nat) (v : Int) (l r : RBNode) (pv : Int) (side : Bool)
    (sv : Int) (sl sr : RBNode) (rest : List Parent)
    (hl : isRed sl = false) (hr : isRed sr = false) :
    deleteFixupFuel (fuel + 1)
        ⟨.mk v .BLACK l r, ⟨pv, .RED, side, .mk sv .BLACK sl sr⟩ :: rest⟩ =
      some ⟨.mk v .BLACK l r, ⟨pv, .BLACK, side, .mk sv .RED sl sr⟩ :: rest⟩ := by
  have e1 : sl = .NULL ∨ ∃ a b d, sl = .mk a .BLACK b d := by
    cases sl with
    | NULL => exact Or.inl rfl
    | mk a c b d =>
      cases c with
      | BLACK => exact Or.inr ⟨a, b, d, rfl⟩
      | RED => simp [isRed] at hl
  have e2 : sr = .NULL ∨ ∃ a b d, sr = .mk a .BLACK b d := by
    cases sr with
    | NULL => exact Or.inl rfl
    | mk a c b d =>
      cases c with
      | BLACK => exact Or.inr ⟨a, b, d, rfl⟩
      | RED => simp [isRed] at hr
  rcases e1 with rfl | ⟨a, b, d, rfl⟩ <;> rcases e2 with rfl | ⟨a2, b2, d2, rfl⟩ <;>
    cases side <;> rfl

/-- Case BB below a BLACK parent: the call continues on the parent. -/
theorem deleteFixupFuel_BB_black (fuel : Nat) (v : Int) (l r : RBNode) (pv : Int) (side : Bool)
    (sv : Int) (sl sr : RBNode) (rest : List Parent)
    (hl : isRed sl = false) (hr : isRed sr = false) :
    deleteFixupFuel (fuel + 1)
        ⟨.mk v .BLACK l r, ⟨pv, .BLACK, side, .mk sv .BLACK sl sr⟩ :: rest⟩ =
      (deleteFixupFuel fuel
          ⟨Parent.fill ⟨pv, .BLACK, side, .mk sv .RED sl sr⟩ (.mk v .BLACK l r), rest⟩).bind
        (fun parent => if side then parent.goLeft else parent.goRight) := by
  have e1 : sl = .NULL ∨ ∃ a b d, sl = .mk a .BLACK b d := by
    cases sl with
    | NULL => exact Or.inl rfl
    | mk a c b d =>
      cases c with
      | BLACK => exact Or.inr ⟨a, b, d, rfl⟩
      | RED => simp [isRed] at hl
  have e2 : sr = .NULL ∨ ∃ a b d, sr = .mk a .BLACK b d := by
    cases sr with
    | NULL => exact Or.inl rfl
    | mk a c b d =>
      cases c with
      | BLACK => exact Or.inr ⟨a, b, d, rfl⟩
      | RED => simp [isRed] at hr
  rcases e1 with rfl | ⟨a, b, d, rfl⟩ <;> rcases e2 with rfl | ⟨a2, b2, d2, rfl⟩ <;>
    cases side <;> rfl

/-! ## `deleteFixup` restores the colour invariants -/

theorem pathRootBlack_cons2 {p q1 q2 : Parent} {rest : List Parent}
    (h : PathRootBlack (p :: rest)) (hc : q2.color = p.color) :
    PathRootBlack (q1 :: q2 :: rest) := by
  cases rest with
  | nil => simp_all [PathRootBlack]
  | cons a as => simpa [PathRootBlack] using h

theorem pathRootBlack_cons1 {p q : Parent} {rest : List Parent}
    (h : PathRootBlack (p :: rest)) (hq : rest = [] → q.color = .BLACK) :
    PathRootBlack (q :: rest) := by
  cases rest with
  | nil => simp_all [PathRootBlack]
  | cons a as => simpa [PathRootBlack] using h

theorem isRed_true_cases (t : RBNode) (h : isRed t = true) : ∃ v l r, t = .mk v .RED l r := by
  cases t with
  | NULL => simp [isRed] at h
  | mk v c l r =>
    cases c with
    | BLACK => simp [isRed] at h
    | RED => exact ⟨v, l, r, rfl⟩

/-- The calls that end the fixup: a BLACK sibling below a RED parent or with a RED child. -/
theorem deleteFixupFuel_blackSibling (fuel : Nat) (v : Int) (l r : RBNode) (pv : Int)
    (pc : Color) (side : Bool) (sv : Int) (sl sr : RBNode) (rest : List Parent) (h : Nat)
    (hf : 2 ≤ fuel) (hcase : pc = .RED ∨ isRed sl = true ∨ isRed sr = true)
    (hb : PathBal (⟨pv, pc, side, .mk sv .BLACK sl sr⟩ :: rest) (h + 1))
    (hn : PathNoRR (⟨pv, pc, side, .mk sv .BLACK sl sr⟩ :: rest))
    (hr : PathRootBlack (⟨pv, pc, side, .mk sv .BLACK sl sr⟩ :: rest)) :
    ∃ ps2, deleteFixupFuel fuel
        ⟨.mk v .BLACK l r, ⟨pv, pc, side, .mk sv .BLACK sl sr⟩ :: rest⟩ =
          some ⟨.mk v .BLACK l r, ps2⟩ ∧
      PathBal ps2 h ∧ PathNoRR ps2 ∧ PathRootBlack ps2 ∧
      keysBefore ps2 = keysBefore (⟨pv, pc, side, .mk sv .BLACK sl sr⟩ :: rest) ∧
      keysAfter ps2 = keysAfter (⟨pv, pc, side, .mk sv .BLACK sl sr⟩ :: rest) := by
  obtain ⟨k, rfl⟩ : ∃ k, fuel = k + 2 := ⟨fuel - 2, by omega⟩
  obtain ⟨⟨hb1, hb2, hb3⟩, hb4, hb5⟩ := hb
  obtain ⟨⟨hn1, hn2, hn3⟩, hn4, hn5⟩ := hn
  simp only [bh, blackInc, if_true] at hb4
  have hprest : pc = .RED → parentRed rest = false := fun hc => (hn4 hc).2
  cases side with
  | true =>
    cases hnear : isRed sl with
    | true =>
      obtain ⟨nv, nl, nr, rfl⟩ := isRed_true_cases sl hnear
      simp only [NoDoubleRed] at hn2
      simp only [Bal] at hb2
      simp only [bh, blackInc] at hb1 hb4
      rw [deleteFixupFuel_RB_left, deleteFixupFuel_BR_left _ _ _ _ _ _ _ _ _ _ _ _ (hn2.1 trivial).1]
      refine ⟨_, rfl, ?_, ?_, ?_, ?_, ?_⟩
      · simp_all [PathBal, Bal, bh, blackInc]
      · simp_all [PathNoRR, NoDoubleRed, isRed]
      · exact pathRootBlack_cons2 hr rfl
      · simp [keysBefore]
      · simp [keysAfter, nodePrint]
    | false =>
      cases hfar : isRed sr with
      | true =>
        obtain ⟨fv, fl, fr, rfl⟩ := isRed_true_cases sr hfar
        simp only [NoDoubleRed] at hn3
        simp only [Bal] at hb3
        simp only [bh, blackInc] at hb1
        rw [deleteFixupFuel_BR_left _ _ _ _ _ _ _ _ _ _ _ _ hnear]
        refine ⟨_, rfl, ?_, ?_, ?_, ?_, ?_⟩
        · simp_all [PathBal, Bal, bh, blackInc]
        · simp_all [PathNoRR, NoDoubleRed, isRed]
        · exact pathRootBlack_cons2 hr rfl
        · simp [keysBefore]
        · simp [keysAfter, nodePrint]
      | false =>
        have hpc : pc = .RED := by simpa [hnear, hfar] using hcase
        subst hpc
        rw [deleteFixupFuel_BB_red _ _ _ _ _ _ _ _ _ _ hnear hfar]
        refine ⟨_, rfl, ?_, ?_, ?_, ?_, ?_⟩
        · simp_all [PathBal, Bal, bh, blackInc]
        · simp_all [PathNoRR, NoDoubleRed, isRed]
        · exact pathRootBlack_cons1 hr (fun _ => rfl)
        · simp [keysBefore]
        · simp [keysAfter, nodePrint]
  | false =>
    cases hnear : isRed sr with
    | true =>
      obtain ⟨nv, nl, nr, rfl⟩ := isRed_true_cases sr hnear
      simp only [NoDoubleRed] at hn3
      simp only [Bal] at hb3
      simp only [bh, blackInc] at hb1 hb4
      rw [deleteFixupFuel_RB_right, deleteFixupFuel_BR_right _ _ _ _ _ _ _ _ _ _ _ _ (hn3.1 trivial).2]
      refine ⟨_, rfl, ?_, ?_, ?_, ?_, ?_⟩
      · simp_all [PathBal, Bal, bh, blackInc]
      · simp_all [PathNoRR, NoDoubleRed, isRed]
      · exact pathRootBlack_cons2 hr rfl
      · simp [keysBefore, nodePrint]
      · simp [keysAfter]
    | false =>
      cases hfar : isRed sl with
      | true =>
        obtain ⟨fv, fl, fr, rfl⟩ := isRed_true_cases sl hfar
        simp only [NoDoubleRed] at hn2
        simp only [Bal] at hb2
        simp only [bh, blackInc] at hb1
        rw [deleteFixupFuel_BR_right _ _ _ _ _ _ _ _ _ _ _ _ hnear]
        refine ⟨_, rfl, ?_, ?_, ?_, ?_, ?_⟩
        · simp_all [PathBal, Bal, bh, blackInc]
        · simp_all [PathNoRR, NoDoubleRed, isRed]
        · exact pathRootBlack_cons2 hr rfl
        · simp [keysBefore, nodePrint]
        · simp [keysAfter]
      | false =>
        have hpc : pc = .RED := by simpa [hnear, hfar] using hcase
        subst hpc
        rw [deleteFixupFuel_BB_red _ _ _ _ _ _ _ _ _ _ hfar hnear]
        refine ⟨_, rfl, ?_, ?_, ?_, ?_, ?_⟩
        · simp_all [PathBal, Bal, bh, blackInc]
        · simp_all [PathNoRR, NoDoubleRed, isRed]
        · exact pathRootBlack_cons1 hr (fun _ => rfl)
        · simp [keysBefore, nodePrint]
        · simp [keysAfter]

theorem pathRootBlack_push (q : Parent) (ps : List Parent) (h : PathRootBlack ps)
    (hq : q.color = .BLACK) : PathRootBlack (q :: ps) := by
  cases ps with
  | nil => simpa [PathRootBlack] using hq
  | cons a as => simpa [PathRootBlack] using h

theorem pathRootBlack_tail (q : Parent) (ps : List Parent) (h : PathRootBlack (q :: ps)) :
    PathRootBlack ps := by
  cases ps with
  | nil => trivial
  | cons a as => simpa [PathRootBlack] using h

theorem deleteFixupFuel_colors (fuel : Nat) : ∀ (v : Int) (l r : RBNode) (ps : List Parent)
    (h : Nat), ps.length + 3 ≤ fuel → PathBal ps (h + 1) → PathNoRR ps → PathRootBlack ps →
    ∃ ps2, deleteFixupFuel fuel ⟨.mk v .BLACK l r, ps⟩ = some ⟨.mk v .BLACK l r, ps2⟩ ∧
      PathBal ps2 h ∧ PathNoRR ps2 ∧ PathRootBlack ps2 ∧
      keysBefore ps2 = keysBefore ps ∧ keysAfter ps2 = keysAfter ps := by
  induction fuel with
  | zero => intro v l r ps h hf; omega
  | succ fuel ih =>
    intro v l r ps h hf hb hn hr
    cases ps with
    | nil => exact ⟨[], rfl, trivial, trivial, trivial, rfl, rfl⟩
    | cons p rest =>
      obtain ⟨pv, pc, side, S⟩ := p
      simp only [List.length_cons] at hf
      cases S with
      | NULL => simp [PathBal, bh] at hb
      | mk sv sc sl sr =>
        cases sc with
        | RED =>
          obtain ⟨⟨hb1, hb2, hb3⟩, hb4, hb5⟩ := hb
          obtain ⟨⟨hn1, hn2, hn3⟩, hn4, hn5⟩ := hn
          have hpc : pc = .BLACK := by
            cases pc with
            | BLACK => rfl
            | RED => have := (hn4 rfl).1; simp [isRed] at this
          subst hpc
          simp only [bh, blackInc] at hb4 hb5
          have hnl := (hn1 rfl).1
          have hnr := (hn1 rfl).2
          cases side with
          | true =>
            rw [deleteFixupFuel_R_left]
            cases sl with
            | NULL => simp [bh] at hb4
            | mk a c b d =>
              cases c with
              | RED => simp [isRed] at hnl
              | BLACK =>
                obtain ⟨ps2, e, c1, c2, c3, c4, c5⟩ :=
                  deleteFixupFuel_blackSibling fuel v l r pv .RED true a b d
                    (⟨sv, .BLACK, true, sr⟩ :: rest) h (by omega) (Or.inl rfl)
                    (by simp_all [PathBal, Bal, bh, blackInc])
                    (by simp_all [PathNoRR, NoDoubleRed, isRed, parentRed])
                    (pathRootBlack_cons2 hr rfl)
                refine ⟨ps2, e, c1, c2, c3, ?_, ?_⟩
                · rw [c4]; simp [keysBefore]
                · rw [c5]; simp [keysAfter, nodePrint]
          | false =>
            rw [deleteFixupFuel_R_right]
            cases sr with
            | NULL => simp_all [bh]
            | mk a c b d =>
              cases c with
              | RED => simp [isRed] at hnr
              | BLACK =>
                obtain ⟨ps2, e, c1, c2, c3, c4, c5⟩ :=
                  deleteFixupFuel_blackSibling fuel v l r pv .RED false a b d
                    (⟨sv, .BLACK, false, sl⟩ :: rest) h (by omega) (Or.inl rfl)
                    (by simp_all [PathBal, Bal, bh, blackInc])
                    (by simp_all [PathNoRR, NoDoubleRed, isRed, parentRed])
                    (pathRootBlack_cons2 hr rfl)
                refine ⟨ps2, e, c1, c2, c3, ?_, ?_⟩
                · rw [c4]; simp [keysBefore, nodePrint]
                · rw [c5]; simp [keysAfter]
        | BLACK =>
          by_cases hcase : pc = .RED ∨ isRed sl = true ∨ isRed sr = true
          · exact deleteFixupFuel_blackSibling (fuel + 1) v l r pv pc side sv sl sr rest h
              (by omega) hcase hb hn hr
          · simp only [not_or, Bool.not_eq_true] at hcase
            obtain ⟨hpc, hsl, hsr⟩ := hcase
            have hpc : pc = .BLACK := by
              cases pc with
              | BLACK => rfl
              | RED => exact absurd rfl hpc
            subst hpc
            rw [deleteFixupFuel_BB_black _ _ _ _ _ _ _ _ _ _ hsl hsr]
            obtain ⟨⟨hb1, hb2, hb3⟩, hb4, hb5⟩ := hb
            obtain ⟨⟨hn1, hn2, hn3⟩, hn4, hn5⟩ := hn
            simp only [bh, blackInc, if_true] at hb4 hb5
            have hrest := pathRootBlack_tail _ _ hr
            cases side with
            | true =>
              obtain ⟨ps2, e, c1, c2, c3, c4, c5⟩ :=
                ih pv (.mk v .BLACK l r) (.mk sv .RED sl sr) rest (h + 1) (by omega) hb5 hn5 hrest
              simp only [Parent.fill, if_true, e, Option.bind_some, Loc.goLeft]
              refine ⟨_, rfl, ?_, ?_, pathRootBlack_push _ _ c3 rfl, ?_, ?_⟩
              · simp_all [PathBal, Bal, bh, blackInc]
              · simp_all [PathNoRR, NoDoubleRed, isRed]
              · simp [keysBefore, c4]
              · simp [keysAfter, c5, nodePrint]
            | false =>
              obtain ⟨ps2, e, c1, c2, c3, c4, c5⟩ :=
                ih pv (.mk sv .RED sl sr) (.mk v .BLACK l r) rest (h + 1) (by omega) hb5 hn5 hrest
              simp only [Parent.fill, Bool.false_eq_true, if_false, e, Option.bind_some,
                Loc.goRight]
              refine ⟨_, rfl, ?_, ?_, pathRootBlack_push _ _ c3 rfl, ?_, ?_⟩
              · simp_all [PathBal, Bal, bh, blackInc]
              · simp_all [PathNoRR, NoDoubleRed, isRed]
              · simp [keysBefore, c4, nodePrint]
              · simp [keysAfter, c5]

/-! ## `findPredecessor`, `findSuccessor` and `recursiveDelete` -/

theorem locOK_setValue (v w : Int) (c : Color) (l r : RBNode) (ps : List Parent)
    (h : LocOK (.mk v c l r) ps) : LocOK (.mk w c l r) ps := by
  cases c <;> simpa [LocOK, Bal, NoDoubleRed, bh, isRed, RootBlack] using h

theorem rightmost_spec (t : RBNode) (ht : t ≠ .NULL) :
    ∃ pv pc pl, height (.mk pv pc pl .NULL) ≤ height t ∧
      ∀ ps, ∃ ps1, rightmost t ps = ⟨.mk pv pc pl .NULL, ps1⟩ ∧
        keysAfter ps1 = keysAfter ps ∧
        keysBefore ps1 ++ nodePrint pl ++ [pv] = keysBefore ps ++ nodePrint t ∧
        (LocOK t ps → LocOK (.mk pv pc pl .NULL) ps1) := by
  induction t with
  | NULL => exact absurd rfl ht
  | mk v c l r _ ihr =>
    cases r with
    | NULL =>
      refine ⟨v, c, l, le_refl _, fun ps => ⟨ps, rfl, rfl, by simp [nodePrint], id⟩⟩
    | mk rv rc rl rr =>
      obtain ⟨pv, pc, pl, hh, hs⟩ := ihr (by simp)
      refine ⟨pv, pc, pl, ?_, fun ps => ?_⟩
      · simp only [height] at hh ⊢
        omega
      · obtain ⟨ps1, e, k1, k2, ok⟩ := hs (⟨v, c, false, l⟩ :: ps)
        refine ⟨ps1, by simpa [rightmost] using e, by simpa [keysAfter] using k1, ?_,
          fun hh => ok (locOK_right _ _ _ _ _ hh)⟩
        rw [k2]
        simp [keysBefore, nodePrint]

theorem leftmost_spec (t : RBNode) (ht : t ≠ .NULL) :
    ∃ sv sc sr, height (.mk sv sc .NULL sr) ≤ height t ∧
      ∀ ps, ∃ ps1, leftmost t ps = ⟨.mk sv sc .NULL sr, ps1⟩ ∧
        keysBefore ps1 = keysBefore ps ∧
        sv :: nodePrint sr ++ keysAfter ps1 = nodePrint t ++ keysAfter ps ∧
        (LocOK t ps → LocOK (.mk sv sc .NULL sr) ps1) := by
  induction t with
  | NULL => exact absurd rfl ht
  | mk v c l r ihl _ =>
    cases l with
    | NULL =>
      refine ⟨v, c, r, le_refl _, fun ps => ⟨ps, rfl, rfl, by simp [nodePrint], id⟩⟩
    | mk lv lc ll lr =>
      obtain ⟨sv, sc, sr, hh, hs⟩ := ihl (by simp)
      refine ⟨sv, sc, sr, ?_, fun ps => ?_⟩
      · simp only [height] at hh ⊢
        omega
      · obtain ⟨ps1, e, k1, k2, ok⟩ := hs (⟨v, c, true, r⟩ :: ps)
        refine ⟨ps1, by simpa [leftmost] using e, by simpa [keysBefore] using k1, ?_,
          fun hh => ok (locOK_left _ _ _ _ _ hh)⟩
        rw [k2]
        simp [keysAfter, nodePrint]

theorem recursiveDeleteFuel_spec (fuel : Nat) : ∀ (v : Int) (c : Color) (l r : RBNode)
    (ps : List Parent), height (.mk v c l r) ≤ fuel →
    ∃ x cx ps1, recursiveDeleteFuel fuel ⟨.mk v c l r, ps⟩ = some ⟨.mk x cx .NULL .NULL, ps1⟩ ∧
      keysBefore ps1 ++ keysAfter ps1 = keysBefore ps ++ nodePrint l ++ nodePrint r ++ keysAfter ps ∧
      (LocOK (.mk v c l r) ps → LocOK (.mk x cx .NULL .NULL) ps1) := by
  induction fuel with
  | zero => intro v c l r ps h; simp [height] at h
  | succ fuel ih =>
    intro v c l r ps hh
    cases r with
    | NULL =>
      cases l with
      | NULL => exact ⟨v, c, ps, rfl, by simp [nodePrint], id⟩
      | mk lv lc ll lr =>
        obtain ⟨pv, pc, pl, hle, hs⟩ := rightmost_spec (.mk lv lc ll lr) (by simp)
        obtain ⟨ps0, e0, _⟩ := hs (⟨v, c, true, .NULL⟩ :: ps)
        obtain ⟨ps1, e1, k1, k2, ok⟩ := hs (⟨pv, c, true, .NULL⟩ :: ps)
        have hstep : recursiveDeleteFuel (fuel + 1) ⟨.mk v c (.mk lv lc ll lr) .NULL, ps⟩ =
            recursiveDeleteFuel fuel ⟨.mk pv pc pl .NULL, ps1⟩ := by
          simp [recursiveDeleteFuel, findPredecessor, e0, e1]
        obtain ⟨x, cx, ps2, e2, k3, ok2⟩ := ih pv pc pl .NULL ps1 (by
          simp only [height] at hh hle ⊢
          omega)
        refine ⟨x, cx, ps2, by rw [hstep, e2], ?_, ?_⟩
        · rw [k3, k1]
          simp only [nodePrint, keysAfter, keysBefore, if_true, List.append_nil] at k2 ⊢
          rw [← k2]
          simp
        · intro hok
          exact ok2 (ok (locOK_left _ _ _ _ _ (locOK_setValue _ pv _ _ _ _ hok)))
    | mk rv rc rl rr =>
      obtain ⟨sv, sc, sr, hle, hs⟩ := leftmost_spec (.mk rv rc rl rr) (by simp)
      obtain ⟨ps0, e0, _⟩ := hs (⟨v, c, false, l⟩ :: ps)
      obtain ⟨ps1, e1, k1, k2, ok⟩ := hs (⟨sv, c, false, l⟩ :: ps)
      have hstep : recursiveDeleteFuel (fuel + 1) ⟨.mk v c l (.mk rv rc rl rr), ps⟩ =
          recursiveDeleteFuel fuel ⟨.mk sv sc .NULL sr, ps1⟩ := by
        cases l <;> simp [recursiveDeleteFuel, findSuccessor, e0, e1]
      obtain ⟨x, cx, ps2, e2, k3, ok2⟩ := ih sv sc .NULL sr ps1 (by
        simp only [height] at hh hle ⊢
        omega)
      refine ⟨x, cx, ps2, by rw [hstep, e2], ?_, ?_⟩
      · rw [k3, k1]
        simp only [nodePrint, keysAfter, keysBefore, Bool.false_eq_true, if_false,
          List.nil_append, List.append_assoc] at k2 ⊢
        rw [← k2]
        simp
      · intro hok
        exact ok2 (ok (locOK_right _ _ _ _ _ (locOK_setValue _ sv _ _ _ _ hok)))

/-! ## `RBDelete` -/

theorem leafDelete_node (tree : RBTree) (v : Int) (c : Color) (l r : RBNode)
    (ps : List Parent) : leafDelete tree ⟨.mk v c l r, ps⟩ = ⟨rebuild .NULL ps⟩ := by
  cases ps <;> rfl

theorem size_fill_pos (p : Parent) (t : RBNode) : 0 < size (p.fill t) := by
  cases p with
  | mk v c il s => cases il <;> simp [Parent.fill, size]

theorem size_rebuild_pos (t : RBNode) (ps : List Parent) (h : 0 < size t) :
    0 < size (rebuild t ps) := by
  induction ps generalizing t with
  | nil => simpa [rebuild] using h
  | cons p ps ih => exact ih _ (size_fill_pos p t)

theorem RBDelete_absent (t : RBTree) (k : Int) (ho : Ordered t.root)
    (hk : k ∉ nodePrint t.root) : RBDelete t k = some (t, 1) := by
  rcases nodeSearch_cases t.root [] k with h | ⟨c, l, r, ps1, h, _⟩
  · simp [RBDelete, h]
  · have := (nodeSearch_mem t.root [] k ho).mp (by simp [h])
    exact absurd this hk

theorem RBDelete_present (t : RBTree) (k : Int) (hv : Valid t.root)
    (hk : k ∈ nodePrint t.root) :
    ∃ t1 L1 L2, RBDelete t k = some (t1, 0) ∧ Valid t1.root ∧
      nodePrint t.root = L1 ++ k :: L2 ∧ nodePrint t1.root = L1 ++ L2 := by
  rw [valid_iff] at hv
  obtain ⟨ho, hrb, hnr, hbal⟩ := hv
  rcases nodeSearch_cases t.root [] k with h | ⟨c, l, r, ps1, h, hre, hok⟩
  · have := (nodeSearch_mem t.root [] k ho).mpr hk
    simp [h] at this
  · have hok1 := hok (locOK_root _ hrb hnr hbal)
    obtain ⟨x, cx, ps2, e2, k2, ok2⟩ :=
      recursiveDeleteFuel_spec (height (.mk k c l r) + 1) k c l r ps1 (by omega)
    have hok2 := ok2 hok1
    -- the fixup
    have hfix : ∃ ps3, deleteFixup ⟨.mk x cx .NULL .NULL, ps2⟩ = some ⟨.mk x cx .NULL .NULL, ps3⟩ ∧
        LocOK .NULL ps3 ∧ keysBefore ps3 = keysBefore ps2 ∧ keysAfter ps3 = keysAfter ps2 := by
      obtain ⟨b1, b2, b3, b4, b5, b6, b7⟩ := hok2
      cases cx with
      | RED =>
        refine ⟨ps2, rfl, ⟨trivial, trivial, ?_, b4, fun _ => rfl, b6, fun _ => trivial⟩, rfl, rfl⟩
        simpa [bh, blackInc] using b3
      | BLACK =>
        have hsz := size_rebuild_pos (.mk x .BLACK .NULL .NULL) ps2 (by simp [size])
        obtain ⟨ps3, e3, c1, c2, c3, c4, c5⟩ :=
          deleteFixupFuel_colors (ps2.length + size (rebuild (.mk x .BLACK .NULL .NULL) ps2) + 2)
            x .NULL .NULL ps2 0 (by omega) (by simpa [bh, blackInc] using b3) b4 b6
        exact ⟨ps3, e3, ⟨trivial, trivial, c1, c2, fun _ => rfl, c3, fun _ => trivial⟩, c4, c5⟩
    obtain ⟨ps3, e3, ok3, k3a, k3b⟩ := hfix
    have hroot : nodePrint t.root =
        (keysBefore ps1 ++ nodePrint l) ++ k :: (nodePrint r ++ keysAfter ps1) := by
      have := congrArg nodePrint hre
      simp only [rebuild] at this
      rw [← this, nodePrint_rebuild]
      simp [nodePrint]
    have hkeys : nodePrint (rebuild .NULL ps3) =
        (keysBefore ps1 ++ nodePrint l) ++ (nodePrint r ++ keysAfter ps1) := by
      rw [nodePrint_rebuild, k3a, k3b]
      simp only [nodePrint, List.append_nil]
      rw [k2]
      simp
    refine ⟨⟨rebuild .NULL ps3⟩, _, _, ?_, ?_, hroot, hkeys⟩
    · simp only [RBDelete, h, recursiveDelete, e2, e3, leafDelete_node]
    · obtain ⟨r1, r2, r3⟩ := locOK_rebuild _ _ ok3
      rw [valid_iff]
      refine ⟨?_, r1, r2, r3⟩
      have hs := (ordered_iff_sorted _).mp ho
      rw [hroot] at hs
      rw [ordered_iff_sorted, hkeys]
      refine List.Pairwise.sublist ?_ hs
      exact List.Sublist.append (List.Sublist.refl _) (List.sublist_cons_self _ _)

/-! ## Keys held by a structure -/

theorem hasKey_iff_mem (t : RBNode) (k : Int) : HasKey t k ↔ k ∈ nodePrint t := by
  induction t with
  | NULL => simp [HasKey, nodePrint]
  | mk v c l r ihl ihr =>
    simp only [HasKey, nodePrint, List.mem_append, List.mem_cons, ihl, ihr]
    constructor
    · rintro (h | h | h)
      · exact Or.inr (Or.inl h.symm)
      · exact Or.inl h
      · exact Or.inr (Or.inr h)
    · rintro (h | h | h)
      · exact Or.inr (Or.inl h)
      · exact Or.inl h.symm
      · exact Or.inr (Or.inr h)

theorem RBSearch_eq (t : RBTree) (k : Int) (ho : Ordered t.root) :
    RBSearch t k = if k ∈ nodePrint t.root then 1 else 0 := by
  have hm := nodeSearch_mem t.root [] k ho
  unfold RBSearch
  split
  · rename_i h
    have : k ∉ nodePrint t.root := fun hk => (hm.mpr hk) h
    simp [this]
  · rename_i v c l r h
    have : k ∈ nodePrint t.root := hm.mp (by simp [h])
    simp [this]

/-! ## `RBCheck` on a tree that satisfies the invariants -/

theorem isBST_of_ordered (t : RBNode) (lo hi : Option Int) (ho : Ordered t)
    (hlo : ∀ m, lo = some m → ∀ x ∈ nodePrint t, m ≤ x)
    (hhi : ∀ m, hi = some m → ∀ x ∈ nodePrint t, x ≤ m) : isBST t lo hi = 1 := by
  induction t generalizing lo hi with
  | NULL => rfl
  | mk v c l r ihl ihr =>
    obtain ⟨h1, h2, h3, h4⟩ := ho
    have a1 : ∀ m, lo = some m → ¬ v < m := fun m hm => by
      have := hlo m hm v (by simp [nodePrint])
      omega
    have a2 : ∀ m, hi = some m → ¬ m < v := fun m hm => by
      have := hhi m hm v (by simp [nodePrint])
      omega
    have el : isBST l lo (some v) = 1 := by
      apply ihl _ _ h3
      · intro m hm x hx
        exact hlo m hm x (by simp [nodePrint, hx])
      · intro m hm x hx
        cases hm
        exact le_of_lt (h1 x hx)
    have er : isBST r (some v) hi = 1 := by
      apply ihr _ _ h4
      · intro m hm x hx
        cases hm
        exact le_of_lt (h2 x hx)
      · intro m hm x hx
        exact hhi m hm x (by simp [nodePrint, hx])
    simp only [isBST, el, er]
    clear ihl ihr hlo hhi el er h1 h2 h3 h4
    cases lo with
    | none =>
      cases hi with
      | none => simp
      | some m => simp [a2 m rfl]
    | some m =>
      cases hi with
      | none => simp [a1 m rfl]
      | some m2 => simp [a1 m rfl, a2 m2 rfl]

theorem doubleRedCheck_noParent (t : RBNode) : doubleRedCheck t none ≠ -1 := by
  cases t with
  | NULL => simp [doubleRedCheck]
  | mk v c l r =>
    have hc : ¬ (c = .RED ∧ (none : Option Color) = some .RED) := by simp
    simp only [doubleRedCheck, if_neg hc]
    split_ifs <;> decide

theorem blackDepthCheck_of_bal (t : RBNode) (h : Bal t) : blackDepthCheck t = (bh t : Int) + 1 := by
  induction t with
  | NULL => simp [blackDepthCheck, bh]
  | mk v c l r ihl ihr =>
    obtain ⟨h1, h2, h3⟩ := h
    have hl := ihl h2
    have hr := ihr h3
    have e1 : ¬ (blackDepthCheck l = -1 ∨ blackDepthCheck r = -1) := by
      rw [hl, hr]; omega
    have e2 : ¬ (blackDepthCheck l ≠ blackDepthCheck r) := by
      rw [hl, hr, h1]; simp
    simp only [blackDepthCheck, e1, e2, if_false]
    cases c <;> simp [bh, blackInc, hl]

theorem RBCheck_of_valid (t : RBTree) (hv : Valid t.root) : RBCheck t = 0 := by
  rw [valid_iff] at hv
  obtain ⟨ho, hrb, _, hbal⟩ := hv
  obtain ⟨root⟩ := t
  cases root with
  | NULL => rfl
  | mk v c l r =>
    have h1 : isBST (.mk v c l r) none none = 1 :=
      isBST_of_ordered _ none none ho (by simp) (by simp)
    have h2 : c = .BLACK := hrb
    subst h2
    have h3 := doubleRedCheck_noParent (.mk v .BLACK l r)
    have h4 : blackDepthCheck (.mk v .BLACK l r) ≠ -1 := by
      rw [blackDepthCheck_of_bal _ hbal]; omega
    simp [RBCheck, h1, h3, h4]

/-! ## Sequences of calls -/

theorem valid_create : Valid RBCreate.root := by decide

theorem applyOp_valid (t : RBTree) (op : Op) (hv : Valid t.root) :
    ∃ t1 status, applyOp t op = some (t1, status) ∧ Valid t1.root := by
  cases op with
  | insert k =>
    by_cases hk : k ∈ nodePrint t.root
    · exact ⟨t, 1, RBInsert_present t k hv.1 hk, hv⟩
    · obtain ⟨t1, _, _, e, h1, _⟩ := RBInsert_absent t k hv hk
      exact ⟨t1, 0, e, h1⟩
  | delete k =>
    by_cases hk : k ∈ nodePrint t.root
    · obtain ⟨t1, _, _, e, h1, _⟩ := RBDelete_present t k hv hk
      exact ⟨t1, 0, e, h1⟩
    · exact ⟨t, 1, RBDelete_absent t k hv.1 hk, hv⟩

theorem runOps_valid (ops : List Op) : ∀ (t : RBTree), Valid t.root →
    ∃ t1, runOps t ops = some t1 ∧ Valid t1.root := by
  induction ops with
  | nil => intro t hv; exact ⟨t, rfl, hv⟩
  | cons op ops ih =>
    intro t hv
    obtain ⟨t1, status, e, h1⟩ := applyOp_valid t op hv
    obtain ⟨t2, e2, h2⟩ := ih t1 h1
    exact ⟨t2, by simp [runOps, e, e2], h2⟩

/-! ## The bounds on nested calls are never reached -/

theorem insertFixupFuel_succ (fuel : Nat) : ∀ (n : RBNode) (ps : List Parent),
    ps.length < fuel → insertFixupFuel (fuel + 1) ⟨n, ps⟩ = insertFixupFuel fuel ⟨n, ps⟩ := by
  induction fuel with
  | zero => intro n ps h; simp at h
  | succ fuel ih =>
    intro n ps hlen
    cases hn : isRed n with
    | false => rw [insertFixupFuel_notRed _ n ps hn, insertFixupFuel_notRed _ n ps hn]
    | true =>
      obtain ⟨v, l, r, rfl⟩ := isRed_true_cases n hn
      cases ps with
      | nil => rfl
      | cons p ps =>
        obtain ⟨pv, pc, pl, s⟩ := p
        cases pc with
        | BLACK => rfl
        | RED =>
          cases ps with
          | nil => rfl
          | cons g rest =>
            obtain ⟨gv, gc, gl, u⟩ := g
            simp only [List.length_cons] at hlen
            cases hu : isRed u with
            | true =>
              obtain ⟨uv, ul, ur, rfl⟩ := isRed_true_cases u hu
              rw [insertFixupFuel_uncleRed, insertFixupFuel_uncleRed]
              exact ih _ _ (by omega)
            | false =>
              cases pl <;> cases gl
              · rw [insertFixupFuel_RR _ _ _ _ _ _ _ _ _ hu, insertFixupFuel_RR _ _ _ _ _ _ _ _ _ hu]
                exact ih _ _ (by omega)
              · rw [insertFixupFuel_LR _ _ _ _ _ _ _ _ _ hu, insertFixupFuel_LR _ _ _ _ _ _ _ _ _ hu]
                exact ih _ _ (by omega)
              · rw [insertFixupFuel_RL _ _ _ _ _ _ _ _ _ hu, insertFixupFuel_RL _ _ _ _ _ _ _ _ _ hu]
                exact ih _ _ (by omega)
              · rw [insertFixupFuel_LL _ _ _ _ _ _ _ _ _ hu, insertFixupFuel_LL _ _ _ _ _ _ _ _ _ hu]
                exact ih _ _ (by omega)

/-- The bound of `insertFixup` is enough on every pointer: more nested calls change
nothing. -/
theorem insertFixupFuel_enough (node : Loc) (fuel : Nat) (h : node.parents.length < fuel) :
    insertFixupFuel fuel node = insertFixup node := by
  obtain ⟨n, ps⟩ := node
  obtain ⟨k, rfl⟩ : ∃ k, fuel = ps.length + 1 + k := ⟨fuel - (ps.length + 1), by
    simp only at h; omega⟩
  induction k with
  | zero => rfl
  | succ k ih =>
    rw [show ps.length + 1 + (k + 1) = (ps.length + 1 + k) + 1 from rfl,
      insertFixupFuel_succ _ n ps (by omega)]
    exact ih (by simp only; omega)

theorem recursiveDeleteFuel_mono (fuel : Nat) : ∀ (node res : Loc),
    recursiveDeleteFuel fuel node = some res → recursiveDeleteFuel (fuel + 1) node = some res := by
  induction fuel with
  | zero => intro node res h; simp [recursiveDeleteFuel] at h
  | succ fuel ih =>
    intro node res h
    obtain ⟨n, ps⟩ := node
    cases n with
    | NULL => exact h
    | mk v c l r =>
      cases r with
      | NULL =>
        cases l with
        | NULL => exact h
        | mk lv lc ll lr =>
          simp only [recursiveDeleteFuel] at h ⊢
          split at h
          · rename_i pv _ _ _ _ heq
            cases hp : findPredecessor ⟨.mk pv c (.mk lv lc ll lr) .NULL, ps⟩ with
            | none => simp [hp] at h
            | some q =>
              simp only [hp, Option.bind_some] at h ⊢
              exact ih _ _ h
          · simp at h
      | mk rv rc rl rr =>
        have e : ∀ f, recursiveDeleteFuel (f + 1) ⟨.mk v c l (.mk rv rc rl rr), ps⟩ =
            match findSuccessor ⟨.mk v c l (.mk rv rc rl rr), ps⟩ with
            | some ⟨.mk sv _ _ _, _⟩ =>
              (findSuccessor ⟨.mk sv c l (.mk rv rc rl rr), ps⟩).bind (recursiveDeleteFuel f)
            | _ => none := by
          intro f
          cases l <;> rfl
        rw [e] at h ⊢
        split at h
        · rename_i sv _ _ _ _ heq
          cases hp : findSuccessor ⟨.mk sv c l (.mk rv rc rl rr), ps⟩ with
          | none => simp [hp] at h
          | some q =>
            simp only [hp, Option.bind_some] at h ⊢
            exact ih _ _ h
        · simp at h

/-- Function `recursiveDelete` returns on every non-null pointer, and its bound is enough:
more nested calls give the same leaf. -/
theorem recursiveDeleteFuel_enough (v : Int) (c : Color) (l r : RBNode) (ps : List Parent)
    (fuel : Nat) (h : height (.mk v c l r) < fuel) :
    ∃ leaf, recursiveDelete ⟨.mk v c l r, ps⟩ = some leaf ∧
      recursiveDeleteFuel fuel ⟨.mk v c l r, ps⟩ = some leaf := by
  obtain ⟨x, cx, ps1, e, _⟩ :=
    recursiveDeleteFuel_spec (height (.mk v c l r) + 1) v c l r ps (by omega)
  refine ⟨_, e, ?_⟩
  obtain ⟨k, rfl⟩ : ∃ k, fuel = height (.mk v c l r) + 1 + k :=
    ⟨fuel - (height (.mk v c l r) + 1), by omega⟩
  clear h
  induction k with
  | zero => exact e
  | succ k ih => exact recursiveDeleteFuel_mono _ _ _ ih

theorem size_fill (p : Parent) (t : RBNode) : size (p.fill t) = size t + (size p.sibling + 1) := by
  cases p with
  | mk v c il s => cases il <;> simp [Parent.fill, size] <;> omega

theorem size_rebuild (t : RBNode) (ps : List Parent) :
    size (rebuild t ps) = size t + pathSize ps := by
  induction ps generalizing t with
  | nil => simp [rebuild, pathSize]
  | cons p ps ih => simp only [rebuild, ih, size_fill, pathSize]; omega

theorem spineLeft_le_size (t : RBNode) : spineLeft t ≤ size t := by
  induction t with
  | NULL => simp [spineLeft, size]
  | mk v c l r ihl _ => simp only [spineLeft, size]; omega

theorem spineRight_le_size (t : RBNode) : spineRight t ≤ size t := by
  induction t with
  | NULL => simp [spineRight, size]
  | mk v c l r _ ihr => simp only [spineRight, size]; omega

theorem isRed_false_cases (t : RBNode) (h : isRed t = false) :
    t = .NULL ∨ ∃ v l r, t = .mk v .BLACK l r := by
  cases t with
  | NULL => exact Or.inl rfl
  | mk v c l r =>
    cases c with
    | BLACK => exact Or.inr ⟨v, l, r, rfl⟩
    | RED => simp [isRed] at h

/-- Below a RED parent, or beside a BLACK sibling with a RED far child, every further call
is made on the same node, and each shortens the chain of near children of the sibling. -/
theorem deleteFixupFuel_sameNode (fuel : Nat) : ∀ (v : Int) (l r : RBNode) (pv : Int)
    (pc : Color) (side : Bool) (S : RBNode) (rest : List Parent),
    (pc = .RED ∨ ∃ sv sl sr, S = .mk sv .BLACK sl sr ∧ isRed (if side then sr else sl) = true) →
    (if side then spineLeft S else spineRight S) + 1 ≤ fuel →
    ∃ ps2, deleteFixupFuel fuel ⟨.mk v .BLACK l r, ⟨pv, pc, side, S⟩ :: rest⟩ =
      some ⟨.mk v .BLACK l r, ps2⟩ := by
  induction fuel with
  | zero => intro v l r pv pc side S rest _ h; omega
  | succ fuel ih =>
    intro v l r pv pc side S rest hcase hf
    cases S with
    | NULL => exact ⟨_, deleteFixupFuel_noSibling _ _ _ _ _ _ _ _⟩
    | mk sv sc sl sr =>
      cases sc with
      | RED =>
        have hpc : pc = .RED := by
          rcases hcase with h | ⟨_, _, _, h, _⟩
          · exact h
          · simp at h
        cases side with
        | true =>
          rw [deleteFixupFuel_R_left]
          simp only [if_true, spineLeft] at hf
          exact ih _ _ _ _ _ _ _ _ (Or.inl rfl) (by simp only [if_true]; omega)
        | false =>
          rw [deleteFixupFuel_R_right]
          simp only [Bool.false_eq_true, if_false, spineRight] at hf
          exact ih _ _ _ _ _ _ _ _ (Or.inl rfl) (by simp only [Bool.false_eq_true, if_false]; omega)
      | BLACK =>
        cases side with
        | true =>
          simp only [if_true, spineLeft] at hf
          cases hnear : isRed sl with
          | true =>
            obtain ⟨nv, nl, nr, rfl⟩ := isRed_true_cases sl hnear
            rw [deleteFixupFuel_RB_left]
            simp only [spineLeft] at hf
            exact ih _ _ _ _ _ _ _ _ (Or.inr ⟨_, _, _, rfl, by simp [isRed]⟩)
              (by simp only [if_true, spineLeft]; omega)
          | false =>
            cases hfar : isRed sr with
            | true =>
              obtain ⟨fv, fl, fr, rfl⟩ := isRed_true_cases sr hfar
              exact ⟨_, deleteFixupFuel_BR_left _ _ _ _ _ _ _ _ _ _ _ _ hnear⟩
            | false =>
              have hpc : pc = .RED := by
                rcases hcase with h | ⟨_, _, _, h, h2⟩
                · exact h
                · simp only [RBNode.mk.injEq, true_and] at h
                  obtain ⟨_, _, rfl⟩ := h
                  simp [hfar] at h2
              subst hpc
              exact ⟨_, deleteFixupFuel_BB_red _ _ _ _ _ _ _ _ _ _ hnear hfar⟩
        | false =>
          simp only [Bool.false_eq_true, if_false, spineRight] at hf
          cases hnear : isRed sr with
          | true =>
            obtain ⟨nv, nl, nr, rfl⟩ := isRed_true_cases sr hnear
            rw [deleteFixupFuel_RB_right]
            simp only [spineRight] at hf
            exact ih _ _ _ _ _ _ _ _ (Or.inr ⟨_, _, _, rfl, by simp [isRed]⟩)
              (by simp only [Bool.false_eq_true, if_false, spineRight]; omega)
          | false =>
            cases hfar : isRed sl with
            | true =>
              obtain ⟨fv, fl, fr, rfl⟩ := isRed_true_cases sl hfar
              exact ⟨_, deleteFixupFuel_BR_right _ _ _ _ _ _ _ _ _ _ _ _ hnear⟩
            | false =>
              have hpc : pc = .RED := by
                rcases hcase with h | ⟨_, _, _, h, h2⟩
                · exact h
                · simp only [RBNode.mk.injEq, true_and] at h
                  obtain ⟨_, rfl, _⟩ := h
                  simp [hfar] at h2
              subst hpc
              exact ⟨_, deleteFixupFuel_BB_red _ _ _ _ _ _ _ _ _ _ hfar hnear⟩

/-- With as many nested calls as `deleteFixup` allows, the fixup returns on every pointer,
whatever the colours of the structure, and returns the pointer to the same node. -/
theorem deleteFixupFuel_returns (fuel : Nat) : ∀ (n : RBNode) (ps : List Parent),
    ps.length + (size n + pathSize ps) + 2 ≤ fuel →
    ∃ ps2, deleteFixupFuel fuel ⟨n, ps⟩ = some ⟨n, ps2⟩ := by
  induction fuel with
  | zero => intro n ps h; omega
  | succ fuel ih =>
    intro n ps hf
    cases n with
    | NULL => exact ⟨_, rfl⟩
    | mk v c l r =>
      cases c with
      | RED => exact ⟨_, rfl⟩
      | BLACK =>
        cases ps with
        | nil => exact ⟨_, rfl⟩
        | cons p rest =>
          obtain ⟨pv, pc, side, S⟩ := p
          simp only [List.length_cons, pathSize, size] at hf
          cases S with
          | NULL => exact ⟨_, deleteFixupFuel_noSibling _ _ _ _ _ _ _ _⟩
          | mk sv sc sl sr =>
            have hl1 := spineLeft_le_size sl
            have hl2 := spineRight_le_size sr
            have hl3 := spineLeft_le_size sr
            have hl4 := spineRight_le_size sl
            simp only [size] at hf
            cases sc with
            | RED =>
              cases side with
              | true =>
                rw [deleteFixupFuel_R_left]
                exact deleteFixupFuel_sameNode fuel _ _ _ _ _ _ _ _ (Or.inl rfl)
                  (by simp only [if_true]; omega)
              | false =>
                rw [deleteFixupFuel_R_right]
                exact deleteFixupFuel_sameNode fuel _ _ _ _ _ _ _ _ (Or.inl rfl)
                  (by simp only [Bool.false_eq_true, if_false]; omega)
            | BLACK =>
              by_cases hcase : pc = .RED ∨ isRed sl = true ∨ isRed sr = true
              · have hc2 : pc = .RED ∨ isRed (if side then sl else sr) = true ∨
                    isRed (if side then sr else sl) = true := by
                  cases side <;> simp only [if_true, Bool.false_eq_true, if_false] <;> tauto
                rcases hc2 with h | h | h
                · exact deleteFixupFuel_sameNode (fuel + 1) _ _ _ _ _ _ _ _ (Or.inl h) (by
                    cases side <;>
                      simp only [if_true, Bool.false_eq_true, if_false, spineLeft, spineRight] <;>
                      omega)
                · cases side with
                  | true =>
                    simp only [if_true] at h
                    obtain ⟨nv, nl, nr, rfl⟩ := isRed_true_cases sl h
                    rw [deleteFixupFuel_RB_left]
                    simp only [size] at hf
                    have := spineLeft_le_size nl
                    exact deleteFixupFuel_sameNode fuel _ _ _ _ _ _ _ _
                      (Or.inr ⟨_, _, _, rfl, by simp [isRed]⟩)
                      (by simp only [if_true, spineLeft]; omega)
                  | false =>
                    simp only [Bool.false_eq_true, if_false] at h
                    obtain ⟨nv, nl, nr, rfl⟩ := isRed_true_cases sr h
                    rw [deleteFixupFuel_RB_right]
                    simp only [size] at hf
                    have := spineRight_le_size nr
                    exact deleteFixupFuel_sameNode fuel _ _ _ _ _ _ _ _
                      (Or.inr ⟨_, _, _, rfl, by simp [isRed]⟩)
                      (by simp only [Bool.false_eq_true, if_false, spineRight]; omega)
                · exact deleteFixupFuel_sameNode (fuel + 1) _ _ _ _ _ _ _ _
                    (Or.inr ⟨_, _, _, rfl, h⟩) (by
                    cases side <;>
                      simp only [if_true, Bool.false_eq_true, if_false, spineLeft, spineRight] <;>
                      omega)
              · simp only [not_or, Bool.not_eq_true] at hcase
                obtain ⟨hpc, hsl, hsr⟩ := hcase
                have hpc : pc = .BLACK := by
                  cases pc with
                  | BLACK => rfl
                  | RED => exact absurd rfl hpc
                subst hpc
                rw [deleteFixupFuel_BB_black _ _ _ _ _ _ _ _ _ _ hsl hsr]
                obtain ⟨ps2, e⟩ := ih
                  (Parent.fill ⟨pv, .BLACK, side, .mk sv .RED sl sr⟩ (.mk v .BLACK l r)) rest (by
                    rw [size_fill]
                    simp only [size]
                    omega)
                rw [e]
                cases side <;> exact ⟨_, rfl⟩

theorem deleteFixupFuel_mono (fuel : Nat) : ∀ (node res : Loc),
    deleteFixupFuel fuel node = some res → deleteFixupFuel (fuel + 1) node = some res := by
  induction fuel with
  | zero => intro node res h; simp [deleteFixupFuel] at h
  | succ fuel ih =>
    intro node res h
    obtain ⟨n, ps⟩ := node
    cases n with
    | NULL => exact h
    | mk v c l r =>
      cases c with
      | RED => exact h
      | BLACK =>
        cases ps with
        | nil => exact h
        | cons p rest =>
          obtain ⟨pv, pc, side, S⟩ := p
          cases S with
          | NULL => exact h
          | mk sv sc sl sr =>
            cases sc with
            | RED =>
              cases side with
              | true =>
                rw [deleteFixupFuel_R_left] at h ⊢
                exact ih _ _ h
              | false =>
                rw [deleteFixupFuel_R_right] at h ⊢
                exact ih _ _ h
            | BLACK =>
              cases side with
              | true =>
                cases hnear : isRed sl with
                | true =>
                  obtain ⟨nv, nl, nr, rfl⟩ := isRed_true_cases sl hnear
                  rw [deleteFixupFuel_RB_left] at h ⊢
                  exact ih _ _ h
                | false =>
                  cases hfar : isRed sr with
                  | true =>
                    obtain ⟨fv, fl, fr, rfl⟩ := isRed_true_cases sr hfar
                    rw [deleteFixupFuel_BR_left _ _ _ _ _ _ _ _ _ _ _ _ hnear] at h ⊢
                    exact h
                  | false =>
                    cases pc with
                    | RED =>
                      rw [deleteFixupFuel_BB_red _ _ _ _ _ _ _ _ _ _ hnear hfar] at h ⊢
                      exact h
                    | BLACK =>
                      rw [deleteFixupFuel_BB_black _ _ _ _ _ _ _ _ _ _ hnear hfar] at h ⊢
                      cases hq : deleteFixupFuel fuel
                          ⟨Parent.fill ⟨pv, .BLACK, true, .mk sv .RED sl sr⟩ (.mk v .BLACK l r), rest⟩ with
                      | none => simp [hq] at h
                      | some q =>
                        rw [ih _ _ hq]
                        simpa [hq] using h
              | false =>
                cases hnear : isRed sr with
                | true =>
                  obtain ⟨nv, nl, nr, rfl⟩ := isRed_true_cases sr hnear
                  rw [deleteFixupFuel_RB_right] at h ⊢
                  exact ih _ _ h
                | false =>
                  cases hfar : isRed sl with
                  | true =>
                    obtain ⟨fv, fl, fr, rfl⟩ := isRed_true_cases sl hfar
                    rw [deleteFixupFuel_BR_right _ _ _ _ _ _ _ _ _ _ _ _ hnear] at h ⊢
                    exact h
                  | false =>
                    cases pc with
                    | RED =>
                      rw [deleteFixupFuel_BB_red _ _ _ _ _ _ _ _ _ _ hfar hnear] at h ⊢
                      exact h
                    | BLACK =>
                      rw [deleteFixupFuel_BB_black _ _ _ _ _ _ _ _ _ _ hfar hnear] at h ⊢
                      cases hq : deleteFixupFuel fuel
                          ⟨Parent.fill ⟨pv, .BLACK, false, .mk sv .RED sl sr⟩ (.mk v .BLACK l r), rest⟩ with
                      | none => simp [hq] at h
                      | some q =>
                        rw [ih _ _ hq]
                        simpa [hq] using h

/-- Function `deleteFixup` returns on every pointer, with the pointer to the same node, and
its bound is enough: more nested calls give the same result. -/
theorem deleteFixupFuel_enough (node : Loc) (fuel : Nat)
    (h : node.parents.length + size node.root + 2 ≤ fuel) :
    ∃ ps2, deleteFixup node = some ⟨node.node, ps2⟩ ∧
      deleteFixupFuel fuel node = some ⟨node.node, ps2⟩ := by
  obtain ⟨n, ps⟩ := node
  simp only [Loc.root] at h
  obtain ⟨ps2, e⟩ := deleteFixupFuel_returns (ps.length + size (rebuild n ps) + 2) n ps (by
    rw [size_rebuild])
  refine ⟨ps2, e, ?_⟩
  obtain ⟨k, rfl⟩ : ∃ k, fuel = ps.length + size (rebuild n ps) + 2 + k :=
    ⟨fuel - (ps.length + size (rebuild n ps) + 2), by omega⟩
  clear h
  induction k with
  | zero => exact e
  | succ k ih => exact deleteFixupFuel_mono _ _ _ ih

/-! ## The tree of the tests -/

theorem tenKeys_built :
    runOps RBCreate [.insert 0, .insert 1, .insert 2, .insert 3, .insert 4, .insert 5,
      .insert 6, .insert 7, .insert 8, .insert 9] = some tenKeys := by
  decide

/-! ## The properties of the specification -/

/-- Claim C1: for every tree that satisfies the four red-black invariants (strict BST
ordering, root BLACK, no RED node with a RED parent, uniform black-height) and every key,
`RBInsert` (with `makeNode` succeeding) returns, and the tree after the call satisfies the
four invariants again. -/
theorem RBInsert_preserves_invariants (t : RBTree) (k : Int) (hv : Valid t.root) :
    ∃ t1 status, RBInsert t k = some (t1, status) ∧
      Ordered t1.root ∧ RootBlack t1.root ∧ NoDoubleRed t1.root ∧ UniformBlack t1.root := by
  by_cases hk : k ∈ nodePrint t.root
  · exact ⟨t, 1, RBInsert_present t k hv.1 hk, hv⟩
  · obtain ⟨t1, _, _, e, h1, _⟩ := RBInsert_absent t k hv hk
    exact ⟨t1, 0, e, h1⟩

theorem RBInsert_preserves_invariants_witness :
    Valid tenKeys.root ∧ ∃ t1 status, RBInsert tenKeys 10 = some (t1, status) ∧
      Ordered t1.root ∧ RootBlack t1.root ∧ NoDoubleRed t1.root ∧ UniformBlack t1.root :=
  ⟨by decide, RBInsert_preserves_invariants tenKeys 10 (by decide)⟩

/-- Claim C2: for every tree that satisfies the four red-black invariants and every key,
`RBDelete` returns, and the tree after the call satisfies the four invariants again (all
cases of `deleteFixup`, in both mirrors, are covered: the tree is arbitrary). -/
theorem RBDelete_preserves_invariants (t : RBTree) (k : Int) (hv : Valid t.root) :
    ∃ t1 status, RBDelete t k = some (t1, status) ∧
      Ordered t1.root ∧ RootBlack t1.root ∧ NoDoubleRed t1.root ∧ UniformBlack t1.root := by
  by_cases hk : k ∈ nodePrint t.root
  · obtain ⟨t1, _, _, e, h1, _⟩ := RBDelete_present t k hv hk
    exact ⟨t1, 0, e, h1⟩
  · exact ⟨t, 1, RBDelete_absent t k hv.1 hk, hv⟩

theorem RBDelete_preserves_invariants_witness :
    Valid tenKeys.root ∧ ∃ t1 status, RBDelete tenKeys 0 = some (t1, status) ∧
      Ordered t1.root ∧ RootBlack t1.root ∧ NoDoubleRed t1.root ∧ UniformBlack t1.root :=
  ⟨by decide, RBDelete_preserves_invariants tenKeys 0 (by decide)⟩

/-- Claim C3: for every valid red-black tree and every key not stored in it, `RBInsert`
returns 0 and the printed (in-order) key sequence of the result is that of the tree with
the key put at its sorted position: the sequence is split in two, the keys below `k` and the
keys above `k`, and `k` stands between them; the keys held are those held before and `k`. -/
theorem RBInsert_new_key (t : RBTree) (k : Int) (hv : Valid t.root)
    (hk : ¬ HasKey t.root k) :
    ∃ t1, RBInsert t k = some (t1, 0) ∧
      (∃ L1 L2, RBPrint t = L1 ++ L2 ∧ RBPrint t1 = L1 ++ k :: L2 ∧
        (∀ x ∈ L1, x < k) ∧ (∀ x ∈ L2, k < x)) ∧
      RBPrint t1 = List.orderedInsert (· ≤ ·) k (RBPrint t) ∧
      (∀ x, HasKey t1.root x ↔ x = k ∨ HasKey t.root x) := by
  rw [hasKey_iff_mem] at hk
  obtain ⟨t1, L1, L2, e, _, h1, h2, h3, h4⟩ := RBInsert_absent t k hv hk
  refine ⟨t1, e, ⟨L1, L2, h1, h2, h3, h4⟩, ?_, ?_⟩
  · simp only [RBPrint]
    rw [h1, h2, orderedInsert_between k L1 L2 h3 h4]
  · intro x
    rw [hasKey_iff_mem, hasKey_iff_mem, h1, h2]
    simp only [List.mem_append, List.mem_cons]
    tauto

theorem RBInsert_new_key_witness :
    Valid tenKeys.root ∧ ¬ HasKey tenKeys.root 10 ∧
    ∃ t1, RBInsert tenKeys 10 = some (t1, 0) ∧
      (∃ L1 L2, RBPrint tenKeys = L1 ++ L2 ∧ RBPrint t1 = L1 ++ 10 :: L2 ∧
        (∀ x ∈ L1, x < 10) ∧ (∀ x ∈ L2, 10 < x)) ∧
      RBPrint t1 = List.orderedInsert (· ≤ ·) 10 (RBPrint tenKeys) ∧
      (∀ x, HasKey t1.root x ↔ x = 10 ∨ HasKey tenKeys.root x) :=
  ⟨by decide, by decide, RBInsert_new_key tenKeys 10 (by decide) (by decide)⟩

/-- Claim C4: for every valid red-black tree and every key stored in it, `RBDelete`
returns 0 and the printed (in-order) key sequence of the result is that of the tree with
the key taken out; every other key is kept, and each key of the result occurs once. -/
theorem RBDelete_stored_key (t : RBTree) (k : Int) (hv : Valid t.root)
    (hk : HasKey t.root k) :
    ∃ t1, RBDelete t k = some (t1, 0) ∧
      (∃ L1 L2, RBPrint t = L1 ++ k :: L2 ∧ RBPrint t1 = L1 ++ L2) ∧
      RBPrint t1 = (RBPrint t).erase k ∧
      (∀ x, HasKey t1.root x ↔ HasKey t.root x ∧ x ≠ k) ∧
      (RBPrint t1).Nodup := by
  rw [hasKey_iff_mem] at hk
  obtain ⟨t1, L1, L2, e, hv1, h1, h2⟩ := RBDelete_present t k hv hk
  have hs : (L1 ++ k :: L2).Pairwise (· < ·) := by
    rw [← h1]
    exact (ordered_iff_sorted _).mp hv.1
  have hnd : (L1 ++ k :: L2).Nodup := hs.imp (fun h => ne_of_lt h)
  have hk1 : k ∉ L1 := fun hm => by
    have := (List.pairwise_append.mp hs).2.2 k hm k (by simp)
    omega
  have hk2 : k ∉ L2 := fun hm => by
    have := (List.pairwise_cons.mp (List.pairwise_append.mp hs).2.1).1 k hm
    omega
  refine ⟨t1, e, ⟨L1, L2, h1, h2⟩, ?_, ?_, ?_⟩
  · simp only [RBPrint]
    rw [h1, h2, List.erase_append_right _ hk1, List.erase_cons_head]
  · intro x
    rw [hasKey_iff_mem, hasKey_iff_mem, h1, h2]
    simp only [List.mem_append, List.mem_cons]
    constructor
    · rintro (h | h)
      · exact ⟨Or.inl h, fun hx => hk1 (hx ▸ h)⟩
      · exact ⟨Or.inr (Or.inr h), fun hx => hk2 (hx ▸ h)⟩
    · rintro ⟨h | h | h, hne⟩
      · exact Or.inl h
      · exact absurd h hne
      · exact Or.inr h
  · simp only [RBPrint]
    rw [h2]
    exact hnd.sublist (List.Sublist.append (List.Sublist.refl _) (List.sublist_cons_self _ _))

theorem RBDelete_stored_key_witness :
    Valid tenKeys.root ∧ HasKey tenKeys.root 3 ∧
    ∃ t1, RBDelete tenKeys 3 = some (t1, 0) ∧
      (∃ L1 L2, RBPrint tenKeys = L1 ++ 3 :: L2 ∧ RBPrint t1 = L1 ++ L2) ∧
      RBPrint t1 = (RBPrint tenKeys).erase 3 ∧
      (∀ x, HasKey t1.root x ↔ HasKey tenKeys.root x ∧ x ≠ 3) ∧
      (RBPrint t1).Nodup :=
  ⟨by decide, by decide, RBDelete_stored_key tenKeys 3 (by decide) (by decide)⟩

/-- Claim C5: for every tree with strict BST ordering, whatever the colours of its nodes,
and every key, `RBSearch` returns 1 if some node holds the key and 0 otherwise. -/
theorem RBSearch_correct (t : RBTree) (k : Int) (ho : Ordered t.root) :
    (RBSearch t k = 1 ↔ HasKey t.root k) ∧ (RBSearch t k = 0 ↔ ¬ HasKey t.root k) := by
  rw [RBSearch_eq t k ho, hasKey_iff_mem]
  by_cases hk : k ∈ nodePrint t.root <;> simp [hk]

theorem RBSearch_correct_witness :
    Ordered tenKeys.root ∧
      (RBSearch tenKeys 7 = 1 ↔ HasKey tenKeys.root 7) ∧
      (RBSearch tenKeys 7 = 0 ↔ ¬ HasKey tenKeys.root 7) :=
  ⟨by decide, RBSearch_correct tenKeys 7 (by decide)⟩

/-- Claim C6, round trip: on a valid red-black tree, after `RBInsert` of a key returned 0
`RBSearch` of that key returns 1, and after `RBDelete` of a key returned 0 `RBSearch` of
that key returns 0. -/
theorem search_round_trip (t t1 : RBTree) (k : Int) (hv : Valid t.root) :
    (RBInsert t k = some (t1, 0) → RBSearch t1 k = 1) ∧
    (RBDelete t k = some (t1, 0) → RBSearch t1 k = 0) := by
  constructor
  · intro h
    by_cases hk : k ∈ nodePrint t.root
    · rw [RBInsert_present t k hv.1 hk] at h
      simp at h
    · obtain ⟨t2, L1, L2, e, hv2, _, h2, _⟩ := RBInsert_absent t k hv hk
      rw [e] at h
      simp only [Option.some.injEq, Prod.mk.injEq, and_true] at h
      subst h
      rw [RBSearch_eq _ k hv2.1, h2]
      simp
  · intro h
    by_cases hk : k ∈ nodePrint t.root
    · obtain ⟨t2, L1, L2, e, hv2, h1, h2⟩ := RBDelete_present t k hv hk
      rw [e] at h
      simp only [Option.some.injEq, Prod.mk.injEq, and_true] at h
      subst h
      have hs : (L1 ++ k :: L2).Pairwise (· < ·) := by
        rw [← h1]
        exact (ordered_iff_sorted _).mp hv.1
      have hk1 : k ∉ L1 := fun hm => by
        have := (List.pairwise_append.mp hs).2.2 k hm k (by simp)
        omega
      have hk2 : k ∉ L2 := fun hm => by
        have := (List.pairwise_cons.mp (List.pairwise_append.mp hs).2.1).1 k hm
        omega
      rw [RBSearch_eq _ k hv2.1, h2]
      simp [hk1, hk2]
    · rw [RBDelete_absent t k hv.1 hk] at h
      simp at h

theorem search_round_trip_witness :
    (Valid tenKeys.root ∧
      RBInsert tenKeys 10 = some (⟨.mk 3 .BLACK
        (.mk 1 .BLACK (.mk 0 .BLACK .NULL .NULL) (.mk 2 .BLACK .NULL .NULL))
        (.mk 5 .BLACK (.mk 4 .BLACK .NULL .NULL)
          (.mk 7 .RED (.mk 6 .BLACK .NULL .NULL)
            (.mk 9 .BLACK (.mk 8 .RED .NULL .NULL) (.mk 10 .RED .NULL .NULL))))⟩, 0) ∧
      RBSearch ⟨.mk 3 .BLACK
        (.mk 1 .BLACK (.mk 0 .BLACK .NULL .NULL) (.mk 2 .BLACK .NULL .NULL))
        (.mk 5 .BLACK (.mk 4 .BLACK .NULL .NULL)
          (.mk 7 .RED (.mk 6 .BLACK .NULL .NULL)
            (.mk 9 .BLACK (.mk 8 .RED .NULL .NULL) (.mk 10 .RED .NULL .NULL))))⟩ 10 = 1) ∧
    (RBDelete tenKeys 9 = some (⟨.mk 3 .BLACK
        (.mk 1 .BLACK (.mk 0 .BLACK .NULL .NULL) (.mk 2 .BLACK .NULL .NULL))
        (.mk 5 .BLACK (.mk 4 .BLACK .NULL .NULL)
          (.mk 7 .RED (.mk 6 .BLACK .NULL .NULL) (.mk 8 .BLACK .NULL .NULL)))⟩, 0) ∧
      RBSearch ⟨.mk 3 .BLACK
        (.mk 1 .BLACK (.mk 0 .BLACK .NULL .NULL) (.mk 2 .BLACK .NULL .NULL))
        (.mk 5 .BLACK (.mk 4 .BLACK .NULL .NULL)
          (.mk 7 .RED (.mk 6 .BLACK .NULL .NULL) (.mk 8 .BLACK .NULL .NULL)))⟩ 9 = 0) :=
  ⟨⟨by decide, by decide, (search_round_trip tenKeys _ 10 (by decide)).1 (by decide)⟩,
    by decide, (search_round_trip tenKeys _ 9 (by decide)).2 (by decide)⟩

/-- Claim C7: for every valid red-black tree and every key already stored in it,
`RBInsert` returns 1 and leaves the tree as it was (same shape, keys, colours and root);
the new node stays without a parent, and the call of `insertFixup` on it changes that node
alone. -/
theorem RBInsert_duplicate_unchanged (t : RBTree) (k : Int) (hv : Valid t.root)
    (hk : HasKey t.root k) :
    RBInsert t k = some (t, 1) ∧
      newNodeLoc t.root [] k (makeNode k) = ⟨makeNode k, []⟩ ∧
      insertFixup ⟨makeNode k, []⟩ = some (.mk k .BLACK .NULL .NULL) := by
  rw [hasKey_iff_mem] at hk
  refine ⟨RBInsert_present t k hv.1 hk, ?_, rfl⟩
  rcases nodeInsert_cases k .RED .NULL .NULL t.root false [] with ⟨_, _, h3⟩ | ⟨h1, _⟩
  · exact h3
  · exact absurd h1 ((nodeSearch_mem t.root [] k hv.1).mpr hk)

theorem RBInsert_duplicate_unchanged_witness :
    Valid tenKeys.root ∧ HasKey tenKeys.root 4 ∧ RBInsert tenKeys 4 = some (tenKeys, 1) ∧
      newNodeLoc tenKeys.root [] 4 (makeNode 4) = ⟨makeNode 4, []⟩ ∧
      insertFixup ⟨makeNode 4, []⟩ = some (.mk 4 .BLACK .NULL .NULL) :=
  ⟨by decide, by decide, RBInsert_duplicate_unchanged tenKeys 4 (by decide) (by decide)⟩

/-- Claim C8: for every tree with strict BST ordering and every key not stored in it,
`RBDelete` returns 1 and leaves the tree as it was (same shape, keys, colours and root). -/
theorem RBDelete_absent_unchanged (t : RBTree) (k : Int) (ho : Ordered t.root)
    (hk : ¬ HasKey t.root k) : RBDelete t k = some (t, 1) := by
  rw [hasKey_iff_mem] at hk
  exact RBDelete_absent t k ho hk

theorem RBDelete_absent_unchanged_witness :
    Ordered tenKeys.root ∧ ¬ HasKey tenKeys.root 11 ∧ RBDelete tenKeys 11 = some (tenKeys, 1) :=
  ⟨by decide, by decide, RBDelete_absent_unchanged tenKeys 11 (by decide) (by decide)⟩

/-- Claim C9: every sequence of `RBInsert` and `RBDelete` calls started on the empty tree
runs to its end, and the keys of the tree it leaves are printed (`RBPrint`, in-order) in
strictly ascending order, whatever the order of the calls. -/
theorem traversal_strictly_ascending (ops : List Op) :
    ∃ t, runOps RBCreate ops = some t ∧ (RBPrint t).Pairwise (· < ·) := by
  obtain ⟨t, e, hv⟩ := runOps_valid ops RBCreate valid_create
  exact ⟨t, e, (ordered_iff_sorted _).mp hv.1⟩

/-- Claim C10: started on the tree of `RBCreate`, after each call of every sequence of
`RBInsert` and `RBDelete` calls with arbitrary keys (duplicate inserts and deletes of absent
keys included) `RBCheck` returns 0: this holds for the tree after the first `n` calls, for
every `n`. -/
theorem RBCheck_after_each_call (ops : List Op) (n : Nat) :
    ∃ t, runOps RBCreate (ops.take n) = some t ∧ RBCheck t = 0 := by
  obtain ⟨t, e, hv⟩ := runOps_valid (ops.take n) RBCreate valid_create
  exact ⟨t, e, RBCheck_of_valid t hv⟩

/-! ## What the checks of `RBCheck` return -/

theorem doubleRedCheck_of_noDoubleRed (t : RBNode) (pc : Option Color) (h : NoDoubleRed t)
    (hp : pc = some .RED → isRed t = false) : doubleRedCheck t pc = 0 := by
  induction t generalizing pc with
  | NULL => rfl
  | mk v c l r ihl ihr =>
    obtain ⟨h1, h2, h3⟩ := h
    have hc : ¬ (c = .RED ∧ pc = some .RED) := by
      rintro ⟨rfl, hpc⟩
      have := hp hpc
      simp [isRed] at this
    have el := ihl (some c) h2 (fun hc => (h1 (by simpa using hc)).1)
    simp [doubleRedCheck, hc, el]

theorem isBST_zero_or_one (t : RBNode) (lo hi : Option Int) :
    isBST t lo hi = 0 ∨ isBST t lo hi = 1 := by
  cases t with
  | NULL => right; rfl
  | mk v c l r =>
    simp only [isBST]
    split_ifs <;> simp

theorem isBST_mk (v : Int) (c : Color) (l r : RBNode) (lo hi : Option Int) :
    isBST (.mk v c l r) lo hi = 1 ↔ (∀ m, lo = some m → m ≤ v) ∧ (∀ m, hi = some m → v ≤ m) ∧
      isBST l lo (some v) = 1 ∧ isBST r (some v) hi = 1 := by
  have hl : isBST l lo (some v) = 0 ∨ isBST l lo (some v) = 1 := isBST_zero_or_one _ _ _
  have hr : isBST r (some v) hi = 0 ∨ isBST r (some v) hi = 1 := isBST_zero_or_one _ _ _
  cases lo <;> cases hi <;> rcases hl with hl | hl <;> rcases hr with hr | hr <;>
    simp [isBST, hl, hr]
  split_ifs <;> (simp; omega)

/-- What `isBST` enforces: the ordering with equal keys let through, between the bounds. -/
theorem isBST_eq_one_iff (t : RBNode) (lo hi : Option Int) :
    isBST t lo hi = 1 ↔ WeaklyOrdered t ∧ (∀ m, lo = some m → ∀ x ∈ nodePrint t, m ≤ x) ∧
      (∀ m, hi = some m → ∀ x ∈ nodePrint t, x ≤ m) := by
  induction t generalizing lo hi with
  | NULL => simp [isBST, WeaklyOrdered, nodePrint]
  | mk v c l r ihl ihr =>
    rw [isBST_mk, ihl, ihr]
    simp only [WeaklyOrdered, nodePrint, List.mem_append, List.mem_cons]
    constructor
    · rintro ⟨a1, a2, ⟨w1, b1, b2⟩, w2, b3, b4⟩
      refine ⟨⟨b2 v rfl, b3 v rfl, w1, w2⟩, ?_, ?_⟩
      · intro m hm x hx
        rcases hx with hx | rfl | hx
        · exact b1 m hm x hx
        · exact a1 m hm
        · exact le_trans (a1 m hm) (b3 v rfl x hx)
      · intro m hm x hx
        rcases hx with hx | rfl | hx
        · exact le_trans (b2 v rfl x hx) (a2 m hm)
        · exact a2 m hm
        · exact b4 m hm x hx
    · rintro ⟨⟨o1, o2, w1, w2⟩, b1, b2⟩
      refine ⟨fun m hm => b1 m hm v (Or.inr (Or.inl rfl)),
        fun m hm => b2 m hm v (Or.inr (Or.inl rfl)),
        ⟨w1, fun m hm x hx => b1 m hm x (Or.inl hx), ?_⟩, w2, ?_,
        fun m hm x hx => b2 m hm x (Or.inr (Or.inr hx))⟩
      · intro m hm x hx
        cases hm
        exact o1 x hx
      · intro m hm x hx
        cases hm
        exact o2 x hx

theorem bal_iff_not_unevenNode (t : RBNode) : Bal t ↔ ¬ UnevenNode t := by
  induction t with
  | NULL => simp [Bal, UnevenNode]
  | mk v c l r ihl ihr =>
    simp only [Bal, UnevenNode, not_or, ← ihl, ← ihr]
    constructor
    · rintro ⟨h1, h2, h3⟩
      refine ⟨?_, h2, h3⟩
      rintro ⟨a, ha, b, hb, hab⟩
      rw [blackCounts_of_bal l h2 a ha, blackCounts_of_bal r h3 b hb] at hab
      exact hab h1
    · rintro ⟨h1, h2, h3⟩
      refine ⟨?_, h2, h3⟩
      by_contra hne
      exact h1 ⟨bh l, bh_mem_blackCounts l, bh r, bh_mem_blackCounts r, hne⟩

theorem blackDepthCheck_of_not_bal (t : RBNode) (h : ¬ Bal t) : blackDepthCheck t = -1 := by
  induction t with
  | NULL => exact absurd trivial h
  | mk v c l r ihl ihr =>
    by_cases hl : Bal l
    · by_cases hr : Bal r
      · have hne : bh l ≠ bh r := fun e => h ⟨e, hl, hr⟩
        have el := blackDepthCheck_of_bal l hl
        have er := blackDepthCheck_of_bal r hr
        have e1 : ¬ (blackDepthCheck l = -1 ∨ blackDepthCheck r = -1) := by
          rw [el, er]; omega
        have e2 : blackDepthCheck l ≠ blackDepthCheck r := by
          rw [el, er]; omega
        simp only [blackDepthCheck, e1, e2, if_false, ne_eq, not_false_eq_true, if_true]
      · simp [blackDepthCheck, ihr hr]
    · simp [blackDepthCheck, ihl hl]

/-! ## Inserting a list of keys and deleting them all -/

theorem nodePrint_eq_nil (t : RBNode) (h : nodePrint t = []) : t = .NULL := by
  cases t with
  | NULL => rfl
  | mk v c l r => simp [nodePrint] at h

theorem runOps_insert_keys (ks : List Int) : ∀ (t : RBTree), Valid t.root →
    ∃ t1, runOps t (ks.map Op.insert) = some t1 ∧ Valid t1.root ∧
      ∀ x, x ∈ nodePrint t1.root ↔ x ∈ ks ∨ x ∈ nodePrint t.root := by
  induction ks with
  | nil => intro t hv; exact ⟨t, rfl, hv, by simp⟩
  | cons k ks ih =>
    intro t hv
    by_cases hk : k ∈ nodePrint t.root
    · obtain ⟨t2, e2, hv2, hm2⟩ := ih t hv
      refine ⟨t2, ?_, hv2, ?_⟩
      · simp [runOps, applyOp, RBInsert_present t k hv.1 hk, e2]
      · intro x
        rw [hm2]
        simp only [List.mem_cons]
        constructor
        · rintro (h | h)
          · exact Or.inl (Or.inr h)
          · exact Or.inr h
        · rintro ((rfl | h) | h)
          · exact Or.inr hk
          · exact Or.inl h
          · exact Or.inr h
    · obtain ⟨t1, L1, L2, e, hv1, h1, h2, _, _⟩ := RBInsert_absent t k hv hk
      obtain ⟨t2, e2, hv2, hm2⟩ := ih t1 hv1
      refine ⟨t2, ?_, hv2, ?_⟩
      · simp [runOps, applyOp, e, e2]
      · intro x
        rw [hm2, h2, h1]
        simp only [List.mem_cons, List.mem_append]
        tauto

theorem runStatuses_delete_keys (ds : List Int) : ∀ (t : RBTree), Valid t.root → ds.Nodup →
    (∀ x, x ∈ nodePrint t.root ↔ x ∈ ds) →
    runStatuses t (ds.map Op.delete) = some (⟨.NULL⟩, List.replicate ds.length 0) := by
  induction ds with
  | nil =>
    intro t _ _ hm
    have : nodePrint t.root = [] := List.eq_nil_iff_forall_not_mem.mpr (fun x hx => by
      simpa using (hm x).mp hx)
    obtain ⟨root⟩ := t
    simp only at this
    rw [nodePrint_eq_nil root this]
    rfl
  | cons d ds ih =>
    intro t hv hnd hm
    obtain ⟨hd, hnd1⟩ := List.nodup_cons.mp hnd
    have hk : d ∈ nodePrint t.root := (hm d).mpr (by simp)
    obtain ⟨t1, L1, L2, e, hv1, h1, h2⟩ := RBDelete_present t d hv hk
    have hs : (L1 ++ d :: L2).Pairwise (· < ·) := by
      rw [← h1]
      exact (ordered_iff_sorted _).mp hv.1
    have hk1 : d ∉ L1 := fun hmem => by
      have := (List.pairwise_append.mp hs).2.2 d hmem d (by simp)
      omega
    have hk2 : d ∉ L2 := fun hmem => by
      have := (List.pairwise_cons.mp (List.pairwise_append.mp hs).2.1).1 d hmem
      omega
    have hm1 : ∀ x, x ∈ nodePrint t1.root ↔ x ∈ ds := by
      intro x
      have hx := hm x
      rw [h1] at hx
      rw [h2]
      simp only [List.mem_append, List.mem_cons] at hx ⊢
      constructor
      · intro h
        rcases hx.mp (by tauto) with rfl | h3
        · rcases h with h | h
          · exact absurd h hk1
          · exact absurd h hk2
        · exact h3
      · intro h
        have hne : x ≠ d := fun e => hd (e ▸ h)
        rcases hx.mpr (Or.inr h) with h3 | h3 | h3
        · exact Or.inl h3
        · exact absurd h3 hne
        · exact Or.inr h3
    have := ih t1 hv1 hnd1 hm1
    simp [runStatuses, applyOp, e, this, List.replicate_succ]

/-! ## The reduction to a leaf, step by step -/

theorem leftmost_parents (t : RBNode) :
    ∃ rel, ∀ ps, (leftmost t ps).parents = rel ++ ps := by
  induction t with
  | NULL => exact ⟨[], fun ps => rfl⟩
  | mk v c l r ihl _ =>
    cases l with
    | NULL => exact ⟨[], fun ps => rfl⟩
    | mk lv lc ll lr =>
      obtain ⟨rel, h⟩ := ihl
      refine ⟨rel ++ [⟨v, c, true, r⟩], fun ps => ?_⟩
      simp only [leftmost, h, List.append_assoc, List.singleton_append]

theorem rightmost_parents (t : RBNode) :
    ∃ rel, ∀ ps, (rightmost t ps).parents = rel ++ ps := by
  induction t with
  | NULL => exact ⟨[], fun ps => rfl⟩
  | mk v c l r _ ihr =>
    cases r with
    | NULL => exact ⟨[], fun ps => rfl⟩
    | mk rv rc rl rr =>
      obtain ⟨rel, h⟩ := ihr
      refine ⟨rel ++ [⟨v, c, false, l⟩], fun ps => ?_⟩
      simp only [rightmost, h, List.append_assoc, List.singleton_append]

/-- A call of `recursiveDelete` on a node with a right child, whatever its left child:
the node takes the key of its successor and the call continues on the successor. -/
theorem recursiveDeleteFuel_rightChild (fuel : Nat) (v : Int) (c : Color) (l : RBNode)
    (rv : Int) (rc : Color) (rl rr : RBNode) (ps : List Parent) (sv : Int) (sc : Color)
    (sr : RBNode) (h : (leftmost (.mk rv rc rl rr) []).node = .mk sv sc .NULL sr) :
    recursiveDeleteFuel (fuel + 1) ⟨.mk v c l (.mk rv rc rl rr), ps⟩ =
      recursiveDeleteFuel fuel (leftmost (.mk rv rc rl rr) (⟨sv, c, false, l⟩ :: ps)) := by
  obtain ⟨sv1, sc1, sr1, _, hs⟩ := leftmost_spec (.mk rv rc rl rr) (by simp)
  obtain ⟨_, e, _⟩ := hs []
  rw [e] at h
  simp only [RBNode.mk.injEq, true_and] at h
  obtain ⟨rfl, rfl, rfl⟩ := h
  obtain ⟨ps0, e0, _⟩ := hs (⟨v, c, false, l⟩ :: ps)
  cases l <;> simp [recursiveDeleteFuel, findSuccessor, e0]

/-- A call of `recursiveDelete` on a node with a left child and no right child: the node
takes the key of its predecessor and the call continues on the predecessor. -/
theorem recursiveDeleteFuel_leftChildOnly (fuel : Nat) (v : Int) (c : Color)
    (lv : Int) (lc : Color) (ll lr : RBNode) (ps : List Parent) (pv : Int) (pc : Color)
    (pl : RBNode) (h : (rightmost (.mk lv lc ll lr) []).node = .mk pv pc pl .NULL) :
    recursiveDeleteFuel (fuel + 1) ⟨.mk v c (.mk lv lc ll lr) .NULL, ps⟩ =
      recursiveDeleteFuel fuel (rightmost (.mk lv lc ll lr) (⟨pv, c, true, .NULL⟩ :: ps)) := by
  obtain ⟨pv1, pc1, pl1, _, hs⟩ := rightmost_spec (.mk lv lc ll lr) (by simp)
  obtain ⟨_, e, _⟩ := hs []
  rw [e] at h
  simp only [RBNode.mk.injEq, and_true] at h
  obtain ⟨rfl, rfl, rfl⟩ := h
  obtain ⟨ps0, e0, _⟩ := hs (⟨v, c, true, .NULL⟩ :: ps)
  simp [recursiveDeleteFuel, findPredecessor, e0]

theorem recursiveDeleteFuel_parents (fuel : Nat) : ∀ (v : Int) (c : Color) (l r : RBNode)
    (ps : List Parent) (leaf : Loc),
    recursiveDeleteFuel fuel ⟨.mk v c l r, ps⟩ = some leaf → ∃ rel, leaf.parents = rel ++ ps := by
  induction fuel with
  | zero => intro v c l r ps leaf h; simp [recursiveDeleteFuel] at h
  | succ fuel ih =>
    intro v c l r ps leaf h
    cases r with
    | NULL =>
      cases l with
      | NULL =>
        simp only [recursiveDeleteFuel, Option.some.injEq] at h
        exact ⟨[], by rw [← h]; rfl⟩
      | mk lv lc ll lr =>
        obtain ⟨pv, pc, pl, _, hs⟩ := rightmost_spec (.mk lv lc ll lr) (by simp)
        obtain ⟨_, e, _⟩ := hs []
        rw [recursiveDeleteFuel_leftChildOnly fuel v c lv lc ll lr ps pv pc pl (by rw [e])] at h
        obtain ⟨ps1, e1, _⟩ := hs (⟨pv, c, true, .NULL⟩ :: ps)
        obtain ⟨rel2, h2⟩ := rightmost_parents (.mk lv lc ll lr)
        have hp := h2 (⟨pv, c, true, .NULL⟩ :: ps)
        rw [e1] at h hp
        obtain ⟨rel1, h1⟩ := ih _ _ _ _ _ _ h
        simp only at hp
        exact ⟨rel1 ++ rel2 ++ [⟨pv, c, true, .NULL⟩], by rw [h1, hp]; simp⟩
    | mk rv rc rl rr =>
      obtain ⟨sv, sc, sr, _, hs⟩ := leftmost_spec (.mk rv rc rl rr) (by simp)
      obtain ⟨_, e, _⟩ := hs []
      rw [recursiveDeleteFuel_rightChild fuel v c l rv rc rl rr ps sv sc sr (by rw [e])] at h
      obtain ⟨ps1, e1, _⟩ := hs (⟨sv, c, false, l⟩ :: ps)
      obtain ⟨rel2, h2⟩ := leftmost_parents (.mk rv rc rl rr)
      have hp := h2 (⟨sv, c, false, l⟩ :: ps)
      rw [e1] at h hp
      obtain ⟨rel1, h1⟩ := ih _ _ _ _ _ _ h
      simp only at hp
      exact ⟨rel1 ++ rel2 ++ [⟨sv, c, false, l⟩], by rw [h1, hp]; simp⟩

/-! ## The cases of `deleteFixup` in a valid tree -/

theorem locOK_of_rebuild (ps : List Parent) : ∀ (t : RBNode), RootBlack (rebuild t ps) →
    NoDoubleRed (rebuild t ps) → Bal (rebuild t ps) → LocOK t ps := by
  induction ps with
  | nil => intro t h1 h2 h3; exact locOK_root t h1 h2 h3
  | cons p ps ih =>
    intro t h1 h2 h3
    have h := ih (p.fill t) h1 h2 h3
    obtain ⟨pv, pc, side, S⟩ := p
    cases side with
    | true => exact locOK_left pv pc t S ps (by simpa [Parent.fill] using h)
    | false => exact locOK_right pv pc S t ps (by simpa [Parent.fill] using h)

theorem locOK_of_valid (t : RBNode) (ps : List Parent) (hv : Valid (rebuild t ps)) :
    LocOK t ps := by
  rw [valid_iff] at hv
  exact locOK_of_rebuild ps t hv.2.1 hv.2.2.1 hv.2.2.2

theorem deleteFixupFuel_mono_le (n m : Nat) (node res : Loc) (h : deleteFixupFuel n node = some res)
    (hle : n ≤ m) : deleteFixupFuel m node = some res := by
  obtain ⟨k, rfl⟩ : ∃ k, m = n + k := ⟨m - n, by omega⟩
  clear hle
  induction k with
  | zero => exact h
  | succ k ih => exact deleteFixupFuel_mono _ _ _ ih

/-- The case code of the sibling, read off the structure around a node. -/
theorem findCaseCode_sibling (v : Int) (c : Color) (l r : RBNode) (pv : Int) (pc : Color)
    (side : Bool) (sv : Int) (sc : Color) (sl sr : RBNode) (rest : List Parent) :
    findCaseCode (findSibling ⟨.mk v c l r, ⟨pv, pc, side, .mk sv sc sl sr⟩ :: rest⟩) =
      some (if sc = .RED then .R
        else if isRed (if side then sl else sr) = true then .RB
        else if isRed (if side then sr else sl) = true then .BR
        else .BB) := by
  cases side <;> cases sc <;> simp [findSibling, findCaseCode] <;> split_ifs <;> rfl

theorem findCaseCode_noSibling (v : Int) (c : Color) (l r : RBNode) (pv : Int) (pc : Color)
    (side : Bool) (rest : List Parent) :
    findCaseCode (findSibling ⟨.mk v c l r, ⟨pv, pc, side, .NULL⟩ :: rest⟩) = none := rfl

theorem findCaseCode_root (t : RBNode) : findCaseCode (findSibling ⟨t, []⟩) = none := by
  cases t <;> rfl

/-- Claim C11: `RBCheck` returns 0 for the empty tree and for every tree that satisfies the
four invariants (strict BST ordering, root BLACK, no RED node with a RED parent, uniform
black-height): it never rejects a valid red-black tree. -/
theorem RBCheck_accepts_valid (t : RBTree) (h : t.root = .NULL ∨ Valid t.root) :
    RBCheck t = 0 := by
  rcases h with h | h
  · obtain ⟨root⟩ := t
    simp only at h
    subst h
    rfl
  · exact RBCheck_of_valid t h

theorem RBCheck_accepts_valid_witness :
    (tenKeys.root = .NULL ∨ Valid tenKeys.root) ∧ RBCheck tenKeys = 0 ∧ RBCheck RBCreate = 0 :=
  ⟨Or.inr (by decide), RBCheck_accepts_valid tenKeys (Or.inr (by decide)),
    RBCheck_accepts_valid RBCreate (Or.inl rfl)⟩

/-- Claim C12, at the failing input: in `doubleRedTree` the RED node 0 has the RED parent 1,
and `doubleRedCheck` on the root returns 0 and `RBCheck` returns 0, where the claim has -1
for both.  (`doubleRedCheck_noParent`: on a root `doubleRedCheck` never returns -1.) -/
theorem doubleRedCheck_misses_double_red :
    ¬ NoDoubleRed doubleRedTree.root ∧ Ordered doubleRedTree.root ∧
      doubleRedCheck doubleRedTree.root none = 0 ∧ RBCheck doubleRedTree = 0 := by
  decide

/-- Claim C13, at the failing input: `duplicateKeyTree` holds the key 1 twice, in the root
and in its left subtree, so the key in the left subtree is not strictly less; `isBST`
returns 1 and `RBCheck` returns 0, where the claim has 0 and -1.  (`isBST_eq_one_iff`:
`isBST` rejects a key on the wrong side only when it is strictly greater or less.) -/
theorem isBST_accepts_duplicate_key :
    ¬ Ordered duplicateKeyTree.root ∧ isBST duplicateKeyTree.root none none = 1 ∧
      RBCheck duplicateKeyTree = 0 := by
  decide

/-- Claim C14, at the failing input: when `makeNode` returns NULL, `RBInsert` on the empty
tree returns 0, where the claim has -1, and on a non-empty tree `nodeInsert` reads
`newNode->value` through the null pointer, so there is no result at all. -/
theorem RBInsert_allocation_failure :
    RBInsertNode RBCreate 5 .NULL = some (RBCreate, 0) ∧ RBInsertNode tenKeys 5 .NULL = none := by
  decide

/-- Claim C15: for every list of distinct keys, inserting all of them into the empty tree
and then deleting each of them once, in any order, makes every `RBDelete` return 0 and
leaves the empty tree (root absent), on which `RBCheck` returns 0. -/
theorem insert_all_delete_all (ks ds : List Int) (hk : ks.Nodup) (hd : ds.Perm ks) :
    ∃ t, runOps RBCreate (ks.map Op.insert) = some t ∧
      runStatuses t (ds.map Op.delete) = some (⟨.NULL⟩, List.replicate ds.length 0) ∧
      RBCheck ⟨.NULL⟩ = 0 := by
  obtain ⟨t, e, hv, hm⟩ := runOps_insert_keys ks RBCreate valid_create
  refine ⟨t, e, ?_, rfl⟩
  apply runStatuses_delete_keys ds t hv (hd.nodup_iff.mpr hk)
  intro x
  rw [hm, hd.mem_iff]
  simp [RBCreate, nodePrint]

theorem insert_all_delete_all_witness :
    ([7, 3, 9, 1, 5] : List Int).Nodup ∧ ([1, 9, 5, 7, 3] : List Int).Perm [7, 3, 9, 1, 5] ∧
    ∃ t, runOps RBCreate (([7, 3, 9, 1, 5] : List Int).map Op.insert) = some t ∧
      runStatuses t (([1, 9, 5, 7, 3] : List Int).map Op.delete) =
        some (⟨.NULL⟩, List.replicate ([1, 9, 5, 7, 3] : List Int).length 0) ∧
      RBCheck ⟨.NULL⟩ = 0 :=
  ⟨by decide, by decide, insert_all_delete_all _ _ (by decide) (by decide)⟩

/-- Claim C16 as stated fails at `twoChildrenTree`: its root 2 has a left child, and its
predecessor holds the key 1; `recursiveDelete` on the root returns the successor node as
the leaf, below a root that now holds the key 3 of the successor.  So it is not the case
that every node with a left child takes the key of its predecessor. -/
theorem recursiveDelete_two_children_counterexample :
    findPredecessor ⟨twoChildrenTree.root, []⟩ =
        some ⟨.mk 1 .RED .NULL .NULL, [⟨2, .BLACK, true, .mk 3 .RED .NULL .NULL⟩]⟩ ∧
      recursiveDelete ⟨twoChildrenTree.root, []⟩ =
        some ⟨.mk 3 .RED .NULL .NULL, [⟨3, .BLACK, false, .mk 1 .RED .NULL .NULL⟩]⟩ ∧
      ¬ ∀ (v : Int) (c : Color) (l r : RBNode) (ps : List Parent) (pv : Int) (pc : Color)
          (pl pr : RBNode) (ps1 : List Parent) (leaf : Loc), l ≠ .NULL →
          findPredecessor ⟨.mk v c l r, ps⟩ = some ⟨.mk pv pc pl pr, ps1⟩ →
          recursiveDelete ⟨.mk v c l r, ps⟩ = some leaf →
          ∃ rel, leaf.parents = rel ++ ⟨pv, c, true, r⟩ :: ps := by
  refine ⟨by decide, by decide, ?_⟩
  intro h
  obtain ⟨rel, hrel⟩ := h 2 .BLACK (.mk 1 .RED .NULL .NULL) (.mk 3 .RED .NULL .NULL) [] 1 .RED
    .NULL .NULL [⟨2, .BLACK, true, .mk 3 .RED .NULL .NULL⟩]
    ⟨.mk 3 .RED .NULL .NULL, [⟨3, .BLACK, false, .mk 1 .RED .NULL .NULL⟩]⟩ (by simp)
    (by decide) (by decide)
  have h2 := congrArg List.getLast? hrel
  simp at h2

/-- Claim C16 as amended: in the reduction to a leaf (`recursiveDelete`), whenever the
current node has a right child its key is replaced by that of its in-order successor (the
leftmost node below the right child), whatever its left child, and the call continues on
the successor; the predecessor (the rightmost node below the left child) is used only when
the node has a left child and no right child.  In the structure of the returned leaf the
node is an ancestor of the leaf and holds that key. -/
theorem recursiveDelete_successor_first :
    (∀ (v : Int) (c : Color) (l : RBNode) (rv : Int) (rc : Color) (rl rr : RBNode)
        (ps : List Parent), ∃ sv sc sr ps1,
      findSuccessor ⟨.mk v c l (.mk rv rc rl rr), ps⟩ = some ⟨.mk sv sc .NULL sr, ps1⟩ ∧
      (∀ fuel, recursiveDeleteFuel (fuel + 1) ⟨.mk v c l (.mk rv rc rl rr), ps⟩ =
        (findSuccessor ⟨.mk sv c l (.mk rv rc rl rr), ps⟩).bind (recursiveDeleteFuel fuel)) ∧
      ∃ leaf rel, recursiveDelete ⟨.mk v c l (.mk rv rc rl rr), ps⟩ = some leaf ∧
        leaf.parents = rel ++ ⟨sv, c, false, l⟩ :: ps) ∧
    (∀ (v : Int) (c : Color) (lv : Int) (lc : Color) (ll lr : RBNode) (ps : List Parent),
      ∃ pv pc pl ps1,
      findPredecessor ⟨.mk v c (.mk lv lc ll lr) .NULL, ps⟩ = some ⟨.mk pv pc pl .NULL, ps1⟩ ∧
      (∀ fuel, recursiveDeleteFuel (fuel + 1) ⟨.mk v c (.mk lv lc ll lr) .NULL, ps⟩ =
        (findPredecessor ⟨.mk pv c (.mk lv lc ll lr) .NULL, ps⟩).bind
          (recursiveDeleteFuel fuel)) ∧
      ∃ leaf rel, recursiveDelete ⟨.mk v c (.mk lv lc ll lr) .NULL, ps⟩ = some leaf ∧
        leaf.parents = rel ++ ⟨pv, c, true, .NULL⟩ :: ps) := by
  constructor
  · intro v c l rv rc rl rr ps
    obtain ⟨sv, sc, sr, _, hs⟩ := leftmost_spec (.mk rv rc rl rr) (by simp)
    obtain ⟨_, e, _⟩ := hs []
    obtain ⟨ps0, e0, _⟩ := hs (⟨v, c, false, l⟩ :: ps)
    obtain ⟨ps1, e1, _⟩ := hs (⟨sv, c, false, l⟩ :: ps)
    have hstep := fun fuel =>
      recursiveDeleteFuel_rightChild fuel v c l rv rc rl rr ps sv sc sr (by rw [e])
    refine ⟨sv, sc, sr, ps0, by simp [findSuccessor, e0], ?_, ?_⟩
    · intro fuel
      rw [hstep]
      simp [findSuccessor]
    · obtain ⟨leaf, hleaf, _⟩ := recursiveDeleteFuel_enough v c l (.mk rv rc rl rr) ps
        (height (.mk v c l (.mk rv rc rl rr)) + 1) (by omega)
      have h := hleaf
      rw [recursiveDelete, hstep, e1] at h
      obtain ⟨rel1, h1⟩ := recursiveDeleteFuel_parents _ _ _ _ _ _ _ h
      obtain ⟨rel2, h2⟩ := leftmost_parents (.mk rv rc rl rr)
      have hp := h2 (⟨sv, c, false, l⟩ :: ps)
      rw [e1] at hp
      simp only at hp
      exact ⟨leaf, rel1 ++ rel2, hleaf, by rw [h1, hp]; simp⟩
  · intro v c lv lc ll lr ps
    obtain ⟨pv, pc, pl, _, hs⟩ := rightmost_spec (.mk lv lc ll lr) (by simp)
    obtain ⟨_, e, _⟩ := hs []
    obtain ⟨ps0, e0, _⟩ := hs (⟨v, c, true, .NULL⟩ :: ps)
    obtain ⟨ps1, e1, _⟩ := hs (⟨pv, c, true, .NULL⟩ :: ps)
    have hstep := fun fuel =>
      recursiveDeleteFuel_leftChildOnly fuel v c lv lc ll lr ps pv pc pl (by rw [e])
    refine ⟨pv, pc, pl, ps0, by simp [findPredecessor, e0], ?_, ?_⟩
    · intro fuel
      rw [hstep]
      simp [findPredecessor]
    · obtain ⟨leaf, hleaf, _⟩ := recursiveDeleteFuel_enough v c (.mk lv lc ll lr) .NULL ps
        (height (.mk v c (.mk lv lc ll lr) .NULL) + 1) (by omega)
      have h := hleaf
      rw [recursiveDelete, hstep, e1] at h
      obtain ⟨rel1, h1⟩ := recursiveDeleteFuel_parents _ _ _ _ _ _ _ h
      obtain ⟨rel2, h2⟩ := rightmost_parents (.mk lv lc ll lr)
      have hp := h2 (⟨pv, c, true, .NULL⟩ :: ps)
      rw [e1] at hp
      simp only at hp
      exact ⟨leaf, rel1 ++ rel2, hleaf, by rw [h1, hp]; simp⟩

/-- Claim C18: in a valid red-black tree `deleteFixup` on a BLACK node (a BLACK leaf in
particular) returns, after at most three calls more than the node has ancestors.  By case
of the sibling: case BR makes no nested call; case RB is followed by exactly one further
call; case R is followed by a call on the same node, one level lower, whose sibling is BLACK
(not case R again) and whose case BB does not continue on the parent, three calls in all at
most; case BB makes no nested call below a RED parent and otherwise continues with a call
on the parent only, a pointer with one ancestor less. -/
theorem deleteFixup_terminates (v : Int) (l r : RBNode) (ps : List Parent)
    (hv : Valid (rebuild (.mk v .BLACK l r) ps)) :
    (∃ res, deleteFixup ⟨.mk v .BLACK l r, ps⟩ = some res ∧
      ∀ fuel, ps.length + 3 ≤ fuel → deleteFixupFuel fuel ⟨.mk v .BLACK l r, ps⟩ = some res) ∧
    (findCaseCode (findSibling ⟨.mk v .BLACK l r, ps⟩) = some .BR →
      ∃ res, deleteFixupFuel 1 ⟨.mk v .BLACK l r, ps⟩ = some res) ∧
    (findCaseCode (findSibling ⟨.mk v .BLACK l r, ps⟩) = some .RB →
      deleteFixupFuel 1 ⟨.mk v .BLACK l r, ps⟩ = none ∧
      ∃ res, deleteFixupFuel 2 ⟨.mk v .BLACK l r, ps⟩ = some res) ∧
    (findCaseCode (findSibling ⟨.mk v .BLACK l r, ps⟩) = some .R →
      deleteFixupFuel 1 ⟨.mk v .BLACK l r, ps⟩ = none ∧
      (∃ res, deleteFixupFuel 3 ⟨.mk v .BLACK l r, ps⟩ = some res) ∧
      ∃ node1 code, siblingRedCase ⟨.mk v .BLACK l r, ps⟩ = some node1 ∧
        node1.node = .mk v .BLACK l r ∧ node1.parents.length = ps.length + 1 ∧
        findCaseCode (findSibling node1) = some code ∧ code ≠ .R ∧
        (code = .BB → ∃ res, deleteFixupFuel 1 node1 = some res)) ∧
    (findCaseCode (findSibling ⟨.mk v .BLACK l r, ps⟩) = some .BB →
      ∃ p rest sv sl sr, ps = p :: rest ∧ p.sibling = .mk sv .BLACK sl sr ∧
        (p.color = .RED → ∃ res, deleteFixupFuel 1 ⟨.mk v .BLACK l r, ps⟩ = some res) ∧
        (p.color = .BLACK → ∀ fuel, deleteFixupFuel (fuel + 1) ⟨.mk v .BLACK l r, ps⟩ =
          (deleteFixupFuel fuel
              ⟨Parent.fill ⟨p.value, .BLACK, p.isLeft, .mk sv .RED sl sr⟩ (.mk v .BLACK l r),
                rest⟩).bind
            (fun parent => if p.isLeft then parent.goLeft else parent.goRight))) := by
  obtain ⟨_, _, b3, b4, _, b6, _⟩ := locOK_of_valid _ _ hv
  simp only [bh, blackInc, if_true] at b3
  refine ⟨?_, ?_⟩
  · obtain ⟨ps2, e, _⟩ := deleteFixupFuel_colors (ps.length + 3) v l r ps (bh l) (le_refl _)
      b3 b4 b6
    refine ⟨_, ?_, fun fuel hf => deleteFixupFuel_mono_le _ _ _ _ e hf⟩
    have hsz := size_rebuild_pos (.mk v .BLACK l r) ps (by simp [size])
    exact deleteFixupFuel_mono_le _ _ _ _ e (by simp only [Loc.root]; omega)
  · cases ps with
    | nil => simp [findCaseCode_root]
    | cons p rest =>
      obtain ⟨pv, pc, side, S⟩ := p
      cases S with
      | NULL => simp [findCaseCode_noSibling]
      | mk sv sc sl sr =>
        obtain ⟨⟨hb1, hb2, hb3⟩, hb4, hb5⟩ := b3
        obtain ⟨⟨hn1, hn2, hn3⟩, hn4, hn5⟩ := b4
        cases sc with
        | RED =>
          have hcode : findCaseCode (findSibling
              ⟨.mk v .BLACK l r, ⟨pv, pc, side, .mk sv .RED sl sr⟩ :: rest⟩) = some .R := by
            rw [findCaseCode_sibling]; simp
          rw [hcode]
          refine ⟨fun h => (by cases h), fun h => (by cases h), fun _ => ?_, fun h => (by cases h)⟩
          have hpc : pc = .BLACK := by
            cases pc with
            | BLACK => rfl
            | RED => have := (hn4 rfl).1; simp [isRed] at this
          subst hpc
          simp only [bh, blackInc] at hb4
          have hnl := (hn1 rfl).1
          have hnr := (hn1 rfl).2
          cases side with
          | true =>
            rcases isRed_false_cases sl hnl with rfl | ⟨a, b, d, rfl⟩
            · simp [bh] at hb4
            · obtain ⟨ps2, e, _⟩ :=
                deleteFixupFuel_blackSibling 2 v l r pv .RED true a b d
                  (⟨sv, .BLACK, true, sr⟩ :: rest) (bh l) (le_refl _) (Or.inl rfl)
                  (by simp_all [PathBal, Bal, bh, blackInc])
                  (by simp_all [PathNoRR, NoDoubleRed, isRed, parentRed])
                  (pathRootBlack_cons2 b6 rfl)
              refine ⟨(by rw [deleteFixupFuel_R_left]; simp [deleteFixupFuel]),
                ⟨_, (by rw [deleteFixupFuel_R_left]; exact e)⟩,
                ⟨.mk v .BLACK l r, ⟨pv, .RED, true, .mk a .BLACK b d⟩ ::
                  ⟨sv, .BLACK, true, sr⟩ :: rest⟩, _, rfl, rfl, (by simp),
                findCaseCode_sibling _ _ _ _ _ _ _ _ _ _ _ _, ?_, ?_⟩
              · simp only [reduceCtorEq, if_false]
                split_ifs <;> simp
              · simp only [reduceCtorEq, if_false, if_true]
                intro hcode
                have h1 : isRed b = false := by
                  by_contra hc
                  simp only [Bool.not_eq_false] at hc
                  simp [hc] at hcode
                have h2 : isRed d = false := by
                  by_contra hc
                  simp only [Bool.not_eq_false] at hc
                  simp [h1, hc] at hcode
                exact ⟨_, deleteFixupFuel_BB_red _ _ _ _ _ _ _ _ _ _ h1 h2⟩
          | false =>
            rcases isRed_false_cases sr hnr with rfl | ⟨a, b, d, rfl⟩
            · simp_all [bh]
            · obtain ⟨ps2, e, _⟩ :=
                deleteFixupFuel_blackSibling 2 v l r pv .RED false a b d
                  (⟨sv, .BLACK, false, sl⟩ :: rest) (bh l) (le_refl _) (Or.inl rfl)
                  (by simp_all [PathBal, Bal, bh, blackInc])
                  (by simp_all [PathNoRR, NoDoubleRed, isRed, parentRed])
                  (pathRootBlack_cons2 b6 rfl)
              refine ⟨(by rw [deleteFixupFuel_R_right]; simp [deleteFixupFuel]),
                ⟨_, (by rw [deleteFixupFuel_R_right]; exact e)⟩,
                ⟨.mk v .BLACK l r, ⟨pv, .RED, false, .mk a .BLACK b d⟩ ::
                  ⟨sv, .BLACK, false, sl⟩ :: rest⟩, _, rfl, rfl, (by simp),
                findCaseCode_sibling _ _ _ _ _ _ _ _ _ _ _ _, ?_, ?_⟩
              · simp only [reduceCtorEq, if_false]
                split_ifs <;> simp
              · simp only [reduceCtorEq, if_false, Bool.false_eq_true]
                intro hcode
                have h1 : isRed d = false := by
                  by_contra hc
                  simp only [Bool.not_eq_false] at hc
                  simp [hc] at hcode
                have h2 : isRed b = false := by
                  by_contra hc
                  simp only [Bool.not_eq_false] at hc
                  simp [h1, hc] at hcode
                exact ⟨_, deleteFixupFuel_BB_red _ _ _ _ _ _ _ _ _ _ h2 h1⟩
        | BLACK =>
          have hall : ∀ hcase : pc = .RED ∨ isRed sl = true ∨ isRed sr = true,
              ∃ res, deleteFixupFuel 2 ⟨.mk v .BLACK l r, ⟨pv, pc, side, .mk sv .BLACK sl sr⟩ :: rest⟩ =
                some res := fun hcase => by
            obtain ⟨ps2, e, _⟩ := deleteFixupFuel_blackSibling 2 v l r pv pc side sv sl sr rest
              (bh l) (le_refl _) hcase ⟨⟨hb1, hb2, hb3⟩, hb4, hb5⟩ ⟨⟨hn1, hn2, hn3⟩, hn4, hn5⟩ b6
            exact ⟨_, e⟩
          rw [findCaseCode_sibling]
          simp only [reduceCtorEq, if_false]
          cases side with
          | true =>
            simp only [if_true]
            cases hnear : isRed sl with
            | true =>
              simp only [if_true]
              refine ⟨fun h => (by cases h), fun _ => ?_, fun h => (by cases h), fun h => (by cases h)⟩
              obtain ⟨nv, nl, nr, rfl⟩ := isRed_true_cases sl hnear
              exact ⟨(by rw [deleteFixupFuel_RB_left]; simp [deleteFixupFuel]),
                hall (Or.inr (Or.inl hnear))⟩
            | false =>
              cases hfar : isRed sr with
              | true =>
                simp only [Bool.false_eq_true, if_false, if_true]
                refine ⟨fun _ => ?_, fun h => (by cases h), fun h => (by cases h), fun h => (by cases h)⟩
                obtain ⟨fv, fl, fr, rfl⟩ := isRed_true_cases sr hfar
                exact ⟨_, deleteFixupFuel_BR_left _ _ _ _ _ _ _ _ _ _ _ _ hnear⟩
              | false =>
                simp only [Bool.false_eq_true, if_false]
                refine ⟨fun h => (by cases h), fun h => (by cases h), fun h => (by cases h), fun _ => ?_⟩
                refine ⟨_, _, sv, sl, sr, rfl, rfl, ?_, ?_⟩
                · intro hpc
                  simp only at hpc
                  subst hpc
                  exact ⟨_, deleteFixupFuel_BB_red _ _ _ _ _ _ _ _ _ _ hnear hfar⟩
                · intro hpc fuel
                  simp only at hpc
                  subst hpc
                  exact deleteFixupFuel_BB_black _ _ _ _ _ _ _ _ _ _ hnear hfar
          | false =>
            simp only [Bool.false_eq_true, if_false]
            cases hnear : isRed sr with
            | true =>
              simp only [if_true]
              refine ⟨fun h => (by cases h), fun _ => ?_, fun h => (by cases h), fun h => (by cases h)⟩
              obtain ⟨nv, nl, nr, rfl⟩ := isRed_true_cases sr hnear
              exact ⟨(by rw [deleteFixupFuel_RB_right]; simp [deleteFixupFuel]),
                hall (Or.inr (Or.inr hnear))⟩
            | false =>
              cases hfar : isRed sl with
              | true =>
                simp only [Bool.false_eq_true, if_false, if_true]
                refine ⟨fun _ => ?_, fun h => (by cases h), fun h => (by cases h), fun h => (by cases h)⟩
                obtain ⟨fv, fl, fr, rfl⟩ := isRed_true_cases sl hfar
                exact ⟨_, deleteFixupFuel_BR_right _ _ _ _ _ _ _ _ _ _ _ _ hnear⟩
              | false =>
                simp only [Bool.false_eq_true, if_false]
                refine ⟨fun h => (by cases h), fun h => (by cases h), fun h => (by cases h), fun _ => ?_⟩
                refine ⟨_, _, sv, sl, sr, rfl, rfl, ?_, ?_⟩
                · intro hpc
                  simp only at hpc
                  subst hpc
                  exact ⟨_, deleteFixupFuel_BB_red _ _ _ _ _ _ _ _ _ _ hfar hnear⟩
                · intro hpc fuel
                  simp only at hpc
                  subst hpc
                  exact deleteFixupFuel_BB_black _ _ _ _ _ _ _ _ _ _ hfar hnear

theorem deleteFixup_terminates_witness :
    Valid (rebuild (.mk 0 .BLACK .NULL .NULL)
        [⟨1, .BLACK, true, .mk 2 .BLACK .NULL .NULL⟩,
          ⟨3, .BLACK, true, .mk 5 .BLACK (.mk 4 .BLACK .NULL .NULL)
            (.mk 7 .RED (.mk 6 .BLACK .NULL .NULL)
              (.mk 8 .BLACK .NULL (.mk 9 .RED .NULL .NULL)))⟩]) ∧
      ∃ res, deleteFixup ⟨.mk 0 .BLACK .NULL .NULL,
          [⟨1, .BLACK, true, .mk 2 .BLACK .NULL .NULL⟩,
            ⟨3, .BLACK, true, .mk 5 .BLACK (.mk 4 .BLACK .NULL .NULL)
              (.mk 7 .RED (.mk 6 .BLACK .NULL .NULL)
                (.mk 8 .BLACK .NULL (.mk 9 .RED .NULL .NULL)))⟩]⟩ = some res ∧
        ∀ fuel, 2 + 3 ≤ fuel → deleteFixupFuel fuel ⟨.mk 0 .BLACK .NULL .NULL,
          [⟨1, .BLACK, true, .mk 2 .BLACK .NULL .NULL⟩,
            ⟨3, .BLACK, true, .mk 5 .BLACK (.mk 4 .BLACK .NULL .NULL)
              (.mk 7 .RED (.mk 6 .BLACK .NULL .NULL)
                (.mk 8 .BLACK .NULL (.mk 9 .RED .NULL .NULL)))⟩]⟩ = some res :=
  ⟨by decide, (deleteFixup_terminates 0 .NULL .NULL _ (by decide)).1⟩

/-- Claim C19: in a valid red-black tree, for a BLACK node with a parent whose sibling is
BLACK with a RED near child (the child on the side of the node), whatever the far child:
the case code is RB, and after `siblingBlackNearChildRedCase` the case code computed for the
same node is BR, so that the following call of `deleteFixup` makes no nested call. -/
theorem nearChildRed_then_BR (v : Int) (l r : RBNode) (pv : Int) (pc : Color) (side : Bool)
    (sv : Int) (sl sr : RBNode) (rest : List Parent)
    (hv : Valid (rebuild (.mk v .BLACK l r) (⟨pv, pc, side, .mk sv .BLACK sl sr⟩ :: rest)))
    (hnear : isRed (if side then sl else sr) = true) :
    findCaseCode (findSibling
        ⟨.mk v .BLACK l r, ⟨pv, pc, side, .mk sv .BLACK sl sr⟩ :: rest⟩) = some .RB ∧
      ∃ node1, siblingBlackNearChildRedCase
          ⟨.mk v .BLACK l r, ⟨pv, pc, side, .mk sv .BLACK sl sr⟩ :: rest⟩ = some node1 ∧
        node1.node = .mk v .BLACK l r ∧
        findCaseCode (findSibling node1) = some .BR ∧
        ∃ res, deleteFixupFuel 1 node1 = some res := by
  obtain ⟨_, _, _, b4, _, _, _⟩ := locOK_of_valid _ _ hv
  obtain ⟨⟨_, hn2, hn3⟩, _, _⟩ := b4
  refine ⟨by rw [findCaseCode_sibling]; simp [hnear], ?_⟩
  cases side with
  | true =>
    simp only [if_true] at hnear
    obtain ⟨nv, nl, nr, rfl⟩ := isRed_true_cases sl hnear
    have hnl : isRed nl = false := (hn2.1 rfl).1
    refine ⟨⟨.mk v .BLACK l r, ⟨pv, pc, true, .mk nv .BLACK nl (.mk sv .RED nr sr)⟩ :: rest⟩,
      rfl, rfl, ?_, _, deleteFixupFuel_BR_left _ _ _ _ _ _ _ _ _ _ _ _ hnl⟩
    have hfar : isRed (.mk sv .RED nr sr) = true := rfl
    rw [findCaseCode_sibling]
    simp [hnl, hfar]
  | false =>
    simp only [Bool.false_eq_true, if_false] at hnear
    obtain ⟨nv, nl, nr, rfl⟩ := isRed_true_cases sr hnear
    have hnr : isRed nr = false := (hn3.1 rfl).2
    refine ⟨⟨.mk v .BLACK l r, ⟨pv, pc, false, .mk nv .BLACK (.mk sv .RED sl nl) nr⟩ :: rest⟩,
      rfl, rfl, ?_, _, deleteFixupFuel_BR_right _ _ _ _ _ _ _ _ _ _ _ _ hnr⟩
    have hfar : isRed (.mk sv .RED sl nl) = true := rfl
    rw [findCaseCode_sibling]
    simp [hnr, hfar]

theorem nearChildRed_then_BR_witness :
    Valid (rebuild (.mk 1 .BLACK .NULL .NULL)
        [⟨2, .BLACK, true, .mk 5 .BLACK (.mk 4 .RED .NULL .NULL) (.mk 6 .RED .NULL .NULL)⟩]) ∧
      isRed (if true then (.mk 4 .RED .NULL .NULL) else (.mk 6 .RED .NULL .NULL)) = true ∧
      findCaseCode (findSibling ⟨.mk 1 .BLACK .NULL .NULL,
        [⟨2, .BLACK, true, .mk 5 .BLACK (.mk 4 .RED .NULL .NULL) (.mk 6 .RED .NULL .NULL)⟩]⟩) =
          some .RB ∧
      ∃ node1, siblingBlackNearChildRedCase ⟨.mk 1 .BLACK .NULL .NULL,
          [⟨2, .BLACK, true, .mk 5 .BLACK (.mk 4 .RED .NULL .NULL) (.mk 6 .RED .NULL .NULL)⟩]⟩ =
            some node1 ∧
        node1.node = .mk 1 .BLACK .NULL .NULL ∧
        findCaseCode (findSibling node1) = some .BR ∧
        ∃ res, deleteFixupFuel 1 node1 = some res :=
  ⟨by decide, by decide,
    nearChildRed_then_BR 1 .NULL .NULL 2 .BLACK true 5 (.mk 4 .RED .NULL .NULL)
      (.mk 6 .RED .NULL .NULL) [] (by decide) (by decide)⟩

/-- Claim C20: for every subtree, `blackDepthCheck` returns -1 if and only if some node in
it has left and right subtrees with different black-heights; otherwise it returns 1 plus the
number of BLACK nodes on any path from the root of the subtree to an absent child (an absent
child yields 1, a BLACK node adds 1, a RED node adds 0). -/
theorem blackDepthCheck_spec (t : RBNode) :
    (blackDepthCheck t = -1 ↔ UnevenNode t) ∧
      (¬ UnevenNode t → ∀ n ∈ blackCounts t, blackDepthCheck t = (n : Int) + 1) ∧
      blackDepthCheck .NULL = 1 ∧
      (∀ v l r, ¬ UnevenNode (.mk v .BLACK l r) →
        blackDepthCheck (.mk v .BLACK l r) = blackDepthCheck l + 1) ∧
      (∀ v l r, ¬ UnevenNode (.mk v .RED l r) →
        blackDepthCheck (.mk v .RED l r) = blackDepthCheck l) := by
  have key : ∀ t, ¬ UnevenNode t → blackDepthCheck t = (bh t : Int) + 1 := fun t h =>
    blackDepthCheck_of_bal t ((bal_iff_not_unevenNode t).mpr h)
  refine ⟨?_, ?_, rfl, ?_, ?_⟩
  · by_cases hb : Bal t
    · have hu := (bal_iff_not_unevenNode t).mp hb
      rw [blackDepthCheck_of_bal t hb]
      constructor
      · intro h; omega
      · intro h; exact absurd h hu
    · have hu : UnevenNode t := by
        by_contra h
        exact hb ((bal_iff_not_unevenNode t).mpr h)
      simp [blackDepthCheck_of_not_bal t hb, hu]
  · intro hu n hn
    have hb := (bal_iff_not_unevenNode t).mpr hu
    rw [blackDepthCheck_of_bal t hb, blackCounts_of_bal t hb n hn]
  · intro v l r hu
    have hl : ¬ UnevenNode l := fun h => hu (Or.inr (Or.inl h))
    rw [key _ hu, key _ hl]
    simp [bh, blackInc]
  · intro v l r hu
    have hl : ¬ UnevenNode l := fun h => hu (Or.inr (Or.inl h))
    rw [key _ hu, key _ hl]
    simp [bh, blackInc]

theorem blackDepthCheck_spec_witness :
    ¬ UnevenNode tenKeys.root ∧ blackDepthCheck tenKeys.root ≠ -1 ∧
      (∀ n ∈ blackCounts tenKeys.root, blackDepthCheck tenKeys.root = (n : Int) + 1) ∧
      UnevenNode (.mk 2 .BLACK (.mk 1 .BLACK .NULL .NULL) .NULL) ∧
      blackDepthCheck (.mk 2 .BLACK (.mk 1 .BLACK .NULL .NULL) .NULL) = -1 :=
  ⟨by decide, fun h => absurd ((blackDepthCheck_spec tenKeys.root).1.mp h) (by decide),
    (blackDepthCheck_spec tenKeys.root).2.1 (by decide), by decide,
    (blackDepthCheck_spec _).1.mpr (by decide)⟩

/-! ## The rotations on the memory -/

theorem Memory.store_cell (m : Memory) (a : Nat) (c : Cell) (b : Nat) :
    (m.store a c).cell b = if b = a then some c else m.cell b := rfl

theorem Memory.store_root (m : Memory) (a : Nat) (c : Cell) : (m.store a c).root = m.root := rfl

theorem ANode.ptr_mem_addrs (t : ANode) (a : Nat) (h : t.ptr = some a) : a ∈ t.addrs := by
  cases t with
  | NULL => simp [ANode.ptr] at h
  | mk b v c l r =>
    simp only [ANode.ptr, Option.some.injEq] at h
    subst h
    simp [ANode.addrs]

theorem parentsPtr_mem (ps : List AParent) (a : Nat) (h : parentsPtr ps = some a) :
    a ∈ parentsAddrs ps := by
  cases ps with
  | nil => simp [parentsPtr] at h
  | cons p ps =>
    simp only [parentsPtr, Option.some.injEq] at h
    subst h
    simp [parentsAddrs]

/-- Nodes away from the assignments are held as before. -/
theorem Memory.holds_frame (m m1 : Memory) (t : ANode) (par : Option Nat) (h : m.Holds t par)
    (hf : ∀ a ∈ t.addrs, m1.cell a = m.cell a) : m1.Holds t par := by
  induction t generalizing par with
  | NULL => trivial
  | mk a v c l r ihl ihr =>
    obtain ⟨h1, h2, h3⟩ := h
    refine ⟨?_, ihl _ h2 (fun b hb => hf b ?_), ihr _ h3 (fun b hb => hf b ?_)⟩
    · rw [hf a (by simp [ANode.addrs]), h1]
    · simp [ANode.addrs, hb]
    · simp [ANode.addrs, hb]

theorem Memory.holdsParents_frame (m m1 : Memory) (ps : List AParent) (child : Option Nat)
    (h : m.HoldsParents ps child) (hf : ∀ a ∈ parentsAddrs ps, m1.cell a = m.cell a)
    (hr : m1.root = m.root) : m1.HoldsParents ps child := by
  induction ps generalizing child with
  | nil => simpa [Memory.HoldsParents, hr] using h
  | cons p ps ih =>
    obtain ⟨h1, h2, h3⟩ := h
    refine ⟨?_, Memory.holds_frame m m1 _ _ h2 (fun b hb => hf b ?_), ih _ h3 (fun b hb => hf b ?_)⟩
    · rw [hf p.addr (by simp [parentsAddrs]), h1]
    · simp [parentsAddrs, hb]
    · simp [parentsAddrs, hb]

set_option maxHeartbeats 2000000 in
/-- What `leftRotate` does to the memory, cell by cell: `node` gets the former left child
of `right` as right child and `right` as parent; `right` gets `node` as left child and the
former parent of `node` as parent; the former left child of `right` gets `node` as parent;
the former parent of `node` points at `right` where it pointed at `node`, or `tree->root`
does when there is no such parent; nothing else changes. -/
theorem Memory.leftRotate_cells (m : Memory) (x y : Nat) (v : Int) (c : Color)
    (lp ylp yrp pp : Option Nat) (yv : Int) (yc : Color)
    (hx : m.cell x = some ⟨v, c, lp, some y, pp⟩)
    (hy : m.cell y = some ⟨yv, yc, ylp, yrp, some x⟩) (hxy : x ≠ y)
    (hyl : ∀ a, ylp = some a → a ≠ x ∧ a ≠ y ∧ ∃ ca, m.cell a = some ca)
    (hp : ∀ p, pp = some p → p ≠ x ∧ p ≠ y ∧ ylp ≠ some p ∧ ∃ cp, m.cell p = some cp) :
    ∃ m1, m.leftRotate (some x) = some m1 ∧
      m1.cell x = some ⟨v, c, lp, ylp, some y⟩ ∧
      m1.cell y = some ⟨yv, yc, some x, yrp, pp⟩ ∧
      (∀ a ca, ylp = some a → m.cell a = some ca →
        m1.cell a = some ⟨ca.value, ca.color, ca.left, ca.right, some x⟩) ∧
      (∀ p cp, pp = some p → m.cell p = some cp →
        m1.cell p = some (if cp.left = some x then ⟨cp.value, cp.color, some y, cp.right, cp.parent⟩
          else ⟨cp.value, cp.color, cp.left, some y, cp.parent⟩)) ∧
      (∀ b, b ≠ x → b ≠ y → some b ≠ ylp → some b ≠ pp → m1.cell b = m.cell b) ∧
      m1.root = (if pp = none then some y else m.root) := by
  have hyx : y ≠ x := fun e => hxy e.symm
  cases ylp with
  | none =>
    cases pp with
    | none =>
      simp [Memory.leftRotate, Memory.setRight, Memory.setLeft, Memory.setParent,
        Memory.setRoot, Memory.store_cell, Memory.store_root, hx, hy, hxy, hyx]
      intro b hbx hby
      simp [hbx, hby]
    | some p =>
      obtain ⟨hpx, hpy, _, cp, hcp⟩ := hp p rfl
      have hxp : x ≠ p := fun e => hpx e.symm
      have hyp : y ≠ p := fun e => hpy e.symm
      by_cases hl : cp.left = some x
      · simp [Memory.leftRotate, Memory.setRight, Memory.setLeft, Memory.setParent,
          Memory.setRoot, Memory.store_cell, Memory.store_root, hx, hy, hxy, hyx, hpx, hpy,
          hxp, hyp, hcp, hl]
        refine ⟨?_, ?_⟩
        · intro q cq hq hcq
          subst hq
          rw [hcp] at hcq
          cases hcq
          simp [hpx, hpy, hl]
        · intro b hbx hby hbp
          simp [hbx, hby, hbp]
      · simp [Memory.leftRotate, Memory.setRight, Memory.setLeft, Memory.setParent,
          Memory.setRoot, Memory.store_cell, Memory.store_root, hx, hy, hxy, hyx, hpx, hpy,
          hxp, hyp, hcp, hl]
        refine ⟨?_, ?_⟩
        · intro q cq hq hcq
          subst hq
          rw [hcp] at hcq
          cases hcq
          simp [hpx, hpy, hl]
        · intro b hbx hby hbp
          simp [hbx, hby, hbp]
  | some a =>
    obtain ⟨hax, hay, ca, hca⟩ := hyl a rfl
    have hxa : x ≠ a := fun e => hax e.symm
    have hya : y ≠ a := fun e => hay e.symm
    cases pp with
    | none =>
      simp [Memory.leftRotate, Memory.setRight, Memory.setLeft, Memory.setParent,
        Memory.setRoot, Memory.store_cell, Memory.store_root, hx, hy, hxy, hyx, hax, hay,
        hxa, hya, hca]
      refine ⟨?_, ?_⟩
      · intro q cq hq hcq
        subst hq
        rw [hca] at hcq
        cases hcq
        simp [hax, hay]
      · intro b hbx hby hba
        simp [hbx, hby, hba]
    | some p =>
      obtain ⟨hpx, hpy, hpa, cp, hcp⟩ := hp p rfl
      have hxp : x ≠ p := fun e => hpx e.symm
      have hyp : y ≠ p := fun e => hpy e.symm
      have hap : a ≠ p := fun e => hpa (by rw [e])
      have hpa1 : p ≠ a := fun e => hap e.symm
      by_cases hl : cp.left = some x
      · simp [Memory.leftRotate, Memory.setRight, Memory.setLeft, Memory.setParent,
          Memory.setRoot, Memory.store_cell, Memory.store_root, hx, hy, hxy, hyx, hpx, hpy,
          hxp, hyp, hcp, hl, hax, hay, hxa, hya, hca, hap, hpa1]
        refine ⟨?_, ?_, ?_⟩
        · intro q cq hq hcq
          subst hq
          rw [hca] at hcq
          cases hcq
          simp [hax, hay, hap]
        · intro q cq hq hcq
          subst hq
          rw [hcp] at hcq
          cases hcq
          simp [hpx, hpy, hl]
        · intro b hbx hby hba hbp
          simp [hbx, hby, hbp, hba]
      · simp [Memory.leftRotate, Memory.setRight, Memory.setLeft, Memory.setParent,
          Memory.setRoot, Memory.store_cell, Memory.store_root, hx, hy, hxy, hyx, hpx, hpy,
          hxp, hyp, hcp, hl, hax, hay, hxa, hya, hca, hap, hpa1]
        refine ⟨?_, ?_, ?_⟩
        · intro q cq hq hcq
          subst hq
          rw [hca] at hcq
          cases hcq
          simp [hax, hay, hap]
        · intro q cq hq hcq
          subst hq
          rw [hcp] at hcq
          cases hcq
          simp [hpx, hpy, hl]
        · intro b hbx hby hba hbp
          simp [hbx, hby, hbp, hba]

set_option maxHeartbeats 2000000 in
/-- What `rightRotate` does to the memory, cell by cell: the mirror image of
`Memory.rightRotate_cells`, with the former right child of `left` moving under `node`. -/
theorem Memory.rightRotate_cells (m : Memory) (x y : Nat) (v : Int) (c : Color)
    (rp ylp yrp pp : Option Nat) (yv : Int) (yc : Color)
    (hx : m.cell x = some ⟨v, c, some y, rp, pp⟩)
    (hy : m.cell y = some ⟨yv, yc, ylp, yrp, some x⟩) (hxy : x ≠ y)
    (hyl : ∀ a, yrp = some a → a ≠ x ∧ a ≠ y ∧ ∃ ca, m.cell a = some ca)
    (hp : ∀ p, pp = some p → p ≠ x ∧ p ≠ y ∧ yrp ≠ some p ∧ ∃ cp, m.cell p = some cp) :
    ∃ m1, m.rightRotate (some x) = some m1 ∧
      m1.cell x = some ⟨v, c, yrp, rp, some y⟩ ∧
      m1.cell y = some ⟨yv, yc, ylp, some x, pp⟩ ∧
      (∀ a ca, yrp = some a → m.cell a = some ca →
        m1.cell a = some ⟨ca.value, ca.color, ca.left, ca.right, some x⟩) ∧
      (∀ p cp, pp = some p → m.cell p = some cp →
        m1.cell p = some (if cp.left = some x then ⟨cp.value, cp.color, some y, cp.right, cp.parent⟩
          else ⟨cp.value, cp.color, cp.left, some y, cp.parent⟩)) ∧
      (∀ b, b ≠ x → b ≠ y → some b ≠ yrp → some b ≠ pp → m1.cell b = m.cell b) ∧
      m1.root = (if pp = none then some y else m.root) := by
  have hyx : y ≠ x := fun e => hxy e.symm
  cases yrp with
  | none =>
    cases pp with
    | none =>
      simp [Memory.rightRotate, Memory.setRight, Memory.setLeft, Memory.setParent,
        Memory.setRoot, Memory.store_cell, Memory.store_root, hx, hy, hxy, hyx]
      intro b hbx hby
      simp [hbx, hby]
    | some p =>
      obtain ⟨hpx, hpy, _, cp, hcp⟩ := hp p rfl
      have hxp : x ≠ p := fun e => hpx e.symm
      have hyp : y ≠ p := fun e => hpy e.symm
      by_cases hl : cp.left = some x
      · simp [Memory.rightRotate, Memory.setRight, Memory.setLeft, Memory.setParent,
          Memory.setRoot, Memory.store_cell, Memory.store_root, hx, hy, hxy, hyx, hpx, hpy,
          hxp, hyp, hcp, hl]
        refine ⟨?_, ?_⟩
        · intro q cq hq hcq
          subst hq
          rw [hcp] at hcq
          cases hcq
          simp [hpx, hpy, hl]
        · intro b hbx hby hbp
          simp [hbx, hby, hbp]
      · simp [Memory.rightRotate, Memory.setRight, Memory.setLeft, Memory.setParent,
          Memory.setRoot, Memory.store_cell, Memory.store_root, hx, hy, hxy, hyx, hpx, hpy,
          hxp, hyp, hcp, hl]
        refine ⟨?_, ?_⟩
        · intro q cq hq hcq
          subst hq
          rw [hcp] at hcq
          cases hcq
          simp [hpx, hpy, hl]
        · intro b hbx hby hbp
          simp [hbx, hby, hbp]
  | some a =>
    obtain ⟨hax, hay, ca, hca⟩ := hyl a rfl
    have hxa : x ≠ a := fun e => hax e.symm
    have hya : y ≠ a := fun e => hay e.symm
    cases pp with
    | none =>
      simp [Memory.rightRotate, Memory.setRight, Memory.setLeft, Memory.setParent,
        Memory.setRoot, Memory.store_cell, Memory.store_root, hx, hy, hxy, hyx, hax, hay,
        hxa, hya, hca]
      refine ⟨?_, ?_⟩
      · intro q cq hq hcq
        subst hq
        rw [hca] at hcq
        cases hcq
        simp [hax, hay]
      · intro b hbx hby hba
        simp [hbx, hby, hba]
    | some p =>
      obtain ⟨hpx, hpy, hpa, cp, hcp⟩ := hp p rfl
      have hxp : x ≠ p := fun e => hpx e.symm
      have hyp : y ≠ p := fun e => hpy e.symm
      have hap : a ≠ p := fun e => hpa (by rw [e])
      have hpa1 : p ≠ a := fun e => hap e.symm
      by_cases hl : cp.left = some x
      · simp [Memory.rightRotate, Memory.setRight, Memory.setLeft, Memory.setParent,
          Memory.setRoot, Memory.store_cell, Memory.store_root, hx, hy, hxy, hyx, hpx, hpy,
          hxp, hyp, hcp, hl, hax, hay, hxa, hya, hca, hap, hpa1]
        refine ⟨?_, ?_, ?_⟩
        · intro q cq hq hcq
          subst hq
          rw [hca] at hcq
          cases hcq
          simp [hax, hay, hap]
        · intro q cq hq hcq
          subst hq
          rw [hcp] at hcq
          cases hcq
          simp [hpx, hpy, hl]
        · intro b hbx hby hba hbp
          simp [hbx, hby, hbp, hba]
      · simp [Memory.rightRotate, Memory.setRight, Memory.setLeft, Memory.setParent,
          Memory.setRoot, Memory.store_cell, Memory.store_root, hx, hy, hxy, hyx, hpx, hpy,
          hxp, hyp, hcp, hl, hax, hay, hxa, hya, hca, hap, hpa1]
        refine ⟨?_, ?_, ?_⟩
        · intro q cq hq hcq
          subst hq
          rw [hca] at hcq
          cases hcq
          simp [hax, hay, hap]
        · intro q cq hq hcq
          subst hq
          rw [hcp] at hcq
          cases hcq
          simp [hpx, hpy, hl]
        · intro b hbx hby hba hbp
          simp [hbx, hby, hbp, hba]

theorem nodup_zones (A B C D : List Nat) (x y : Nat)
    (h : ((A ++ x :: (B ++ y :: C)) ++ D).Nodup) :
    x ≠ y ∧ (∀ a ∈ A, a ≠ x ∧ a ≠ y ∧ a ∉ B ∧ a ∉ C ∧ a ∉ D) ∧
      (∀ a ∈ B, a ≠ x ∧ a ≠ y ∧ a ∉ C ∧ a ∉ D) ∧
      (∀ a ∈ C, a ≠ x ∧ a ≠ y ∧ a ∉ D) ∧ (∀ a ∈ D, a ≠ x ∧ a ≠ y) ∧ B.Nodup ∧ D.Nodup := by
  simp only [List.nodup_append, List.nodup_cons, List.mem_append, List.mem_cons,
    List.Disjoint] at h
  obtain ⟨⟨hA, ⟨hxn, hB, ⟨hyn, hC⟩, hBC⟩, hAx⟩, hD, hAll⟩ := h
  refine ⟨?_, ?_, ?_, ?_, ?_, hB, hD⟩
  · intro e
    exact hxn (Or.inr (Or.inl e))
  · intro a ha
    refine ⟨?_, ?_, ?_, ?_, ?_⟩
    · intro e
      exact hAx ha (Or.inl e)
    · intro e
      exact hAx ha (Or.inr (Or.inr (Or.inl e)))
    · intro hb
      exact hAx ha (Or.inr (Or.inl hb))
    · intro hc
      exact hAx ha (Or.inr (Or.inr (Or.inr hc)))
    · intro hd
      exact hAll (Or.inl ha) hd
  · intro a ha
    refine ⟨?_, ?_, ?_, ?_⟩
    · intro e
      exact hxn (Or.inl (e ▸ ha))
    · intro e
      exact hBC ha (Or.inl e)
    · intro hc
      exact hBC ha (Or.inr hc)
    · intro hd
      exact hAll (Or.inr (Or.inr (Or.inl ha))) hd
  · intro a ha
    refine ⟨?_, ?_, ?_⟩
    · intro e
      exact hxn (Or.inr (Or.inr (e ▸ ha)))
    · intro e
      exact hyn (e ▸ ha)
    · intro hd
      exact hAll (Or.inr (Or.inr (Or.inr (Or.inr ha)))) hd
  · intro a ha
    refine ⟨?_, ?_⟩
    · intro e
      exact hAll (Or.inr (Or.inl e)) ha
    · intro e
      exact hAll (Or.inr (Or.inr (Or.inr (Or.inl e)))) ha

theorem Memory.holds_cell (m : Memory) (t : ANode) (par : Option Nat) (a : Nat)
    (h : m.Holds t par) (ha : t.ptr = some a) :
    ∃ ca, m.cell a = some ca ∧ ca.parent = par := by
  cases t with
  | NULL => simp [ANode.ptr] at ha
  | mk b v c l r =>
    simp only [ANode.ptr, Option.some.injEq] at ha
    subst ha
    exact ⟨_, h.1, rfl⟩

/-- The subtree that changes parent: held below the new parent once its root cell has the
new `parent` field and the cells below are as before. -/
theorem Memory.holds_reparent (m m1 : Memory) (t : ANode) (par par1 : Option Nat)
    (h : m.Holds t par) (hn : t.addrs.Nodup)
    (hroot : ∀ a ca, t.ptr = some a → m.cell a = some ca →
      m1.cell a = some ⟨ca.value, ca.color, ca.left, ca.right, par1⟩)
    (hf : ∀ b ∈ t.addrs, some b ≠ t.ptr → m1.cell b = m.cell b) : m1.Holds t par1 := by
  cases t with
  | NULL => trivial
  | mk a v c l r =>
    obtain ⟨h1, h2, h3⟩ := h
    simp only [ANode.addrs, List.nodup_append, List.nodup_cons, List.mem_append,
      List.mem_cons, List.Disjoint] at hn
    obtain ⟨_, ⟨har, _⟩, hdis⟩ := hn
    refine ⟨?_, ?_, ?_⟩
    · rw [hroot a _ rfl h1]
    · refine Memory.holds_frame m m1 l _ h2 (fun b hb => hf b (by simp [ANode.addrs, hb]) ?_)
      intro e
      simp only [ANode.ptr, Option.some.injEq] at e
      exact hdis hb (Or.inl e)
    · refine Memory.holds_frame m m1 r _ h3 (fun b hb => hf b (by simp [ANode.addrs, hb]) ?_)
      intro e
      simp only [ANode.ptr, Option.some.injEq] at e
      exact har (e ▸ hb)

/-- The chain of parents above the rotated pair: held above the node that has come up once
the nearest parent points at it in place of the node that has gone down (or `tree->root`
does) and the other cells are as before. -/
theorem Memory.holdsParents_rechild (m m1 : Memory) (ps : List AParent) (x y : Nat)
    (h : m.HoldsParents ps (some x)) (hn : (parentsAddrs ps).Nodup)
    (hx : x ∉ parentsAddrs ps)
    (hpar : ∀ p cp, parentsPtr ps = some p → m.cell p = some cp →
      m1.cell p = some (if cp.left = some x then
          ⟨cp.value, cp.color, some y, cp.right, cp.parent⟩
        else ⟨cp.value, cp.color, cp.left, some y, cp.parent⟩))
    (hf : ∀ b ∈ parentsAddrs ps, some b ≠ parentsPtr ps → m1.cell b = m.cell b)
    (hr : m1.root = if parentsPtr ps = none then some y else m.root) :
    m1.HoldsParents ps (some y) := by
  cases ps with
  | nil => simpa [Memory.HoldsParents, parentsPtr] using hr
  | cons p ps =>
    obtain ⟨h1, h2, h3⟩ := h
    simp only [parentsAddrs, List.cons_append, List.nodup_append, List.nodup_cons,
      List.mem_append, List.Disjoint] at hn
    obtain ⟨hp, ⟨_, _, hdis⟩⟩ := hn
    have hne : ∀ b, b ∈ p.sibling.addrs ∨ b ∈ parentsAddrs ps → some b ≠ parentsPtr (p :: ps) := by
      intro b hb e
      simp only [parentsPtr, Option.some.injEq] at e
      exact hp (e ▸ hb)
    have hmem : ∀ b, b ∈ p.sibling.addrs ∨ b ∈ parentsAddrs ps → b ∈ parentsAddrs (p :: ps) := by
      intro b hb
      simpa [parentsAddrs] using Or.inr hb
    refine ⟨?_, ?_, ?_⟩
    · rw [hpar p.addr _ rfl h1]
      cases hil : p.isLeft with
      | true => simp
      | false =>
        have hsx : p.sibling.ptr ≠ some x := by
          intro e
          exact hx (hmem x (Or.inl (ANode.ptr_mem_addrs _ _ e)))
        simp [hsx]
    · exact Memory.holds_frame m m1 _ _ h2
        (fun b hb => hf b (hmem b (Or.inl hb)) (hne b (Or.inl hb)))
    · refine Memory.holdsParents_frame m m1 _ _ h3
        (fun b hb => hf b (hmem b (Or.inr hb)) (hne b (Or.inr hb))) ?_
      simpa [parentsPtr] using hr

theorem Memory.holdsParents_cell (m : Memory) (ps : List AParent) (child : Option Nat)
    (p : Nat) (h : m.HoldsParents ps child) (hp : parentsPtr ps = some p) :
    ∃ cp, m.cell p = some cp := by
  cases ps with
  | nil => simp [parentsPtr] at hp
  | cons q ps =>
    simp only [parentsPtr, Option.some.injEq] at hp
    subst hp
    exact ⟨_, h.1⟩

/-- Function `leftRotate` on a well-formed tree in memory, at a node `x` with right child
`y`: the call runs through, the memory afterwards is the well-formed tree with `y` in the
place of `x`, `x` as left child of `y` and the former left subtree of `y` as right subtree
of `x`; the key and colour at every address are as before, and `tree->root` has changed,
to `y`, exactly when `x` had no parent. -/
theorem Memory.leftRotate_represents (m : Memory) (x : Nat) (v : Int) (c : Color) (l : ANode)
    (y : Nat) (yv : Int) (yc : Color) (yl yr : ANode) (ps : List AParent)
    (h : m.Represents ⟨.mk x v c l (.mk y yv yc yl yr), ps⟩) :
    ∃ m1, m.leftRotate (some x) = some m1 ∧
      m1.Represents ⟨.mk y yv yc (.mk x v c l yl) yr, ps⟩ ∧
      (∀ a, (m1.cell a).map (fun k => (k.value, k.color)) =
        (m.cell a).map (fun k => (k.value, k.color))) ∧
      m1.root = (if parentsPtr ps = none then some y else m.root) := by
  obtain ⟨⟨hx, hl, hy, hyl, hyr⟩, hps, hnd⟩ := h
  simp only [ANode.addrs] at hnd
  simp only [ANode.ptr] at hx hps
  obtain ⟨hxy, hA, hB, hC, hD, hBn, hDn⟩ := nodup_zones _ _ _ _ _ _ hnd
  have hylp : ∀ a, yl.ptr = some a → a ≠ x ∧ a ≠ y ∧ ∃ ca, m.cell a = some ca := by
    intro a ha
    have hm := ANode.ptr_mem_addrs _ _ ha
    obtain ⟨ca, hca, _⟩ := Memory.holds_cell m yl _ a hyl ha
    exact ⟨(hB a hm).1, (hB a hm).2.1, ca, hca⟩
  have hpp : ∀ p, parentsPtr ps = some p →
      p ≠ x ∧ p ≠ y ∧ yl.ptr ≠ some p ∧ ∃ cp, m.cell p = some cp := by
    intro p hp
    have hm := parentsPtr_mem _ _ hp
    refine ⟨(hD p hm).1, (hD p hm).2, ?_, Memory.holdsParents_cell m ps _ p hps hp⟩
    intro e
    exact (hB p (ANode.ptr_mem_addrs _ _ e)).2.2.2 hm
  obtain ⟨m1, hrot, hx1, hy1, hyl1, hp1, hf, hr⟩ :=
    Memory.leftRotate_cells m x y v c l.ptr yl.ptr yr.ptr (parentsPtr ps) yv yc hx hy hxy
      hylp hpp
  have hxD : x ∉ parentsAddrs ps := fun hm => (hD x hm).1 rfl
  refine ⟨m1, hrot, ⟨⟨hy1, ⟨hx1, ?_, ?_⟩, ?_⟩, ?_, ?_⟩, ?_, hr⟩
  · refine Memory.holds_frame m m1 l _ hl (fun b hb => ?_)
    obtain ⟨h1, h2, h3, _, h5⟩ := hA b hb
    exact hf b h1 h2 (fun e => h3 (ANode.ptr_mem_addrs _ _ e.symm))
      (fun e => h5 (parentsPtr_mem _ _ e.symm))
  · refine Memory.holds_reparent m m1 yl _ _ hyl hBn hyl1 (fun b hb hne => ?_)
    obtain ⟨h1, h2, _, h4⟩ := hB b hb
    exact hf b h1 h2 hne (fun e => h4 (parentsPtr_mem _ _ e.symm))
  · refine Memory.holds_frame m m1 yr _ hyr (fun b hb => ?_)
    obtain ⟨h1, h2, h3⟩ := hC b hb
    refine hf b h1 h2 (fun e => ?_) (fun e => h3 (parentsPtr_mem _ _ e.symm))
    have hbB := ANode.ptr_mem_addrs _ _ e.symm
    exact (hB b hbB).2.2.1 hb
  · refine Memory.holdsParents_rechild m m1 ps x y hps hDn hxD hp1 (fun b hb hne => ?_) hr
    obtain ⟨h1, h2⟩ := hD b hb
    refine hf b h1 h2 (fun e => ?_) hne
    exact (hB b (ANode.ptr_mem_addrs _ _ e.symm)).2.2.2 hb
  · have e : ((ANode.mk y yv yc (.mk x v c l yl) yr).addrs ++ parentsAddrs ps) =
        (l.addrs ++ x :: (yl.addrs ++ y :: yr.addrs)) ++ parentsAddrs ps := by
      simp [ANode.addrs]
    show ((ANode.mk y yv yc (.mk x v c l yl) yr).addrs ++ parentsAddrs ps).Nodup
    rw [e]
    exact hnd
  · intro a
    by_cases hax : a = x
    · subst hax
      rw [hx1, hx]
      rfl
    by_cases hay : a = y
    · subst hay
      rw [hy1, hy]
      rfl
    by_cases hal : yl.ptr = some a
    · obtain ⟨_, _, ca, hca⟩ := hylp a hal
      rw [hyl1 a ca hal hca, hca]
      rfl
    by_cases hap : parentsPtr ps = some a
    · obtain ⟨_, _, _, cp, hcp⟩ := hpp a hap
      rw [hp1 a cp hap hcp, hcp]
      split_ifs <;> rfl
    · rw [hf a hax hay (fun e => hal e.symm) (fun e => hap e.symm)]

/-- Function `rightRotate` on a well-formed tree in memory, at a node `x` with left child
`y`: the mirror image of `Memory.leftRotate_represents`. -/
theorem Memory.rightRotate_represents (m : Memory) (x : Nat) (v : Int) (c : Color)
    (y : Nat) (yv : Int) (yc : Color) (yl yr : ANode) (r : ANode) (ps : List AParent)
    (h : m.Represents ⟨.mk x v c (.mk y yv yc yl yr) r, ps⟩) :
    ∃ m1, m.rightRotate (some x) = some m1 ∧
      m1.Represents ⟨.mk y yv yc yl (.mk x v c yr r), ps⟩ ∧
      (∀ a, (m1.cell a).map (fun k => (k.value, k.color)) =
        (m.cell a).map (fun k => (k.value, k.color))) ∧
      m1.root = (if parentsPtr ps = none then some y else m.root) := by
  obtain ⟨⟨hx, ⟨hy, hyl, hyr⟩, hr0⟩, hps, hnd⟩ := h
  have e0 : ((ANode.mk x v c (.mk y yv yc yl yr) r).addrs ++ parentsAddrs ps) =
      (yl.addrs ++ y :: (yr.addrs ++ x :: r.addrs)) ++ parentsAddrs ps := by
    simp [ANode.addrs]
  replace hnd : ((yl.addrs ++ y :: (yr.addrs ++ x :: r.addrs)) ++ parentsAddrs ps).Nodup := by
    rw [← e0]
    exact hnd
  simp only [ANode.ptr] at hx hps
  obtain ⟨hyx, hA, hB, hC, hD, hBn, hDn⟩ := nodup_zones _ _ _ _ _ _ hnd
  have hxy : x ≠ y := fun e => hyx e.symm
  have hyrp : ∀ a, yr.ptr = some a → a ≠ x ∧ a ≠ y ∧ ∃ ca, m.cell a = some ca := by
    intro a ha
    have hm := ANode.ptr_mem_addrs _ _ ha
    obtain ⟨ca, hca, _⟩ := Memory.holds_cell m yr _ a hyr ha
    exact ⟨(hB a hm).2.1, (hB a hm).1, ca, hca⟩
  have hpp : ∀ p, parentsPtr ps = some p →
      p ≠ x ∧ p ≠ y ∧ yr.ptr ≠ some p ∧ ∃ cp, m.cell p = some cp := by
    intro p hp
    have hm := parentsPtr_mem _ _ hp
    refine ⟨(hD p hm).2, (hD p hm).1, ?_, Memory.holdsParents_cell m ps _ p hps hp⟩
    intro e
    exact (hB p (ANode.ptr_mem_addrs _ _ e)).2.2.2 hm
  obtain ⟨m1, hrot, hx1, hy1, hyr1, hp1, hf, hr⟩ :=
    Memory.rightRotate_cells m x y v c r.ptr yl.ptr yr.ptr (parentsPtr ps) yv yc hx hy hxy
      hyrp hpp
  have hxD : x ∉ parentsAddrs ps := fun hm => (hD x hm).2 rfl
  refine ⟨m1, hrot, ⟨⟨hy1, ?_, ⟨hx1, ?_, ?_⟩⟩, ?_, ?_⟩, ?_, hr⟩
  · refine Memory.holds_frame m m1 yl _ hyl (fun b hb => ?_)
    obtain ⟨h1, h2, h3, _, h5⟩ := hA b hb
    exact hf b h2 h1 (fun e => h3 (ANode.ptr_mem_addrs _ _ e.symm))
      (fun e => h5 (parentsPtr_mem _ _ e.symm))
  · refine Memory.holds_reparent m m1 yr _ _ hyr hBn hyr1 (fun b hb hne => ?_)
    obtain ⟨h1, h2, _, h4⟩ := hB b hb
    exact hf b h2 h1 hne (fun e => h4 (parentsPtr_mem _ _ e.symm))
  · refine Memory.holds_frame m m1 r _ hr0 (fun b hb => ?_)
    obtain ⟨h1, h2, h3⟩ := hC b hb
    refine hf b h2 h1 (fun e => ?_) (fun e => h3 (parentsPtr_mem _ _ e.symm))
    have hbB := ANode.ptr_mem_addrs _ _ e.symm
    exact (hB b hbB).2.2.1 hb
  · refine Memory.holdsParents_rechild m m1 ps x y hps hDn hxD hp1 (fun b hb hne => ?_) hr
    obtain ⟨h1, h2⟩ := hD b hb
    refine hf b h2 h1 (fun e => ?_) hne
    exact (hB b (ANode.ptr_mem_addrs _ _ e.symm)).2.2.2 hb
  · have e : ((ANode.mk y yv yc yl (.mk x v c yr r)).addrs ++ parentsAddrs ps) =
        (yl.addrs ++ y :: (yr.addrs ++ x :: r.addrs)) ++ parentsAddrs ps := by
      simp [ANode.addrs]
    show ((ANode.mk y yv yc yl (.mk x v c yr r)).addrs ++ parentsAddrs ps).Nodup
    rw [e]
    exact hnd
  · intro a
    by_cases hax : a = x
    · subst hax
      rw [hx1, hx]
      rfl
    by_cases hay : a = y
    · subst hay
      rw [hy1, hy]
      rfl
    by_cases hal : yr.ptr = some a
    · obtain ⟨_, _, ca, hca⟩ := hyrp a hal
      rw [hyr1 a ca hal hca, hca]
      rfl
    by_cases hap : parentsPtr ps = some a
    · obtain ⟨_, _, _, cp, hcp⟩ := hpp a hap
      rw [hp1 a cp hap hcp, hcp]
      split_ifs <;> rfl
    · rw [hf a hax hay (fun e => hal e.symm) (fun e => hap e.symm)]

theorem ANode.nodes_fill (p : AParent) (t t1 : ANode) (h : t.nodes = t1.nodes) :
    (p.fill t).nodes = (p.fill t1).nodes := by
  unfold AParent.fill
  split <;> simp [ANode.nodes, h]

/-- The in-order sequence of the whole tree depends on the subtree at the pointer only
through the in-order sequence of that subtree. -/
theorem ANode.nodes_arebuild (ps : List AParent) (t t1 : ANode) (h : t.nodes = t1.nodes) :
    (arebuild t ps).nodes = (arebuild t1 ps).nodes := by
  induction ps generalizing t t1 with
  | nil => exact h
  | cons p ps ih => exact ih _ _ (ANode.nodes_fill p t t1 h)

theorem ANode.nodePrint_strip (t : ANode) :
    nodePrint t.strip = t.nodes.map (fun n => n.2.1) := by
  induction t with
  | NULL => rfl
  | mk a v c l r ihl ihr => simp [ANode.strip, ANode.nodes, nodePrint, ihl, ihr]

theorem arebuild_strip (ps : List AParent) (t : ANode) :
    (arebuild t ps).strip = rebuild t.strip (ps.map AParent.strip) := by
  induction ps generalizing t with
  | nil => rfl
  | cons p ps ih =>
    rw [arebuild, ih]
    simp only [List.map_cons, rebuild]
    congr 1
    unfold AParent.fill AParent.strip Parent.fill
    cases p.isLeft <;> simp [ANode.strip]

/-- When a pointer into the well-formed tree is given, the topmost ancestor is the node
`tree->root` points at. -/
theorem Memory.represents_root (m : Memory) (loc : ALoc) (hne : loc.node ≠ .NULL)
    (h : m.Represents loc) : m.root = (arebuild loc.node loc.parents).ptr := by
  obtain ⟨t, ps⟩ := loc
  obtain ⟨_, hps, _⟩ := h
  simp only at hps hne ⊢
  clear * - hps hne
  induction ps generalizing t with
  | nil => exact hps
  | cons p ps ih =>
    refine ih (p.fill t) ?_ ?_
    · unfold AParent.fill
      split <;> simp
    · have e : (p.fill t).ptr = some p.addr := by
        unfold AParent.fill
        split <;> rfl
      rw [e]
      exact hps.2.2

/-- With a parent above the pointer, `tree->root` is one of the ancestors. -/
theorem Memory.holdsParents_root_mem (m : Memory) (ps : List AParent) (child : Option Nat)
    (h : m.HoldsParents ps child) (hne : parentsPtr ps ≠ none) :
    ∃ a ∈ parentsAddrs ps, m.root = some a := by
  induction ps generalizing child with
  | nil => exact absurd rfl hne
  | cons p ps ih =>
    cases ps with
    | nil => exact ⟨p.addr, by simp [parentsAddrs], h.2.2⟩
    | cons q qs =>
      obtain ⟨a, ha, hr⟩ := ih _ h.2.2 (by simp [parentsPtr])
      refine ⟨a, ?_, hr⟩
      simp only [parentsAddrs, List.cons_append, List.mem_cons, List.mem_append] at ha ⊢
      tauto

/-- The root field before and after a rotation at `x` that brings `y` up: `tree->root` was
`x` exactly when there is no parent, and then it is `y` afterwards; otherwise it is the
same ancestor as before, which is not `y`. -/
theorem Memory.root_after_rotation (m m1 : Memory) (node : ANode) (ps : List AParent)
    (x y : Nat) (hptr : node.ptr = some x) (hy : y ∈ node.addrs) (h : m.Represents ⟨node, ps⟩)
    (hr : m1.root = if parentsPtr ps = none then some y else m.root) :
    (m.root = some x → m1.root = some y) ∧
      (m.root ≠ some x → m1.root = m.root ∧ m1.root ≠ some y) := by
  obtain ⟨_, hps, hnd⟩ := h
  simp only at hps hnd
  rw [hptr] at hps
  have hx := ANode.ptr_mem_addrs _ _ hptr
  by_cases hp : parentsPtr ps = none
  · rw [if_pos hp] at hr
    cases ps with
    | nil =>
      refine ⟨fun _ => hr, fun hne => absurd hps hne⟩
    | cons p ps => simp [parentsPtr] at hp
  · rw [if_neg hp] at hr
    obtain ⟨a, ha, hroot⟩ := Memory.holdsParents_root_mem m ps _ hps hp
    have hdis := (List.nodup_append.1 hnd).2.2
    refine ⟨fun e => ?_, fun _ => ⟨hr, fun e => ?_⟩⟩
    · rw [hroot, Option.some.injEq] at e
      exact absurd ha (fun ha1 => hdis hx (e ▸ ha1))
    · rw [hr, hroot, Option.some.injEq] at e
      exact absurd ha (fun ha1 => hdis hy (e ▸ ha1))

/-- Claim C17: on every well-formed tree in memory, `leftRotate(tree, x)` at a node `x`
with right child `y` runs through and leaves a well-formed tree; the in-order sequence of
the nodes of the whole tree (address, key and colour) and so of the keys is unchanged, the
key and the colour at every address are unchanged, `x` is the left child of `y` and `y` the
parent of `x`, and `tree->root` becomes `y` when it was `x` and otherwise stays what it
was, which is not `y`; the result is that of `leftRotate` on pointers.  Symmetrically for
`rightRotate(tree, x)` at a node `x` with left child `y`, with `x` the right child of `y`
afterwards. -/
theorem rotate_spec :
    (∀ (m : Memory) (x : Nat) (v : Int) (c : Color) (l : ANode) (y : Nat) (yv : Int)
      (yc : Color) (yl yr : ANode) (ps : List AParent),
      m.Represents ⟨.mk x v c l (.mk y yv yc yl yr), ps⟩ →
      ∃ m1, m.leftRotate (some x) = some m1 ∧
        m1.Represents ⟨.mk y yv yc (.mk x v c l yl) yr, ps⟩ ∧
        (arebuild (.mk y yv yc (.mk x v c l yl) yr) ps).nodes =
          (arebuild (.mk x v c l (.mk y yv yc yl yr)) ps).nodes ∧
        nodePrint (arebuild (.mk y yv yc (.mk x v c l yl) yr) ps).strip =
          nodePrint (arebuild (.mk x v c l (.mk y yv yc yl yr)) ps).strip ∧
        (∀ a, (m1.cell a).map (fun k => (k.value, k.color)) =
          (m.cell a).map (fun k => (k.value, k.color))) ∧
        (m1.cell y).map Cell.left = some (some x) ∧
        (m1.cell x).map Cell.parent = some (some y) ∧
        (m.root = some x → m1.root = some y) ∧
        (m.root ≠ some x → m1.root = m.root ∧ m1.root ≠ some y) ∧
        leftRotate (ALoc.strip ⟨.mk x v c l (.mk y yv yc yl yr), ps⟩) =
          some (ALoc.strip ⟨.mk y yv yc (.mk x v c l yl) yr, ps⟩)) ∧
    (∀ (m : Memory) (x : Nat) (v : Int) (c : Color) (y : Nat) (yv : Int) (yc : Color)
      (yl yr r : ANode) (ps : List AParent),
      m.Represents ⟨.mk x v c (.mk y yv yc yl yr) r, ps⟩ →
      ∃ m1, m.rightRotate (some x) = some m1 ∧
        m1.Represents ⟨.mk y yv yc yl (.mk x v c yr r), ps⟩ ∧
        (arebuild (.mk y yv yc yl (.mk x v c yr r)) ps).nodes =
          (arebuild (.mk x v c (.mk y yv yc yl yr) r) ps).nodes ∧
        nodePrint (arebuild (.mk y yv yc yl (.mk x v c yr r)) ps).strip =
          nodePrint (arebuild (.mk x v c (.mk y yv yc yl yr) r) ps).strip ∧
        (∀ a, (m1.cell a).map (fun k => (k.value, k.color)) =
          (m.cell a).map (fun k => (k.value, k.color))) ∧
        (m1.cell y).map Cell.right = some (some x) ∧
        (m1.cell x).map Cell.parent = some (some y) ∧
        (m.root = some x → m1.root = some y) ∧
        (m.root ≠ some x → m1.root = m.root ∧ m1.root ≠ some y) ∧
        rightRotate (ALoc.strip ⟨.mk x v c (.mk y yv yc yl yr) r, ps⟩) =
          some (ALoc.strip ⟨.mk y yv yc yl (.mk x v c yr r), ps⟩)) := by
  constructor
  · intro m x v c l y yv yc yl yr ps h
    obtain ⟨m1, hrot, hrep, hkc, hr⟩ := Memory.leftRotate_represents m x v c l y yv yc yl yr ps h
    have hn : (arebuild (.mk y yv yc (.mk x v c l yl) yr) ps).nodes =
        (arebuild (.mk x v c l (.mk y yv yc yl yr)) ps).nodes :=
      ANode.nodes_arebuild ps _ _ (by simp [ANode.nodes])
    have hroot := Memory.root_after_rotation m m1 (.mk x v c l (.mk y yv yc yl yr)) ps x y rfl
      (by simp [ANode.addrs]) h hr
    refine ⟨m1, hrot, hrep, hn, ?_, hkc, ?_, ?_, hroot.1, hroot.2, rfl⟩
    · rw [ANode.nodePrint_strip, ANode.nodePrint_strip, hn]
    · rw [hrep.1.1]
      rfl
    · rw [hrep.1.2.1.1]
      rfl
  · intro m x v c y yv yc yl yr r ps h
    obtain ⟨m1, hrot, hrep, hkc, hr⟩ := Memory.rightRotate_represents m x v c y yv yc yl yr r ps h
    have hn : (arebuild (.mk y yv yc yl (.mk x v c yr r)) ps).nodes =
        (arebuild (.mk x v c (.mk y yv yc yl yr) r) ps).nodes :=
      ANode.nodes_arebuild ps _ _ (by simp [ANode.nodes])
    have hroot := Memory.root_after_rotation m m1 (.mk x v c (.mk y yv yc yl yr) r) ps x y rfl
      (by simp [ANode.addrs]) h hr
    refine ⟨m1, hrot, hrep, hn, ?_, hkc, ?_, ?_, hroot.1, hroot.2, rfl⟩
    · rw [ANode.nodePrint_strip, ANode.nodePrint_strip, hn]
    · rw [hrep.1.1]
      rfl
    · rw [hrep.1.2.2.1]
      rfl

/-- Witness for `rotate_spec`: in `sevenCells` the node at address 1 has the right child at
address 3 and the left child at address 2, and both rotations apply to it. -/
theorem rotate_spec_witness :
    (sevenCells.Represents ⟨.mk 1 10 .BLACK (.mk 2 5 .RED .NULL .NULL)
        (.mk 3 20 .RED (.mk 4 15 .BLACK .NULL .NULL) (.mk 5 30 .BLACK .NULL .NULL)),
        sevenCellsParents⟩ ∧
      ∃ m1, sevenCells.leftRotate (some 1) = some m1 ∧
        m1.Represents ⟨.mk 3 20 .RED (.mk 1 10 .BLACK (.mk 2 5 .RED .NULL .NULL)
          (.mk 4 15 .BLACK .NULL .NULL)) (.mk 5 30 .BLACK .NULL .NULL), sevenCellsParents⟩ ∧
        (m1.cell 3).map Cell.left = some (some 1) ∧ m1.root = some 6) ∧
    (∃ m1, sevenCells.rightRotate (some 1) = some m1 ∧
        m1.Represents ⟨.mk 2 5 .RED .NULL (.mk 1 10 .BLACK .NULL
          (.mk 3 20 .RED (.mk 4 15 .BLACK .NULL .NULL) (.mk 5 30 .BLACK .NULL .NULL))),
          sevenCellsParents⟩ ∧
        (m1.cell 2).map Cell.right = some (some 1) ∧ m1.root = some 6) := by
  have h : sevenCells.Represents ⟨.mk 1 10 .BLACK (.mk 2 5 .RED .NULL .NULL)
      (.mk 3 20 .RED (.mk 4 15 .BLACK .NULL .NULL) (.mk 5 30 .BLACK .NULL .NULL)),
      sevenCellsParents⟩ := by decide
  have hroot : sevenCells.root ≠ some 1 := by decide
  obtain ⟨m1, h1, h2, _, _, _, h6, _, _, h9, _⟩ := rotate_spec.1 sevenCells _ _ _ _ _ _ _ _ _ _ h
  obtain ⟨m2, k1, k2, _, _, _, k6, _, _, k9, _⟩ := rotate_spec.2 sevenCells _ _ _ _ _ _ _ _ _ _ h
  exact ⟨⟨h, m1, h1, h2, h6, (h9 hroot).1⟩, m2, k1, k2, k6, (k9 hroot).1⟩

/-! ## Height of a red-black tree -/

/-- A structure with uniform black-height `bh` has at least `2 ^ bh - 1` nodes. -/
theorem pow_bh_le_size (t : RBNode) (h : Bal t) : 2 ^ bh t ≤ size t + 1 := by
  induction t with
  | NULL => simp [bh, size]
  | mk v c l r ihl ihr =>
    obtain ⟨hlr, hl, hr⟩ := h
    have h1 := ihl hl
    have h2 := ihr hr
    rw [← hlr] at h2
    have h3 : 2 ^ (bh l + blackInc c) ≤ 2 ^ (bh l + 1) :=
      Nat.pow_le_pow_right (by decide) (by unfold blackInc; split <;> omega)
    have h4 : 2 ^ (bh l + 1) = 2 ^ bh l + 2 ^ bh l := by rw [pow_succ]; omega
    simp only [bh, size]
    omega

/-- Without a RED node below a RED node, a path has at most twice as many nodes as BLACK
nodes, one more when it starts at a RED node. -/
theorem height_le_bh (t : RBNode) (hb : Bal t) (hn : NoDoubleRed t) :
    height t ≤ 2 * bh t + (if isRed t = true then 1 else 0) := by
  induction t with
  | NULL => simp [height]
  | mk v c l r ihl ihr =>
    obtain ⟨hlr, hbl, hbr⟩ := hb
    obtain ⟨hc, hnl, hnr⟩ := hn
    have h1 := ihl hbl hnl
    have h2 := ihr hbr hnr
    rw [← hlr] at h2
    cases c with
    | BLACK =>
      simp only [height, bh, blackInc, isRed]
      split_ifs at h1 h2 <;> simp <;> omega
    | RED =>
      obtain ⟨hl, hr⟩ := hc rfl
      simp only [hl, hr] at h1 h2
      simp only [height, bh, blackInc, isRed]
      simp at h1 h2 ⊢
      omega

/-- Claim C21: every tree that satisfies the red-black invariants, with `size t` nodes and
`height t` nodes on its longest path from the root down to an absent child, has
`2 ^ ⌈height t / 2⌉ ≤ size t + 1` and `height t ≤ 2 * log2 (size t + 1)` (with the
logarithm rounded down); so has every tree that a sequence of `RBInsert` and `RBDelete`
calls builds from the empty tree. -/
theorem height_logarithmic :
    (∀ t : RBNode, Valid t →
      2 ^ ((height t + 1) / 2) ≤ size t + 1 ∧ height t ≤ 2 * Nat.log 2 (size t + 1)) ∧
    (∀ (ops : List Op) (t : RBTree), runOps RBCreate ops = some t →
      2 ^ ((height t.root + 1) / 2) ≤ size t.root + 1 ∧
        height t.root ≤ 2 * Nat.log 2 (size t.root + 1)) := by
  have key : ∀ t : RBNode, Valid t →
      2 ^ ((height t + 1) / 2) ≤ size t + 1 ∧ height t ≤ 2 * Nat.log 2 (size t + 1) := by
    intro t hv
    obtain ⟨_, hrb, hnd, hbal⟩ := (valid_iff t).1 hv
    have h1 := pow_bh_le_size t hbal
    have h2 := height_le_bh t hbal hnd
    have h3 : height t ≤ 2 * bh t := by
      cases t with
      | NULL => simp [height]
      | mk v c l r =>
        have hc : c = .BLACK := hrb
        subst hc
        simpa [isRed] using h2
    have h4 : bh t ≤ Nat.log 2 (size t + 1) :=
      (Nat.pow_le_iff_le_log (by decide) (by omega)).1 h1
    refine ⟨le_trans (Nat.pow_le_pow_right (by decide) (by omega)) h1, by omega⟩
  refine ⟨key, fun ops t h => ?_⟩
  obtain ⟨t1, h1, hv⟩ := runOps_valid ops RBCreate valid_create
  rw [h] at h1
  cases h1
  exact key _ hv

theorem height_logarithmic_witness :
    Valid tenKeys.root ∧ 2 ^ ((height tenKeys.root + 1) / 2) ≤ size tenKeys.root + 1 ∧
      height tenKeys.root ≤ 2 * Nat.log 2 (size tenKeys.root + 1) :=
  ⟨by decide, height_logarithmic.1 tenKeys.root (by decide)⟩

/-! ## Pointers into a tree in memory -/

theorem AParent.fill_addrs_perm (p : AParent) (n : ANode) (L : List Nat) :
    ((p.fill n).addrs ++ L).Perm (n.addrs ++ (p.addr :: p.sibling.addrs ++ L)) := by
  unfold AParent.fill
  split
  · simp [ANode.addrs]
  · simp only [ANode.addrs, List.append_assoc, List.cons_append]
    have h : (p.sibling.addrs ++ p.addr :: (n.addrs ++ L)).Perm
        (p.addr :: (p.sibling.addrs ++ (n.addrs ++ L))) := List.perm_middle
    refine h.trans ?_
    refine List.Perm.trans ?_ List.perm_middle.symm
    refine List.Perm.cons _ ?_
    rw [← List.append_assoc, ← List.append_assoc]
    exact List.Perm.append_right _ List.perm_append_comm

theorem AParent.fill_ptr (p : AParent) (n : ANode) : (p.fill n).ptr = some p.addr := by
  unfold AParent.fill
  split <;> rfl

/-- The pointer to a node and the pointer to its parent show the same tree in memory. -/
theorem Memory.represents_cons (m : Memory) (n : ANode) (p : AParent) (ps : List AParent) :
    m.Represents ⟨n, p :: ps⟩ ↔ m.Represents ⟨p.fill n, ps⟩ := by
  have hperm := AParent.fill_addrs_perm p n (parentsAddrs ps)
  constructor
  · rintro ⟨h1, ⟨h2, h3, h4⟩, h5⟩
    refine ⟨?_, ?_, ?_⟩
    · show m.Holds (p.fill n) (parentsPtr ps)
      unfold AParent.fill
      cases hl : p.isLeft with
      | true =>
        simp only [hl, if_true] at h2 ⊢
        exact ⟨h2, h1, h3⟩
      | false =>
        simp only [hl] at h2 ⊢
        exact ⟨h2, h3, h1⟩
    · show m.HoldsParents ps (p.fill n).ptr
      rw [AParent.fill_ptr]
      exact h4
    · exact hperm.nodup_iff.2 h5
  · rintro ⟨h1, h2, h3⟩
    simp only at h1 h2 h3
    rw [AParent.fill_ptr] at h2
    have h5 := hperm.nodup_iff.1 h3
    unfold AParent.fill at h1
    cases hl : p.isLeft with
    | true =>
      simp only [hl, if_true] at h1
      obtain ⟨c1, c2, c3⟩ := h1
      refine ⟨c2, ⟨?_, c3, h2⟩, h5⟩
      simpa [hl] using c1
    | false =>
      simp only [hl] at h1
      obtain ⟨c1, c2, c3⟩ := h1
      refine ⟨c3, ⟨?_, c2, h2⟩, h5⟩
      simpa [hl] using c1

/-- The pointer to a node and `tree->root` show the same tree in memory. -/
theorem Memory.represents_arebuild (m : Memory) (ps : List AParent) (n : ANode) :
    m.Represents ⟨n, ps⟩ ↔ m.Represents ⟨arebuild n ps, []⟩ := by
  induction ps generalizing n with
  | nil => rfl
  | cons p ps ih => rw [Memory.represents_cons, ih, arebuild]

theorem Memory.represents_left (m : Memory) (x : Nat) (v : Int) (c : Color) (l r : ANode)
    (ps : List AParent) :
    m.Represents ⟨.mk x v c l r, ps⟩ ↔ m.Represents ⟨l, ⟨x, v, c, true, r⟩ :: ps⟩ :=
  (Memory.represents_cons m l ⟨x, v, c, true, r⟩ ps).symm

theorem Memory.represents_right (m : Memory) (x : Nat) (v : Int) (c : Color) (l r : ANode)
    (ps : List AParent) :
    m.Represents ⟨.mk x v c l r, ps⟩ ↔ m.Represents ⟨r, ⟨x, v, c, false, l⟩ :: ps⟩ :=
  (Memory.represents_cons m r ⟨x, v, c, false, l⟩ ps).symm

/-- Two memories with the same nodes and the same root field hold the same trees. -/
theorem Memory.represents_congr (m m1 : Memory) (loc : ALoc) (h : m.Represents loc)
    (hc : ∀ a, m1.cell a = m.cell a) (hr : m1.root = m.root) : m1.Represents loc :=
  ⟨Memory.holds_frame m m1 _ _ h.1 (fun a _ => hc a),
    Memory.holdsParents_frame m m1 _ _ h.2.1 (fun a _ => hc a) hr, h.2.2⟩

/-- Writing a key and a colour into the node at the pointer. -/
theorem Memory.represents_store (m : Memory) (x : Nat) (v : Int) (c : Color) (l r : ANode)
    (ps : List AParent) (v1 : Int) (c1 : Color) (h : m.Represents ⟨.mk x v c l r, ps⟩) :
    (m.store x ⟨v1, c1, l.ptr, r.ptr, parentsPtr ps⟩).Represents ⟨.mk x v1 c1 l r, ps⟩ := by
  obtain ⟨⟨_, hl, hr⟩, hps, hnd⟩ := h
  simp only [ANode.addrs, ANode.ptr] at hnd hps
  have hnd1 := hnd
  simp only [List.nodup_append, List.nodup_cons, List.mem_append, List.mem_cons,
    List.Disjoint] at hnd
  obtain ⟨⟨_, ⟨hxr, _⟩, hlx⟩, _, hall⟩ := hnd
  refine ⟨⟨by simp [Memory.store], ?_, ?_⟩, ?_, hnd1⟩
  · refine Memory.holds_frame m _ l _ hl (fun a ha => ?_)
    have : a ≠ x := fun e => hlx ha (Or.inl e)
    simp [Memory.store, this]
  · refine Memory.holds_frame m _ r _ hr (fun a ha => ?_)
    have : a ≠ x := fun e => hxr (e ▸ ha)
    simp [Memory.store, this]
  · refine Memory.holdsParents_frame m _ ps _ hps (fun a ha => ?_) rfl
    have : a ≠ x := fun e => hall (Or.inr (Or.inl e)) ha
    simp [Memory.store, this]

theorem Memory.represents_cell (m : Memory) (x : Nat) (v : Int) (c : Color) (l r : ANode)
    (ps : List AParent) (h : m.Represents ⟨.mk x v c l r, ps⟩) :
    m.cell x = some ⟨v, c, l.ptr, r.ptr, parentsPtr ps⟩ := h.1.1

/-- The assignment `node->color = c` at the pointer. -/
theorem Memory.setColor_represents (m : Memory) (x : Nat) (v : Int) (c : Color) (l r : ANode)
    (ps : List AParent) (c1 : Color) (h : m.Represents ⟨.mk x v c l r, ps⟩) :
    ∃ m1, m.setColor x c1 = some m1 ∧ m1.Represents ⟨.mk x v c1 l r, ps⟩ :=
  ⟨_, by simp [Memory.setColor, h.1.1], Memory.represents_store m x v c l r ps v c1 h⟩

/-- The assignment `node->value = v` at the pointer. -/
theorem Memory.setValue_represents (m : Memory) (x : Nat) (v : Int) (c : Color) (l r : ANode)
    (ps : List AParent) (v1 : Int) (h : m.Represents ⟨.mk x v c l r, ps⟩) :
    ∃ m1, m.setValue x v1 = some m1 ∧ m1.Represents ⟨.mk x v1 c l r, ps⟩ :=
  ⟨_, by simp [Memory.setValue, h.1.1], Memory.represents_store m x v c l r ps v1 c h⟩

theorem Memory.represents_cell_parent (m : Memory) (n : ANode) (p : AParent)
    (ps : List AParent) (h : m.Represents ⟨n, p :: ps⟩) :
    m.cell p.addr = some ⟨p.value, p.color, if p.isLeft then n.ptr else p.sibling.ptr,
      if p.isLeft then p.sibling.ptr else n.ptr, parentsPtr ps⟩ := h.2.1.1

/-- The other child of the parent is not the node. -/
theorem Memory.represents_sibling_ne (m : Memory) (n : ANode) (p : AParent)
    (ps : List AParent) (x : Nat) (h : m.Represents ⟨n, p :: ps⟩) (hx : n.ptr = some x) :
    p.sibling.ptr ≠ some x := by
  intro e
  have h1 := ANode.ptr_mem_addrs _ _ hx
  have h2 := ANode.ptr_mem_addrs _ _ e
  have hnd := h.2.2
  simp only [parentsAddrs, List.nodup_append, List.nodup_cons, List.mem_append,
    List.mem_cons, List.Disjoint] at hnd
  exact hnd.2.2 h1 (Or.inl (Or.inr h2))

/-- The parent is not the node. -/
theorem Memory.represents_parent_ne (m : Memory) (n : ANode) (p : AParent)
    (ps : List AParent) (x : Nat) (h : m.Represents ⟨n, p :: ps⟩) (hx : n.ptr = some x) :
    x ≠ p.addr := by
  intro e
  have h1 := ANode.ptr_mem_addrs _ _ hx
  have hnd := h.2.2
  simp only [parentsAddrs, List.nodup_append, List.nodup_cons, List.mem_append,
    List.mem_cons, List.Disjoint] at hnd
  exact hnd.2.2 h1 (Or.inl (Or.inl e))

/-- The pointer to a node and the pointer to the other child of its parent. -/
theorem Memory.represents_sibling (m : Memory) (n : ANode) (pa : Nat) (pv : Int) (pc : Color)
    (side : Bool) (s : ANode) (ps : List AParent) :
    m.Represents ⟨n, ⟨pa, pv, pc, side, s⟩ :: ps⟩ ↔
      m.Represents ⟨s, ⟨pa, pv, pc, !side, n⟩ :: ps⟩ := by
  rw [Memory.represents_cons, Memory.represents_cons]
  cases side <;> exact Iff.rfl

/-- The assignment `parent->color = c` seen from the pointer to the child. -/
theorem Memory.setColor_parent (m : Memory) (n : ANode) (pa : Nat) (pv : Int) (pc : Color)
    (side : Bool) (s : ANode) (ps : List AParent) (c1 : Color)
    (h : m.Represents ⟨n, ⟨pa, pv, pc, side, s⟩ :: ps⟩) :
    ∃ m1, m.setColor pa c1 = some m1 ∧ m1.Represents ⟨n, ⟨pa, pv, c1, side, s⟩ :: ps⟩ := by
  rw [Memory.represents_cons] at h
  cases side with
  | true =>
    obtain ⟨m1, h1, h2⟩ := Memory.setColor_represents m pa pv pc n s ps c1 h
    exact ⟨m1, h1, (Memory.represents_cons m1 n ⟨pa, pv, c1, true, s⟩ ps).2 h2⟩
  | false =>
    obtain ⟨m1, h1, h2⟩ := Memory.setColor_represents m pa pv pc s n ps c1 h
    exact ⟨m1, h1, (Memory.represents_cons m1 n ⟨pa, pv, c1, false, s⟩ ps).2 h2⟩

/-- The assignment `sibling->color = c` seen from the pointer to the node. -/
theorem Memory.setColor_sibling (m : Memory) (n : ANode) (pa : Nat) (pv : Int) (pc : Color)
    (side : Bool) (sa : Nat) (sv : Int) (sc : Color) (sl sr : ANode) (ps : List AParent)
    (c1 : Color) (h : m.Represents ⟨n, ⟨pa, pv, pc, side, .mk sa sv sc sl sr⟩ :: ps⟩) :
    ∃ m1, m.setColor sa c1 = some m1 ∧
      m1.Represents ⟨n, ⟨pa, pv, pc, side, .mk sa sv c1 sl sr⟩ :: ps⟩ := by
  rw [Memory.represents_sibling] at h
  obtain ⟨m1, h1, h2⟩ := Memory.setColor_represents m sa sv sc sl sr _ c1 h
  exact ⟨m1, h1, (Memory.represents_sibling m1 n pa pv pc side _ ps).2 h2⟩

/-- The condition `p && p->color == RED` read from the memory. -/
theorem Memory.isRed_holds (m : Memory) (t : ANode) (par : Option Nat) (h : m.Holds t par) :
    m.isRed t.ptr = some (RBT.isRed t.strip) := by
  cases t with
  | NULL => rfl
  | mk a v c l r =>
    simp only [ANode.ptr, Memory.isRed, h.1, Option.map_some', ANode.strip]
    cases c <;> rfl

theorem AParent.strip_fill (p : AParent) (n : ANode) :
    (p.fill n).strip = p.strip.fill n.strip := by
  unfold AParent.fill AParent.strip Parent.fill
  cases p.isLeft <;> simp [ANode.strip]

theorem ANode.ptr_mk (a : Nat) (v : Int) (c : Color) (l r : ANode) :
    (ANode.mk a v c l r).ptr = some a := rfl

theorem parentsPtr_cons (p : AParent) (ps : List AParent) :
    parentsPtr (p :: ps) = some p.addr := rfl

/-- Sequencing after a result, in the form the `do` blocks are written in. -/
theorem someBind {α β : Type} (a : α) (f : α → Option β) : (some a >>= f) = f a := rfl

theorem noneBind {α β : Type} (f : α → Option β) : (none >>= f) = none := rfl

/-! ## `insertFixup` on the memory -/

theorem Memory.lineCaseColorSwap_right (m : Memory) (p : Nat) (pv : Int) (pc : Color)
    (a : ANode) (g : Nat) (gv : Int) (gc : Color) (b c : ANode) (ps : List AParent)
    (h : m.Represents ⟨.mk p pv pc a (.mk g gv gc b c), ps⟩) :
    ∃ m1, m.lineCaseColorSwap p g = some m1 ∧
      m1.Represents ⟨.mk p pv gc a (.mk g gv pc b c), ps⟩ := by
  have hp := h.1.1
  have hg := h.1.2.2.1
  obtain ⟨m1, h1, h2⟩ := Memory.setColor_represents m p pv pc a _ ps gc h
  rw [Memory.represents_right] at h2
  obtain ⟨m2, h3, h4⟩ := Memory.setColor_represents m1 g gv gc b c _ pc h2
  rw [← Memory.represents_right] at h4
  refine ⟨m2, ?_, h4⟩
  simp [Memory.lineCaseColorSwap, hp, hg, h1, h3]

theorem Memory.lineCaseColorSwap_left (m : Memory) (p : Nat) (pv : Int) (pc : Color)
    (a : ANode) (g : Nat) (gv : Int) (gc : Color) (b c : ANode) (ps : List AParent)
    (h : m.Represents ⟨.mk p pv pc (.mk g gv gc b c) a, ps⟩) :
    ∃ m1, m.lineCaseColorSwap p g = some m1 ∧
      m1.Represents ⟨.mk p pv gc (.mk g gv pc b c) a, ps⟩ := by
  have hp := h.1.1
  have hg := h.1.2.1.1
  obtain ⟨m1, h1, h2⟩ := Memory.setColor_represents m p pv pc _ a ps gc h
  rw [Memory.represents_left] at h2
  obtain ⟨m2, h3, h4⟩ := Memory.setColor_represents m1 g gv gc b c _ pc h2
  rw [← Memory.represents_left] at h4
  refine ⟨m2, ?_, h4⟩
  simp [Memory.lineCaseColorSwap, hp, hg, h1, h3]

theorem Memory.uncleRedCaseColorSwap_represents (m : Memory) (n : ANode) (p : Nat) (pv : Int)
    (pc : Color) (pl : Bool) (s : ANode) (g : Nat) (gv : Int) (gc : Color) (gl : Bool)
    (u : Nat) (uv : Int) (uc : Color) (ul ur : ANode) (rest : List AParent)
    (h : m.Represents ⟨n, ⟨p, pv, pc, pl, s⟩ :: ⟨g, gv, gc, gl, .mk u uv uc ul ur⟩ :: rest⟩) :
    ∃ m1, m.uncleRedCaseColorSwap p u g = some m1 ∧
      m1.Represents
        ⟨n, ⟨p, pv, .BLACK, pl, s⟩ :: ⟨g, gv, .RED, gl, .mk u uv .BLACK ul ur⟩ :: rest⟩ := by
  obtain ⟨m1, h1, r1⟩ := Memory.setColor_parent m n p pv pc pl s _ .BLACK h
  rw [Memory.represents_cons] at r1
  obtain ⟨m2, h2, r2⟩ := Memory.setColor_sibling m1 _ g gv gc gl u uv uc ul ur rest .BLACK r1
  obtain ⟨m3, h3, r3⟩ := Memory.setColor_parent m2 _ g gv gc gl _ rest .RED r2
  rw [← Memory.represents_cons] at r3
  exact ⟨m3, by simp [Memory.uncleRedCaseColorSwap, h1, h2, h3], r3⟩

theorem Memory.insertFixupFuel_null_mem (fuel : Nat) (m : Memory) :
    Memory.insertFixupFuel (fuel + 1) m none = some m := rfl

theorem Memory.insertFixupFuel_black_mem (fuel : Nat) (m : Memory) (x : Nat) (v : Int)
    (l r : ANode) (ps : List AParent) (h : m.Represents ⟨.mk x v .BLACK l r, ps⟩) :
    Memory.insertFixupFuel (fuel + 1) m (some x) = some m := by
  have hx := h.1.1
  rw [Memory.insertFixupFuel]
  simp only [Memory.catchSimpleCases, hx, someBind, noneBind, if_true]

theorem Memory.insertFixupFuel_root_mem (fuel : Nat) (m : Memory) (x : Nat) (v : Int)
    (l r : ANode) (h : m.Represents ⟨.mk x v .RED l r, []⟩) :
    ∃ m1, Memory.insertFixupFuel (fuel + 1) m (some x) = some m1 ∧
      m1.Represents ⟨.mk x v .BLACK l r, []⟩ := by
  have hx : m.cell x = some ⟨v, .RED, l.ptr, r.ptr, none⟩ := h.1.1
  obtain ⟨m1, h1, h2⟩ := Memory.setColor_represents m x v .RED l r [] .BLACK h
  refine ⟨m1, ?_, h2⟩
  rw [Memory.insertFixupFuel]
  simp only [Memory.catchSimpleCases, hx, h1, someBind, noneBind,
    reduceCtorEq, if_false, if_true]

theorem Memory.insertFixupFuel_parentBlack_mem (fuel : Nat) (m : Memory) (x : Nat) (v : Int)
    (l r : ANode) (p : Nat) (pv : Int) (pl : Bool) (s : ANode) (ps : List AParent)
    (h : m.Represents ⟨.mk x v .RED l r, ⟨p, pv, .BLACK, pl, s⟩ :: ps⟩) :
    Memory.insertFixupFuel (fuel + 1) m (some x) = some m := by
  have hx : m.cell x = some ⟨v, .RED, l.ptr, r.ptr, some p⟩ := h.1.1
  have hp := Memory.represents_cell_parent _ _ _ _ h
  simp only at hp
  rw [Memory.insertFixupFuel]
  simp only [Memory.catchSimpleCases, hx, hp, someBind, noneBind,
    reduceCtorEq, if_false, if_true]

theorem Memory.insertFixupFuel_noGrandparent_mem (fuel : Nat) (m : Memory) (x : Nat) (v : Int)
    (l r : ANode) (p : Nat) (pv : Int) (pl : Bool) (s : ANode)
    (h : m.Represents ⟨.mk x v .RED l r, [⟨p, pv, .RED, pl, s⟩]⟩) :
    Memory.insertFixupFuel (fuel + 1) m (some x) = none := by
  have hx : m.cell x = some ⟨v, .RED, l.ptr, r.ptr, some p⟩ := h.1.1
  have hp := Memory.represents_cell_parent _ _ _ _ h
  simp only [parentsPtr] at hp
  rw [Memory.insertFixupFuel]
  simp only [Memory.catchSimpleCases, hx, hp, someBind, noneBind,
    Option.none_bind, reduceCtorEq, if_false, if_true, Bool.false_eq_true]

theorem Memory.insertFixupFuel_uncleRed_mem (fuel : Nat) (m : Memory) (x : Nat) (v : Int)
    (l r : ANode) (p : Nat) (pv : Int) (pl : Bool) (s : ANode) (g : Nat) (gv : Int)
    (gc : Color) (gl : Bool) (u : Nat) (uv : Int) (ul ur : ANode) (rest : List AParent)
    (h : m.Represents ⟨.mk x v .RED l r,
      ⟨p, pv, .RED, pl, s⟩ :: ⟨g, gv, gc, gl, .mk u uv .RED ul ur⟩ :: rest⟩) :
    ∃ m1, Memory.insertFixupFuel (fuel + 1) m (some x) =
        Memory.insertFixupFuel fuel m1 (some g) ∧
      m1.Represents ⟨AParent.fill ⟨g, gv, .RED, gl, .mk u uv .BLACK ul ur⟩
        (AParent.fill ⟨p, pv, .BLACK, pl, s⟩ (.mk x v .RED l r)), rest⟩ := by
  have hx : m.cell x = some ⟨v, .RED, l.ptr, r.ptr, some p⟩ := h.1.1
  have hp := Memory.represents_cell_parent _ _ _ _ h
  obtain ⟨m3, hswap, hrep3⟩ := Memory.uncleRedCaseColorSwap_represents m _ p pv .RED pl s g gv
    gc gl u uv .RED ul ur rest h
  rw [Memory.represents_cons, Memory.represents_cons] at hrep3
  refine ⟨m3, ?_, hrep3⟩
  rw [Memory.represents_cons] at h
  have hg := Memory.represents_cell_parent _ _ _ _ h
  have hup := Memory.represents_sibling_ne _ _ _ _ p h (AParent.fill_ptr _ _)
  have hu : m.cell u = some ⟨uv, .RED, ul.ptr, ur.ptr, some g⟩ :=
    ((Memory.represents_sibling m _ g gv gc gl _ rest).1 h).1.1
  simp only [parentsPtr_cons, ANode.ptr_mk, AParent.fill_ptr] at hp hg hup
  rw [Memory.insertFixupFuel]
  cases gl
  · simp only [Bool.false_eq_true, if_false] at hg
    simp only [Memory.catchSimpleCases, Memory.isRed, hx, hp, hg, hu, hswap, hup,
      someBind, noneBind, Option.map_some', reduceCtorEq, if_false, if_true,
      Bool.false_eq_true, decide_True, Option.some.injEq]
  · simp only [if_true] at hg
    simp only [Memory.catchSimpleCases, Memory.isRed, hx, hp, hg, hu, hswap, hup,
      someBind, noneBind, Option.map_some', reduceCtorEq, if_false, if_true,
      Bool.false_eq_true, decide_True, Option.some.injEq]

theorem Memory.insertFixupFuel_LL_mem (fuel : Nat) (m : Memory) (x : Nat) (v : Int) (l r : ANode)
    (p : Nat) (pv : Int) (s : ANode) (g : Nat) (gv : Int) (gc : Color) (u : ANode)
    (rest : List AParent) (hu : RBT.isRed u.strip = false)
    (h : m.Represents
      ⟨.mk x v .RED l r, ⟨p, pv, .RED, true, s⟩ :: ⟨g, gv, gc, true, u⟩ :: rest⟩) :
    ∃ m1, Memory.insertFixupFuel (fuel + 1) m (some x) =
        Memory.insertFixupFuel fuel m1 (some p) ∧
      m1.Represents ⟨.mk p pv gc (.mk x v .RED l r) (.mk g gv .RED s u), rest⟩ := by
  have hx : m.cell x = some ⟨v, .RED, l.ptr, r.ptr, some p⟩ := h.1.1
  have hp : m.cell p = some ⟨pv, .RED, some x, s.ptr, some g⟩ :=
    Memory.represents_cell_parent _ _ _ _ h
  have hsx : s.ptr ≠ some x := Memory.represents_sibling_ne _ _ _ _ x h rfl
  rw [Memory.represents_cons] at h
  have hg : m.cell g = some ⟨gv, gc, some p, u.ptr, parentsPtr rest⟩ :=
    Memory.represents_cell_parent _ _ _ _ h
  have hup : u.ptr ≠ some p := Memory.represents_sibling_ne _ _ _ _ p h rfl
  rw [Memory.represents_cons] at h
  have hured := Memory.isRed_holds m u _ h.1.2.2
  rw [hu] at hured
  obtain ⟨m3, hrot, hrep3, _, _⟩ :=
    Memory.rightRotate_represents m g gv gc p pv .RED _ s u rest h
  obtain ⟨m4, hswap, hrep4⟩ :=
    Memory.lineCaseColorSwap_right m3 p pv .RED _ g gv gc s u rest hrep3
  refine ⟨m4, ?_, hrep4⟩
  rw [Memory.insertFixupFuel]
  simp only [Memory.catchSimpleCases, Memory.triangleCase, Memory.lineCase, hx, hp, hg, hured, hsx, hup, hrot, hswap,
    someBind, noneBind, Option.pure_def, reduceCtorEq, if_false, if_true,
    Bool.false_eq_true, and_false, and_true, true_and, false_and]

theorem Memory.insertFixupFuel_RR_mem (fuel : Nat) (m : Memory) (x : Nat) (v : Int) (l r : ANode)
    (p : Nat) (pv : Int) (s : ANode) (g : Nat) (gv : Int) (gc : Color) (u : ANode)
    (rest : List AParent) (hu : RBT.isRed u.strip = false)
    (h : m.Represents
      ⟨.mk x v .RED l r, ⟨p, pv, .RED, false, s⟩ :: ⟨g, gv, gc, false, u⟩ :: rest⟩) :
    ∃ m1, Memory.insertFixupFuel (fuel + 1) m (some x) =
        Memory.insertFixupFuel fuel m1 (some p) ∧
      m1.Represents ⟨.mk p pv gc (.mk g gv .RED u s) (.mk x v .RED l r), rest⟩ := by
  have hx : m.cell x = some ⟨v, .RED, l.ptr, r.ptr, some p⟩ := h.1.1
  have hp : m.cell p = some ⟨pv, .RED, s.ptr, some x, some g⟩ :=
    Memory.represents_cell_parent _ _ _ _ h
  have hsx : s.ptr ≠ some x := Memory.represents_sibling_ne _ _ _ _ x h rfl
  rw [Memory.represents_cons] at h
  have hg : m.cell g = some ⟨gv, gc, u.ptr, some p, parentsPtr rest⟩ :=
    Memory.represents_cell_parent _ _ _ _ h
  have hup : u.ptr ≠ some p := Memory.represents_sibling_ne _ _ _ _ p h rfl
  rw [Memory.represents_cons] at h
  have hured := Memory.isRed_holds m u _ h.1.2.1
  rw [hu] at hured
  obtain ⟨m3, hrot, hrep3, _, _⟩ :=
    Memory.leftRotate_represents m g gv gc u p pv .RED s _ rest h
  obtain ⟨m4, hswap, hrep4⟩ :=
    Memory.lineCaseColorSwap_left m3 p pv .RED _ g gv gc u s rest hrep3
  refine ⟨m4, ?_, hrep4⟩
  rw [Memory.insertFixupFuel]
  simp only [Memory.catchSimpleCases, Memory.triangleCase, Memory.lineCase, hx, hp, hg, hured, hsx, hup, hrot, hswap,
    someBind, noneBind, Option.pure_def, reduceCtorEq, if_false, if_true,
    Bool.false_eq_true, and_false, and_true, true_and, false_and]

theorem Memory.insertFixupFuel_LR_mem (fuel : Nat) (m : Memory) (x : Nat) (v : Int) (l r : ANode)
    (p : Nat) (pv : Int) (s : ANode) (g : Nat) (gv : Int) (gc : Color) (u : ANode)
    (rest : List AParent) (hu : RBT.isRed u.strip = false)
    (h : m.Represents
      ⟨.mk x v .RED l r, ⟨p, pv, .RED, false, s⟩ :: ⟨g, gv, gc, true, u⟩ :: rest⟩) :
    ∃ m1, Memory.insertFixupFuel (fuel + 1) m (some x) =
        Memory.insertFixupFuel fuel m1 (some x) ∧
      m1.Represents ⟨.mk x v gc (.mk p pv .RED s l) (.mk g gv .RED r u), rest⟩ := by
  have hx : m.cell x = some ⟨v, .RED, l.ptr, r.ptr, some p⟩ := h.1.1
  have hp : m.cell p = some ⟨pv, .RED, s.ptr, some x, some g⟩ :=
    Memory.represents_cell_parent _ _ _ _ h
  have hsx : s.ptr ≠ some x := Memory.represents_sibling_ne _ _ _ _ x h rfl
  rw [Memory.represents_cons] at h
  have hg : m.cell g = some ⟨gv, gc, some p, u.ptr, parentsPtr rest⟩ :=
    Memory.represents_cell_parent _ _ _ _ h
  have hup : u.ptr ≠ some p := Memory.represents_sibling_ne _ _ _ _ p h rfl
  have hured := Memory.isRed_holds m u _ h.2.1.2.1
  rw [hu] at hured
  -- leftRotate(tree, parent)
  obtain ⟨m1, hrot1, hrep1, _, _⟩ :=
    Memory.leftRotate_represents m p pv .RED s x v .RED l r _ h
  have hp1 : m1.cell p = some ⟨pv, .RED, s.ptr, l.ptr, some x⟩ := hrep1.1.2.1.1
  have hx1 : m1.cell x = some ⟨v, .RED, some p, r.ptr, some g⟩ := hrep1.1.1
  have hg1 : m1.cell g = some ⟨gv, gc, some x, u.ptr, parentsPtr rest⟩ :=
    Memory.represents_cell_parent _ _ _ _ hrep1
  rw [Memory.represents_cons] at hrep1
  -- rightRotate(tree, grandparent)
  obtain ⟨m3, hrot, hrep3, _, _⟩ :=
    Memory.rightRotate_represents m1 g gv gc x v .RED _ r u rest hrep1
  obtain ⟨m4, hswap, hrep4⟩ :=
    Memory.lineCaseColorSwap_right m3 x v .RED _ g gv gc r u rest hrep3
  refine ⟨m4, ?_, hrep4⟩
  rw [Memory.insertFixupFuel]
  simp only [Memory.catchSimpleCases, Memory.triangleCase, Memory.lineCase, hx, hp, hg, hured, hsx, hup, hrot1, hp1, hx1, hg1, hrot,
    hswap, someBind, noneBind, Option.pure_def, reduceCtorEq, if_false,
    if_true, Bool.false_eq_true, and_false, and_true, true_and, false_and, and_self]

theorem Memory.insertFixupFuel_RL_mem (fuel : Nat) (m : Memory) (x : Nat) (v : Int) (l r : ANode)
    (p : Nat) (pv : Int) (s : ANode) (g : Nat) (gv : Int) (gc : Color) (u : ANode)
    (rest : List AParent) (hu : RBT.isRed u.strip = false)
    (h : m.Represents
      ⟨.mk x v .RED l r, ⟨p, pv, .RED, true, s⟩ :: ⟨g, gv, gc, false, u⟩ :: rest⟩) :
    ∃ m1, Memory.insertFixupFuel (fuel + 1) m (some x) =
        Memory.insertFixupFuel fuel m1 (some x) ∧
      m1.Represents ⟨.mk x v gc (.mk g gv .RED u l) (.mk p pv .RED r s), rest⟩ := by
  have hx : m.cell x = some ⟨v, .RED, l.ptr, r.ptr, some p⟩ := h.1.1
  have hp : m.cell p = some ⟨pv, .RED, some x, s.ptr, some g⟩ :=
    Memory.represents_cell_parent _ _ _ _ h
  have hsx : s.ptr ≠ some x := Memory.represents_sibling_ne _ _ _ _ x h rfl
  rw [Memory.represents_cons] at h
  have hg : m.cell g = some ⟨gv, gc, u.ptr, some p, parentsPtr rest⟩ :=
    Memory.represents_cell_parent _ _ _ _ h
  have hup : u.ptr ≠ some p := Memory.represents_sibling_ne _ _ _ _ p h rfl
  have hured := Memory.isRed_holds m u _ h.2.1.2.1
  rw [hu] at hured
  -- rightRotate(tree, parent)
  obtain ⟨m1, hrot1, hrep1, _, _⟩ :=
    Memory.rightRotate_represents m p pv .RED x v .RED l r s _ h
  have hp1 : m1.cell p = some ⟨pv, .RED, r.ptr, s.ptr, some x⟩ := hrep1.1.2.2.1
  have hx1 : m1.cell x = some ⟨v, .RED, l.ptr, some p, some g⟩ := hrep1.1.1
  have hg1 : m1.cell g = some ⟨gv, gc, u.ptr, some x, parentsPtr rest⟩ :=
    Memory.represents_cell_parent _ _ _ _ hrep1
  have hlp : l.ptr ≠ some p := by
    have := (Memory.represents_right m1 x v .RED l _ _).1 hrep1
    exact Memory.represents_sibling_ne _ _ _ _ p this rfl
  have hux : u.ptr ≠ some x := Memory.represents_sibling_ne _ _ _ _ x hrep1 rfl
  rw [Memory.represents_cons] at hrep1
  -- leftRotate(tree, grandparent)
  obtain ⟨m3, hrot, hrep3, _, _⟩ :=
    Memory.leftRotate_represents m1 g gv gc u x v .RED l _ rest hrep1
  obtain ⟨m4, hswap, hrep4⟩ :=
    Memory.lineCaseColorSwap_left m3 x v .RED _ g gv gc u l rest hrep3
  refine ⟨m4, ?_, hrep4⟩
  rw [Memory.insertFixupFuel]
  simp only [Memory.catchSimpleCases, Memory.triangleCase, Memory.lineCase, hx, hp, hg, hured, hsx, hup, hrot1, hp1, hx1, hg1, hrot,
    hswap, hlp, hux, someBind, noneBind, Option.pure_def, reduceCtorEq,
    if_false, if_true, Bool.false_eq_true, and_false, and_true, true_and, false_and, and_self]

theorem Memory.agreesTop_of_represents (m : Memory) (aloc : ALoc) (h : m.Represents aloc) :
    Memory.AgreesTop (some m) (some (rebuild aloc.strip.node aloc.strip.parents)) :=
  ⟨m, arebuild aloc.node aloc.parents, rfl,
    (Memory.represents_arebuild m aloc.parents aloc.node).1 h, arebuild_strip _ _⟩

/-- Function `insertFixup` on the memory and on pointers: with the same bound, both have no
result, or the memory afterwards holds the tree that the function on pointers returns. -/
theorem Memory.insertFixupFuel_agrees (fuel : Nat) : ∀ (m : Memory) (aloc : ALoc),
    m.Represents aloc →
    Memory.AgreesTop (Memory.insertFixupFuel fuel m aloc.node.ptr)
      (RBT.insertFixupFuel fuel aloc.strip) := by
  induction fuel with
  | zero =>
    intro m aloc _
    rfl
  | succ n ih =>
    rintro m ⟨node, ps⟩ h
    cases node with
    | NULL =>
      have hz : RBT.insertFixupFuel (n + 1) (ALoc.strip ⟨.NULL, ps⟩) = some _ :=
        RBT.insertFixupFuel_notRed n .NULL _ rfl
      rw [hz]
      exact Memory.agreesTop_of_represents m _ h
    | mk x v c l r =>
      cases c with
      | BLACK =>
        have hz : RBT.insertFixupFuel (n + 1) (ALoc.strip ⟨.mk x v .BLACK l r, ps⟩) = some _ :=
          RBT.insertFixupFuel_notRed n (.mk v .BLACK l.strip r.strip) _ rfl
        rw [hz, ANode.ptr_mk, Memory.insertFixupFuel_black_mem n m x v l r ps h]
        exact Memory.agreesTop_of_represents m _ h
      | RED =>
        cases ps with
        | nil =>
          obtain ⟨m1, h1, h2⟩ := Memory.insertFixupFuel_root_mem n m x v l r h
          rw [ANode.ptr_mk, h1]
          exact Memory.agreesTop_of_represents m1 _ h2
        | cons p ps =>
          obtain ⟨p, pv, pc, pl, s⟩ := p
          cases pc with
          | BLACK =>
            rw [ANode.ptr_mk, Memory.insertFixupFuel_parentBlack_mem n m x v l r p pv pl s ps h]
            exact Memory.agreesTop_of_represents m _ h
          | RED =>
            cases ps with
            | nil =>
              rw [ANode.ptr_mk, Memory.insertFixupFuel_noGrandparent_mem n m x v l r p pv pl s h]
              rfl
            | cons g rest =>
              obtain ⟨g, gv, gc, gl, u⟩ := g
              by_cases hu : RBT.isRed u.strip = true
              · cases u with
                | NULL => simp [ANode.strip, RBT.isRed] at hu
                | mk u uv uc ul ur =>
                  cases uc with
                  | BLACK => simp [ANode.strip, RBT.isRed] at hu
                  | RED =>
                    obtain ⟨m1, h1, h2⟩ := Memory.insertFixupFuel_uncleRed_mem n m x v l r p pv pl
                      s g gv gc gl u uv ul ur rest h
                    have hz := RBT.insertFixupFuel_uncleRed n v l.strip r.strip pv pl s.strip gv gc
                      gl uv ul.strip ur.strip (rest.map AParent.strip)
                    have hi := ih m1 _ h2
                    rw [AParent.fill_ptr] at hi
                    rw [ANode.ptr_mk, h1]
                    simp only [ALoc.strip, ANode.strip, List.map_cons, AParent.strip,
                      AParent.strip_fill] at hi ⊢
                    rw [hz]
                    exact hi
              · have hu1 : RBT.isRed u.strip = false := by simpa using hu
                cases pl <;> cases gl
                · obtain ⟨m1, h1, h2⟩ := Memory.insertFixupFuel_RR_mem n m x v l r p pv s g gv gc u
                    rest hu1 h
                  have hz := RBT.insertFixupFuel_RR n v l.strip r.strip pv s.strip gv gc u.strip
                    hu1 (rest.map AParent.strip)
                  have hi := ih m1 _ h2
                  rw [ANode.ptr_mk, h1]
                  simp only [ALoc.strip, ANode.strip, List.map_cons, AParent.strip,
                    ANode.ptr_mk] at hi ⊢
                  rw [hz]
                  exact hi
                · obtain ⟨m1, h1, h2⟩ := Memory.insertFixupFuel_LR_mem n m x v l r p pv s g gv gc u
                    rest hu1 h
                  have hz := RBT.insertFixupFuel_LR n v l.strip r.strip pv s.strip gv gc u.strip
                    hu1 (rest.map AParent.strip)
                  have hi := ih m1 _ h2
                  rw [ANode.ptr_mk, h1]
                  simp only [ALoc.strip, ANode.strip, List.map_cons, AParent.strip,
                    ANode.ptr_mk] at hi ⊢
                  rw [hz]
                  exact hi
                · obtain ⟨m1, h1, h2⟩ := Memory.insertFixupFuel_RL_mem n m x v l r p pv s g gv gc u
                    rest hu1 h
                  have hz := RBT.insertFixupFuel_RL n v l.strip r.strip pv s.strip gv gc u.strip
                    hu1 (rest.map AParent.strip)
                  have hi := ih m1 _ h2
                  rw [ANode.ptr_mk, h1]
                  simp only [ALoc.strip, ANode.strip, List.map_cons, AParent.strip,
                    ANode.ptr_mk] at hi ⊢
                  rw [hz]
                  exact hi
                · obtain ⟨m1, h1, h2⟩ := Memory.insertFixupFuel_LL_mem n m x v l r p pv s g gv gc u
                    rest hu1 h
                  have hz := RBT.insertFixupFuel_LL n v l.strip r.strip pv s.strip gv gc u.strip
                    hu1 (rest.map AParent.strip)
                  have hi := ih m1 _ h2
                  rw [ANode.ptr_mk, h1]
                  simp only [ALoc.strip, ANode.strip, List.map_cons, AParent.strip,
                    ANode.ptr_mk] at hi ⊢
                  rw [hz]
                  exact hi

/-! ## `nodeInsert` on the memory -/

theorem Memory.store_same (m : Memory) (a : Nat) (c : Cell) (h : m.cell a = some c) (b : Nat) :
    (m.store a c).cell b = m.cell b := by
  simp only [Memory.store]
  split
  · next e => rw [e, h]
  · rfl

/-- Linking the new node at `a` below the parent `p`, into the place of an absent child. -/
theorem Memory.represents_attach (m : Memory) (pa : Nat) (pv : Int) (pc : Color) (side : Bool)
    (s : ANode) (ps : List AParent) (a : Nat) (nv : Int)
    (h : m.Represents ⟨.NULL, ⟨pa, pv, pc, side, s⟩ :: ps⟩)
    (ha : a ∉ parentsAddrs (⟨pa, pv, pc, side, s⟩ :: ps)) :
    ((m.store pa ⟨pv, pc, if side then some a else s.ptr, if side then s.ptr else some a,
        parentsPtr ps⟩).store a ⟨nv, .RED, none, none, some pa⟩).Represents
      ⟨.mk a nv .RED .NULL .NULL, ⟨pa, pv, pc, side, s⟩ :: ps⟩ := by
  obtain ⟨_, ⟨_, hs, hps⟩, hnd⟩ := h
  simp only [ANode.addrs, List.nil_append, parentsAddrs, List.cons_append, List.nodup_cons,
    List.mem_append, List.nodup_append, List.Disjoint] at hnd
  simp only [parentsAddrs, List.cons_append, List.mem_cons, List.mem_append, not_or] at ha
  obtain ⟨hap, has, haps⟩ := ha
  have hpa : pa ≠ a := fun e => hap e.symm
  obtain ⟨hp, hsn, hpsn, hdis⟩ := hnd
  refine ⟨⟨by simp [Memory.store, ANode.ptr, parentsPtr], trivial, trivial⟩, ⟨?_, ?_, ?_⟩, ?_⟩
  · simp [Memory.store, hpa, ANode.ptr]
  · refine Memory.holds_frame m _ s _ hs (fun b hb => ?_)
    have h1 : b ≠ a := fun e => has (e ▸ hb)
    have h2 : b ≠ pa := fun e => hp (Or.inl (e ▸ hb))
    simp [Memory.store, h1, h2]
  · refine Memory.holdsParents_frame m _ ps _ hps (fun b hb => ?_) rfl
    have h1 : b ≠ a := fun e => haps (e ▸ hb)
    have h2 : b ≠ pa := fun e => hp (Or.inr (e ▸ hb))
    simp [Memory.store, h1, h2]
  · simp only [ANode.addrs, List.nil_append, parentsAddrs, List.cons_append, List.nodup_cons,
      List.mem_cons, List.mem_append, List.nodup_append, List.Disjoint, List.singleton_append]
    refine ⟨?_, hp, hsn, hpsn, hdis⟩
    rintro (e | e | e)
    · exact hap e
    · exact has e
    · exact haps e

/-- Function `nodeInsert` on the memory, called on a node `t` of a well-formed tree with a new
node at the unused address `a`: the bound is reached (and is at most the height of `t`), or
the key is found below `t` and nothing changes, or the new node is linked below `t`; the
results are those of `nodeInsert` and `newNodeLoc` on pointers. -/
theorem Memory.nodeInsertFuel_agrees (nv : Int) (a : Nat) (flag : Bool) :
    ∀ (t : ANode) (ps : List AParent) (m : Memory) (fuel : Nat), t ≠ .NULL →
    m.Represents ⟨t, ps⟩ → a ∉ t.addrs ++ parentsAddrs ps →
    m.cell a = some ⟨nv, .RED, none, none, none⟩ →
    (Memory.nodeInsertFuel fuel m t.ptr (some a) flag = none ∧ fuel ≤ height t.strip) ∨
    (∃ m1, Memory.nodeInsertFuel fuel m t.ptr (some a) flag = some (m1, t.ptr, true) ∧
      (∀ b, m1.cell b = m.cell b) ∧ m1.root = m.root ∧
      RBT.nodeInsert t.strip (RBT.makeNode nv) flag = some (t.strip, true) ∧
      RBT.newNodeLoc t.strip (ps.map AParent.strip) nv (RBT.makeNode nv) =
        ⟨RBT.makeNode nv, []⟩) ∨
    (∃ m1 t1 ps1, Memory.nodeInsertFuel fuel m t.ptr (some a) flag = some (m1, t.ptr, flag) ∧
      t1.ptr = t.ptr ∧ m1.Represents ⟨t1, ps⟩ ∧ m1.Represents ⟨.mk a nv .RED .NULL .NULL, ps1⟩ ∧
      RBT.nodeInsert t.strip (RBT.makeNode nv) flag = some (t1.strip, flag) ∧
      RBT.newNodeLoc t.strip (ps.map AParent.strip) nv (RBT.makeNode nv) =
        ALoc.strip ⟨.mk a nv .RED .NULL .NULL, ps1⟩) := by
  intro t
  induction t with
  | NULL => intro ps m fuel hne; exact absurd rfl hne
  | mk x v c l r ihl ihr =>
    intro ps m fuel _ h hfresh ha
    have hx : m.cell x = some ⟨v, c, l.ptr, r.ptr, parentsPtr ps⟩ := h.1.1
    cases fuel with
    | zero =>
      left
      exact ⟨rfl, Nat.zero_le _⟩
    | succ n =>
      simp only [ANode.ptr_mk]
      by_cases hlt : nv < v
      · -- the descent goes on below `root->left`
        cases l with
        | NULL =>
          cases n with
          | zero =>
            left
            refine ⟨?_, by simp [height, ANode.strip]⟩
            rw [Memory.nodeInsertFuel]
            simp only [ha, hx, someBind, noneBind, hlt, if_true, if_false, ANode.ptr,
              Memory.nodeInsertFuel]
          | succ k =>
            right; right
            have hnull : m.Represents ⟨.NULL, ⟨x, v, c, true, r⟩ :: ps⟩ :=
              (Memory.represents_left m x v c _ _ ps).1 h
            have hrep := Memory.represents_attach m x v c true r ps a nv hnull
              (by simpa [parentsAddrs, ANode.addrs] using hfresh)
            simp only [if_true, Bool.false_eq_true, if_false] at hrep
            have hxa : x ≠ a := by
              intro e
              apply hfresh
              simp [ANode.addrs, e]
            refine ⟨_, .mk x v c (.mk a nv .RED .NULL .NULL) r, ⟨x, v, c, true, r⟩ :: ps, ?_, rfl,
              (Memory.represents_left _ x v c _ _ ps).2 hrep, hrep, ?_, ?_⟩
            · rw [Memory.nodeInsertFuel]
              simp only [ha, hx, someBind, noneBind, hlt, if_true, if_false, ANode.ptr,
                Memory.nodeInsertFuel, Memory.setLeft, Memory.setParent, Option.map_some',
                Memory.store_cell, hxa, hxa.symm]
            · simp [ANode.strip, RBT.nodeInsert, RBT.makeNode, hlt]
            · simp [ANode.strip, RBT.newNodeLoc, RBT.makeNode, hlt, ALoc.strip, AParent.strip]
        | mk la lv lc ll lr =>
          have hchild : m.Represents ⟨(.mk la lv lc ll lr), ⟨x, v, c, true, r⟩ :: ps⟩ :=
            (Memory.represents_left m x v c _ _ ps).1 h
          have hlax : la ≠ x := Memory.represents_parent_ne m _ _ _ la hchild rfl
          have hfresh1 : a ∉ (ANode.mk la lv lc ll lr).addrs ++
              parentsAddrs (⟨x, v, c, true, r⟩ :: ps) := by
            simp only [parentsAddrs, ANode.addrs, List.mem_append, List.mem_cons, not_or,
              List.cons_append] at hfresh ⊢
            tauto
          have hih := ihl (⟨x, v, c, true, r⟩ :: ps) m n (fun e => ANode.noConfusion e)
            hchild hfresh1 ha
          simp only [ANode.ptr_mk] at hih hx
          rcases hih with
            ⟨h1, h2⟩ | ⟨m1, h1, h2, h3, h4, h5⟩ | ⟨m1, l1, ps1, h1, h2, h3, h4, h5, h6⟩
          · left
            refine ⟨?_, by simp only [ANode.strip, height] at h2 ⊢; omega⟩
            rw [Memory.nodeInsertFuel]
            simp only [ha, hx, someBind, noneBind, hlt, if_true, if_false, h1]
          · right; left
            have hla : m.cell la = some ⟨lv, lc, ll.ptr, lr.ptr, some x⟩ := hchild.1.1
            refine ⟨(m1.store x ⟨v, c, some la, r.ptr, parentsPtr ps⟩).store la ⟨lv, lc, ll.ptr, lr.ptr, some x⟩,
              ?_, ?_, ?_, ?_, ?_⟩
            · rw [Memory.nodeInsertFuel]
              simp only [ha, hx, someBind, noneBind, hlt, if_true, if_false, h1,
                Memory.setLeft, Memory.setParent, Option.map_some', Memory.store_cell, h2, hla, hlax]
            · intro b
              simp only [Memory.store_cell, h2]
              split
              · next e => rw [e, hla]
              · split
                · next e => rw [e, hx]
                · rfl
            · simp only [Memory.store_root, h3]
            · simp only [ANode.strip, RBT.nodeInsert, RBT.makeNode, hlt, if_true,
                if_false] at h4 ⊢
              rw [h4]
            · simpa [ANode.strip, RBT.newNodeLoc, RBT.makeNode, hlt, AParent.strip] using h5
          · right; right
            rw [← Memory.represents_left] at h3
            have hx1 : m1.cell x = some ⟨v, c, some la, r.ptr, parentsPtr ps⟩ := by
              have := h3.1.1
              rw [h2] at this
              exact this
            obtain ⟨k, hk, hkp⟩ := Memory.holds_cell m1 l1 (some x) la h3.1.2.1 h2
            have hsame : ∀ b, ((m1.store x ⟨v, c, some la, r.ptr, parentsPtr ps⟩).store la
                ⟨k.value, k.color, k.left, k.right, some x⟩).cell b = m1.cell b := by
              intro b
              simp only [Memory.store_cell]
              split
              · next e =>
                rw [e, hk]
                cases k
                simp only at hkp
                rw [hkp]
              · split
                · next e => rw [e, hx1]
                · rfl
            refine ⟨(m1.store x ⟨v, c, some la, r.ptr, parentsPtr ps⟩).store la
              ⟨k.value, k.color, k.left, k.right, some x⟩, .mk x v c l1 r, ps1, ?_, rfl, ?_, ?_,
              ?_, ?_⟩
            · rw [Memory.nodeInsertFuel]
              simp only [ha, hx, someBind, noneBind, hlt, if_true, if_false, h1,
                Memory.setLeft, Memory.setParent, Option.map_some', Memory.store_cell, hx1, hk, hlax]
            · exact Memory.represents_congr m1 _ _ h3 hsame rfl
            · exact Memory.represents_congr m1 _ _ h4 hsame rfl
            · simp only [ANode.strip, RBT.nodeInsert, RBT.makeNode, hlt, if_true,
                if_false] at h5 ⊢
              rw [h5]
            · simpa [ANode.strip, RBT.newNodeLoc, RBT.makeNode, hlt, AParent.strip] using h6
      by_cases hgt : nv > v
      · -- the descent goes on below `root->right`
        cases r with
        | NULL =>
          cases n with
          | zero =>
            left
            refine ⟨?_, by simp [height, ANode.strip]⟩
            rw [Memory.nodeInsertFuel]
            simp only [ha, hx, someBind, noneBind, hlt, hgt, if_true, if_false, ANode.ptr,
              Memory.nodeInsertFuel]
          | succ k =>
            right; right
            have hnull : m.Represents ⟨.NULL, ⟨x, v, c, false, l⟩ :: ps⟩ :=
              (Memory.represents_right m x v c _ _ ps).1 h
            have hrep := Memory.represents_attach m x v c false l ps a nv hnull (by
              simp only [parentsAddrs, ANode.addrs, List.mem_append, List.mem_cons, not_or,
                List.cons_append, List.append_nil, List.not_mem_nil, false_or] at hfresh ⊢
              tauto)
            simp only [if_true, Bool.false_eq_true, if_false] at hrep
            have hxa : x ≠ a := by
              intro e
              apply hfresh
              simp [ANode.addrs, e]
            refine ⟨_, .mk x v c l (.mk a nv .RED .NULL .NULL), ⟨x, v, c, false, l⟩ :: ps, ?_, rfl,
              (Memory.represents_right _ x v c _ _ ps).2 hrep, hrep, ?_, ?_⟩
            · rw [Memory.nodeInsertFuel]
              simp only [ha, hx, someBind, noneBind, hlt, hgt, if_true, if_false, ANode.ptr,
                Memory.nodeInsertFuel, Memory.setRight, Memory.setParent, Option.map_some',
                Memory.store_cell, hxa, hxa.symm]
            · simp [ANode.strip, RBT.nodeInsert, RBT.makeNode, hlt, hgt]
            · simp [ANode.strip, RBT.newNodeLoc, RBT.makeNode, hlt, hgt, ALoc.strip, AParent.strip]
        | mk la lv lc ll lr =>
          have hchild : m.Represents ⟨(.mk la lv lc ll lr), ⟨x, v, c, false, l⟩ :: ps⟩ :=
            (Memory.represents_right m x v c _ _ ps).1 h
          have hlax : la ≠ x := Memory.represents_parent_ne m _ _ _ la hchild rfl
          have hfresh1 : a ∉ (ANode.mk la lv lc ll lr).addrs ++
              parentsAddrs (⟨x, v, c, false, l⟩ :: ps) := by
            simp only [parentsAddrs, ANode.addrs, List.mem_append, List.mem_cons, not_or,
              List.cons_append] at hfresh ⊢
            tauto
          have hih := ihr (⟨x, v, c, false, l⟩ :: ps) m n (fun e => ANode.noConfusion e)
            hchild hfresh1 ha
          simp only [ANode.ptr_mk] at hih hx
          rcases hih with
            ⟨h1, h2⟩ | ⟨m1, h1, h2, h3, h4, h5⟩ | ⟨m1, l1, ps1, h1, h2, h3, h4, h5, h6⟩
          · left
            refine ⟨?_, by simp only [ANode.strip, height] at h2 ⊢; omega⟩
            rw [Memory.nodeInsertFuel]
            simp only [ha, hx, someBind, noneBind, hlt, hgt, if_true, if_false, h1]
          · right; left
            have hla : m.cell la = some ⟨lv, lc, ll.ptr, lr.ptr, some x⟩ := hchild.1.1
            refine ⟨(m1.store x ⟨v, c, l.ptr, some la, parentsPtr ps⟩).store la ⟨lv, lc, ll.ptr, lr.ptr, some x⟩,
              ?_, ?_, ?_, ?_, ?_⟩
            · rw [Memory.nodeInsertFuel]
              simp only [ha, hx, someBind, noneBind, hlt, hgt, if_true, if_false, h1,
                Memory.setRight, Memory.setParent, Option.map_some', Memory.store_cell, h2, hla, hlax]
            · intro b
              simp only [Memory.store_cell, h2]
              split
              · next e => rw [e, hla]
              · split
                · next e => rw [e, hx]
                · rfl
            · simp only [Memory.store_root, h3]
            · simp only [ANode.strip, RBT.nodeInsert, RBT.makeNode, hlt, hgt, if_true,
                if_false] at h4 ⊢
              rw [h4]
            · simpa [ANode.strip, RBT.newNodeLoc, RBT.makeNode, hlt, hgt, AParent.strip] using h5
          · right; right
            rw [← Memory.represents_right] at h3
            have hx1 : m1.cell x = some ⟨v, c, l.ptr, some la, parentsPtr ps⟩ := by
              have := h3.1.1
              rw [h2] at this
              exact this
            obtain ⟨k, hk, hkp⟩ := Memory.holds_cell m1 l1 (some x) la h3.1.2.2 h2
            have hsame : ∀ b, ((m1.store x ⟨v, c, l.ptr, some la, parentsPtr ps⟩).store la
                ⟨k.value, k.color, k.left, k.right, some x⟩).cell b = m1.cell b := by
              intro b
              simp only [Memory.store_cell]
              split
              · next e =>
                rw [e, hk]
                cases k
                simp only at hkp
                rw [hkp]
              · split
                · next e => rw [e, hx1]
                · rfl
            refine ⟨(m1.store x ⟨v, c, l.ptr, some la, parentsPtr ps⟩).store la
              ⟨k.value, k.color, k.left, k.right, some x⟩, .mk x v c l l1, ps1, ?_, rfl, ?_, ?_,
              ?_, ?_⟩
            · rw [Memory.nodeInsertFuel]
              simp only [ha, hx, someBind, noneBind, hlt, hgt, if_true, if_false, h1,
                Memory.setRight, Memory.setParent, Option.map_some', Memory.store_cell, hx1, hk, hlax]
            · exact Memory.represents_congr m1 _ _ h3 hsame rfl
            · exact Memory.represents_congr m1 _ _ h4 hsame rfl
            · simp only [ANode.strip, RBT.nodeInsert, RBT.makeNode, hlt, hgt, if_true,
                if_false] at h5 ⊢
              rw [h5]
            · simpa [ANode.strip, RBT.newNodeLoc, RBT.makeNode, hlt, hgt, AParent.strip] using h6
      · -- the key is found
        right; left
        refine ⟨m, ?_, fun _ => rfl, rfl, ?_, ?_⟩
        · rw [Memory.nodeInsertFuel]
          simp only [ha, hx, someBind, noneBind, hlt, hgt, if_true, if_false, ANode.ptr_mk]
        · simp [ANode.strip, RBT.nodeInsert, RBT.makeNode, hlt, hgt]
        · simp [ANode.strip, RBT.newNodeLoc, RBT.makeNode, hlt, hgt]

/-! ## `RBInsert` on the memory -/

theorem newNodeLoc_parents_length (t : RBNode) (ps : List Parent) (nv : Int) (new : RBNode) :
    (newNodeLoc t ps nv new).parents.length ≤ height t + ps.length := by
  induction t generalizing ps with
  | NULL => simp [newNodeLoc]
  | mk v c l r ihl ihr =>
    simp only [newNodeLoc, height]
    split
    · have := ihl (⟨v, c, true, r⟩ :: ps)
      simp only [List.length_cons] at this
      omega
    · split
      · have := ihr (⟨v, c, false, l⟩ :: ps)
        simp only [List.length_cons] at this
        omega
      · simp

/-- The tree is held as before when a node is made at an unused address. -/
theorem Memory.represents_makeNode (m : Memory) (loc : ALoc) (a : Nat) (value : Int)
    (h : m.Represents loc) (ha : a ∉ loc.node.addrs ++ parentsAddrs loc.parents) :
    (m.makeNode a value).Represents loc := by
  simp only [List.mem_append, not_or] at ha
  refine ⟨Memory.holds_frame m _ _ _ h.1 (fun b hb => ?_),
    Memory.holdsParents_frame m _ _ _ h.2.1 (fun b hb => ?_) rfl, h.2.2⟩
  · have : b ≠ a := fun e => ha.1 (e ▸ hb)
    simp [Memory.makeNode, Memory.store, this]
  · have : b ≠ a := fun e => ha.2 (e ▸ hb)
    simp [Memory.makeNode, Memory.store, this]

theorem Memory.insertFixupFuel_detached (fuel : Nat) (m : Memory) (a : Nat) (value : Int)
    (h : m.cell a = some ⟨value, .RED, none, none, none⟩) :
    Memory.insertFixupFuel (fuel + 1) m (some a) =
      some (m.store a ⟨value, .BLACK, none, none, none⟩) := by
  rw [Memory.insertFixupFuel]
  simp only [Memory.catchSimpleCases, Memory.setColor, h, someBind, noneBind, reduceCtorEq,
    if_false, if_true, Option.map_some']

/-- More nested calls do not change a result of `insertFixup` on pointers. -/
theorem insertFixupFuel_mono (fuel : Nat) : ∀ (n : RBNode) (ps : List Parent) (top : RBNode),
    insertFixupFuel fuel ⟨n, ps⟩ = some top → insertFixupFuel (fuel + 1) ⟨n, ps⟩ = some top := by
  induction fuel with
  | zero => intro n ps top h; cases h
  | succ fuel ih =>
    intro n ps top h
    cases hn : isRed n with
    | false =>
      rw [insertFixupFuel_notRed _ n ps hn] at h ⊢
      exact h
    | true =>
      obtain ⟨v, l, r, rfl⟩ := isRed_true_cases n hn
      cases ps with
      | nil => exact h
      | cons p ps =>
        obtain ⟨pv, pc, pl, s⟩ := p
        cases pc with
        | BLACK => exact h
        | RED =>
          cases ps with
          | nil => exact h
          | cons g rest =>
            obtain ⟨gv, gc, gl, u⟩ := g
            cases hu : isRed u with
            | true =>
              obtain ⟨uv, ul, ur, rfl⟩ := isRed_true_cases u hu
              rw [insertFixupFuel_uncleRed] at h ⊢
              exact ih _ _ _ h
            | false =>
              cases pl <;> cases gl
              · rw [insertFixupFuel_RR _ _ _ _ _ _ _ _ _ hu] at h ⊢
                exact ih _ _ _ h
              · rw [insertFixupFuel_LR _ _ _ _ _ _ _ _ _ hu] at h ⊢
                exact ih _ _ _ h
              · rw [insertFixupFuel_RL _ _ _ _ _ _ _ _ _ hu] at h ⊢
                exact ih _ _ _ h
              · rw [insertFixupFuel_LL _ _ _ _ _ _ _ _ _ hu] at h ⊢
                exact ih _ _ _ h

/-- A result of `insertFixup` on pointers within any number of nested calls is the result
of the function. -/
theorem insertFixupFuel_result (fuel : Nat) (node : Loc) (top : RBNode)
    (h : insertFixupFuel fuel node = some top) : insertFixup node = some top := by
  have hk : ∀ k, insertFixupFuel (fuel + k) node = some top := by
    intro k
    induction k with
    | zero => exact h
    | succ k ih => exact insertFixupFuel_mono _ node.node node.parents top ih
  have := hk (node.parents.length + 1)
  rwa [insertFixupFuel_enough node _ (by omega)] at this

/-- Function `RBInsert` on the memory, called on a well-formed tree with the new node made at
an unused address: whenever the call returns, the memory holds a well-formed tree again,
which is the tree that `RBInsert` on pointers returns, with the same status; and whenever
`RBInsert` on pointers returns, the call on the memory returns too once the bound exceeds
the height of the tree by two. -/
theorem Memory.RBInsert_agrees (m : Memory) (t : ANode) (value : Int) (a : Nat) (fuel : Nat)
    (h : m.Represents ⟨t, []⟩) (ha : a ∉ t.addrs) :
    (∀ m1 s, Memory.RBInsert fuel m value (some a) = some (m1, s) →
      ∃ t1, m1.Represents ⟨t1, []⟩ ∧ RBT.RBInsert ⟨t.strip⟩ value = some (⟨t1.strip⟩, s)) ∧
    (∀ tz s, RBT.RBInsert ⟨t.strip⟩ value = some (tz, s) → height t.strip + 2 ≤ fuel →
      ∃ m1 t1, Memory.RBInsert fuel m value (some a) = some (m1, s) ∧
        m1.Represents ⟨t1, []⟩ ∧ t1.strip = tz.root) := by
  have h0 : (m.makeNode a value).Represents ⟨t, []⟩ :=
    Memory.represents_makeNode m _ a value h (by simpa [parentsAddrs] using ha)
  have hcell : (m.makeNode a value).cell a = some ⟨value, .RED, none, none, none⟩ := by
    simp [Memory.makeNode, Memory.store]
  have hroot : (m.makeNode a value).root = t.ptr := h0.2.1
  cases fuel with
  | zero =>
    refine ⟨fun m1 s e => ?_, fun tz s _ hf => by omega⟩
    simp [Memory.RBInsert, Memory.nodeInsertFuel] at e
  | succ n =>
    cases t with
    | NULL =>
      have hres : Memory.RBInsert (n + 1) m value (some a) =
          some (((m.makeNode a value).setRoot (some a)).store a
            ⟨value, .BLACK, none, none, none⟩, 0) := by
        have hd := Memory.insertFixupFuel_detached n ((m.makeNode a value).setRoot (some a))
          a value hcell
        simp only [Memory.RBInsert, hroot, ANode.ptr, Memory.nodeInsertFuel, someBind, hd]
        rfl
      have hrep : (((m.makeNode a value).setRoot (some a)).store a
          ⟨value, .BLACK, none, none, none⟩).Represents ⟨.mk a value .BLACK .NULL .NULL, []⟩ := by
        refine ⟨⟨by simp [Memory.store, ANode.ptr, parentsPtr], trivial, trivial⟩, rfl, ?_⟩
        simp [ANode.addrs, parentsAddrs]
      have hz : RBT.RBInsert ⟨ANode.strip .NULL⟩ value =
          some (⟨.mk value .BLACK .NULL .NULL⟩, 0) := rfl
      refine ⟨fun m1 s e => ?_, fun tz s e _ => ?_⟩
      · rw [hres] at e
        cases e
        exact ⟨_, hrep, hz⟩
      · rw [hz] at e
        cases e
        exact ⟨_, _, hres, hrep, rfl⟩
    | mk x v c l r =>
      have hfresh : a ∉ (ANode.mk x v c l r).addrs ++ parentsAddrs [] := by
        simpa [parentsAddrs] using ha
      rcases Memory.nodeInsertFuel_agrees value a false (.mk x v c l r) [] (m.makeNode a value)
        (n + 1) (fun e => ANode.noConfusion e) h0 hfresh hcell with
        ⟨h1, h2⟩ | ⟨m1, h1, h2, h3, h4, h5⟩ | ⟨m1, t1, ps1, h1, h2, h3, h4, h5, h6⟩ <;>
        simp only [ANode.ptr_mk] at h1
      · -- the bound is reached
        refine ⟨fun m1 s e => ?_, fun tz s _ hf => by omega⟩
        simp only [Memory.RBInsert, hroot, ANode.ptr_mk, h1, noneBind] at e
        cases e
      · -- the key is in the tree
        have hca : (m1.setRoot (some x)).cell a = some ⟨value, .RED, none, none, none⟩ := by
          show m1.cell a = _
          rw [h2, hcell]
        have hd := Memory.insertFixupFuel_detached n (m1.setRoot (some x)) a value hca
        have hres : Memory.RBInsert (n + 1) m value (some a) =
            some (((m1.setRoot (some x)).store a ⟨value, .BLACK, none, none, none⟩).free a,
              1) := by
          simp only [Memory.RBInsert, hroot, h1, someBind, ANode.ptr_mk, hd]
          rfl
        have hrep : (((m1.setRoot (some x)).store a
            ⟨value, .BLACK, none, none, none⟩).free a).Represents ⟨.mk x v c l r, []⟩ := by
          refine ⟨Memory.holds_frame m _ _ _ h.1 (fun b hb => ?_), ?_, h.2.2⟩
          · have hba : b ≠ a := fun e => ha (e ▸ hb)
            simp only [Memory.free, Memory.store, Memory.setRoot, hba, if_false, h2]
            simp [Memory.makeNode, Memory.store, hba]
          · rfl
        have hz : RBT.RBInsert ⟨(ANode.mk x v c l r).strip⟩ value =
            some (⟨(ANode.mk x v c l r).strip⟩, 1) := by
          simp only [RBT.RBInsert, RBT.RBInsertNode, h4]
          simp only [List.map_nil] at h5
          rw [h5, insertFixup_detached]
          rfl
        refine ⟨fun m2 s e => ?_, fun tz s e _ => ?_⟩
        · rw [hres] at e
          cases e
          exact ⟨_, hrep, hz⟩
        · rw [hz] at e
          cases e
          exact ⟨_, _, hres, hrep, rfl⟩
      · -- the new node is linked into the tree
        have hm1root : m1.root = some x := by
          have := h3.2.1
          simp only [Memory.HoldsParents] at this
          rw [this, h2]
          rfl
        have hrep2 : (m1.setRoot (some x)).Represents ⟨.mk a value .RED .NULL .NULL, ps1⟩ :=
          Memory.represents_congr m1 _ _ h4 (fun _ => rfl) hm1root.symm
        have hag := Memory.insertFixupFuel_agrees (n + 1) _ _ hrep2
        simp only [List.map_nil] at h6
        rw [← h6, ANode.ptr_mk] at hag
        have hmem : Memory.RBInsert (n + 1) m value (some a) =
            (Memory.insertFixupFuel (n + 1) (m1.setRoot (some x)) (some a)).bind
              (fun m3 => some (m3, 0)) := by
          simp only [Memory.RBInsert, hroot, h1, someBind, ANode.ptr_mk]
          rfl
        have hzip : RBT.RBInsert ⟨(ANode.mk x v c l r).strip⟩ value =
            (RBT.insertFixup (RBT.newNodeLoc (ANode.mk x v c l r).strip [] value
              (RBT.makeNode value))).bind (fun top => some (⟨top⟩, 0)) := by
          simp only [RBT.RBInsert, RBT.RBInsertNode, h5]
          cases RBT.insertFixup (RBT.newNodeLoc (ANode.mk x v c l r).strip [] value
            (RBT.makeNode value)) <;> rfl
        refine ⟨fun m2 s e => ?_, fun tz s e hf => ?_⟩
        · rw [hmem] at e
          cases hz : RBT.insertFixupFuel (n + 1)
              (RBT.newNodeLoc (ANode.mk x v c l r).strip [] value (RBT.makeNode value)) with
          | none =>
            rw [hz] at hag
            have : Memory.insertFixupFuel (n + 1) (m1.setRoot (some x)) (some a) = none := hag
            rw [this] at e
            cases e
          | some top =>
            rw [hz] at hag
            obtain ⟨m3, t3, e3, r3, s3⟩ := hag
            rw [e3] at e
            cases e
            refine ⟨t3, r3, ?_⟩
            rw [hzip, insertFixupFuel_result _ _ _ hz, s3]
            rfl
        · rw [hzip] at e
          have hlen : (RBT.newNodeLoc (ANode.mk x v c l r).strip [] value
              (RBT.makeNode value)).parents.length < n + 1 := by
            have := newNodeLoc_parents_length (ANode.mk x v c l r).strip [] value
              (RBT.makeNode value)
            simp only [List.length_nil] at this
            omega
          rw [insertFixupFuel_enough _ _ hlen] at hag
          cases hz : RBT.insertFixup
              (RBT.newNodeLoc (ANode.mk x v c l r).strip [] value (RBT.makeNode value)) with
          | none =>
            rw [hz] at e
            cases e
          | some top =>
            rw [hz] at e hag
            cases e
            obtain ⟨m3, t3, e3, r3, s3⟩ := hag
            exact ⟨m3, t3, by rw [hmem, e3]; rfl, r3, s3⟩

/-! ## `nodeSearch` on the memory -/

/-- Function `nodeSearch` on the memory, called on a node of a well-formed tree: the bound
is reached (and is at most the height of the node), or the returned pointer is the one that
`nodeSearch` on pointers returns. -/
theorem Memory.nodeSearchFuel_agrees (m : Memory) (k : Int) :
    ∀ (t : ANode) (ps : List AParent) (fuel : Nat), m.Represents ⟨t, ps⟩ →
    (Memory.nodeSearchFuel fuel m t.ptr k = none ∧ fuel ≤ height t.strip) ∨
    (∃ aloc : ALoc, Memory.nodeSearchFuel fuel m t.ptr k = some aloc.node.ptr ∧
      aloc.strip = RBT.nodeSearch t.strip (ps.map AParent.strip) k ∧
      (aloc.node ≠ .NULL → m.Represents aloc)) := by
  intro t
  induction t with
  | NULL =>
    intro ps fuel _
    cases fuel with
    | zero => exact Or.inl ⟨rfl, Nat.zero_le _⟩
    | succ n => exact Or.inr ⟨⟨.NULL, []⟩, rfl, rfl, fun e => absurd rfl e⟩
  | mk x v c l r ihl ihr =>
    intro ps fuel h
    have hx : m.cell x = some ⟨v, c, l.ptr, r.ptr, parentsPtr ps⟩ := h.1.1
    cases fuel with
    | zero => exact Or.inl ⟨rfl, Nat.zero_le _⟩
    | succ n =>
      simp only [ANode.ptr_mk]
      by_cases hv : v = k
      · right
        refine ⟨⟨.mk x v c l r, ps⟩, ?_, ?_, fun _ => h⟩
        · rw [Memory.nodeSearchFuel]
          simp only [hx, someBind, hv, if_true, ANode.ptr_mk]
        · simp [ALoc.strip, ANode.strip, RBT.nodeSearch, hv]
      · by_cases hlt : k < v
        · rcases ihl (⟨x, v, c, true, r⟩ :: ps) n ((Memory.represents_left m x v c l r ps).1 h)
            with ⟨h1, h2⟩ | ⟨aloc, h1, h2, h3⟩
          · left
            refine ⟨?_, by simp only [ANode.strip, height]; omega⟩
            rw [Memory.nodeSearchFuel]
            simp only [hx, someBind, hv, hlt, if_true, if_false, h1]
          · right
            refine ⟨aloc, ?_, ?_, h3⟩
            · rw [Memory.nodeSearchFuel]
              simp only [hx, someBind, hv, hlt, if_true, if_false, h1]
            · simpa [ALoc.strip, ANode.strip, RBT.nodeSearch, hv, hlt, AParent.strip] using h2
        · rcases ihr (⟨x, v, c, false, l⟩ :: ps) n ((Memory.represents_right m x v c l r ps).1 h)
            with ⟨h1, h2⟩ | ⟨aloc, h1, h2, h3⟩
          · left
            refine ⟨?_, by simp only [ANode.strip, height]; omega⟩
            rw [Memory.nodeSearchFuel]
            simp only [hx, someBind, hv, hlt, if_true, if_false, h1]
          · right
            refine ⟨aloc, ?_, ?_, h3⟩
            · rw [Memory.nodeSearchFuel]
              simp only [hx, someBind, hv, hlt, if_true, if_false, h1]
            · simpa [ALoc.strip, ANode.strip, RBT.nodeSearch, hv, hlt, AParent.strip] using h2

/-! ## `leafDelete` on the memory -/

/-- Function `leafDelete` on the memory: the node at the pointer is unlinked and freed, and
the memory holds the tree with an absent child, or no root, in its place. -/
theorem Memory.leafDelete_represents (m : Memory) (x : Nat) (v : Int) (c : Color)
    (l r : ANode) (ps : List AParent) (h : m.Represents ⟨.mk x v c l r, ps⟩) :
    ∃ m1, m.leafDelete (some x) = some m1 ∧ m1.Represents ⟨.NULL, ps⟩ := by
  have hx : m.cell x = some ⟨v, c, l.ptr, r.ptr, parentsPtr ps⟩ := h.1.1
  have hnd := h.2.2
  simp only [ANode.addrs, List.nodup_append, List.nodup_cons, List.mem_append, List.mem_cons,
    List.Disjoint] at hnd
  obtain ⟨_, hpsn, hdis⟩ := hnd
  have hxps : ∀ b ∈ parentsAddrs ps, b ≠ x := fun b hb e => hdis (Or.inr (Or.inl e)) hb
  cases ps with
  | nil =>
    refine ⟨(m.setRoot none).free x, ?_, trivial, rfl, ?_⟩
    · simp only [Memory.leafDelete, hx, someBind, parentsPtr]
    · simp [ANode.addrs, parentsAddrs]
  | cons p rest =>
    obtain ⟨pa, pv, pc, side, s⟩ := p
    have hp := Memory.represents_cell_parent _ _ _ _ h
    have hsx := Memory.represents_sibling_ne _ _ _ _ x h rfl
    obtain ⟨_, ⟨_, hs, hrest⟩, _⟩ := h
    simp only [parentsPtr_cons, ANode.ptr_mk] at hx hp hsx hs hrest
    have hpx : pa ≠ x := hxps pa (by simp [parentsAddrs])
    have hnd2 := hpsn
    simp only [parentsAddrs, List.cons_append, List.nodup_cons, List.mem_append,
      List.nodup_append, List.Disjoint, not_or] at hnd2
    obtain ⟨⟨hpas, hparest⟩, _, _, _⟩ := hnd2
    have key : ∀ m1 : Memory, m1.root = m.root →
        m1.cell pa = some ⟨pv, pc, if side then none else s.ptr,
          if side then s.ptr else none, parentsPtr rest⟩ →
        (∀ b, b ≠ pa → m1.cell b = m.cell b) →
        (m1.free x).Represents ⟨.NULL, ⟨pa, pv, pc, side, s⟩ :: rest⟩ := by
      intro m1 hr hc hf
      refine ⟨trivial, ⟨?_, ?_, ?_⟩, ?_⟩
      · simp only [Memory.free, hpx, if_false, hc, ANode.ptr]
      · refine Memory.holds_frame m _ s _ hs (fun b hb => ?_)
        have h1 : b ≠ x := hxps b (by simp [parentsAddrs, hb])
        have h2 : b ≠ pa := fun e => hpas (e ▸ hb)
        simp only [Memory.free, h1, if_false, hf b h2]
      · refine Memory.holdsParents_frame m _ rest _ hrest (fun b hb => ?_) hr
        have h1 : b ≠ x := hxps b (by simp [parentsAddrs, hb])
        have h2 : b ≠ pa := fun e => hparest (e ▸ hb)
        simp only [Memory.free, h1, if_false, hf b h2]
      · simpa [ANode.addrs] using hpsn
    cases side with
    | true =>
      simp only [if_true] at hp
      refine ⟨(m.store pa ⟨pv, pc, none, s.ptr, parentsPtr rest⟩).free x, ?_, ?_⟩
      · simp only [Memory.leafDelete, hx, hp, someBind, Memory.setLeft, Option.map_some',
          if_true]
      · refine key _ rfl (by simp [Memory.store]) (fun b hb => by simp [Memory.store, hb])
    | false =>
      simp only [Bool.false_eq_true, if_false] at hp
      refine ⟨(m.store pa ⟨pv, pc, s.ptr, none, parentsPtr rest⟩).free x, ?_, ?_⟩
      · simp only [Memory.leafDelete, hx, hp, someBind, Memory.setRight, Option.map_some',
          hsx, if_false]
      · refine key _ rfl (by simp [Memory.store]) (fun b hb => by simp [Memory.store, hb])

/-! ## `recursiveDelete` on the memory -/

theorem aleftmost_strip (t : ANode) : ∀ ps : List AParent,
    (aleftmost t ps).strip = leftmost t.strip (ps.map AParent.strip) := by
  induction t with
  | NULL => intro ps; rfl
  | mk a v c l r ihl _ =>
    intro ps
    cases l with
    | NULL => rfl
    | mk la lv lc ll lr =>
      have := ihl (⟨a, v, c, true, r⟩ :: ps)
      simpa [aleftmost, leftmost, ANode.strip, AParent.strip] using this

theorem arightmost_strip (t : ANode) : ∀ ps : List AParent,
    (arightmost t ps).strip = rightmost t.strip (ps.map AParent.strip) := by
  induction t with
  | NULL => intro ps; rfl
  | mk a v c l r _ ihr =>
    intro ps
    cases r with
    | NULL => cases l <;> rfl
    | mk ra rv rc rl rr =>
      have := ihr (⟨a, v, c, false, l⟩ :: ps)
      simpa [arightmost, rightmost, ANode.strip, AParent.strip] using this

/-- The node the loop ends in and the ancestors it passes do not depend on the ancestors it
starts below; the node has no left child and is not higher than the start. -/
theorem aleftmost_spec (t : ANode) (ht : t ≠ .NULL) :
    ∃ sa sv sc sr rel, (∀ ps, aleftmost t ps = ⟨.mk sa sv sc .NULL sr, rel ++ ps⟩) ∧
      height (ANode.mk sa sv sc .NULL sr).strip ≤ height t.strip := by
  induction t with
  | NULL => exact absurd rfl ht
  | mk a v c l r ihl _ =>
    cases l with
    | NULL => exact ⟨a, v, c, r, [], fun ps => rfl, le_refl _⟩
    | mk la lv lc ll lr =>
      obtain ⟨sa, sv, sc, sr, rel, h1, h2⟩ := ihl (fun e => ANode.noConfusion e)
      refine ⟨sa, sv, sc, sr, rel ++ [⟨a, v, c, true, r⟩], fun ps => ?_, ?_⟩
      · rw [aleftmost, h1]
        simp
      · simp only [ANode.strip, height] at h2 ⊢
        omega

theorem arightmost_spec (t : ANode) (ht : t ≠ .NULL) :
    ∃ sa sv sc sl rel, (∀ ps, arightmost t ps = ⟨.mk sa sv sc sl .NULL, rel ++ ps⟩) ∧
      height (ANode.mk sa sv sc sl .NULL).strip ≤ height t.strip := by
  induction t with
  | NULL => exact absurd rfl ht
  | mk a v c l r _ ihr =>
    cases r with
    | NULL => exact ⟨a, v, c, l, [], fun ps => by cases l <;> rfl, le_refl _⟩
    | mk ra rv rc rl rr =>
      obtain ⟨sa, sv, sc, sl, rel, h1, h2⟩ := ihr (fun e => ANode.noConfusion e)
      refine ⟨sa, sv, sc, sl, rel ++ [⟨a, v, c, false, l⟩], fun ps => ?_, ?_⟩
      · rw [arightmost, h1]
        simp
      · simp only [ANode.strip, height] at h2 ⊢
        omega

theorem Memory.represents_aleftmost (m : Memory) (t : ANode) : ∀ ps : List AParent,
    m.Represents ⟨t, ps⟩ → m.Represents (aleftmost t ps) := by
  induction t with
  | NULL => intro ps h; exact h
  | mk a v c l r ihl _ =>
    intro ps h
    cases l with
    | NULL => exact h
    | mk la lv lc ll lr =>
      rw [aleftmost]
      exact ihl _ ((Memory.represents_left m a v c _ r ps).1 h)

theorem Memory.represents_arightmost (m : Memory) (t : ANode) : ∀ ps : List AParent,
    m.Represents ⟨t, ps⟩ → m.Represents (arightmost t ps) := by
  induction t with
  | NULL => intro ps h; exact h
  | mk a v c l r _ ihr =>
    intro ps h
    cases r with
    | NULL => cases l <;> exact h
    | mk ra rv rc rl rr =>
      rw [arightmost]
      exact ihr _ ((Memory.represents_right m a v c l _ ps).1 h)

/-- The loop `while (p->left) p = p->left` on the memory: the bound is reached (and is at
most the height of the start), or the loop ends in the node `aleftmost` shows. -/
theorem Memory.leftmostFuel_agrees (m : Memory) (t : ANode) : ∀ (ps : List AParent) (fuel a : Nat),
    t.ptr = some a → m.Represents ⟨t, ps⟩ →
    (Memory.leftmostFuel fuel m a = none ∧ fuel ≤ height t.strip) ∨
      (some <$> Memory.leftmostFuel fuel m a) = some (aleftmost t ps).node.ptr := by
  induction t with
  | NULL => intro ps fuel a ha; cases ha
  | mk x v c l r ihl _ =>
    intro ps fuel a ha h
    cases ha
    have hx : m.cell x = some ⟨v, c, l.ptr, r.ptr, parentsPtr ps⟩ := h.1.1
    cases fuel with
    | zero => exact Or.inl ⟨rfl, Nat.zero_le _⟩
    | succ n =>
      cases l with
      | NULL =>
        right
        rw [Memory.leftmostFuel]
        simp only [hx, someBind, ANode.ptr]
        rfl
      | mk la lv lc ll lr =>
        rcases ihl (⟨x, v, c, true, r⟩ :: ps) n la rfl
          ((Memory.represents_left m x v c _ r ps).1 h) with ⟨h1, h2⟩ | h1
        · left
          refine ⟨?_, by simp only [ANode.strip, height] at h2 ⊢; omega⟩
          rw [Memory.leftmostFuel]
          simp only [hx, someBind, ANode.ptr_mk, h1]
        · right
          rw [Memory.leftmostFuel]
          simp only [hx, someBind, ANode.ptr_mk]
          rw [aleftmost]
          exact h1

theorem Memory.rightmostFuel_agrees (m : Memory) (t : ANode) : ∀ (ps : List AParent) (fuel a : Nat),
    t.ptr = some a → m.Represents ⟨t, ps⟩ →
    (Memory.rightmostFuel fuel m a = none ∧ fuel ≤ height t.strip) ∨
      (some <$> Memory.rightmostFuel fuel m a) = some (arightmost t ps).node.ptr := by
  induction t with
  | NULL => intro ps fuel a ha; cases ha
  | mk x v c l r _ ihr =>
    intro ps fuel a ha h
    cases ha
    have hx : m.cell x = some ⟨v, c, l.ptr, r.ptr, parentsPtr ps⟩ := h.1.1
    cases fuel with
    | zero => exact Or.inl ⟨rfl, Nat.zero_le _⟩
    | succ n =>
      cases r with
      | NULL =>
        right
        rw [Memory.rightmostFuel]
        simp only [hx, someBind, ANode.ptr]
        cases l <;> rfl
      | mk ra rv rc rl rr =>
        rcases ihr (⟨x, v, c, false, l⟩ :: ps) n ra rfl
          ((Memory.represents_right m x v c l _ ps).1 h) with ⟨h1, h2⟩ | h1
        · left
          refine ⟨?_, by simp only [ANode.strip, height] at h2 ⊢; omega⟩
          rw [Memory.rightmostFuel]
          simp only [hx, someBind, ANode.ptr_mk, h1]
        · right
          rw [Memory.rightmostFuel]
          simp only [hx, someBind, ANode.ptr_mk]
          rw [arightmost]
          exact h1

theorem recursiveDelete_rightChild (v : Int) (c : Color) (l : RBNode) (rv : Int) (rc : Color)
    (rl rr : RBNode) (ps : List Parent) (sv : Int) (sc : Color) (sr : RBNode)
    (h : (leftmost (.mk rv rc rl rr) []).node = .mk sv sc .NULL sr) :
    recursiveDelete ⟨.mk v c l (.mk rv rc rl rr), ps⟩ =
      recursiveDelete (leftmost (.mk rv rc rl rr) (⟨sv, c, false, l⟩ :: ps)) := by
  obtain ⟨sv1, sc1, sr1, hh, hs⟩ := leftmost_spec (.mk rv rc rl rr) (by simp)
  obtain ⟨_, e0, _⟩ := hs []
  rw [e0] at h
  cases h
  obtain ⟨ps1, e1, _⟩ := hs (⟨sv, c, false, l⟩ :: ps)
  have h0 : (leftmost (.mk rv rc rl rr) []).node = .mk sv sc .NULL sr := by rw [e0]
  obtain ⟨leaf, h1, h2⟩ := recursiveDeleteFuel_enough sv sc .NULL sr ps1
    (height (.mk v c l (.mk rv rc rl rr))) (by simp only [height] at hh ⊢; omega)
  rw [recursiveDelete, recursiveDeleteFuel_rightChild _ v c l rv rc rl rr ps sv sc sr h0, e1,
    h1, h2]

theorem recursiveDelete_leftChildOnly (v : Int) (c : Color) (lv : Int) (lc : Color)
    (ll lr : RBNode) (ps : List Parent) (pv : Int) (pc : Color) (pl : RBNode)
    (h : (rightmost (.mk lv lc ll lr) []).node = .mk pv pc pl .NULL) :
    recursiveDelete ⟨.mk v c (.mk lv lc ll lr) .NULL, ps⟩ =
      recursiveDelete (rightmost (.mk lv lc ll lr) (⟨pv, c, true, .NULL⟩ :: ps)) := by
  obtain ⟨pv1, pc1, pl1, hh, hs⟩ := rightmost_spec (.mk lv lc ll lr) (by simp)
  obtain ⟨_, e0, _⟩ := hs []
  rw [e0] at h
  cases h
  obtain ⟨ps1, e1, _⟩ := hs (⟨pv, c, true, .NULL⟩ :: ps)
  have h0 : (rightmost (.mk lv lc ll lr) []).node = .mk pv pc pl .NULL := by rw [e0]
  obtain ⟨leaf, h1, h2⟩ := recursiveDeleteFuel_enough pv pc pl .NULL ps1
    (height (.mk v c (.mk lv lc ll lr) .NULL)) (by simp only [height] at hh ⊢; omega)
  rw [recursiveDelete, recursiveDeleteFuel_leftChildOnly _ v c lv lc ll lr ps pv pc pl h0, e1,
    h1, h2]

theorem Option.map_some_eq {α : Type} (x : Option α) (a : α)
    (h : (some <$> x) = some (some a)) : x = some a := by
  cases x with
  | none => cases h
  | some b =>
    simp only [Option.map_eq_map, Option.map_some', Option.some.injEq] at h
    rw [h]

/-- Function `recursiveDelete` on the memory, called on a node of a well-formed tree: the
bound is reached (and is at most the height of the node), or the memory afterwards holds
the well-formed tree and the returned pointer is the one `recursiveDelete` on pointers
returns. -/
theorem Memory.recursiveDeleteFuel_agrees (fuel : Nat) : ∀ (m : Memory) (aloc : ALoc),
    aloc.node ≠ .NULL → m.Represents aloc →
    (Memory.recursiveDeleteFuel fuel m aloc.node.ptr = none ∧
        fuel ≤ height aloc.node.strip) ∨
    (∃ m1 leaf, Memory.recursiveDeleteFuel fuel m aloc.node.ptr = some (m1, leaf.node.ptr) ∧
      m1.Represents leaf ∧ leaf.node ≠ .NULL ∧
      RBT.recursiveDelete aloc.strip = some leaf.strip) := by
  induction fuel with
  | zero => intro m aloc _ _; exact Or.inl ⟨rfl, Nat.zero_le _⟩
  | succ n ih =>
    rintro m ⟨node, ps⟩ hne h
    cases node with
    | NULL => exact absurd rfl hne
    | mk x v c l r =>
      have hx : m.cell x = some ⟨v, c, l.ptr, r.ptr, parentsPtr ps⟩ := h.1.1
      simp only [ANode.ptr_mk]
      cases r with
      | NULL =>
        cases l with
        | NULL =>
          right
          refine ⟨m, ⟨.mk x v c .NULL .NULL, ps⟩, ?_, h, hne, rfl⟩
          rw [Memory.recursiveDeleteFuel]
          simp only [hx, someBind, ANode.ptr, and_self, if_true]
        | mk la lv lc ll lr =>
          obtain ⟨sa, sv, sc, sl, rel, hsp, hht⟩ :=
            arightmost_spec (.mk la lv lc ll lr) (fun e => ANode.noConfusion e)
          have hL := (Memory.represents_left m x v c _ _ ps).1 h
          have hS := Memory.represents_arightmost m _ _ hL
          rw [hsp] at hS
          have hsa : m.cell sa = some ⟨sv, sc, sl.ptr, none, _⟩ := hS.1.1
          simp only [ANode.ptr_mk] at hx
          rcases Memory.rightmostFuel_agrees m (.mk la lv lc ll lr) (⟨x, v, c, true, .NULL⟩ :: ps) n la
              rfl hL
            with ⟨h1, h2⟩ | h1
          · left
            refine ⟨?_, by simp only [ANode.strip, height] at h2 ⊢; omega⟩
            rw [Memory.recursiveDeleteFuel]
            simp only [hx, someBind, noneBind, Memory.findPredecessor, h1, ANode.ptr,
              reduceCtorEq, false_and, if_false, if_true]
          · rw [hsp] at h1
            have hloop := Option.map_some_eq _ _ h1
            obtain ⟨m1, hset, hrep1⟩ := Memory.setValue_represents m x v c _ _ ps sv h
            have hS1 := Memory.represents_arightmost m1 _ _
              ((Memory.represents_left m1 x sv c _ _ ps).1 hrep1)
            rw [hsp] at hS1
            have hmem : Memory.recursiveDeleteFuel (n + 1) m (some x) =
                Memory.recursiveDeleteFuel n m1 (some sa) := by
              rw [Memory.recursiveDeleteFuel]
              simp only [hx, someBind, noneBind, Memory.findPredecessor, hloop, hsa, hset,
                ANode.ptr, reduceCtorEq, false_and, if_false, if_true]
            have hz : RBT.recursiveDelete
                  (ALoc.strip ⟨.mk x v c (.mk la lv lc ll lr) .NULL, ps⟩) =
                RBT.recursiveDelete (ALoc.strip
                  ⟨.mk sa sv sc sl .NULL, rel ++ ⟨x, sv, c, true, .NULL⟩ :: ps⟩) := by
              have e0 := arightmost_strip (.mk la lv lc ll lr) []
              rw [hsp] at e0
              have e1 := arightmost_strip (.mk la lv lc ll lr) (⟨x, sv, c, true, .NULL⟩ :: ps)
              rw [hsp] at e1
              rw [e1]
              have hnode : (rightmost (ANode.mk la lv lc ll lr).strip []).node =
                  .mk sv sc sl.strip .NULL := by
                have := congrArg Loc.node e0
                simp only [List.map_nil] at this
                rw [← this]
                rfl
              exact recursiveDelete_leftChildOnly v c lv lc ll.strip lr.strip _ sv sc
                sl.strip hnode
            rcases ih m1 _ (fun e => ANode.noConfusion e) hS1 with
              ⟨h3, h4⟩ | ⟨m2, leaf, h3, h4, h5, h6⟩
            · left
              refine ⟨by rw [hmem]; exact h3, ?_⟩
              simp only [ANode.strip, height] at h4 hht ⊢
              omega
            · right
              exact ⟨m2, leaf, by rw [hmem]; exact h3, h4, h5, by rw [hz]; exact h6⟩
      | mk ra rv rc rl rr =>
        obtain ⟨sa, sv, sc, sr, rel, hsp, hht⟩ :=
          aleftmost_spec (.mk ra rv rc rl rr) (fun e => ANode.noConfusion e)
        have hR := (Memory.represents_right m x v c _ _ ps).1 h
        have hS := Memory.represents_aleftmost m _ _ hR
        rw [hsp] at hS
        have hsa : m.cell sa = some ⟨sv, sc, none, sr.ptr, _⟩ := hS.1.1
        simp only [ANode.ptr_mk] at hx
        rcases Memory.leftmostFuel_agrees m (.mk ra rv rc rl rr) (⟨x, v, c, false, l⟩ :: ps) n ra
            rfl hR
          with ⟨h1, h2⟩ | h1
        · left
          refine ⟨?_, by simp only [ANode.strip, height] at h2 ⊢; omega⟩
          rw [Memory.recursiveDeleteFuel]
          simp only [hx, someBind, noneBind, Memory.findSuccessor, h1, ANode.ptr,
            reduceCtorEq, and_false, if_false, if_true]
        · rw [hsp] at h1
          have hloop := Option.map_some_eq _ _ h1
          obtain ⟨m1, hset, hrep1⟩ := Memory.setValue_represents m x v c _ _ ps sv h
          have hS1 := Memory.represents_aleftmost m1 _ _
            ((Memory.represents_right m1 x sv c _ _ ps).1 hrep1)
          rw [hsp] at hS1
          have hmem : Memory.recursiveDeleteFuel (n + 1) m (some x) =
              Memory.recursiveDeleteFuel n m1 (some sa) := by
            rw [Memory.recursiveDeleteFuel]
            simp only [hx, someBind, noneBind, Memory.findSuccessor, hloop, hsa, hset,
              ANode.ptr, reduceCtorEq, and_false, if_false, if_true]
          have hz : RBT.recursiveDelete
                (ALoc.strip ⟨.mk x v c l (.mk ra rv rc rl rr), ps⟩) =
              RBT.recursiveDelete (ALoc.strip
                ⟨.mk sa sv sc .NULL sr, rel ++ ⟨x, sv, c, false, l⟩ :: ps⟩) := by
            have e0 := aleftmost_strip (.mk ra rv rc rl rr) []
            rw [hsp] at e0
            have e1 := aleftmost_strip (.mk ra rv rc rl rr) (⟨x, sv, c, false, l⟩ :: ps)
            rw [hsp] at e1
            rw [e1]
            have hnode : (leftmost (ANode.mk ra rv rc rl rr).strip []).node =
                .mk sv sc .NULL sr.strip := by
              have := congrArg Loc.node e0
              simp only [List.map_nil] at this
              rw [← this]
              rfl
            exact recursiveDelete_rightChild v c l.strip rv rc rl.strip rr.strip _ sv sc
              sr.strip hnode
          rcases ih m1 _ (fun e => ANode.noConfusion e) hS1 with
            ⟨h3, h4⟩ | ⟨m2, leaf, h3, h4, h5, h6⟩
          · left
            refine ⟨by rw [hmem]; exact h3, ?_⟩
            simp only [ANode.strip, height] at h4 hht ⊢
            omega
          · right
            exact ⟨m2, leaf, by rw [hmem]; exact h3, h4, h5, by rw [hz]; exact h6⟩

/-! ## `deleteFixup` on the memory -/

theorem Memory.findSibling_represents (m : Memory) (x : Nat) (v : Int) (c : Color)
    (l r : ANode) (p : Nat) (pv : Int) (pc : Color) (side : Bool) (S : ANode)
    (rest : List AParent)
    (h : m.Represents ⟨.mk x v c l r, ⟨p, pv, pc, side, S⟩ :: rest⟩) :
    m.findSibling (some x) = some S.ptr := by
  have hx : m.cell x = some ⟨v, c, l.ptr, r.ptr, some p⟩ := h.1.1
  have hp := Memory.represents_cell_parent _ _ _ _ h
  have hsx := Memory.represents_sibling_ne _ _ _ _ x h rfl
  simp only [ANode.ptr_mk] at hp hsx
  cases side
  · simp only [Bool.false_eq_true, if_false] at hp
    simp only [Memory.findSibling, hx, hp, someBind, hsx, if_false]
  · simp only [if_true] at hp
    simp only [Memory.findSibling, hx, hp, someBind, if_true]

theorem Memory.findCaseCode_represents (m : Memory) (n : ANode) (x : Nat) (hn : n.ptr = some x)
    (p : Nat) (pv : Int) (pc : Color) (side : Bool) (s : Nat) (sv : Int) (sc : Color)
    (sl sr : ANode) (rest : List AParent)
    (h : m.Represents ⟨n, ⟨p, pv, pc, side, .mk s sv sc sl sr⟩ :: rest⟩) :
    m.findCaseCode s = some (if sc = .RED then .R
      else if RBT.isRed (if side then sl else sr).strip = true then .RB
      else if RBT.isRed (if side then sr else sl).strip = true then .BR else .BB) := by
  have hp := Memory.represents_cell_parent _ _ _ _ h
  have hsx := Memory.represents_sibling_ne _ _ _ _ x h hn
  have hS := (Memory.represents_sibling m n p pv pc side _ rest).1 h
  have hs : m.cell s = some ⟨sv, sc, sl.ptr, sr.ptr, some p⟩ := hS.1.1
  have hl := Memory.isRed_holds m sl _ hS.1.2.1
  have hr := Memory.isRed_holds m sr _ hS.1.2.2
  simp only [ANode.ptr_mk, hn] at hp hsx
  have hxs : ¬ some x = some s := fun e => hsx e.symm
  cases side
  · simp only [Bool.false_eq_true, if_false] at hp
    simp only [Memory.findCaseCode, hs, hp, someBind, decide_True, if_true, hl, hr,
      Bool.false_eq_true, if_false]
    cases sc <;> simp only [reduceCtorEq, if_false, if_true] <;>
      cases RBT.isRed sr.strip <;> cases RBT.isRed sl.strip <;> rfl
  · simp only [if_true] at hp
    simp only [Memory.findCaseCode, hs, hp, someBind, hxs, decide_False, if_true, hl, hr,
      Bool.false_eq_true, if_false]
    cases sc <;> simp only [reduceCtorEq, if_false, if_true] <;>
      cases RBT.isRed sr.strip <;> cases RBT.isRed sl.strip <;> rfl

theorem Memory.siblingRedCase_left (m : Memory) (x : Nat) (v : Int) (c : Color)
    (l r : ANode) (p : Nat) (pv : Int) (pc : Color) (s : Nat) (sv : Int) (sc : Color)
    (sl sr : ANode) (rest : List AParent)
    (h : m.Represents ⟨.mk x v c l r, ⟨p, pv, pc, true, .mk s sv sc sl sr⟩ :: rest⟩) :
    ∃ m1, m.siblingRedCase x s = some m1 ∧
      m1.Represents
        ⟨.mk x v c l r, ⟨p, pv, .RED, true, sl⟩ :: ⟨s, sv, .BLACK, true, sr⟩ :: rest⟩ := by
  obtain ⟨m1, h1, r1⟩ := Memory.setColor_sibling m _ p pv pc true s sv sc sl sr rest .BLACK h
  have hx1 : m1.cell x = some ⟨v, c, l.ptr, r.ptr, some p⟩ := r1.1.1
  obtain ⟨m2, h2, r2⟩ := Memory.setColor_parent m1 _ p pv pc true _ rest .RED r1
  have hx2 : m2.cell x = some ⟨v, c, l.ptr, r.ptr, some p⟩ := r2.1.1
  have hp2 : m2.cell p = some ⟨pv, .RED, some x, some s, parentsPtr rest⟩ :=
    Memory.represents_cell_parent _ _ _ _ r2
  rw [Memory.represents_cons] at r2
  obtain ⟨m3, hrot, r3, _, _⟩ :=
    Memory.leftRotate_represents m2 p pv .RED _ s sv .BLACK sl sr rest r2
  rw [Memory.represents_left, Memory.represents_left] at r3
  refine ⟨m3, ?_, r3⟩
  simp only [Memory.siblingRedCase, h1, hx1, h2, hx2, hp2, someBind, if_true, hrot]

theorem Memory.siblingRedCase_right (m : Memory) (x : Nat) (v : Int) (c : Color)
    (l r : ANode) (p : Nat) (pv : Int) (pc : Color) (s : Nat) (sv : Int) (sc : Color)
    (sl sr : ANode) (rest : List AParent)
    (h : m.Represents ⟨.mk x v c l r, ⟨p, pv, pc, false, .mk s sv sc sl sr⟩ :: rest⟩) :
    ∃ m1, m.siblingRedCase x s = some m1 ∧
      m1.Represents
        ⟨.mk x v c l r, ⟨p, pv, .RED, false, sr⟩ :: ⟨s, sv, .BLACK, false, sl⟩ :: rest⟩ := by
  have hsx : ¬ some s = some x := Memory.represents_sibling_ne _ _ _ _ x h rfl
  obtain ⟨m1, h1, r1⟩ := Memory.setColor_sibling m _ p pv pc false s sv sc sl sr rest .BLACK h
  have hx1 : m1.cell x = some ⟨v, c, l.ptr, r.ptr, some p⟩ := r1.1.1
  obtain ⟨m2, h2, r2⟩ := Memory.setColor_parent m1 _ p pv pc false _ rest .RED r1
  have hx2 : m2.cell x = some ⟨v, c, l.ptr, r.ptr, some p⟩ := r2.1.1
  have hp2 : m2.cell p = some ⟨pv, .RED, some s, some x, parentsPtr rest⟩ :=
    Memory.represents_cell_parent _ _ _ _ r2
  rw [Memory.represents_cons] at r2
  obtain ⟨m3, hrot, r3, _, _⟩ :=
    Memory.rightRotate_represents m2 p pv .RED s sv .BLACK sl sr _ rest r2
  rw [Memory.represents_right, Memory.represents_right] at r3
  refine ⟨m3, ?_, r3⟩
  simp only [Memory.siblingRedCase, h1, hx1, h2, hx2, hp2, someBind, hsx, if_false, hrot]

theorem Memory.siblingBlackBlackChildrenCase_represents (m : Memory) (x : Nat) (v : Int)
    (c : Color) (l r : ANode) (p : Nat) (pv : Int) (pc : Color) (side : Bool) (s : Nat)
    (sv : Int) (sc : Color) (sl sr : ANode) (rest : List AParent)
    (h : m.Represents ⟨.mk x v c l r, ⟨p, pv, pc, side, .mk s sv sc sl sr⟩ :: rest⟩) :
    ∃ m1, m.siblingBlackBlackChildrenCase x s = some (m1, pc) ∧
      m1.Represents
        ⟨.mk x v c l r, ⟨p, pv, .BLACK, side, .mk s sv .RED sl sr⟩ :: rest⟩ := by
  have hx : m.cell x = some ⟨v, c, l.ptr, r.ptr, some p⟩ := h.1.1
  have hp := Memory.represents_cell_parent _ _ _ _ h
  obtain ⟨m1, h1, r1⟩ := Memory.setColor_parent m _ p pv pc side _ rest .BLACK h
  obtain ⟨m2, h2, r2⟩ := Memory.setColor_sibling m1 _ p pv .BLACK side s sv sc sl sr rest .RED r1
  refine ⟨m2, ?_, r2⟩
  simp only [Memory.siblingBlackBlackChildrenCase, hx, hp, h1, h2, someBind]

theorem Memory.siblingBlackNearChildRedCase_left (m : Memory) (x : Nat) (v : Int) (c : Color)
    (l r : ANode) (p : Nat) (pv : Int) (pc : Color) (s : Nat) (sv : Int) (sc : Color)
    (na : Nat) (nv : Int) (nc : Color) (nl nr sr : ANode) (rest : List AParent)
    (h : m.Represents
      ⟨.mk x v c l r, ⟨p, pv, pc, true, .mk s sv sc (.mk na nv nc nl nr) sr⟩ :: rest⟩) :
    ∃ m1, m.siblingBlackNearChildRedCase x s = some m1 ∧
      m1.Represents ⟨.mk x v c l r,
        ⟨p, pv, pc, true, .mk na nv .BLACK nl (.mk s sv .RED nr sr)⟩ :: rest⟩ := by
  have hx : m.cell x = some ⟨v, c, l.ptr, r.ptr, some p⟩ := h.1.1
  have hp : m.cell p = some ⟨pv, pc, some x, some s, parentsPtr rest⟩ :=
    Memory.represents_cell_parent _ _ _ _ h
  rw [Memory.represents_sibling] at h
  have hs : m.cell s = some ⟨sv, sc, some na, sr.ptr, some p⟩ := h.1.1
  rw [Memory.represents_left] at h
  obtain ⟨m1, h1, r1⟩ := Memory.setColor_represents m na nv nc nl nr _ .BLACK h
  obtain ⟨m2, h2, r2⟩ := Memory.setColor_parent m1 _ s sv sc true sr _ .RED r1
  rw [Memory.represents_cons] at r2
  obtain ⟨m3, hrot, r3, _, _⟩ :=
    Memory.rightRotate_represents m2 s sv .RED na nv .BLACK nl nr sr _ r2
  have r4 := (Memory.represents_sibling m3 _ p pv pc (!true) _ rest).1 r3
  refine ⟨m3, ?_, r4⟩
  simp only [Memory.siblingBlackNearChildRedCase, hx, hp, hs, h1, h2, hrot, someBind, if_true]

theorem Memory.siblingBlackNearChildRedCase_right (m : Memory) (x : Nat) (v : Int) (c : Color)
    (l r : ANode) (p : Nat) (pv : Int) (pc : Color) (s : Nat) (sv : Int) (sc : Color)
    (sl : ANode) (na : Nat) (nv : Int) (nc : Color) (nl nr : ANode) (rest : List AParent)
    (h : m.Represents
      ⟨.mk x v c l r, ⟨p, pv, pc, false, .mk s sv sc sl (.mk na nv nc nl nr)⟩ :: rest⟩) :
    ∃ m1, m.siblingBlackNearChildRedCase x s = some m1 ∧
      m1.Represents ⟨.mk x v c l r,
        ⟨p, pv, pc, false, .mk na nv .BLACK (.mk s sv .RED sl nl) nr⟩ :: rest⟩ := by
  have hsx : ¬ some s = some x := Memory.represents_sibling_ne _ _ _ _ x h rfl
  have hx : m.cell x = some ⟨v, c, l.ptr, r.ptr, some p⟩ := h.1.1
  have hp : m.cell p = some ⟨pv, pc, some s, some x, parentsPtr rest⟩ :=
    Memory.represents_cell_parent _ _ _ _ h
  rw [Memory.represents_sibling] at h
  have hs : m.cell s = some ⟨sv, sc, sl.ptr, some na, some p⟩ := h.1.1
  rw [Memory.represents_right] at h
  obtain ⟨m1, h1, r1⟩ := Memory.setColor_represents m na nv nc nl nr _ .BLACK h
  obtain ⟨m2, h2, r2⟩ := Memory.setColor_parent m1 _ s sv sc false sl _ .RED r1
  rw [Memory.represents_cons] at r2
  obtain ⟨m3, hrot, r3, _, _⟩ :=
    Memory.leftRotate_represents m2 s sv .RED sl na nv .BLACK nl nr _ r2
  have r4 := (Memory.represents_sibling m3 _ p pv pc (!false) _ rest).1 r3
  refine ⟨m3, ?_, r4⟩
  simp only [Memory.siblingBlackNearChildRedCase, hx, hp, hs, h1, h2, hrot, someBind, hsx,
    if_false]

theorem Memory.siblingBlackFarChildRedCase_left (m : Memory) (x : Nat) (v : Int) (c : Color)
    (l r : ANode) (p : Nat) (pv : Int) (pc : Color) (s : Nat) (sv : Int) (sc : Color)
    (sl : ANode) (fa : Nat) (fv : Int) (fc : Color) (fl fr : ANode) (rest : List AParent)
    (h : m.Represents
      ⟨.mk x v c l r, ⟨p, pv, pc, true, .mk s sv sc sl (.mk fa fv fc fl fr)⟩ :: rest⟩) :
    ∃ m1, m.siblingBlackFarChildRedCase x s = some m1 ∧
      m1.Represents ⟨.mk x v c l r,
        ⟨p, pv, .BLACK, true, sl⟩ :: ⟨s, sv, pc, true, .mk fa fv .BLACK fl fr⟩ :: rest⟩ := by
  have hx : m.cell x = some ⟨v, c, l.ptr, r.ptr, some p⟩ := h.1.1
  have hp : m.cell p = some ⟨pv, pc, some x, some s, parentsPtr rest⟩ :=
    Memory.represents_cell_parent _ _ _ _ h
  obtain ⟨m1, h1, r1⟩ := Memory.setColor_sibling m _ p pv pc true s sv sc sl _ rest pc h
  have hx1 : m1.cell x = some ⟨v, c, l.ptr, r.ptr, some p⟩ := r1.1.1
  obtain ⟨m2, h2, r2⟩ := Memory.setColor_parent m1 _ p pv pc true _ rest .BLACK r1
  have hx2 : m2.cell x = some ⟨v, c, l.ptr, r.ptr, some p⟩ := r2.1.1
  have hp2 : m2.cell p = some ⟨pv, .BLACK, some x, some s, parentsPtr rest⟩ :=
    Memory.represents_cell_parent _ _ _ _ r2
  rw [Memory.represents_sibling] at r2
  have hs2 : m2.cell s = some ⟨sv, pc, sl.ptr, some fa, some p⟩ := r2.1.1
  rw [Memory.represents_right] at r2
  obtain ⟨m3, h3, r3⟩ := Memory.setColor_represents m2 fa fv fc fl fr _ .BLACK r2
  rw [← Memory.represents_right, ← Memory.represents_sibling] at r3
  have hx3 : m3.cell x = some ⟨v, c, l.ptr, r.ptr, some p⟩ := r3.1.1
  rw [Memory.represents_cons] at r3
  obtain ⟨m4, hrot, r4, _, _⟩ :=
    Memory.leftRotate_represents m3 p pv .BLACK _ s sv pc sl _ rest r3
  rw [Memory.represents_left, Memory.represents_left] at r4
  refine ⟨m4, ?_, r4⟩
  simp only [Memory.siblingBlackFarChildRedCase, Memory.farChildRotate, hx, hp, h1, hx1, h2, hx2, hp2, hs2, h3, hx3,
    hrot, someBind, if_true]

theorem Memory.siblingBlackFarChildRedCase_right (m : Memory) (x : Nat) (v : Int) (c : Color)
    (l r : ANode) (p : Nat) (pv : Int) (pc : Color) (s : Nat) (sv : Int) (sc : Color)
    (fa : Nat) (fv : Int) (fc : Color) (fl fr : ANode) (sr : ANode) (rest : List AParent)
    (h : m.Represents
      ⟨.mk x v c l r, ⟨p, pv, pc, false, .mk s sv sc (.mk fa fv fc fl fr) sr⟩ :: rest⟩) :
    ∃ m1, m.siblingBlackFarChildRedCase x s = some m1 ∧
      m1.Represents ⟨.mk x v c l r,
        ⟨p, pv, .BLACK, false, sr⟩ :: ⟨s, sv, pc, false, .mk fa fv .BLACK fl fr⟩ :: rest⟩ := by
  have hsx : ¬ some s = some x := Memory.represents_sibling_ne _ _ _ _ x h rfl
  have hx : m.cell x = some ⟨v, c, l.ptr, r.ptr, some p⟩ := h.1.1
  have hp : m.cell p = some ⟨pv, pc, some s, some x, parentsPtr rest⟩ :=
    Memory.represents_cell_parent _ _ _ _ h
  obtain ⟨m1, h1, r1⟩ := Memory.setColor_sibling m _ p pv pc false s sv sc _ sr rest pc h
  have hx1 : m1.cell x = some ⟨v, c, l.ptr, r.ptr, some p⟩ := r1.1.1
  obtain ⟨m2, h2, r2⟩ := Memory.setColor_parent m1 _ p pv pc false _ rest .BLACK r1
  have hx2 : m2.cell x = some ⟨v, c, l.ptr, r.ptr, some p⟩ := r2.1.1
  have hp2 : m2.cell p = some ⟨pv, .BLACK, some s, some x, parentsPtr rest⟩ :=
    Memory.represents_cell_parent _ _ _ _ r2
  rw [Memory.represents_sibling] at r2
  have hs2 : m2.cell s = some ⟨sv, pc, some fa, sr.ptr, some p⟩ := r2.1.1
  rw [Memory.represents_left] at r2
  obtain ⟨m3, h3, r3⟩ := Memory.setColor_represents m2 fa fv fc fl fr _ .BLACK r2
  rw [← Memory.represents_left, ← Memory.represents_sibling] at r3
  have hx3 : m3.cell x = some ⟨v, c, l.ptr, r.ptr, some p⟩ := r3.1.1
  rw [Memory.represents_cons] at r3
  obtain ⟨m4, hrot, r4, _, _⟩ :=
    Memory.rightRotate_represents m3 p pv .BLACK s sv pc _ sr _ rest r3
  rw [Memory.represents_right, Memory.represents_right] at r4
  refine ⟨m4, ?_, r4⟩
  simp only [Memory.siblingBlackFarChildRedCase, Memory.farChildRotate, hx, hp, h1, hx1, h2, hx2, hp2, hs2, h3, hx3,
    hrot, someBind, hsx, if_false]

theorem Memory.deleteFixupFuel_null_mem (fuel : Nat) (m : Memory) :
    Memory.deleteFixupFuel (fuel + 1) m none = some m := rfl

theorem Memory.deleteFixupFuel_red_mem (fuel : Nat) (m : Memory) (x : Nat) (k : Cell)
    (h : m.cell x = some k) (hc : k.color = .RED) :
    Memory.deleteFixupFuel (fuel + 1) m (some x) = some m := by
  rw [Memory.deleteFixupFuel]
  simp only [h, someBind, hc, if_true]

/-- Function `deleteFixup` on the memory and on pointers: with the same bound, both have no
result, or the memory afterwards holds a well-formed tree in which the node, with everything
below it unchanged, has the ancestors that the function on pointers returns. -/
theorem Memory.deleteFixupFuel_agrees (fuel : Nat) : ∀ (m : Memory) (aloc : ALoc),
    m.Represents aloc →
    Memory.AgreesLoc (Memory.deleteFixupFuel fuel m aloc.node.ptr) aloc.node
      (RBT.deleteFixupFuel fuel aloc.strip) := by
  induction fuel with
  | zero =>
    intro m aloc _
    rfl
  | succ n ih =>
    rintro m ⟨node, ps⟩ h
    cases node with
    | NULL => exact ⟨m, ps, rfl, h, rfl⟩
    | mk x v c l r =>
      have hx : m.cell x = some ⟨v, c, l.ptr, r.ptr, parentsPtr ps⟩ := h.1.1
      cases c with
      | RED =>
        rw [ANode.ptr_mk, Memory.deleteFixupFuel_red_mem n m x _ hx rfl]
        exact ⟨m, ps, rfl, h, rfl⟩
      | BLACK =>
        cases ps with
        | nil =>
          have hmem : Memory.deleteFixupFuel (n + 1) m (some x) = some m := by
            rw [Memory.deleteFixupFuel]
            simp only [hx, someBind, reduceCtorEq, if_false, Memory.findSibling, parentsPtr]
          rw [ANode.ptr_mk, hmem]
          exact ⟨m, [], rfl, h, rfl⟩
        | cons p rest =>
          obtain ⟨p, pv, pc, side, S⟩ := p
          have hfs := Memory.findSibling_represents m x v .BLACK l r p pv pc side S rest h
          cases S with
          | NULL =>
            have hmem : Memory.deleteFixupFuel (n + 1) m (some x) = some m := by
              rw [Memory.deleteFixupFuel]
              simp only [hx, someBind, reduceCtorEq, if_false, hfs, ANode.ptr]
            rw [ANode.ptr_mk, hmem]
            exact ⟨m, _, rfl, h, rfl⟩
          | mk s sv sc sl sr =>
            have hcode := Memory.findCaseCode_represents m (.mk x v .BLACK l r) x rfl p pv pc
              side s sv sc sl sr rest h
            simp only [ANode.ptr_mk] at hfs ⊢
            cases sc with
            | RED =>
              simp only [if_true] at hcode
              cases side with
              | true =>
                obtain ⟨m1, h1, r1⟩ := Memory.siblingRedCase_left m x v .BLACK l r p pv pc s sv
                  .RED sl sr rest h
                have hmem : Memory.deleteFixupFuel (n + 1) m (some x) =
                    Memory.deleteFixupFuel n m1 (some x) := by
                  rw [Memory.deleteFixupFuel]
                  simp only [hx, someBind, reduceCtorEq, if_false, hfs, hcode, h1]
                have hz := RBT.deleteFixupFuel_R_left n v l.strip r.strip pv pc sv sl.strip
                  sr.strip (rest.map AParent.strip)
                have hi := ih m1 _ r1
                simp only [ALoc.strip, ANode.strip, List.map_cons, AParent.strip,
                  ANode.ptr_mk] at hi ⊢
                rw [hmem, hz]
                exact hi
              | false =>
                obtain ⟨m1, h1, r1⟩ := Memory.siblingRedCase_right m x v .BLACK l r p pv pc s
                  sv .RED sl sr rest h
                have hmem : Memory.deleteFixupFuel (n + 1) m (some x) =
                    Memory.deleteFixupFuel n m1 (some x) := by
                  rw [Memory.deleteFixupFuel]
                  simp only [hx, someBind, reduceCtorEq, if_false, hfs, hcode, h1]
                have hz := RBT.deleteFixupFuel_R_right n v l.strip r.strip pv pc sv sl.strip
                  sr.strip (rest.map AParent.strip)
                have hi := ih m1 _ r1
                simp only [ALoc.strip, ANode.strip, List.map_cons, AParent.strip,
                  ANode.ptr_mk] at hi ⊢
                rw [hmem, hz]
                exact hi
            | BLACK =>
              simp only [reduceCtorEq, if_false] at hcode
              by_cases hnear : RBT.isRed (if side = true then sl else sr).strip = true
              · -- case RB
                simp only [hnear, if_true] at hcode
                cases side with
                | true =>
                  simp only [if_true] at hnear
                  cases sl with
                  | NULL => simp [ANode.strip, RBT.isRed] at hnear
                  | mk na nv nc nl nr =>
                    cases nc with
                    | BLACK => simp [ANode.strip, RBT.isRed] at hnear
                    | RED =>
                      obtain ⟨m1, h1, r1⟩ := Memory.siblingBlackNearChildRedCase_left m x v
                        .BLACK l r p pv pc s sv .BLACK na nv .RED nl nr sr rest h
                      have hmem : Memory.deleteFixupFuel (n + 1) m (some x) =
                          Memory.deleteFixupFuel n m1 (some x) := by
                        rw [Memory.deleteFixupFuel]
                        simp only [hx, someBind, reduceCtorEq, if_false, hfs, hcode, h1]
                      have hz := RBT.deleteFixupFuel_RB_left n v l.strip r.strip pv pc sv nv
                        nl.strip nr.strip sr.strip (rest.map AParent.strip)
                      have hi := ih m1 _ r1
                      simp only [ALoc.strip, ANode.strip, List.map_cons, AParent.strip,
                        ANode.ptr_mk] at hi ⊢
                      rw [hmem, hz]
                      exact hi
                | false =>
                  simp only [Bool.false_eq_true, if_false] at hnear
                  cases sr with
                  | NULL => simp [ANode.strip, RBT.isRed] at hnear
                  | mk na nv nc nl nr =>
                    cases nc with
                    | BLACK => simp [ANode.strip, RBT.isRed] at hnear
                    | RED =>
                      obtain ⟨m1, h1, r1⟩ := Memory.siblingBlackNearChildRedCase_right m x v
                        .BLACK l r p pv pc s sv .BLACK sl na nv .RED nl nr rest h
                      have hmem : Memory.deleteFixupFuel (n + 1) m (some x) =
                          Memory.deleteFixupFuel n m1 (some x) := by
                        rw [Memory.deleteFixupFuel]
                        simp only [hx, someBind, reduceCtorEq, if_false, hfs, hcode, h1]
                      have hz := RBT.deleteFixupFuel_RB_right n v l.strip r.strip pv pc sv nv
                        sl.strip nl.strip nr.strip (rest.map AParent.strip)
                      have hi := ih m1 _ r1
                      simp only [ALoc.strip, ANode.strip, List.map_cons, AParent.strip,
                        ANode.ptr_mk] at hi ⊢
                      rw [hmem, hz]
                      exact hi
              · have hnear1 : RBT.isRed (if side = true then sl else sr).strip = false := by
                  simpa using hnear
                simp only [hnear1, Bool.false_eq_true, if_false] at hcode
                by_cases hfar : RBT.isRed (if side = true then sr else sl).strip = true
                · -- case BR
                  simp only [hfar, if_true] at hcode
                  cases side with
                  | true =>
                    simp only [if_true] at hnear1 hfar
                    cases sr with
                    | NULL => simp [ANode.strip, RBT.isRed] at hfar
                    | mk fa fv fc fl fr =>
                      cases fc with
                      | BLACK => simp [ANode.strip, RBT.isRed] at hfar
                      | RED =>
                        obtain ⟨m1, h1, r1⟩ := Memory.siblingBlackFarChildRedCase_left m x v
                          .BLACK l r p pv pc s sv .BLACK sl fa fv .RED fl fr rest h
                        have hmem : Memory.deleteFixupFuel (n + 1) m (some x) = some m1 := by
                          rw [Memory.deleteFixupFuel]
                          simp only [hx, someBind, reduceCtorEq, if_false, hfs, hcode, h1]
                        have hz := RBT.deleteFixupFuel_BR_left n v l.strip r.strip pv pc sv
                          sl.strip fv fl.strip fr.strip (rest.map AParent.strip) hnear1
                        simp only [ALoc.strip, ANode.strip, List.map_cons, AParent.strip]
                        rw [hmem, hz]
                        exact ⟨m1, _, rfl, r1, rfl⟩
                  | false =>
                    simp only [Bool.false_eq_true, if_false] at hnear1 hfar
                    cases sl with
                    | NULL => simp [ANode.strip, RBT.isRed] at hfar
                    | mk fa fv fc fl fr =>
                      cases fc with
                      | BLACK => simp [ANode.strip, RBT.isRed] at hfar
                      | RED =>
                        obtain ⟨m1, h1, r1⟩ := Memory.siblingBlackFarChildRedCase_right m x v
                          .BLACK l r p pv pc s sv .BLACK fa fv .RED fl fr sr rest h
                        have hmem : Memory.deleteFixupFuel (n + 1) m (some x) = some m1 := by
                          rw [Memory.deleteFixupFuel]
                          simp only [hx, someBind, reduceCtorEq, if_false, hfs, hcode, h1]
                        have hz := RBT.deleteFixupFuel_BR_right n v l.strip r.strip pv pc sv
                          fv fl.strip fr.strip sr.strip (rest.map AParent.strip) hnear1
                        simp only [ALoc.strip, ANode.strip, List.map_cons, AParent.strip]
                        rw [hmem, hz]
                        exact ⟨m1, _, rfl, r1, rfl⟩
                · -- case BB
                  have hfar1 : RBT.isRed (if side = true then sr else sl).strip = false := by
                    simpa using hfar
                  simp only [hfar1, Bool.false_eq_true, if_false] at hcode
                  have hl : RBT.isRed sl.strip = false := by
                    cases side
                    · simpa using hfar1
                    · simpa using hnear1
                  have hr : RBT.isRed sr.strip = false := by
                    cases side
                    · simpa using hnear1
                    · simpa using hfar1
                  obtain ⟨m1, h1, r1⟩ := Memory.siblingBlackBlackChildrenCase_represents m x v
                    .BLACK l r p pv pc side s sv .BLACK sl sr rest h
                  have hx1 : m1.cell x = some ⟨v, .BLACK, l.ptr, r.ptr, some p⟩ := r1.1.1
                  cases pc with
                  | RED =>
                    have hmem : Memory.deleteFixupFuel (n + 1) m (some x) = some m1 := by
                      rw [Memory.deleteFixupFuel]
                      simp only [hx, someBind, reduceCtorEq, if_false, hfs, hcode, h1]
                    have hz := RBT.deleteFixupFuel_BB_red n v l.strip r.strip pv side sv
                      sl.strip sr.strip (rest.map AParent.strip) hl hr
                    simp only [ALoc.strip, ANode.strip, List.map_cons, AParent.strip]
                    rw [hmem, hz]
                    exact ⟨m1, _, rfl, r1, rfl⟩
                  | BLACK =>
                    have hmem : Memory.deleteFixupFuel (n + 1) m (some x) =
                        Memory.deleteFixupFuel n m1 (some p) := by
                      rw [Memory.deleteFixupFuel]
                      simp only [hx, someBind, reduceCtorEq, if_false, hfs, hcode, h1, hx1,
                        if_true]
                    have hz := RBT.deleteFixupFuel_BB_black n v l.strip r.strip pv side sv
                      sl.strip sr.strip (rest.map AParent.strip) hl hr
                    have hi := ih m1 _ ((Memory.represents_cons m1 _ _ _).1 r1)
                    simp only [ALoc.strip, ANode.strip, List.map_cons, AParent.strip,
                      AParent.fill_ptr, AParent.strip_fill] at hi ⊢
                    rw [hmem, hz]
                    cases hzz : RBT.deleteFixupFuel n
                        ⟨Parent.fill ⟨pv, .BLACK, side, .mk sv .RED sl.strip sr.strip⟩
                          (.mk v .BLACK l.strip r.strip), rest.map AParent.strip⟩ with
                    | none =>
                      rw [hzz] at hi
                      exact hi
                    | some loc1 =>
                      rw [hzz] at hi
                      obtain ⟨m2, ps1, e2, r2, s2⟩ := hi
                      have r3 := (Memory.represents_cons m2 _ _ _).2 r2
                      rw [← s2]
                      cases side
                      · exact ⟨m2, _, e2, r3, rfl⟩
                      · exact ⟨m2, _, e2, r3, rfl⟩

/-! ## `RBDelete` on the memory -/

/-- A result of `deleteFixup` on pointers within any number of nested calls is the result
of the function. -/
theorem deleteFixupFuel_result (fuel : Nat) (node res : Loc)
    (h : deleteFixupFuel fuel node = some res) : deleteFixup node = some res := by
  obtain ⟨ps2, e1, e2⟩ := deleteFixupFuel_enough node
    (max fuel (node.parents.length + size node.root + 2)) (le_max_right _ _)
  have := deleteFixupFuel_mono_le _ _ node res h
    (le_max_left fuel (node.parents.length + size node.root + 2))
  rw [e2] at this
  rw [e1, this]

/-- Function `RBDelete` on the memory, called on a well-formed tree: the bound is reached in
the search, in `recursiveDelete` or in `deleteFixup` (and is then below the need of that
function), or the call returns and the memory holds a well-formed tree again, which is the
tree that `RBDelete` on pointers returns, with the same status. -/
theorem Memory.RBDelete_cases (m : Memory) (t : ANode) (value : Int) (fuel : Nat)
    (h : m.Represents ⟨t, []⟩) :
    (Memory.RBDelete fuel m value = none ∧
      (fuel ≤ height t.strip ∨ fuel ≤ height (RBT.nodeSearch t.strip [] value).node ∨
        ∃ leaf, RBT.recursiveDelete (RBT.nodeSearch t.strip [] value) = some leaf ∧
          fuel < leaf.parents.length + size leaf.root + 2)) ∨
    (∃ m1 t1 s, Memory.RBDelete fuel m value = some (m1, s) ∧ m1.Represents ⟨t1, []⟩ ∧
      RBT.RBDelete ⟨t.strip⟩ value = some (⟨t1.strip⟩, s)) := by
  have hroot : m.root = t.ptr := h.2.1
  rcases Memory.nodeSearchFuel_agrees m value t [] fuel h with ⟨h1, h2⟩ | ⟨aloc, h1, h2, h3⟩
  · left
    refine ⟨?_, Or.inl h2⟩
    simp only [Memory.RBDelete, hroot, h1, noneBind]
  · simp only [List.map_nil] at h2
    obtain ⟨node, ps⟩ := aloc
    cases node with
    | NULL =>
      right
      have h1n : Memory.nodeSearchFuel fuel m t.ptr value = some none := h1
      refine ⟨m, t, 1, ?_, h, ?_⟩
      · simp only [Memory.RBDelete, hroot, h1n, someBind]
      · simp only [RBT.RBDelete, ← h2, ALoc.strip, ANode.strip]
    | mk x v c l r =>
      have hrep := h3 (fun e => ANode.noConfusion e)
      simp only [ANode.ptr_mk] at h1
      rcases Memory.recursiveDeleteFuel_agrees fuel m ⟨.mk x v c l r, ps⟩
        (fun e => ANode.noConfusion e) hrep with ⟨e1, e2⟩ | ⟨m1, leaf, e1, r1, hne, z1⟩
      · left
        simp only [ANode.ptr_mk] at e1
        refine ⟨?_, Or.inr (Or.inl ?_)⟩
        · simp only [Memory.RBDelete, hroot, h1, someBind, e1, noneBind]
        · rw [← h2]
          exact e2
      · obtain ⟨lnode, lps⟩ := leaf
        cases lnode with
        | NULL => exact absurd rfl hne
        | mk y yv yc yl yr =>
          simp only [ANode.ptr_mk] at e1
          have hag := Memory.deleteFixupFuel_agrees fuel m1 ⟨.mk y yv yc yl yr, lps⟩ r1
          simp only [ANode.ptr_mk] at hag
          cases hz : RBT.deleteFixupFuel fuel (ALoc.strip ⟨.mk y yv yc yl yr, lps⟩) with
          | none =>
            rw [hz] at hag
            have hm : Memory.deleteFixupFuel fuel m1 (some y) = none := hag
            left
            refine ⟨?_, Or.inr (Or.inr ⟨_, by rw [← h2]; exact z1, ?_⟩)⟩
            · simp only [Memory.RBDelete, hroot, h1, someBind, e1, hm, noneBind]
            · by_contra hc
              obtain ⟨ps2, _, e⟩ := deleteFixupFuel_enough
                (ALoc.strip ⟨.mk y yv yc yl yr, lps⟩) fuel (by omega)
              rw [hz] at e
              cases e
          | some loc2 =>
            rw [hz] at hag
            obtain ⟨m2, ps2, e2, r2, s2⟩ := hag
            obtain ⟨m3, e3, r3⟩ := Memory.leafDelete_represents m2 y yv yc yl yr ps2 r2
            right
            refine ⟨m3, arebuild .NULL ps2, 0, ?_,
              (Memory.represents_arebuild m3 ps2 .NULL).mp r3, ?_⟩
            · simp only [Memory.RBDelete, hroot, h1, someBind, e1, e2, e3]
            · have hd := deleteFixupFuel_result _ _ _ hz
              rw [← s2] at hd
              rw [RBT.RBDelete, ← h2]
              simp only [ALoc.strip, ANode.strip] at z1 hd ⊢
              rw [z1]
              simp only [hd, leafDelete_node, arebuild_strip, ANode.strip]

/-! ## `deleteFixup` on a RED node -/

/-- Claim C22 as stated fails at `tenKeys`: the node holding the key 9 is RED, and
`deleteFixup` called on it returns the same pointer in the same tree, the node still RED;
likewise in memory, `deleteFixup` on the RED node at address 2 of `sevenCells` leaves every
cell as it was.  So it is not the case that `deleteFixup` on a RED node makes that node
BLACK. -/
theorem deleteFixup_red_counterexample :
    (nodeSearch tenKeys.root [] 9).node = .mk 9 .RED .NULL .NULL ∧
      deleteFixup (nodeSearch tenKeys.root [] 9) = some (nodeSearch tenKeys.root [] 9) ∧
      (sevenCells.cell 2 = some ⟨5, .RED, none, none, some 1⟩ ∧
        Memory.deleteFixupFuel 8 sevenCells (some 2) = some sevenCells) ∧
      ¬ ∀ (v : Int) (l r : RBNode) (ps : List Parent),
          deleteFixup ⟨.mk v .RED l r, ps⟩ = some ⟨.mk v .BLACK l r, ps⟩ := by
  refine ⟨by decide, by decide, ⟨rfl, Memory.deleteFixupFuel_red_mem 7 sevenCells 2 _ rfl rfl⟩, ?_⟩
  intro h
  have h9 := h 9 .NULL .NULL []
  revert h9
  decide

/-- Claim C22 as amended: when `deleteFixup` is called on a RED node it returns at once and
changes nothing in the tree, the colour of the node included: the node stays RED.  This holds
on pointers for every RED node with any children and ancestors (the call returns the same
pointer in the same tree), and on the memory for every pointer to a cell coloured RED,
whatever positive number of nested calls is allowed (the call returns the memory as it
was). -/
theorem deleteFixup_red_unchanged :
    (∀ (v : Int) (l r : RBNode) (ps : List Parent),
      deleteFixup ⟨.mk v .RED l r, ps⟩ = some ⟨.mk v .RED l r, ps⟩) ∧
    (∀ (fuel : Nat) (m : Memory) (x : Nat) (k : Cell), m.cell x = some k → k.color = .RED →
      Memory.deleteFixupFuel (fuel + 1) m (some x) = some m) :=
  ⟨fun v l r ps => deleteFixupFuel_red _ v l r ps,
    fun fuel m x k h hc => Memory.deleteFixupFuel_red_mem fuel m x k h hc⟩

/-- Witness for `deleteFixup_red_unchanged`: the cell at address 2 of `sevenCells` is RED and
`deleteFixup` on it returns the memory as it was. -/
theorem deleteFixup_red_unchanged_witness :
    sevenCells.cell 2 = some ⟨5, .RED, none, none, some 1⟩ ∧
      Memory.deleteFixupFuel 1 sevenCells (some 2) = some sevenCells :=
  ⟨rfl, deleteFixup_red_unchanged.2 0 sevenCells 2 _ rfl rfl⟩

/-! ## Parent links through `RBInsert` and `RBDelete` -/

/-- Claim C23: parent-link consistency is kept by `RBInsert` and `RBDelete`, run on the
memory assignment by assignment (through `nodeInsert`, both rotations, both fixups,
`recursiveDelete` and `leafDelete`).  Let the memory hold a tree `t` with consistent links:
`tree->root` points to the root of `t`, the `parent` field of the root is null, and the
`parent` field of every other node is the address of the node whose `left` or `right` field
points to it (`Memory.Represents`).  Then: whenever `RBInsert`, with its new node at an unused
address, returns, the memory holds a tree with consistent links again, namely the tree that
`RBInsert` on pointers returns, with the same status; on a red-black tree the call returns as
soon as the bound on nested calls exceeds the height by two, and leaves a red-black tree with
consistent links; whenever `RBDelete` returns, the memory holds a tree with consistent links
again, namely the tree that `RBDelete` on pointers returns, with the same status; and
`RBDelete` returns for every bound on nested calls from some number on, leaving a red-black
tree if it was called on one. -/
theorem parent_links_preserved (m : Memory) (t : ANode) (value : Int)
    (h : m.Represents ⟨t, []⟩) :
    (∀ (a fuel : Nat) (m1 : Memory) (s : Int), a ∉ t.addrs →
      Memory.RBInsert fuel m value (some a) = some (m1, s) →
      ∃ t1, m1.Represents ⟨t1, []⟩ ∧ RBInsert ⟨t.strip⟩ value = some (⟨t1.strip⟩, s)) ∧
    (∀ (a fuel : Nat), a ∉ t.addrs → Valid t.strip → height t.strip + 2 ≤ fuel →
      ∃ m1 t1 s, Memory.RBInsert fuel m value (some a) = some (m1, s) ∧
        m1.Represents ⟨t1, []⟩ ∧ Valid t1.strip) ∧
    (∀ (fuel : Nat) (m1 : Memory) (s : Int), Memory.RBDelete fuel m value = some (m1, s) →
      ∃ t1, m1.Represents ⟨t1, []⟩ ∧ RBDelete ⟨t.strip⟩ value = some (⟨t1.strip⟩, s)) ∧
    (∃ N, ∀ fuel, N ≤ fuel → ∃ m1 t1 s, Memory.RBDelete fuel m value = some (m1, s) ∧
      m1.Represents ⟨t1, []⟩ ∧ (Valid t.strip → Valid t1.strip)) := by
  refine ⟨fun a fuel m1 s ha e => (Memory.RBInsert_agrees m t value a fuel h ha).1 m1 s e,
    fun a fuel ha hv hf => ?_, fun fuel m1 s e => ?_, ?_⟩
  · obtain ⟨tz, s, e, hv1⟩ := applyOp_valid ⟨t.strip⟩ (.insert value) hv
    obtain ⟨m1, t1, e1, r1, s1⟩ := (Memory.RBInsert_agrees m t value a fuel h ha).2 tz s e hf
    exact ⟨m1, t1, s, e1, r1, s1 ▸ hv1⟩
  · rcases Memory.RBDelete_cases m t value fuel h with ⟨e1, _⟩ | ⟨m2, t2, s2, e2, r2, z2⟩
    · rw [e1] at e
      cases e
    · rw [e2] at e
      cases e
      exact ⟨t2, r2, z2⟩
  · refine ⟨height t.strip + height (nodeSearch t.strip [] value).node +
      (match recursiveDelete (nodeSearch t.strip [] value) with
        | some leaf => leaf.parents.length + size leaf.root + 2
        | none => 0) + 1, fun fuel hf => ?_⟩
    rcases Memory.RBDelete_cases m t value fuel h with
      ⟨_, h1 | h1 | ⟨leaf, e, h1⟩⟩ | ⟨m2, t2, s2, e2, r2, z2⟩
    · omega
    · omega
    · rw [e] at hf
      have hf1 : height t.strip + height (nodeSearch t.strip [] value).node +
          (leaf.parents.length + size leaf.root + 2) + 1 ≤ fuel := hf
      omega
    · refine ⟨m2, t2, s2, e2, r2, fun hv => ?_⟩
      obtain ⟨tz, s, e, hv1⟩ := applyOp_valid ⟨t.strip⟩ (.delete value) hv
      have e3 : RBDelete ⟨t.strip⟩ value = some (tz, s) := e
      rw [z2] at e3
      cases e3
      exact hv1

/-- Witness for `parent_links_preserved`: `threeCells` holds a red-black tree of three nodes
with consistent links; the address 4 is unused; and inserting the key 5 with the new node at
the address 4 returns and leaves a red-black tree with consistent links. -/
theorem parent_links_preserved_witness :
    threeCells.Represents ⟨threeCellsTree, []⟩ ∧ 4 ∉ threeCellsTree.addrs ∧
      Valid threeCellsTree.strip ∧
      ∃ m1 t1 s, Memory.RBInsert 4 threeCells 5 (some 4) = some (m1, s) ∧
        m1.Represents ⟨t1, []⟩ ∧ Valid t1.strip :=
  ⟨by decide, by decide, by decide,
    (parent_links_preserved threeCells threeCellsTree 5 (by decide)).2.1 4 4 (by decide)
      (by decide) (by decide)⟩

end RBT
